import Mathlib

/-!
# layer1_usrp: the GSM synchronization-channel decoder (`sch.cc`), the signal processing of `dsp.cc`, the frequency burst detector (`fcch_detector.cc`) and the burst demodulator (`gsm_demod.cc`)

Shallow embedding.  A C array of `unsigned char` that is an input or an output of a
function is a `List Nat`; `data[i]` is `data.getD i 0`.  Arrays local to a function
(`ae`, `nae`, `state_history`) are functions from the index to the content, and a
store `a[i] = v` is `Function.update a i v`.  `unsigned int` and `int` values stay far
below `2 ^ 31` everywhere in this file, so they are `Nat` or `Int` without wrap-around.

The functions of `dsp.cc` work on `float` and `complex` samples.  They are embedded over
an arbitrary linearly ordered field `K` with exact arithmetic: a `complex` is a pair of
elements of `K`, rounding, overflow and NaN are not modelled.  The functions of the C
math library that are not rational (`sinf`, `exp`, `sqrtf`, the complex `exp`, `M_PI`)
are a parameter `m : Libm K`; a theorem states the property of them that it uses.  The
file-scope tables of `dsp.cc` are an explicit state `DspState`.

The members of the class `fcch_detector` are a record that the member functions take and
return.  The class `circular_buffer` and the header `fcch_detector.h` are not among the
sources: the buffer is modelled from its use and from the specification, the transform of
the library `fftw` and the constant `FFT_SIZE` are a parameter `f : Fftw K`.  A local
variable that is read before it is written (`pm` in `scan`) is a parameter of the model.
-/

namespace Sch

/-! ## Constants and tables of `sch.cc` and `gsm_bursts.h` -/

def DATA_BLOCK_SIZE : Nat := 25
def PARITY_SIZE : Nat := 10
def TAIL_BITS_SIZE : Nat := 4
def PARITY_OUTPUT_SIZE : Nat := DATA_BLOCK_SIZE + PARITY_SIZE + TAIL_BITS_SIZE
def CONV_INPUT_SIZE : Nat := PARITY_OUTPUT_SIZE
def CONV_SIZE : Nat := 2 * CONV_INPUT_SIZE
def K : Nat := 5

def SB_EDATA_LEN_1 : Nat := 39
def SB_EDATA_OS_1 : Nat := 3
def SB_EDATA_LEN_2 : Nat := 39
def SB_EDATA_OS_2 : Nat := 106

/-- The array `parity_polynomial[PARITY_SIZE + 1]`. -/
def parity_polynomial : List Nat := [1, 0, 1, 0, 1, 1, 1, 0, 1, 0, 1]

/-- The array `parity_remainder[PARITY_SIZE]`. -/
def parity_remainder : List Nat := [1, 1, 1, 1, 1, 1, 1, 1, 1, 1]

/-- The table `encode[1 << (K - 1)][2]`, row by row. -/
def encode_rows : List (List Nat) :=
  [[0, 3], [3, 0], [3, 0], [0, 3],
   [0, 3], [3, 0], [3, 0], [0, 3],
   [1, 2], [2, 1], [2, 1], [1, 2],
   [1, 2], [2, 1], [2, 1], [1, 2]]

/-- The table `next_state[1 << (K - 1)][2]`, row by row. -/
def next_state_rows : List (List Nat) :=
  [[0, 8], [0, 8], [1, 9], [1, 9],
   [2, 10], [2, 10], [3, 11], [3, 11],
   [4, 12], [4, 12], [5, 13], [5, 13],
   [6, 14], [6, 14], [7, 15], [7, 15]]

/-- The table `prev_next_state[1 << (K - 1)][1 << (K - 1)]`, row by row. -/
def prev_next_state_rows : List (List Nat) :=
  [[0, 2, 2, 2, 2, 2, 2, 2, 1, 2, 2, 2, 2, 2, 2, 2],
   [0, 2, 2, 2, 2, 2, 2, 2, 1, 2, 2, 2, 2, 2, 2, 2],
   [2, 0, 2, 2, 2, 2, 2, 2, 2, 1, 2, 2, 2, 2, 2, 2],
   [2, 0, 2, 2, 2, 2, 2, 2, 2, 1, 2, 2, 2, 2, 2, 2],
   [2, 2, 0, 2, 2, 2, 2, 2, 2, 2, 1, 2, 2, 2, 2, 2],
   [2, 2, 0, 2, 2, 2, 2, 2, 2, 2, 1, 2, 2, 2, 2, 2],
   [2, 2, 2, 0, 2, 2, 2, 2, 2, 2, 2, 1, 2, 2, 2, 2],
   [2, 2, 2, 0, 2, 2, 2, 2, 2, 2, 2, 1, 2, 2, 2, 2],
   [2, 2, 2, 2, 0, 2, 2, 2, 2, 2, 2, 2, 1, 2, 2, 2],
   [2, 2, 2, 2, 0, 2, 2, 2, 2, 2, 2, 2, 1, 2, 2, 2],
   [2, 2, 2, 2, 2, 0, 2, 2, 2, 2, 2, 2, 2, 1, 2, 2],
   [2, 2, 2, 2, 2, 0, 2, 2, 2, 2, 2, 2, 2, 1, 2, 2],
   [2, 2, 2, 2, 2, 2, 0, 2, 2, 2, 2, 2, 2, 2, 1, 2],
   [2, 2, 2, 2, 2, 2, 0, 2, 2, 2, 2, 2, 2, 2, 1, 2],
   [2, 2, 2, 2, 2, 2, 2, 0, 2, 2, 2, 2, 2, 2, 2, 1],
   [2, 2, 2, 2, 2, 2, 2, 0, 2, 2, 2, 2, 2, 2, 2, 1]]

/-- The lookup `encode[state][b]`. -/
def encode (state b : Nat) : Nat := (encode_rows.getD state []).getD b 0

/-- The lookup `next_state[state][b]`. -/
def next_state (state b : Nat) : Nat := (next_state_rows.getD state []).getD b 0

/-- The lookup `prev_next_state[prev][cur]`. -/
def prev_next_state (prev cur : Nat) : Nat := (prev_next_state_rows.getD prev []).getD cur 0

/-- The function `hamming_distance2`: `(w & 1) + !!(w & 2)`. -/
def hamming_distance2 (w : Nat) : Nat := (w &&& 1) + (if w &&& 2 = 0 then 0 else 1)

/-- A list of bits: every entry is 0 or 1. -/
def IsBits (l : List Nat) : Prop := ∀ x ∈ l, x < 2

instance (l : List Nat) : Decidable (IsBits l) := by unfold IsBits; infer_instance

/-! ## Parity (`parity_encode`, `parity_check`) -/

/-- The inner loop `for(i = 0; i < PARITY_SIZE + 1; i++) q[i] ^= parity_polynomial[i];`
with `q = buf + q`: the first `n` iterations. -/
def xor_polynomial : Nat → List Nat → Nat → List Nat
  | 0, buf, _ => buf
  | n + 1, buf, q =>
    let b := xor_polynomial n buf q
    b.set (q + n) (b.getD (q + n) 0 ^^^ parity_polynomial.getD n 0)

/-- The division loop `for(q = buf; q < buf + DATA_BLOCK_SIZE; q++) if(*q) ...`: the
first `n` iterations. -/
def parity_loop : Nat → List Nat → List Nat
  | 0, buf => buf
  | n + 1, buf =>
    let b := parity_loop n buf
    if b.getD n 0 ≠ 0 then xor_polynomial (PARITY_SIZE + 1) b n else b

/-- The function `parity_encode(d, p)`: the ten bytes written to `p`. -/
def parity_encode (d : List Nat) : List Nat :=
  let buf := parity_loop DATA_BLOCK_SIZE (d.take DATA_BLOCK_SIZE ++ List.replicate PARITY_SIZE 0)
  (List.range PARITY_SIZE).map (fun i => if buf.getD (DATA_BLOCK_SIZE + i) 0 = 0 then 1 else 0)

/-- The C library `memcmp` on the first `n` bytes: 0 when they agree, else the
difference of the first pair of bytes that differ (only its sign is fixed by C). -/
def memcmp : List Nat → List Nat → Nat → Int
  | _, _, 0 => 0
  | a, b, n + 1 =>
    if a.headD 0 = b.headD 0 then memcmp a.tail b.tail n
    else (a.headD 0 : Int) - (b.headD 0 : Int)

/-- The function `parity_check(d)`. -/
def parity_check (d : List Nat) : Int :=
  let buf := parity_loop DATA_BLOCK_SIZE (d.take (DATA_BLOCK_SIZE + PARITY_SIZE))
  memcmp (buf.drop DATA_BLOCK_SIZE) parity_remainder PARITY_SIZE

/-! ## Convolutional encoder (`conv_encode`) -/

/-- The expression `!!(o & 2)`: the first coded bit of the symbol `o`. -/
def bit_hi (o : Nat) : Nat := if o &&& 2 = 0 then 0 else 1

/-- The expression `o & 1`: the second coded bit of the symbol `o`. -/
def bit_lo (o : Nat) : Nat := o &&& 1

/-- The loop of `conv_encode` from a given `state` over the remaining input: each
input byte appends `!!(o & 2)` and `o & 1`. -/
def conv_encode_loop : Nat → List Nat → List Nat
  | _, [] => []
  | state, d :: ds =>
    let o := encode state d
    bit_hi o :: bit_lo o :: conv_encode_loop (next_state state d) ds

/-- The function `conv_encode(data, output)`: the `CONV_SIZE` bytes written to `output`
from the first `CONV_INPUT_SIZE` bytes of `data`. -/
def conv_encode (data : List Nat) : List Nat :=
  conv_encode_loop 0 (data.take CONV_INPUT_SIZE)

/-- The state reached from `state` after the input bits `u` (`next_state` iterated). -/
def run_state (state : Nat) (u : List Nat) : Nat := u.foldl next_state state

/-- The input bit `u[k - j]`, read as 0 before the start of the input. -/
def tap (u : List Nat) (k j : Nat) : Nat := if j ≤ k then u.getD (k - j) 0 else 0

/-! ## Helper notions for the statements -/

/-- Pointwise exclusive or: `c = a xor b`. -/
def XorRel (a b c : List Nat) : Prop := ∀ j, c.getD j 0 = a.getD j 0 ^^^ b.getD j 0

/-- The block `l` with bit `p` flipped. -/
def flip_bit (l : List Nat) (p : Nat) : List Nat := l.set p (1 - l.getD p 0)

/-- The 35-bit block whose only set bit is bit `p`. -/
def unit_block (p : Nat) : List Nat := (List.replicate 35 0).set p 1

/-- Spec side: the polynomial `D(x) = sum of d[i] * x^(34 - i)` over GF(2). -/
noncomputable def block_polynomial (d : List Nat) : Polynomial (ZMod 2) :=
  ∑ i in Finset.range 35,
    Polynomial.C ((d.getD i 0 : ℕ) : ZMod 2) * Polynomial.X ^ (34 - i)

/-- Spec side: `g(x) = x^10 + x^8 + x^6 + x^5 + x^4 + x^2 + 1` over GF(2). -/
noncomputable def generator_polynomial : Polynomial (ZMod 2) :=
  Polynomial.X ^ 10 + Polynomial.X ^ 8 + Polynomial.X ^ 6 + Polynomial.X ^ 5
    + Polynomial.X ^ 4 + Polynomial.X ^ 2 + 1

/-! ## Viterbi decoders (`conv_decode`, `conv_decode_soft`) -/

def MAX_ERROR : Nat := 2 * CONV_INPUT_SIZE + 1

/-- The arrays of the forward pass: `ae`, `nae` and `state_history`. -/
structure Trellis (α : Type) where
  ae : Nat → α
  nae : Nat → α
  state_history : Nat → Nat → Nat

/-- The body of the loop over the input bit `b`: the transition from `state` on `b`
at stage `t`; `dist o` is the distance of the received symbol from the edge output `o`. -/
def relax {α : Type} [LinearOrderedSemiring α] (dist : Nat → α) (t state b : Nat)
    (T : Trellis α) : Trellis α :=
  let nstate := next_state state b
  let o := encode state b
  let distance := dist o
  let accumulated_error := T.ae state + distance
  if accumulated_error < T.nae nstate then
    { T with
      nae := Function.update T.nae nstate accumulated_error
      state_history := Function.update T.state_history nstate
        (Function.update (T.state_history nstate) (t + 1) state) }
  else T

/-- The body of the loop over `state`: skipped (`continue`) when
`ae[state] >= MAX_ERROR`, else the transitions on `b = 0` and `b = 1`. -/
def visit_state {α : Type} [LinearOrderedSemiring α] (dist : Nat → α) (t : Nat)
    (T : Trellis α) (state : Nat) : Trellis α :=
  if T.ae state ≥ (MAX_ERROR : α) then T
  else relax dist t state 1 (relax dist t state 0 T)

/-- The loop that ends a stage: `ae[i] = nae[i]; nae[i] = MAX_ERROR;`. -/
def next_slice {α : Type} [LinearOrderedSemiring α] (T : Trellis α) : Trellis α :=
  { T with ae := T.nae, nae := fun _ => (MAX_ERROR : α) }

/-- One iteration of the loop over `t` ("build trellis"). -/
def trellis_stage {α : Type} [LinearOrderedSemiring α] (dist : Nat → α) (t : Nat)
    (T : Trellis α) : Trellis α :=
  next_slice ((List.range (1 <<< (K - 1))).foldl (visit_state dist t) T)

/-- The first `n` iterations of the loop over `t`; `dist t o` is the distance of the
symbol received at stage `t` from the edge output `o`. -/
def build_trellis {α : Type} [LinearOrderedSemiring α] (dist : Nat → Nat → α) :
    Nat → Trellis α → Trellis α
  | 0, T => T
  | n + 1, T => trellis_stage (dist n) n (build_trellis dist n T)

/-- The first `k` iterations of the search for the final state; it starts from
`min_state = (unsigned int)-1` and `min_error = MAX_ERROR`. -/
def select_min {α : Type} [LinearOrderedSemiring α] (ae : Nat → α) : Nat → Nat × α
  | 0 => (4294967295, (MAX_ERROR : α))
  | k + 1 =>
    if ae k < (select_min ae k).2 then (k, ae k) else select_min ae k

/-- The loop "trace the path" from stage `t` down to stage 1, starting in `cur_state`:
the bytes `output[0 .. t-1]`. -/
def traceback (state_history : Nat → Nat → Nat) : Nat → Nat → List Nat
  | 0, _ => []
  | t + 1, cur_state =>
    traceback state_history t (state_history cur_state (t + 1))
      ++ [prev_next_state (state_history cur_state (t + 1)) cur_state]

/-- The common body of `conv_decode` and `conv_decode_soft`, which differ only in the
type of the accumulated error (`unsigned int`, `double`) and in the distance of a
received symbol from an edge output.  `state_history` is the content of the
uninitialised local array on entry.  The result is the 39 bytes written to `output`
and the returned `min_error`. -/
def viterbi {α : Type} [LinearOrderedSemiring α] (dist : Nat → Nat → α)
    (state_history : Nat → Nat → Nat) : List Nat × α :=
  let T := build_trellis dist CONV_INPUT_SIZE
    { ae := Function.update (fun _ => (MAX_ERROR : α)) 0 0
      nae := fun _ => (MAX_ERROR : α)
      state_history := state_history }
  (traceback T.state_history CONV_INPUT_SIZE (select_min T.ae (1 <<< (K - 1))).1,
    (select_min T.ae (1 <<< (K - 1))).2)

/-- The distance of `conv_decode` at stage `t`: `hamming_distance2(rdata ^ o)` with
`rdata = (data[2 * t] << 1) | data[2 * t + 1]`. -/
def hard_distance (data : List Nat) (t o : Nat) : Nat :=
  hamming_distance2 (((data.getD (2 * t) 0 <<< 1) ||| data.getD (2 * t + 1) 0) ^^^ o)

/-- The distance of `conv_decode_soft` at stage `t`:
`fabs((double)o1 - rd1) + fabs((double)o2 - rd2)` with `o1 = (o & 2) >> 1`,
`o2 = o & 1`, `rd1 = data[2 * t]`, `rd2 = data[2 * t + 1]`.  Soft values are exact
rationals here: the rounding of `float` and `double` is not modelled. -/
def soft_distance (data : List ℚ) (t o : Nat) : ℚ :=
  |(((o &&& 2) >>> 1 : Nat) : ℚ) - data.getD (2 * t) 0|
    + |((o &&& 1 : Nat) : ℚ) - data.getD (2 * t + 1) 0|

/-- The function `conv_decode(data, output)`: the bytes written to `output` and the
return value. -/
def conv_decode (state_history : Nat → Nat → Nat) (data : List Nat) : List Nat × Nat :=
  viterbi (hard_distance data) state_history

/-- The function `conv_decode_soft(data, output)`: the bytes written to `output` and
the return value. -/
def conv_decode_soft (state_history : Nat → Nat → Nat) (data : List ℚ) : List Nat × ℚ :=
  viterbi (soft_distance data) state_history

/-- The accumulated distance of the path that starts in state `s` at stage `t` and
takes the input bits `u`. -/
def path_metric {α : Type} [LinearOrderedSemiring α] (dist : Nat → Nat → α) :
    Nat → Nat → List Nat → α
  | _, _, [] => 0
  | t, s, b :: u => dist t (encode s b) + path_metric dist (t + 1) (next_state s b) u

/-- The number of positions in which two sequences differ (Hamming distance). -/
def hamming_distance (a b : List Nat) : Nat :=
  (List.zipWith (fun x y => if x = y then 0 else 1) a b).sum

/-- Invariant of the two inner loops of stage `t`, started from `T0`: `Done st b` holds
for the transitions already examined. -/
def EdgeInv {α : Type} [LinearOrderedSemiring α] (d : Nat → α) (t : Nat) (T0 : Trellis α)
    (Done : Nat → Nat → Prop) (T : Trellis α) : Prop :=
  T.ae = T0.ae ∧
  (∀ s t2, t2 ≠ t + 1 → T.state_history s t2 = T0.state_history s t2) ∧
  (∀ st b, Done st b → T.nae (next_state st b) ≤ T0.ae st + d (encode st b)) ∧
  (∀ s, T.nae s = (MAX_ERROR : α) ∨
    ∃ st b, Done st b ∧ next_state st b = s ∧ T.nae s = T0.ae st + d (encode st b) ∧
      T.state_history s (t + 1) = st)

/-- The transitions examined once the states below `k` have been visited: those from a
state whose accumulated error is below `MAX_ERROR`. -/
def DoneUpTo {α : Type} [LinearOrderedSemiring α] (ae : Nat → α) (k : Nat) (st b : Nat) : Prop :=
  st < k ∧ b < 2 ∧ ae st < (MAX_ERROR : α)

/-- Invariant of the loop over `t` after `n` stages. -/
def PathInv {α : Type} [LinearOrderedSemiring α] (dist : Nat → Nat → α) (n : Nat)
    (T : Trellis α) : Prop :=
  (∀ s, T.nae s = (MAX_ERROR : α)) ∧
  (∀ u, IsBits u → u.length = n → T.ae (run_state 0 u) ≤ path_metric dist 0 0 u) ∧
  (∀ s, T.ae s = (MAX_ERROR : α) ∨
    ∃ u, IsBits u ∧ u.length = n ∧ run_state 0 u = s ∧ path_metric dist 0 0 u = T.ae s ∧
      traceback T.state_history n s = u)

/-! ## The SCH decoders (`decode_sch`, `decode_sch_soft`) -/

/-- The 78 values copied into `data`: `SB_EDATA_LEN_1` values from offset
`SB_EDATA_OS_1` of the burst, then `SB_EDATA_LEN_2` values from offset `SB_EDATA_OS_2`. -/
def sch_data {β : Type} (buf : List β) : List β :=
  (buf.drop SB_EDATA_OS_1).take SB_EDATA_LEN_1 ++ (buf.drop SB_EDATA_OS_2).take SB_EDATA_LEN_2

/-- The field `bsic` assembled from `decoded_data`. -/
def sch_bsic (decoded_data : List Nat) : Nat :=
  (decoded_data.getD 7 0 <<< 5) |||
  (decoded_data.getD 6 0 <<< 4) |||
  (decoded_data.getD 5 0 <<< 3) |||
  (decoded_data.getD 4 0 <<< 2) |||
  (decoded_data.getD 3 0 <<< 1) |||
  (decoded_data.getD 2 0 <<< 0)

/-- The field `t1` assembled from `decoded_data`. -/
def sch_t1 (decoded_data : List Nat) : Nat :=
  (decoded_data.getD 1 0 <<< 10) |||
  (decoded_data.getD 0 0 <<< 9) |||
  (decoded_data.getD 15 0 <<< 8) |||
  (decoded_data.getD 14 0 <<< 7) |||
  (decoded_data.getD 13 0 <<< 6) |||
  (decoded_data.getD 12 0 <<< 5) |||
  (decoded_data.getD 11 0 <<< 4) |||
  (decoded_data.getD 10 0 <<< 3) |||
  (decoded_data.getD 9 0 <<< 2) |||
  (decoded_data.getD 8 0 <<< 1) |||
  (decoded_data.getD 23 0 <<< 0)

/-- The field `t2` assembled from `decoded_data`. -/
def sch_t2 (decoded_data : List Nat) : Nat :=
  (decoded_data.getD 22 0 <<< 4) |||
  (decoded_data.getD 21 0 <<< 3) |||
  (decoded_data.getD 20 0 <<< 2) |||
  (decoded_data.getD 19 0 <<< 1) |||
  (decoded_data.getD 18 0 <<< 0)

/-- The field `t3p` assembled from `decoded_data`. -/
def sch_t3p (decoded_data : List Nat) : Nat :=
  (decoded_data.getD 17 0 <<< 2) |||
  (decoded_data.getD 16 0 <<< 1) |||
  (decoded_data.getD 24 0 <<< 0)

/-- The loop `while(tt < t2) tt += 26;`: the value of `tt` when it ends. -/
def add26_loop (tt t2 : Int) : Int :=
  if tt < t2 then add26_loop (tt + 26) t2 else tt
termination_by (t2 - tt).toNat
decreasing_by omega

/-- The frame number `fn` computed from `decoded_data` ("modulo arithmetic"); the C
operator `%` is `Int.tmod`. -/
def sch_fn (decoded_data : List Nat) : Int :=
  let t1 : Int := sch_t1 decoded_data
  let t2 : Int := sch_t2 decoded_data
  let t3p : Int := sch_t3p decoded_data
  let t3 := 10 * t3p + 1
  let tt := add26_loop t3 t2
  let tt := Int.tmod (tt - t2) 26
  (51 * 26 * t1) + (51 * tt) + t3

/-- The function `decode_sch(buf, fn_o, bsic_o)`: the return value, and the values
written to `*fn_o` and `*bsic_o` when it gets that far. -/
def decode_sch (state_history : Nat → Nat → Nat) (buf : List Nat) : Int × Option (Int × Int) :=
  let r := conv_decode state_history (sch_data buf)
  let errors : Int := r.2
  let decoded_data := r.1
  if errors ≠ 0 then (errors, none)
  else if parity_check decoded_data ≠ 0 then (1, none)
  else (0, some (sch_fn decoded_data, (sch_bsic decoded_data : Int)))

/-- The function `decode_sch_soft(buf, fn_o, bsic_o)`: the return value, and the values
written to `*fn_o` and `*bsic_o` when it gets that far. -/
def decode_sch_soft (state_history : Nat → Nat → Nat) (buf : List ℚ) :
    Int × Option (Int × Int) :=
  let decoded_data := (conv_decode_soft state_history (sch_data buf)).1
  if parity_check decoded_data ≠ 0 then (-1, none)
  else (0, some (sch_fn decoded_data, (sch_bsic decoded_data : Int)))

/-! ## The hard slicer of `dsp.cc` -/

/-- The function `slice(float *s, unsigned int s_len)`: `b[i] = 1` when `s[i] > 0.5`,
else `b[i] = 0`.  Soft values are exact rationals. -/
def slice (s : List ℚ) : List Nat := s.map (fun x => if x > 1 / 2 then 1 else 0)

/-! ## Notions used to state the field layout -/

/-- The value of a bit string written most significant bit first. -/
def msb_value (bits : List Nat) : Nat := bits.foldl (fun acc b => 2 * acc + b) 0

/-- The bits of `d` at the positions `idx`, in that order. -/
def pick (d : List Nat) (idx : List Nat) : List Nat := idx.map (fun i => d.getD i 0)

/-! ## Concrete inputs -/

/-- A 25-bit info word: T1 = 654, T2 = 11, T3' = 3, BSIC = 19. -/
def info_sample : List Nat :=
  [1, 0, 1, 1, 0, 0, 1, 0, 1, 1, 1, 0, 0, 0, 1, 0, 1, 0, 1, 1, 0, 1, 0, 0, 1]

/-- A synchronization burst (tail bits, 39 coded bits, the training sequence `sb_etsc`,
39 coded bits, tail bits) that carries `info_sample`. -/
def burst_sample : List Nat :=
  [0, 0, 0,
   1, 1, 0, 1, 1, 1, 0, 1, 1, 0, 1, 1, 1, 1, 1, 0, 1, 1, 0, 1, 0, 1, 1, 0, 0, 0, 0, 0, 0, 0,
   0, 1, 1, 1, 1, 0, 0, 0, 0,
   1, 0, 1, 1, 1, 0, 0, 1, 0, 1, 1, 0, 0, 0, 1, 0, 0, 0, 0, 0, 0, 1, 0, 0, 0, 0, 0, 0, 1, 1,
   1, 1, 0, 0, 1, 0, 1, 1, 0, 1, 0, 1, 0, 0, 0, 1, 0, 1, 0, 1, 1, 1, 0, 1, 1, 0, 0, 0, 0, 1,
   1, 0, 1, 1,
   1, 1, 0, 0, 0, 0, 1, 1, 1, 0, 0, 1, 0, 1, 1, 1, 0, 0, 0, 0, 1, 0, 1, 0, 1, 0, 1, 1, 1, 0,
   1, 1, 1, 1, 1, 1, 1, 0, 0,
   0, 0, 0]

/-- Scenario D: the all-zero info word (T1 = 0, T2 = 0, T3' = 0, BSIC = 0). -/
def info_scenario_d : List Nat := List.replicate 25 0

/-- Scenario D: the decoded block of `info_scenario_d`: 25 zero bits, the ten parity bits
(all 1), four zero tail bits. -/
def decoded_scenario_d : List Nat :=
  List.replicate 25 0 ++ List.replicate 10 1 ++ List.replicate 4 0

/-- Scenario D: a synchronization burst that carries `info_scenario_d`. -/
def burst_scenario_d : List Nat :=
  [0, 0, 0,
   0, 0, 0, 0, 0, 0, 0, 0, 0, 0, 0, 0, 0, 0, 0, 0, 0, 0, 0, 0, 0, 0, 0, 0, 0, 0, 0, 0, 0, 0,
   0, 0, 0, 0, 0, 0, 0, 0, 0,
   1, 0, 1, 1, 1, 0, 0, 1, 0, 1, 1, 0, 0, 0, 1, 0, 0, 0, 0, 0, 0, 1, 0, 0, 0, 0, 0, 0, 1, 1,
   1, 1, 0, 0, 1, 0, 1, 1, 0, 1, 0, 1, 0, 0, 0, 1, 0, 1, 0, 1, 1, 1, 0, 1, 1, 0, 0, 0, 0, 1,
   1, 0, 1, 1,
   0, 0, 0, 0, 0, 0, 0, 0, 0, 0, 0, 1, 1, 1, 0, 1, 0, 0, 1, 1, 0, 1, 0, 1, 0, 1, 0, 1, 0, 1,
   0, 0, 1, 0, 0, 0, 0, 1, 1,
   0, 0, 0]

/-- The info word with T1 = 2047, T2 = 20, T3' = 7 and BSIC = 0. -/
def info_last_frame : List Nat :=
  [1, 1, 0, 0, 0, 0, 0, 0, 1, 1, 1, 1, 1, 1, 1, 1, 1, 1, 0, 0, 1, 0, 1, 1, 1]

/-- A synchronization burst that carries `info_last_frame`. -/
def burst_last_frame : List Nat :=
  [0, 0, 0,
   1, 1, 1, 0, 0, 1, 1, 1, 0, 0, 1, 1, 0, 0, 0, 0, 1, 1, 1, 0, 1, 0, 0, 1, 1, 0, 1, 0, 1, 0,
   1, 0, 1, 0, 1, 0, 0, 1, 0,
   1, 0, 1, 1, 1, 0, 0, 1, 0, 1, 1, 0, 0, 0, 1, 0, 0, 0, 0, 0, 0, 1, 0, 0, 0, 0, 0, 0, 1, 1,
   1, 1, 0, 0, 1, 0, 1, 1, 0, 1, 0, 1, 0, 0, 0, 1, 0, 1, 0, 1, 1, 1, 0, 1, 1, 0, 0, 0, 0, 1,
   1, 0, 1, 1,
   0, 1, 1, 1, 0, 1, 1, 0, 1, 0, 1, 1, 0, 1, 1, 0, 1, 0, 0, 0, 1, 1, 0, 1, 1, 1, 1, 1, 0, 0,
   0, 1, 1, 1, 1, 0, 0, 0, 0,
   0, 0, 0]

/-! ## Signal processing (`dsp.cc`): numbers and the C math library

`float` and `double` values are elements of an ordered field `K` and all arithmetic is
exact: rounding, overflow and NaN are not modelled.  With `K = ℚ` the definitions run.
The functions of the C math library that are not rational (`sinf`, `exp`, `sqrtf` and the
complex `exp`) and the constant `M_PI` are a parameter `m : Libm K`; each theorem names
the property of them it relies on. -/

/-- The type `complex` of `usrp_complex.h`: a real and an imaginary part. -/
@[ext]
structure complex (K : Type) where
  re : K
  im : K

instance {K : Type} [LinearOrderedField K] : Zero (complex K) := ⟨⟨0, 0⟩⟩

instance {K : Type} [LinearOrderedField K] : One (complex K) := ⟨⟨1, 0⟩⟩

instance {K : Type} [LinearOrderedField K] : Add (complex K) :=
  ⟨fun z w => ⟨z.re + w.re, z.im + w.im⟩⟩

instance {K : Type} [LinearOrderedField K] : Neg (complex K) := ⟨fun z => ⟨-z.re, -z.im⟩⟩

instance {K : Type} [LinearOrderedField K] : Mul (complex K) :=
  ⟨fun z w => ⟨z.re * w.re - z.im * w.im, z.re * w.im + z.im * w.re⟩⟩

instance {K : Type} [LinearOrderedField K] : CommRing (complex K) :=
  CommRing.ofMinimalAxioms
    (fun a b c => complex.ext (add_assoc a.re b.re c.re) (add_assoc a.im b.im c.im))
    (fun a => complex.ext (zero_add a.re) (zero_add a.im))
    (fun a => complex.ext (neg_add_cancel a.re) (neg_add_cancel a.im))
    (fun a b c => complex.ext
      (show (a.re * b.re - a.im * b.im) * c.re - (a.re * b.im + a.im * b.re) * c.im
          = a.re * (b.re * c.re - b.im * c.im) - a.im * (b.re * c.im + b.im * c.re) by ring)
      (show (a.re * b.re - a.im * b.im) * c.im + (a.re * b.im + a.im * b.re) * c.re
          = a.re * (b.re * c.im + b.im * c.re) + a.im * (b.re * c.re - b.im * c.im) by ring))
    (fun a b => complex.ext
      (show a.re * b.re - a.im * b.im = b.re * a.re - b.im * a.im by ring)
      (show a.re * b.im + a.im * b.re = b.re * a.im + b.im * a.re by ring))
    (fun a => complex.ext
      (show 1 * a.re - 0 * a.im = a.re by ring) (show 1 * a.im + 0 * a.re = a.im by ring))
    (fun a b c => complex.ext
      (show a.re * (b.re + c.re) - a.im * (b.im + c.im)
          = a.re * b.re - a.im * b.im + (a.re * c.re - a.im * c.im) by ring)
      (show a.re * (b.im + c.im) + a.im * (b.re + c.re)
          = a.re * b.im + a.im * b.re + (a.re * c.im + a.im * c.re) by ring))

/-- The function `conj` on `complex`. -/
def conj {K : Type} [LinearOrderedField K] (z : complex K) : complex K := ⟨z.re, -z.im⟩

/-- The function `norm` on `complex`: the squared modulus. -/
def norm {K : Type} [LinearOrderedField K] (z : complex K) : K := z.re * z.re + z.im * z.im

/-- The conversion of a `float` or `double` to `complex`. -/
def of_real {K : Type} [LinearOrderedField K] (x : K) : complex K := ⟨x, 0⟩

/-- The product of a `complex` and a `float` (`z * x`, `x * z`). -/
def scale_real {K : Type} [LinearOrderedField K] (z : complex K) (x : K) : complex K :=
  ⟨z.re * x, z.im * x⟩

/-- The quotient of a `complex` by a `float` (`z / x`). -/
def div_real {K : Type} [LinearOrderedField K] (z : complex K) (x : K) : complex K :=
  ⟨z.re / x, z.im / x⟩

/-- The quotient of two `complex` values (`z / w`), in exact arithmetic
`z * conj(w) / norm(w)`. -/
def cdiv {K : Type} [LinearOrderedField K] (z w : complex K) : complex K :=
  div_real (z * conj w) (norm w)

/-- The functions and constants of the C math library that the code calls and that have no
rational definition. -/
structure Libm (K : Type) where
  M_PI : K
  sinf : K → K
  exp : K → K
  sqrtf : K → K
  cexp : complex K → complex K

/-- The function `vectornorm2(v, len)` on the array `v` of length `len`: the first `n`
iterations of `e += norm(v[i])` from `e = 0.0`. -/
def vectornorm2_loop {K : Type} [LinearOrderedField K] (v : List (complex K)) : Nat → K
  | 0 => 0
  | n + 1 => vectornorm2_loop v n + norm (v.getD n 0)

/-- The function `vectornorm2(v, len)`; the array and its length are one list. -/
def vectornorm2 {K : Type} [LinearOrderedField K] (v : List (complex K)) : K :=
  vectornorm2_loop v v.length

/-- The body of the loop of `slice_soft`: `(1.0 - v[i].real()) / 2.0`, set to 1 when
above 1 and to 0 when below 0. -/
def soft_value {K : Type} [LinearOrderedField K] (z : complex K) : K :=
  let s := (1 - z.re) / 2
  if s > 1 then 1 else if s < 0 then 0 else s

/-- The function `slice_soft(v, v_len, len_o)` (and its `void` variant): the array `s`. -/
def slice_soft {K : Type} [LinearOrderedField K] (v : List (complex K)) : List K :=
  v.map soft_value

/-! ## Convolution and correlation (`dsp.cc`)

An array and its length are one list.  A length is a `Nat`: `h_len - 1` with
`h_len = 0`, which wraps around in C, is outside the model. -/

/-- The loop over `i` of `convolve` for the output sample `n`: the remaining iterations
(at most `fuel`) from index `i` with the accumulated value `y`; `break` returns `y`. -/
def convolve_loop {K : Type} [LinearOrderedField K] (s h : List (complex K)) (n : Nat) :
    Nat → Nat → complex K → complex K
  | 0, _, y => y
  | fuel + 1, i, y =>
    if i > n then y
    else convolve_loop s h n fuel (i + 1)
      (if n < h.length + i then y + s.getD i 0 * h.getD (n - i) 0 else y)

/-- The function `convolve(s, s_len, h, h_len, len_o)`: the array `y` of length
`s_len + h_len - 1`. -/
def convolve {K : Type} [LinearOrderedField K] (s h : List (complex K)) : List (complex K) :=
  (List.range (s.length + h.length - 1)).map (fun n => convolve_loop s h n s.length 0 0)

/-- The loop over `i` of `convolve_nodelay` for the output sample `n`, with
`d = (h_len - 1) / 2`. -/
def convolve_nodelay_loop {K : Type} [LinearOrderedField K] (s h : List (complex K))
    (d n : Nat) : Nat → Nat → complex K → complex K
  | 0, _, y => y
  | fuel + 1, i, y =>
    if i > n + d then y
    else convolve_nodelay_loop s h d n fuel (i + 1)
      (if n + d < h.length + i then y + s.getD i 0 * h.getD (n + d - i) 0 else y)

/-- The function `convolve_nodelay(s, s_len, h, h_len, len_o)` (and its `void` variant):
the array `y` of length `s_len`. -/
def convolve_nodelay {K : Type} [LinearOrderedField K] (s h : List (complex K)) :
    List (complex K) :=
  (List.range s.length).map
    (fun n => convolve_nodelay_loop s h ((h.length - 1) / 2) n s.length 0 0)

/-- The loop over `i` of `correlate` for the output sample `n`. -/
def correlate_loop {K : Type} [LinearOrderedField K] (s1 s2 : List (complex K)) (n : Nat) :
    Nat → Nat → complex K → complex K
  | 0, _, y => y
  | fuel + 1, i, y =>
    if i > n then y
    else correlate_loop s1 s2 n fuel (i + 1)
      (if n < s2.length + i
        then y + s1.getD i 0 * conj (s2.getD (s2.length - 1 + i - n) 0) else y)

/-- The function `correlate(s1, s1_len, s2, s2_len, len_o)`: the array `y` of length
`s1_len + s2_len - 1`. -/
def correlate {K : Type} [LinearOrderedField K] (s1 s2 : List (complex K)) :
    List (complex K) :=
  (List.range (s1.length + s2.length - 1)).map (fun n => correlate_loop s1 s2 n s1.length 0 0)

/-- The loop over `i` of `correlate_nodelay` for the output sample `n`, with
`d = (s2_len - 1) / 2`. -/
def correlate_nodelay_loop {K : Type} [LinearOrderedField K] (s1 s2 : List (complex K))
    (d n : Nat) : Nat → Nat → complex K → complex K
  | 0, _, y => y
  | fuel + 1, i, y =>
    if i > n + d then y
    else correlate_nodelay_loop s1 s2 d n fuel (i + 1)
      (if n + d < s2.length + i
        then y + s1.getD i 0 * conj (s2.getD (s2.length - 1 + i - n - d) 0) else y)

/-- The function `correlate_nodelay(s1, s1_len, s2, s2_len, len_o)`: the array `y` of
length `s1_len`. -/
def correlate_nodelay {K : Type} [LinearOrderedField K] (s1 s2 : List (complex K)) :
    List (complex K) :=
  (List.range s1.length).map
    (fun n => correlate_nodelay_loop s1 s2 ((s2.length - 1) / 2) n s1.length 0 0)

/-! ## Interpolation and delay (`dsp.cc`) -/

def COMMON_FILTER_LEN : Nat := 21

/-- The function `sinc(x)`. -/
def sinc {K : Type} [LinearOrderedField K] (m : Libm K) (x : K) : K :=
  if x ≤ -(1 / 10000) ∨ 1 / 10000 ≤ x then m.sinf x / x else 1

/-- The loop `for(point = 0.0, i = start; i <= end; i++)` of `interpolate_point`: the
remaining `fuel` iterations from index `i` with the accumulated value `point`. -/
def interpolate_point_loop {K : Type} [LinearOrderedField K] (m : Libm K)
    (s : List (complex K)) (s_i : K) : Nat → Int → complex K → complex K
  | 0, _, point => point
  | fuel + 1, i, point =>
    interpolate_point_loop m s s_i fuel (i + 1)
      (point + scale_real (s.getD i.toNat 0) (sinc m (m.M_PI * ((i : K) - s_i))))

/-- The function `interpolate_point(s, s_len, s_i)`. -/
def interpolate_point {K : Type} [LinearOrderedField K] [FloorRing K] (m : Libm K)
    (s : List (complex K)) (s_i : K) : complex K :=
  let d : Int := ((COMMON_FILTER_LEN - 1) / 2 : Nat)
  let start : Int := ⌊s_i⌋ - d
  let stop : Int := ⌊s_i⌋ + d + 1
  let start : Int := if start < 0 then 0 else start
  let stop : Int := if stop > (s.length : Int) - 1 then (s.length : Int) - 1 else stop
  interpolate_point_loop m s s_i (stop - start + 1).toNat start 0

/-- The loop `for(i = 0; (unsigned int)i < v_len + ids; i++) v[i] = p[i - ids];` of
`delay`: the first `k` iterations.  `p` is `none` when it is the pointer `v` itself (the
copy is in place) and the filtered array `u` otherwise. -/
def delay_copy_up {K : Type} [LinearOrderedField K] (p : Option (List (complex K)))
    (ids : Int) : Nat → List (complex K) → List (complex K)
  | 0, v => v
  | k + 1, v =>
    let w := delay_copy_up p ids k v
    w.set k ((p.getD w).getD ((k : Int) - ids).toNat 0)

/-- The loop `for(i = start; (unsigned int)i < v_len; i++) v[i] = 0.0;` of `delay`: the
first `k` iterations. -/
def delay_zero_up {K : Type} [LinearOrderedField K] (start : Nat) :
    Nat → List (complex K) → List (complex K)
  | 0, v => v
  | k + 1, v => (delay_zero_up start k v).set (start + k) 0

/-- The loop `for(i = v_len - 1; i >= ids; i--) v[i] = p[i - ids];` of `delay`, with
`top = v_len - 1`: the first `k` iterations. -/
def delay_copy_down {K : Type} [LinearOrderedField K] (p : Option (List (complex K)))
    (ids top : Int) : Nat → List (complex K) → List (complex K)
  | 0, v => v
  | k + 1, v =>
    let w := delay_copy_down p ids top k v
    w.set (top - k).toNat ((p.getD w).getD (top - k - ids).toNat 0)

/-- The loop `for(i = ids - 1; i >= 0; i--) v[i] = 0.0;` of `delay`, with
`top = ids - 1`: the first `k` iterations. -/
def delay_zero_down {K : Type} [LinearOrderedField K] (top : Int) :
    Nat → List (complex K) → List (complex K)
  | 0, v => v
  | k + 1, v => (delay_zero_down top k v).set (top - k).toNat 0

/-- The function `delay(v, v_len, toa)`: the return value and the array `v` afterwards.
`new` does not fail; `v_len + ids` below zero, which wraps around in C, runs no
iteration here. -/
def delay {K : Type} [LinearOrderedField K] [FloorRing K] (m : Libm K)
    (v : List (complex K)) (toa : K) : Int × List (complex K) :=
  let h_len : Nat := COMMON_FILTER_LEN
  let ids : Int := ⌊toa⌋
  let fds : K := toa - ids
  let p : Option (List (complex K)) :=
    if fds ≥ 1 / 100 then
      let center : K := ((h_len - 1) / 2 : Nat)
      some (convolve_nodelay v
        ((List.range h_len).map
          (fun i : Nat => of_real (sinc m (m.M_PI * ((i : K) - center - fds))))))
    else none
  let v_len : Int := v.length
  if ids < 0 then
    let v1 := delay_copy_up p ids (v_len + ids).toNat v
    (0, delay_zero_up (v_len + ids).toNat (v_len - (v_len + ids)).toNat v1)
  else if ids > 0 then
    let v1 := delay_copy_down p ids (v_len - 1) (v_len - 1 - ids + 1).toNat v
    (0, delay_zero_down (ids - 1) ids.toNat v1)
  else (0, v)

/-- The C math library over the real numbers, with its exact functions. -/
noncomputable def real_libm : Libm ℝ where
  M_PI := Real.pi
  sinf := Real.sin
  exp := Real.exp
  sqrtf := Real.sqrt
  cexp := fun z => ⟨Real.exp z.re * Real.cos z.im, Real.exp z.re * Real.sin z.im⟩

/-! ## GMSK rotation and modulation (`dsp.cc`)

The file-scope pointers of `dsp.cc` are the state; `none` is the null pointer.  `new`
does not fail.  A table entry read past the end of its table reads 0. -/

def ROTATOR_LEN : Nat := 1024

/-- The file-scope tables `m_gmsk_rotator`, `m_gmsk_rrotator` and `m_gaussian_pulse` (the
last one with its length `m_gaussian_pulse_len`). -/
structure DspState (K : Type) where
  m_gmsk_rotator : Option (List (complex K))
  m_gmsk_rrotator : Option (List (complex K))
  m_gaussian_pulse : Option (List (complex K))

/-- The state at program start: the three pointers are null. -/
def start_state {K : Type} : DspState K := ⟨none, none, none⟩

/-- The array `m_gmsk_rotator` as the loop of `build_rotators` fills it. -/
@[irreducible]
def rotator_table {K : Type} [LinearOrderedField K] (m : Libm K) : List (complex K) :=
  (List.range ROTATOR_LEN).map (fun i => m.cexp ⟨0, (m.M_PI / 2) * ((i % 4 : Nat) : K)⟩)

/-- The array `m_gmsk_rrotator` as the loop of `build_rotators` fills it. -/
@[irreducible]
def rrotator_table {K : Type} [LinearOrderedField K] (m : Libm K) : List (complex K) :=
  (List.range ROTATOR_LEN).map (fun i => m.cexp ⟨0, -(m.M_PI / 2) * ((i % 4 : Nat) : K)⟩)

/-- The function `build_rotators()`: the return value and the state afterwards. -/
def build_rotators {K : Type} [LinearOrderedField K] (m : Libm K) (st : DspState K) :
    Int × DspState K :=
  (0, ⟨some (rotator_table m), some (rrotator_table m), st.m_gaussian_pulse⟩)

/-- The first `k` iterations of the loop `*c = *r * *c` of `gmsk_rotate` and of
`gmsk_rrotate`, with `r` starting at `table + offset`. -/
def rotate_loop {K : Type} [LinearOrderedField K] (table : List (complex K)) (offset : Nat) :
    Nat → List (complex K) → List (complex K)
  | 0, v => v
  | k + 1, v =>
    let v1 := rotate_loop table offset k v
    v1.set k (table.getD (offset + k) 0 * v1.getD k 0)

/-- The function `gmsk_rotate(v, len, offset)`: the return value, the state and the array
`v` afterwards. -/
def gmsk_rotate {K : Type} [LinearOrderedField K] (m : Libm K) (st : DspState K)
    (v : List (complex K)) (offset : Nat) : Int × DspState K × List (complex K) :=
  if v.length > ROTATOR_LEN then (-1, st, v)
  else
    match st.m_gmsk_rotator with
    | some r => (0, st, rotate_loop r offset v.length v)
    | none =>
      let b := build_rotators m st
      if b.1 ≠ 0 then (-1, b.2, v)
      else (0, b.2, rotate_loop (b.2.m_gmsk_rotator.getD []) offset v.length v)

/-- The function `gmsk_rrotate(v, len)`: the return value, the state and the array `v`
afterwards.  When the reverse table is not built yet the test is
`if(!build_rotators()) return -1;`. -/
def gmsk_rrotate {K : Type} [LinearOrderedField K] (m : Libm K) (st : DspState K)
    (v : List (complex K)) : Int × DspState K × List (complex K) :=
  if v.length > ROTATOR_LEN then (-1, st, v)
  else
    match st.m_gmsk_rrotator with
    | some r => (0, st, rotate_loop r 0 v.length v)
    | none =>
      let b := build_rotators m st
      if b.1 = 0 then (-1, b.2, v)
      else (0, b.2, rotate_loop (b.2.m_gmsk_rrotator.getD []) 0 v.length v)

/-- The function `generate_gaussian_pulse(sps, len_o)`: the array `x` of length
`num_samples`. -/
def generate_gaussian_pulse {K : Type} [LinearOrderedField K] [FloorRing K] (m : Libm K)
    (sps : K) : List (complex K) :=
  let num_samples : Nat := ⌈2 * sps + 1⌉.toNat
  let center_point : Nat := (num_samples - 1) / 2
  let x : List (complex K) := (List.range num_samples).map (fun i : Nat =>
    let arg : K := ((i : K) - (center_point : K)) / sps
    of_real (96 / 100 *
      m.exp ((-(1138 / 1000)) * arg * arg - 527 / 1000 * arg * arg * arg * arg)))
  let avg_abs_val : K := m.sqrtf (vectornorm2 x / sps)
  x.map (fun z => div_real z avg_abs_val)

/-- The first `k` iterations of the loop of `modulate` that writes `1.0 - 2.0 * bv[i]` at
every `floor(sps)`-th element of `bv_p`. -/
def polarize_loop {K : Type} [LinearOrderedField K] (bv : List Nat) (stride : Nat) :
    Nat → List (complex K) → List (complex K)
  | 0, c => c
  | k + 1, c => (polarize_loop bv stride k c).set (k * stride) (of_real (1 - 2 * (bv.getD k 0 : K)))

/-- The function `modulate(bv, bv_len, guard_len, sps, len_o)`: the returned array (`none`
is the null pointer) and the state afterwards. -/
def modulate {K : Type} [LinearOrderedField K] [FloorRing K] (m : Libm K) (st : DspState K)
    (bv : List Nat) (guard_len : Nat) (sps : K) : Option (List (complex K)) × DspState K :=
  let len : Nat := ⌈sps * ((bv.length + guard_len : Nat) : K)⌉.toNat
  let bv_p : List (complex K) := polarize_loop bv ⌊sps⌋.toNat bv.length (List.replicate len 0)
  let r := gmsk_rotate m st bv_p 0
  if r.1 ≠ 0 then (none, r.2.1)
  else
    let pulse : List (complex K) :=
      match r.2.1.m_gaussian_pulse with
      | some p => p
      | none => generate_gaussian_pulse m 1
    (some (convolve_nodelay r.2.2 pulse),
      ⟨r.2.1.m_gmsk_rotator, r.2.1.m_gmsk_rrotator, some pulse⟩)

/-- The two rotator tables are both absent or both as `build_rotators` writes them: the
only assignments to the two pointers are those of `build_rotators`. -/
def rotators_together {K : Type} [LinearOrderedField K] (m : Libm K) (st : DspState K) :
    Prop :=
  (st.m_gmsk_rotator = none ∧ st.m_gmsk_rrotator = none) ∨
    (st.m_gmsk_rotator = some (rotator_table m) ∧
      st.m_gmsk_rrotator = some (rrotator_table m))

/-- The states that calls of the functions of `dsp.cc` reach from the start: the rotator
tables are built together and the pulse is absent or as `modulate` caches it. -/
def reachable {K : Type} [LinearOrderedField K] [FloorRing K] (m : Libm K) (st : DspState K) :
    Prop :=
  rotators_together m st ∧
  (st.m_gaussian_pulse = none ∨ st.m_gaussian_pulse = some (generate_gaussian_pulse m 1))

/-- A rational stand-in for the C math library, to run the model on concrete inputs:
`M_PI` is 355/113, `exp`, `sinf` and `sqrtf` are low-order rational approximations (`exp`
is positive, `sqrtf` is positive on positive arguments), and the complex `exp` is exact at
whole numbers of quarter turns. -/
def rational_libm : Libm ℚ where
  M_PI := 355 / 113
  sinf := fun x => x - x * x * x / 6
  exp := fun x => if 0 ≤ x then 1 + x + x * x / 2 else 1 / (1 - x + x * x / 2)
  sqrtf := fun x => (1 + x) / 2
  cexp := fun z =>
    let q : ℚ := z.im / (355 / 113 / 2)
    let e : ℚ := if 0 ≤ z.re then 1 + z.re + z.re * z.re / 2 else 1 / (1 - z.re + z.re * z.re / 2)
    if q = ⌊q⌋ then
      (if ⌊q⌋ % 4 = 0 then ⟨e, 0⟩ else if ⌊q⌋ % 4 = 1 then ⟨0, e⟩
        else if ⌊q⌋ % 4 = 2 then ⟨-e, 0⟩ else ⟨0, -e⟩)
    else ⟨e * (1 - z.im * z.im / 2), e * z.im⟩

/-- The quarter turns `j^k`: 1, j, -1, -j for `k mod 4` = 0, 1, 2, 3. -/
def quarter_turn {K : Type} [LinearOrderedField K] (k : Nat) : complex K :=
  if k % 4 = 0 then ⟨1, 0⟩ else if k % 4 = 1 then ⟨0, 1⟩ else if k % 4 = 2 then ⟨-1, 0⟩
  else ⟨0, -1⟩

/-- The complex exponential of the library is exact at the quarter turns used by
`build_rotators`. -/
def exact_quarter_turns {K : Type} [LinearOrderedField K] (m : Libm K) : Prop :=
  ∀ k < 4, m.cexp ⟨0, (m.M_PI / 2) * ((k : Nat) : K)⟩ = quarter_turn k ∧
    m.cexp ⟨0, -(m.M_PI / 2) * ((k : Nat) : K)⟩ = conj (quarter_turn k)

/-! ## Channel response and equalizer design (`dsp.cc`)

`usrp_complex.h` is not among the sources at hand: `complex` is taken to be
`std::complex<float>`, so `norm` is the squared modulus and `z / w` is `cdiv`. -/

/-- The C library function `nearbyintf` in the default rounding mode: the nearest integer,
the even one of the two at a tie. -/
def nearbyintf {K : Type} [LinearOrderedField K] [FloorRing K] (x : K) : Int :=
  if x - ⌊x⌋ < 1 / 2 then ⌊x⌋
  else if x - ⌊x⌋ > 1 / 2 then ⌊x⌋ + 1
  else if ⌊x⌋ % 2 = 0 then ⌊x⌋ else ⌊x⌋ + 1

/-- The function `scale(v, v_len, s)` with a complex `s`, and the function
`scale(u, v, v_len, s)` that writes the result to `u`: `s * v[i]` for every `i`. -/
def scale {K : Type} [LinearOrderedField K] (v : List (complex K)) (s : complex K) :
    List (complex K) :=
  v.map (fun z => s * z)

/-- The function `add(x, x_len, y, y_len)`: the array `x` afterwards. -/
def add {K : Type} [LinearOrderedField K] (x y : List (complex K)) : List (complex K) :=
  (List.range x.length).map
    (fun i : Nat => if i < y.length then x.getD i 0 + y.getD i 0 else x.getD i 0)

/-- The function `conjugate_vector(v, v_len)`. -/
def conjugate_vector {K : Type} [LinearOrderedField K] (v : List (complex K)) :
    List (complex K) :=
  v.map conj

/-- The `c_len` samples of `a` from offset `u_toa + i - c_len + 1`: the window that ends at
index `u_toa + i`. -/
def channel_window {K : Type} [LinearOrderedField K] (a : List (complex K))
    (c_len u_toa i : Nat) : List (complex K) :=
  (a.drop ((u_toa : Int) + i - c_len + 1).toNat).take c_len

/-- The test `(u_toa + i < c_len - 1) || (u_toa + i > a_len - 1)` of
`generate_channel_response` is false: the window that ends at `u_toa + i` is a candidate.
`a_len = 0`, where `a_len - 1` wraps around in C, is outside the model. -/
def candidate (a_len c_len u_toa i : Nat) : Prop :=
  ¬ (u_toa + i < c_len - 1 ∨ u_toa + i > a_len - 1)

instance (a_len c_len u_toa i : Nat) : Decidable (candidate a_len c_len u_toa i) :=
  inferInstanceAs (Decidable (¬ (u_toa + i < c_len - 1 ∨ u_toa + i > a_len - 1)))

/-- The first `k` iterations of the selection loop of `generate_channel_response`: the
values of `max_i` and `max_energy`. -/
def select_window_loop {K : Type} [LinearOrderedField K] (a : List (complex K))
    (c_len u_toa : Nat) : Nat → Nat × K
  | 0 => (0, -1)
  | k + 1 =>
    let st := select_window_loop a c_len u_toa k
    if u_toa + k < c_len - 1 ∨ u_toa + k > a.length - 1 then st
    else
      let energy : K := vectornorm2 (channel_window a c_len u_toa k)
      if energy > 95 / 100 * st.2 then (k, energy) else st

/-- The function `generate_channel_response(a, a_len, c_len, toa, peak)`; `none` is the null
pointer.  `new` does not fail; a negative `toa`, whose conversion to `unsigned int` is
undefined, gives `u_toa = 0` here. -/
def generate_channel_response {K : Type} [LinearOrderedField K] [FloorRing K]
    (a : List (complex K)) (c_len : Nat) (toa : K) (peak : complex K) :
    Option (List (complex K)) :=
  let u_toa : Nat := (nearbyintf toa).toNat
  let sel := select_window_loop a c_len u_toa c_len
  if sel.2 < 0 then none
  else
    let c : List (complex K) := (List.range c_len).map
      (fun i : Nat => a.getD ((u_toa : Int) + sel.1 - c_len + 1 + i).toNat 0)
    some (scale c (cdiv 1 peak))

/-- The local variables `d`, `Gl`, `Gr` and `L` of `design_DFE`. -/
structure DfeState (K : Type) where
  d : K
  Gl : List (complex K)
  Gr : List (complex K)
  L : Nat → Nat → complex K

/-- The first `k` iterations of the loop over `j` that writes row `i` of `L`. -/
def dfe_row_loop {K : Type} [LinearOrderedField K] (Gl Gr : List (complex K)) (d : K)
    (i : Nat) : Nat → (Nat → Nat → complex K) → (Nat → Nat → complex K)
  | 0, L => L
  | k + 1, L =>
    let L1 := dfe_row_loop Gl Gr d i k L
    Function.update L1 i (Function.update (L1 i) (i + k)
      (div_real (Gl.getD k 0 * conj (Gl.getD 0 0) + Gr.getD k 0 * conj (Gr.getD 0 0)) d))

/-- The first `k` iterations of the loop `tGr[t] = tGr[t + 1]` of `design_DFE`. -/
def dfe_shift_loop {K : Type} [LinearOrderedField K] :
    Nat → List (complex K) → List (complex K)
  | 0, tGr => tGr
  | k + 1, tGr =>
    let t1 := dfe_shift_loop k tGr
    t1.set k (t1.getD (k + 1) 0)

/-- The body of the main loop of `design_DFE` for the index `i`. -/
def dfe_step {K : Type} [LinearOrderedField K] (m : Libm K) (Nf nu i : Nat)
    (st : DfeState K) : DfeState K :=
  let d : K := norm (st.Gl.getD 0 0) + norm (st.Gr.getD 0 0)
  let L := dfe_row_loop st.Gl st.Gr d i (nu + 1) st.L
  let k : complex K := cdiv (st.Gr.getD 0 0) (st.Gl.getD 0 0)
  if i ≠ Nf - 1 then
    let tGl := add (scale st.Gr (conj k)) st.Gl
    let tGr := add (scale st.Gl (-k)) st.Gr
    let tGr := (dfe_shift_loop nu tGr).set nu 0
    ⟨d, scale tGl (of_real (1 / m.sqrtf (1 + norm k))),
      scale tGr (of_real (1 / m.sqrtf (1 + norm k))), L⟩
  else ⟨d, st.Gl, st.Gr, L⟩

/-- The first `c` iterations of the main loop of `design_DFE`, from the initial values of
`d`, `Gl`, `Gr` and `L`. -/
def dfe_main_loop {K : Type} [LinearOrderedField K] (m : Libm K) (h : List (complex K))
    (SNR : K) (Nf nu : Nat) : Nat → DfeState K
  | 0 =>
    ⟨1, (List.replicate (nu + 1) 0).set 0 (of_real (1 / m.sqrtf SNR)),
      (List.range (nu + 1)).map (fun i : Nat => conj (h.getD i 0)), fun _ _ => 0⟩
  | c + 1 => dfe_step m Nf nu c (dfe_main_loop m h SNR Nf nu c)

/-- The first `c` iterations of the loop `v_k -= L[k][j] * v[j]` over `j` from `k + 1`. -/
def dfe_vk_loop {K : Type} [LinearOrderedField K] (L : Nat → Nat → complex K)
    (v : Nat → complex K) (k : Nat) : Nat → complex K
  | 0 => 0
  | c + 1 => dfe_vk_loop L v k c - L k (k + 1 + c) * v (k + 1 + c)

/-- The array `v` of `design_DFE` after `v[Nf - 1] = 1.0` and the first `c` iterations of
the back substitution (`k = Nf - 2` downwards).  No entry of `v` is read before it is
written; the array starts as zeros here. -/
def dfe_back_loop {K : Type} [LinearOrderedField K] (L : Nat → Nat → complex K) (Nf : Nat) :
    Nat → (Nat → complex K)
  | 0 => Function.update (fun _ => 0) (Nf - 1) 1
  | c + 1 =>
    let v := dfe_back_loop L Nf c
    Function.update v (Nf - 2 - c) (dfe_vk_loop L v (Nf - 2 - c) (Nf - 1 - (Nf - 2 - c)))

/-- The first `c` iterations of the loop `w_i += v[k + i] * conj(h[k])`. -/
def dfe_wi_loop {K : Type} [LinearOrderedField K] (h : List (complex K))
    (v : Nat → complex K) (i : Nat) : Nat → complex K
  | 0 => 0
  | c + 1 => dfe_wi_loop h v i c + v (c + i) * conj (h.getD c 0)

/-- The function `design_DFE(h, h_len, SNR, Nf, ...)`: `none` when it returns -1, and
otherwise (return value 0) the arrays `feedforward` and `feedback`.  `new` does not
fail; `h_len = 0`, where `h_len - 1` wraps around in C, is outside the model. -/
def design_DFE {K : Type} [LinearOrderedField K] (m : Libm K) (h : List (complex K))
    (SNR : K) (Nf : Nat) : Option (List (complex K) × List (complex K)) :=
  if Nf < 2 then none
  else
    let nu : Nat := h.length - 1
    let st := dfe_main_loop m h SNR Nf nu Nf
    let feedback : List (complex K) :=
      conjugate_vector (scale ((List.range nu).map (fun t : Nat => st.L (Nf - 1) (Nf + t)))
        (of_real (-1)))
    let v := dfe_back_loop st.L Nf (Nf - 1)
    let feedforward : List (complex K) := (List.range Nf).map
      (fun i : Nat => div_real (dfe_wi_loop h v i (min nu (Nf - 1 - i) + 1)) st.d)
    some (feedforward, feedback)

/-- The indices of the rotator table that the first `k` iterations of the loop of
`gmsk_rotate` read: `r` starts at `m_gmsk_rotator + offset` and moves on by one entry in
every iteration. -/
def rotate_loop_reads (offset : Nat) : Nat → List Nat
  | 0 => []
  | k + 1 => rotate_loop_reads offset k ++ [offset + k]

/-- The indices of the rotator table that `gmsk_rotate(v, len, offset)` reads: none when
the length check fails, else those of the loop. -/
def gmsk_rotate_reads (len offset : Nat) : List Nat :=
  if len > ROTATOR_LEN then [] else rotate_loop_reads offset len

/-! ## The FCCH detector (`fcch_detector.cc`): the run detector

`g_count` is an `unsigned int` that counts samples; it stays far below `2 ^ 32`. -/

/-- The file-scope variables `g_count`, `g_sign` and `g_threshold`. -/
structure RunState (K : Type) where
  g_count : Nat
  g_sign : Int
  g_threshold : K

/-- The function `low_to_high_init(threshold)`. -/
def low_to_high_init {K : Type} (threshold : K) : RunState K :=
  ⟨0, 1, threshold⟩

/-- The function `low_to_high(s)`: the return value `r` and the variables afterwards. -/
def low_to_high {K : Type} [LinearOrderedField K] (st : RunState K) (s : K) :
    Nat × RunState K :=
  if s ≥ st.g_threshold then
    if st.g_sign = -1 then (st.g_count, ⟨0 + 1, 1, st.g_threshold⟩)
    else (0, ⟨st.g_count + 1, st.g_sign, st.g_threshold⟩)
  else
    if st.g_sign = 1 then (0, ⟨0 + 1, -1, st.g_threshold⟩)
    else (0, ⟨st.g_count + 1, st.g_sign, st.g_threshold⟩)

/-- The variables after `low_to_high_init(threshold)` and the calls of `low_to_high` on
`a[0]`, ..., `a[k - 1]`. -/
def low_to_high_feed {K : Type} [LinearOrderedField K] (threshold : K) (a : List K) :
    Nat → RunState K
  | 0 => low_to_high_init threshold
  | k + 1 => (low_to_high (low_to_high_feed threshold a k) (a.getD k 0)).2

/-- The value that the call of `low_to_high` on `a[i]` returns, after the calls on the
samples before it. -/
def low_to_high_at {K : Type} [LinearOrderedField K] (threshold : K) (a : List K)
    (i : Nat) : Nat :=
  (low_to_high (low_to_high_feed threshold a i) (a.getD i 0)).1

/-- The number of consecutive samples below the threshold that end at index `i - 1`. -/
def low_run {K : Type} [LinearOrderedField K] (threshold : K) (a : List K) : Nat → Nat
  | 0 => 0
  | i + 1 => if a.getD i 0 < threshold then low_run threshold a i + 1 else 0

/-! ## Notions used to state the tie-break of the Viterbi decoders -/

/-- The state `p` is the lowest-numbered state among the predecessors `q` of `n` with
`ae[q] < MAX_ERROR` that attain the minimum of `ae[q] + distance(q -> n)`, and `e` is
that minimum; `d o` is the distance of the received symbol from the edge output `o`. -/
def IsLowestBest {α : Type} [LinearOrderedSemiring α] (d : Nat → α) (ae : Nat → α)
    (n p : Nat) (e : α) : Prop :=
  p < 16 ∧ ae p < (MAX_ERROR : α) ∧
  (∃ b < 2, next_state p b = n ∧ e = ae p + d (encode p b)) ∧
  ∀ q < 16, ∀ c < 2, ae q < (MAX_ERROR : α) → next_state q c = n →
    e ≤ ae q + d (encode q c) ∧ (ae q + d (encode q c) = e → p ≤ q)

/-- The state `i` is the lowest-numbered of the 16 states with the minimum accumulated
error, and `e` is that minimum. -/
def IsLowestMin {α : Type} [LinearOrderedSemiring α] (ae : Nat → α) (i : Nat) (e : α) :
    Prop :=
  i < 16 ∧ ae i = e ∧ ∀ j < 16, e ≤ ae j ∧ (ae j = e → i ≤ j)

/-- Invariant of the two inner loops of stage `t`, started from `T0`, for the tie-break:
`Done st b` holds for the transitions already examined. -/
def TieInv {α : Type} [LinearOrderedSemiring α] (d : Nat → α) (t : Nat) (T0 : Trellis α)
    (Done : Nat → Nat → Prop) (T : Trellis α) : Prop :=
  T.ae = T0.ae ∧
  ∀ s,
    (T.nae s = (MAX_ERROR : α) ∧ T.state_history s (t + 1) = T0.state_history s (t + 1) ∧
      ∀ q c, Done q c → next_state q c = s → (MAX_ERROR : α) ≤ T0.ae q + d (encode q c)) ∨
    (∃ p b, Done p b ∧ next_state p b = s ∧ T.nae s = T0.ae p + d (encode p b) ∧
      T.nae s < (MAX_ERROR : α) ∧ T.state_history s (t + 1) = p ∧
      ∀ q c, Done q c → next_state q c = s →
        T.nae s ≤ T0.ae q + d (encode q c) ∧ (T0.ae q + d (encode q c) = T.nae s → p ≤ q))

/-- The trellis on entry to the loop over `t`. -/
def initial_trellis {α : Type} [LinearOrderedSemiring α] (state_history : Nat → Nat → Nat) :
    Trellis α :=
  { ae := Function.update (fun _ => (MAX_ERROR : α)) 0 0
    nae := fun _ => (MAX_ERROR : α)
    state_history := state_history }

/-! ## Peak detection and the equalizer (`dsp.cc`) -/

/-- The first `k` iterations of the loop over the samples of `peak_detect`: the values of
`max`, `max_i` and `sum_power`. -/
def peak_power_loop {K : Type} [LinearOrderedField K] (s : List (complex K)) : Nat → K × K × K
  | 0 => (-1, -1, 0)
  | k + 1 =>
    let st := peak_power_loop s k
    let sample_power : K := norm (s.getD k 0)
    if sample_power > st.1 then (sample_power, (k : K), st.2.2 + sample_power)
    else (st.1, st.2.1, st.2.2 + sample_power)

/-- The loop `while(incr > 1.0 / 1024.0)` of `peak_detect` from the values `incr`, `early_i`
and `late_i`: the value of `early_i` when the loop ends, or after `fuel` iterations. -/
def peak_refine_loop {K : Type} [LinearOrderedField K] [FloorRing K] (m : Libm K)
    (s : List (complex K)) : Nat → K → K → K → K
  | 0, _, early_i, _ => early_i
  | fuel + 1, incr, early_i, late_i =>
    if incr > 1 / 1024 then
      let early_p := interpolate_point m s early_i
      let late_p := interpolate_point m s late_i
      if norm early_p < norm late_p then
        peak_refine_loop m s fuel (incr / 2) (early_i + incr) (early_i + incr + 2)
      else if norm early_p > norm late_p then
        peak_refine_loop m s fuel (incr / 2) (early_i - incr) (early_i - incr + 2)
      else early_i
    else early_i

/-- The function `peak_detect(s, s_len, peak, avg_power)`: the return value, `*peak` and
`*avg_power`.  The loop that halves `incr` from 0.5 ends within 10 iterations.  `s_len = 0`,
where `s_len - 1` wraps around in C, is outside the model. -/
def peak_detect {K : Type} [LinearOrderedField K] [FloorRing K] (m : Libm K)
    (s : List (complex K)) : K × complex K × K :=
  let p := peak_power_loop s s.length
  let max_i : K := p.2.1
  let sum_power : K := p.2.2
  let early_i : K := if 1 ≤ max_i then max_i - 1 else 0
  let late_i : K := if max_i + 1 < (s.length : K) then max_i + 1 else ((s.length - 1 : Nat) : K)
  let early_i := peak_refine_loop m s 10 (1 / 2) early_i late_i
  let max_i : K := early_i + 1
  let max_i : K := if max_i < 0 then 0 else max_i
  let max_i : K := if max_i > ((s.length - 1 : Nat) : K) then ((s.length - 1 : Nat) : K) else max_i
  let cmax := interpolate_point m s max_i
  (max_i, cmax, (sum_power - norm cmax) / ((s.length - 1 : Nat) : K))

/-- The first `k` iterations of the loop of `peak2mean` (`i = 2, 3, ...`): the values of
`valley` and `valley_count`. -/
def peak2mean_loop {K : Type} [LinearOrderedField K] (c : List (complex K)) (peak_i : Nat) :
    Nat → K × Nat
  | 0 => (0, 0)
  | k + 1 =>
    let st := peak2mean_loop c peak_i k
    let i := 2 + k
    let st1 : K × Nat :=
      if i ≤ peak_i then (st.1 + norm (c.getD (peak_i - i) 0), st.2 + 1) else st
    if peak_i + i < c.length then (st1.1 + norm (c.getD (peak_i + i) 0), st1.2 + 1) else st1

/-- The function `peak2mean(c, c_len, peak, peak_i, width, SNR)`: `none` when it returns -1,
and otherwise (return value 0) the value of `*SNR`. -/
def peak2mean {K : Type} [LinearOrderedField K] (m : Libm K) (c : List (complex K))
    (peak : complex K) (peak_i width : Nat) : Option K :=
  let st := peak2mean_loop c peak_i width
  if st.2 < 2 then none
  else
    let valley : K := m.sqrtf (st.1 / (st.2 : K)) + 1 / 100000
    some (m.sqrtf (norm peak) / valley)

/-- The first `k` iterations of the loop over `j` in `equalize`: the value of
`post_forward[i]`. -/
def feedback_loop {K : Type} [LinearOrderedField K] (feedback post_forward : List (complex K))
    (i : Nat) : Nat → complex K
  | 0 => post_forward.getD i 0
  | k + 1 =>
    feedback_loop feedback post_forward i k + feedback.getD k 0 * post_forward.getD (i - k - 1) 0

/-- The first `k` iterations of the loop over `i` in `equalize`: the arrays `post_forward`
and `DFE_output`.  The loop over `j` runs while `j < feedback_len` and `i >= j + 1`.  A
rotator table that is not built, or an entry past its end, reads 0. -/
def equalize_loop {K : Type} [LinearOrderedField K] (st : DspState K)
    (feedback : List (complex K)) :
    Nat → List (complex K) × List (complex K) → List (complex K) × List (complex K)
  | 0, a => a
  | k + 1, a =>
    let a1 := equalize_loop st feedback k a
    let x : complex K :=
      feedback_loop feedback a1.1 k (min feedback.length k) *
        (st.m_gmsk_rrotator.getD []).getD k 0
    let hard : complex K := if x.re > 0 then of_real 1 else of_real (-1)
    (a1.1.set k (hard * (st.m_gmsk_rotator.getD []).getD k 0), a1.2.set k x)

/-- The function `equalize(v, v_len, feedforward, feedforward_len, feedback, feedback_len,
len_o)`: the returned array, of length `*len_o`.  `new` does not fail. -/
def equalize {K : Type} [LinearOrderedField K] (st : DspState K) (v feedforward feedback :
    List (complex K)) : List K :=
  let post_forward_full := convolve v feedforward
  let post_forward : List (complex K) := (List.range v.length).map
    (fun i : Nat => post_forward_full.getD (feedforward.length - 1 + i) 0)
  slice_soft (equalize_loop st feedback v.length (post_forward, List.replicate v.length 0)).2

/-! ## Burst demodulation (`gsm_demod.cc`) -/

/-- The constant `DATA_LEN` of `gsm.h`. -/
def DATA_LEN : Nat := 148

/-- The constant `GSM_RATE` of `gsm.h`. -/
def GSM_RATE {K : Type} [LinearOrderedField K] : K := 1625000 / 6

/-- The type `mtsc_s` of `gsm_demod.h`; the list `tsc` carries the field `len`. -/
structure mtsc_s (K : Type) where
  tsc : List (complex K)
  toa : K
  gain : complex K

/-- The type `dfe_filter_s` of `gsm_demod.h`; the lists carry `ff_len` and `fb_len`. -/
structure dfe_filter_s (K : Type) where
  ff : List (complex K)
  fb : List (complex K)

/-- The function `demod_burst(sps, burst_len, s, s_len, mtsc, d, cr_len, dfe_len)`: the
returned array of `*burst_len` soft bits (`none` is the null pointer) and the pointer `d`
afterwards (`none` is a null `d`, `some none` a null `*d`).  `new` does not fail. -/
def demod_burst {K : Type} [LinearOrderedField K] [FloorRing K] (m : Libm K) (st : DspState K)
    (sps : K) (s : List (complex K)) (mtsc : Option (mtsc_s K))
    (d : Option (Option (dfe_filter_s K))) (cr_len dfe_len : Nat) :
    Option (List K) × Option (Option (dfe_filter_s K)) :=
  if (s.length : K) < sps * (DATA_LEN : K) then (none, d)
  else
    match mtsc with
    | none => (none, d)
    | some mtsc =>
      let c := correlate_nodelay s mtsc.tsc
      let pk := peak_detect m c
      let toa : K := pk.1
      let peak : complex K := pk.2.1
      match peak2mean m c peak (nearbyintf toa).toNat 4 with
      | none => (none, d)
      | some SNR =>
        if SNR < 3 then (none, d)
        else
          let adjusted_toa : K := toa - mtsc.toa
          if adjusted_toa < -2 then (none, d)
          else if (s.length : K) < (DATA_LEN : K) * sps + adjusted_toa + 2 then (none, d)
          else
            let v_len : Nat := ⌈(DATA_LEN : K) * sps + adjusted_toa + 2⌉.toNat
            let run := fun (dfe : dfe_filter_s K) =>
              equalize st (delay m (s.take v_len) (-adjusted_toa)).2 dfe.ff dfe.fb
            let built : Option (dfe_filter_s K) :=
              match generate_channel_response c cr_len toa mtsc.gain with
              | none => none
              | some cr =>
                match design_DFE m cr SNR dfe_len with
                | none => none
                | some f => some ⟨f.1, f.2⟩
            match d with
            | some (some dfe) => (some (run dfe), d)
            | some none =>
              match built with
              | none => (none, d)
              | some dfe_new => (some (run dfe_new), some (some dfe_new))
            | none =>
              match built with
              | none => (none, d)
              | some dfe_new => (some (run dfe_new), d)

/-- A burst of 7 samples for the examples: one sample of value 10 between zeros. -/
def impulse_burst {K : Type} [LinearOrderedField K] : List (complex K) :=
  [⟨0, 0⟩, ⟨0, 0⟩, ⟨0, 0⟩, ⟨10, 0⟩, ⟨0, 0⟩, ⟨0, 0⟩, ⟨0, 0⟩]

/-! ## The frequency burst detector (`fcch_detector.cc`)

`fcch_detector.h` and the class `circular_buffer` are not among the sources at hand.  The
buffer is modelled from its use and from the specification; the FFT of the library `fftw`
and the constant `FFT_SIZE` are parameters.  A pointer argument of `scan` or of
`next_norm_error` is not null. -/

/-- Modelled from the spec: a circular buffer holds at most `capacity` items, oldest
first. -/
structure circular_buffer (α : Type) where
  capacity : Nat
  data : List α

/-- Modelled from the spec: `write(buf, n)` appends as many of the `n` items as there is
space for and returns their number. -/
def circular_buffer.write {α : Type} (cb : circular_buffer α) (buf : List α) :
    Nat × circular_buffer α :=
  let n := min buf.length (cb.capacity - cb.data.length)
  (n, ⟨cb.capacity, cb.data ++ buf.take n⟩)

/-- Modelled from the spec: `peek(&n)` returns the items held, oldest first, and sets `n` to
their number; the buffer is unchanged. -/
def circular_buffer.peek {α : Type} (cb : circular_buffer α) : List α × Nat :=
  (cb.data, cb.data.length)

/-- Modelled from the spec: `purge(n)` removes the `n` oldest items (all of them when fewer
are held). -/
def circular_buffer.purge {α : Type} (cb : circular_buffer α) (n : Nat) : circular_buffer α :=
  ⟨cb.capacity, cb.data.drop n⟩

/-- Modelled from the spec: `flush()` removes every item. -/
def circular_buffer.flush {α : Type} (cb : circular_buffer α) : circular_buffer α :=
  ⟨cb.capacity, []⟩

/-- The members of `fcch_detector` that the functions below use. -/
structure fcch_detector (K : Type) where
  m_D : Nat
  m_p : K
  m_G : K
  m_e : K
  m_sample_rate : K
  m_fcch_burst_len : Nat
  m_filter_delay : Nat
  m_w_len : Nat
  m_w : List (complex K)
  m_x_cb : circular_buffer (complex K)
  m_e_cb : circular_buffer K

/-- The constructor `fcch_detector(sample_rate, D, p, G)`.  The conversion of a negative
value to `unsigned int` gives 0 here. -/
def fcch_detector.construct {K : Type} [LinearOrderedField K] [FloorRing K] (sample_rate : K)
    (D : Nat) (p G : K) : fcch_detector K where
  m_D := D
  m_p := p
  m_G := G
  m_e := 0
  m_sample_rate := sample_rate
  m_fcch_burst_len := ⌊(DATA_LEN : K) * (sample_rate / GSM_RATE)⌋.toNat
  m_filter_delay := 8
  m_w_len := 2 * 8 + 1
  m_w := List.replicate (2 * 8 + 1) 0
  m_x_cb := ⟨1024, []⟩
  m_e_cb := ⟨1000000, []⟩

/-- The function `fcch_detector::get_delay()`. -/
def fcch_detector.get_delay {K : Type} (det : fcch_detector K) : Nat :=
  det.m_w_len - 1 + det.m_D

/-- The function `fcch_detector::filter_len()`. -/
def fcch_detector.filter_len {K : Type} (det : fcch_detector K) : Nat :=
  det.m_w_len

/-- The first `k` iterations of the loop `y += std::conj(m_w[i]) * x[n - i]`. -/
def filter_loop {K : Type} [LinearOrderedField K] (w x : List (complex K)) (n : Nat) :
    Nat → complex K
  | 0 => 0
  | k + 1 => filter_loop w x n k + conj (w.getD k 0) * x.getD (n - k) 0

/-- The first `k` iterations of the loop `m_w[i] += m_G * std::conj(e) * x[n - i]`. -/
def update_loop {K : Type} [LinearOrderedField K] (G : K) (e : complex K)
    (x : List (complex K)) (n : Nat) : Nat → List (complex K) → List (complex K)
  | 0, w => w
  | k + 1, w =>
    let w1 := update_loop G e x n k w
    w1.set k (w1.getD k 0 + of_real G * conj e * x.getD (n - k) 0)

/-- The function `fcch_detector::next_norm_error(error)`: the return value, the value
written to `*error` (`none` when nothing is written) and the detector afterwards. -/
def fcch_detector.next_norm_error {K : Type} [LinearOrderedField K] (det : fcch_detector K) :
    Nat × Option K × fcch_detector K :=
  let n := det.m_w_len - 1
  let pk := det.m_x_cb.peek
  let x := pk.1
  let max := pk.2
  if n + det.m_D ≥ max then (n + det.m_D - max + 1, none, det)
  else
    let E : K := vectornorm2_loop x det.m_w_len
    let G : K := if det.m_G ≥ 2 / E then 1 / E else det.m_G
    let y := filter_loop det.m_w x n det.m_w_len
    let e := x.getD (n + det.m_D) 0 - y
    let w := update_loop G e x n det.m_w_len det.m_w
    let E : K := E / (det.m_w_len : K)
    let m_e : K := (1 - det.m_p) * det.m_e + det.m_p * norm e
    (0, some (m_e / E),
      { det with m_G := G, m_w := w, m_e := m_e, m_x_cb := det.m_x_cb.purge 1 })

/-- What `fcch_detector.cc` takes from the library `fftw` and from the missing header: the
constant `FFT_SIZE` and the transform that `fftw_execute(m_plan)` computes from `m_in` to
`m_out`. -/
structure Fftw (K : Type) where
  FFT_SIZE : Nat
  fftw_execute : List (complex K) → List (complex K)

/-- The function `itof(index, sample_rate, fft_size)`. -/
def itof {K : Type} [LinearOrderedField K] (index sample_rate : K) (fft_size : Nat) : K :=
  index * (sample_rate / (fft_size : K)) - sample_rate / 2

/-- The first `k` iterations of the two loops of `freq_detect` that centre the transform:
`fft[i + FFT_SIZE / 2] = m_out[i]` while `i < FFT_SIZE / 2` and
`fft[i - FFT_SIZE / 2] = m_out[i]` afterwards. -/
def center_loop {K : Type} [LinearOrderedField K] (m_out : List (complex K)) (half : Nat) :
    Nat → List (complex K) → List (complex K)
  | 0, fft => fft
  | k + 1, fft =>
    let f1 := center_loop m_out half k fft
    if k < half then f1.set (k + half) (m_out.getD k 0) else f1.set (k - half) (m_out.getD k 0)

/-- The function `fcch_detector::freq_detect(s, s_len, pm)`: the return value and `*pm`.
The local array `fft` starts as zeros here. -/
def fcch_detector.freq_detect {K : Type} [LinearOrderedField K] [FloorRing K] (m : Libm K)
    (f : Fftw K) (det : fcch_detector K) (s : List (complex K)) : K × K :=
  let len := if s.length < f.FFT_SIZE then s.length else f.FFT_SIZE
  let m_in : List (complex K) := (List.range f.FFT_SIZE).map
    (fun i : Nat => if i < len then s.getD i 0 else 0)
  let m_out := f.fftw_execute m_in
  let fft := center_loop m_out (f.FFT_SIZE / 2) f.FFT_SIZE (List.replicate f.FFT_SIZE 0)
  let pk := peak_detect m fft
  (itof pk.1 det.m_sample_rate f.FFT_SIZE, norm pk.2.1 / pk.2.2)

/-- The loop `while(len < s_len)` of `scan` from the values `len` and `sum`: the value of
`sum` and the detector when the loop ends, `none` when it has not ended after `fuel`
iterations. -/
def scan_feed_loop {K : Type} [LinearOrderedField K] (s : List (complex K)) :
    Nat → Nat → K → fcch_detector K → Option (K × fcch_detector K)
  | 0, len, sum, det => if len < s.length then none else some (sum, det)
  | fuel + 1, len, sum, det =>
    if len < s.length then
      let w := det.m_x_cb.write [s.getD len 0]
      let r := fcch_detector.next_norm_error { det with m_x_cb := w.2 }
      match r.2.1 with
      | some e =>
        scan_feed_loop s fuel (len + w.1) (sum + e)
          { r.2.2 with m_e_cb := (r.2.2.m_e_cb.write [e]).2 }
      | none => scan_feed_loop s fuel (len + w.1) sum r.2.2
    else some (sum, det)

/-- The local variables `pm`, `y_offset`, `y_len` and `loff` of `scan`. -/
structure ScanVars (K : Type) where
  pm : K
  y_offset : Nat
  y_len : Nat
  loff : K

/-- The constant `MIN_PM` of `scan`. -/
def MIN_PM : Nat := 50

/-- The loop `for(i = 0; i < e_count; i++)` of `scan` from the index `i`, with `fuel`
iterations left, the state `rs` of the run detector and the local variables `v`: the local
variables when the loop ends, by `break` or at `e_count`. -/
def scan_search_loop {K : Type} [LinearOrderedField K] [FloorRing K] (m : Libm K)
    (f : Fftw K) (det : fcch_detector K) (s : List (complex K)) (a : List K)
    (MIN_FB_LEN : Nat) : Nat → Nat → RunState K → ScanVars K → ScanVars K
  | 0, _, _, v => v
  | fuel + 1, i, rs, v =>
    let r := low_to_high rs (a.getD i 0)
    let l_count := r.1
    if l_count ≥ MIN_FB_LEN then
      let y_offset := i - l_count
      let y_len := if l_count < det.m_fcch_burst_len then l_count else det.m_fcch_burst_len
      let fd := det.freq_detect m f ((s.drop y_offset).take y_len)
      if fd.2 > (MIN_PM : K) then ⟨fd.2, y_offset, y_len, fd.1⟩
      else scan_search_loop m f det s a MIN_FB_LEN fuel (i + 1) r.2 ⟨fd.2, y_offset, y_len, fd.1⟩
    else scan_search_loop m f det s a MIN_FB_LEN fuel (i + 1) r.2 ⟨0, v.y_offset, v.y_len, v.loff⟩

/-- What a call of `scan` leaves: the return value, the value written to `*offset` (`none`
when nothing is written), the value of `*consumed` and the detector. -/
structure ScanResult (K : Type) where
  ret : Nat
  offset : Option K
  consumed : Nat
  det : fcch_detector K

/-- The function `fcch_detector::scan(s, s_len, offset, consumed)`; `none` when the loop
`while(len < s_len)` does not end (an iteration that writes no sample changes nothing, so
`s_len` iterations decide).  The local variable `pm` is declared without a value; `pm0` is
what it holds.  The function-static constant `MIN_FB_LEN` is computed by the first call; here
it is computed from the detector at hand.  A quotient by zero is zero here. -/
def fcch_detector.scan {K : Type} [LinearOrderedField K] [FloorRing K] (m : Libm K)
    (f : Fftw K) (pm0 : K) (det : fcch_detector K) (s : List (complex K)) :
    Option (ScanResult K) :=
  let sps : K := det.m_sample_rate / GSM_RATE
  let MIN_FB_LEN : Nat := ⌊100 * sps⌋.toNat
  let det0 := { det with m_e_cb := det.m_e_cb.flush, m_x_cb := det.m_x_cb.flush }
  match scan_feed_loop s s.length 0 0 det0 with
  | none => none
  | some (sum, det1) =>
    let pk := det1.m_e_cb.peek
    let a := pk.1
    let e_count := pk.2
    let avg : K := sum / (e_count : K)
    let limit : K := 7 / 10 * avg
    let v := scan_search_loop m f det1 s a MIN_FB_LEN e_count 0 (low_to_high_init limit)
      ⟨pm0, 0, 0, 0⟩
    if v.pm ≤ (MIN_PM : K) then some ⟨0, none, s.length, det1⟩
    else some ⟨1, some v.loff, v.y_offset + v.y_len + det1.get_delay, det1⟩

/-- What the loop `while(len < s_len)` of `scan` keeps, when it starts with both buffers
empty: the members that the loop does not write, and the numbers of samples and of errors
that the buffers hold after `len` samples. -/
def FeedInv {K : Type} (det0 det : fcch_detector K) (len : Nat) : Prop :=
  det.m_w_len = det0.m_w_len ∧ det.m_D = det0.m_D ∧
  det.m_sample_rate = det0.m_sample_rate ∧
  det.m_fcch_burst_len = det0.m_fcch_burst_len ∧
  det.m_x_cb.capacity = det0.m_x_cb.capacity ∧
  det.m_e_cb.capacity = det0.m_e_cb.capacity ∧
  det.m_x_cb.data.length = min len det0.get_delay ∧
  det.m_e_cb.data.length = min (len - det0.get_delay) det0.m_e_cb.capacity

/-- A burst of 50 samples for the examples: 48 samples of value 1, one of value 0 and one of
value 10. -/
def tone_burst {K : Type} [LinearOrderedField K] : List (complex K) :=
  List.replicate 48 ⟨1, 0⟩ ++ [⟨0, 0⟩, ⟨10, 0⟩]

/-- A transform for the examples, with `FFT_SIZE = 4`: whatever the input, the output has the
value 10 in bin 3 and the values 1, 0 and 1 in the bins 0, 1 and 2, the shape of the
spectrum of a tone. -/
def tone_fftw {K : Type} [LinearOrderedField K] : Fftw K :=
  ⟨4, fun _ => [⟨1, 0⟩, ⟨0, 0⟩, ⟨1, 0⟩, ⟨10, 0⟩]⟩

/-! ## Fixtures, read traces and notions for the later theorems -/

/-- The burst `burst_sample` with its last eight coded bits replaced: its 78 coded bits are
the codeword of `info_sample`, its parity bits and the tail bits 1, 0, 1, 1. -/
def burst_tail_set : List Nat :=
  burst_sample.take 137
    ++ (conv_encode (info_sample ++ parity_encode info_sample ++ [1, 0, 1, 1])).drop 70
    ++ burst_sample.drop 145

/-- The trellis `T2` of the soft decoder holds the same state history as the trellis `T` of
the hard decoder, and the same accumulated errors read as rationals. -/
def TrellisCast (T : Trellis Nat) (T2 : Trellis ℚ) : Prop :=
  (∀ s, T2.ae s = ((T.ae s : Nat) : ℚ)) ∧ (∀ s, T2.nae s = ((T.nae s : Nat) : ℚ)) ∧
  T2.state_history = T.state_history

/-- The pairs `(cur_state, min_state)` with which the loop "trace the path" indexes
`prev_next_state`, from stage `t` down to stage 1, starting in `cur_state`; the entry of
`state_history` read for the pair at stage `t` is `state_history[min_state][t]`. -/
def traceback_pairs (state_history : Nat → Nat → Nat) : Nat → Nat → List (Nat × Nat)
  | 0, _ => []
  | t + 1, cur_state =>
    traceback_pairs state_history t (state_history cur_state (t + 1))
      ++ [(state_history cur_state (t + 1), cur_state)]

/-- The traceback of the decoder with stage distances `dist` and the content `sh` of the
uninitialised `state_history` on entry is well defined: the search for the final state ends
with `min_error < MAX_ERROR` and a state `min_state < 16`; the loop "trace the path" looks up
39 pairs `(prev, cur)` in `prev_next_state`, and for the pair of stage `i + 1` both states are
below 16, `cur` was reached at stage `i + 1` (so `state_history[cur][i + 1]` was assigned in
the forward pass), `prev` is that entry, the entry is the same whatever `state_history` held
on entry, and `prev -> cur` is a transition of the encoder on the bit that the table gives;
the output is the 39 table values, each 0 or 1 and none the marker 2. -/
def TracebackDefined {α : Type} [LinearOrderedSemiring α] (dist : Nat → Nat → α)
    (sh : Nat → Nat → Nat) : Prop :=
  (select_min (build_trellis dist 39 (initial_trellis sh)).ae 16).2 < (MAX_ERROR : α) ∧
  (select_min (build_trellis dist 39 (initial_trellis sh)).ae 16).1 < 16 ∧
  (traceback_pairs (build_trellis dist 39 (initial_trellis sh)).state_history 39
    (select_min (build_trellis dist 39 (initial_trellis sh)).ae 16).1).length = 39 ∧
  (∀ i < 39, ∀ p c,
    (traceback_pairs (build_trellis dist 39 (initial_trellis sh)).state_history 39
      (select_min (build_trellis dist 39 (initial_trellis sh)).ae 16).1).getD i (0, 0) = (p, c) →
    p < 16 ∧ c < 16 ∧
    (build_trellis dist (i + 1) (initial_trellis sh)).ae c < (MAX_ERROR : α) ∧
    p = (build_trellis dist 39 (initial_trellis sh)).state_history c (i + 1) ∧
    (∀ sh2, (build_trellis dist 39 (initial_trellis sh2)).state_history c (i + 1) = p) ∧
    ∃ b < 2, next_state p b = c ∧ prev_next_state p c = b) ∧
  (viterbi dist sh).1
    = (traceback_pairs (build_trellis dist 39 (initial_trellis sh)).state_history 39
        (select_min (build_trellis dist 39 (initial_trellis sh)).ae 16).1).map
      (fun pc => prev_next_state pc.1 pc.2) ∧
  (viterbi dist sh).1.length = 39 ∧
  (∀ x ∈ (viterbi dist sh).1, x = 0 ∨ x = 1) ∧ 2 ∉ (viterbi dist sh).1 ∧
  ∀ sh2, viterbi dist sh2 = viterbi dist sh

/-- The values of `i` in the iterations of the loop of `interpolate_point`: the remaining
`fuel` iterations from index `i`. -/
def interpolate_point_reads_loop : Nat → Int → List Int
  | 0, _ => []
  | fuel + 1, i => i :: interpolate_point_reads_loop fuel (i + 1)

/-- The indices `i` of the samples `s[i]` that `interpolate_point(s, s_len, s_i)` reads, in
the order of its loop. -/
def interpolate_point_reads {K : Type} [LinearOrderedField K] [FloorRing K] (s_len : Nat)
    (s_i : K) : List Int :=
  let d : Int := ((COMMON_FILTER_LEN - 1) / 2 : Nat)
  let start : Int := ⌊s_i⌋ - d
  let stop : Int := ⌊s_i⌋ + d + 1
  let start : Int := if start < 0 then 0 else start
  let stop : Int := if stop > (s_len : Int) - 1 then (s_len : Int) - 1 else stop
  interpolate_point_reads_loop (stop - start + 1).toNat start

/-- A burst for the examples: three zeros, one sample of value 10, then `n` zeros. -/
def long_impulse {K : Type} [LinearOrderedField K] (n : Nat) : List (complex K) :=
  [⟨0, 0⟩, ⟨0, 0⟩, ⟨0, 0⟩, ⟨10, 0⟩] ++ List.replicate n ⟨0, 0⟩

/-- The array `post_forward` of `equalize` after the loop "remove delay". -/
def equalize_post_forward {K : Type} [LinearOrderedField K] (v feedforward : List (complex K)) :
    List (complex K) :=
  (List.range v.length).map
    (fun i : Nat => (convolve v feedforward).getD (feedforward.length - 1 + i) 0)

/-- The value of `post_forward[k]` in iteration `k` of the loop over `i` of `equalize`, after
the loop over `j` and before the multiplication by `m_gmsk_rrotator[k]`. -/
def equalize_fed_back {K : Type} [LinearOrderedField K] (st : DspState K)
    (v feedforward feedback : List (complex K)) (k : Nat) : complex K :=
  feedback_loop feedback
    (equalize_loop st feedback k
      (equalize_post_forward v feedforward, List.replicate v.length 0)).1 k
    (min feedback.length k)

/-- The C math library over the real numbers with its exact functions, and for `M_PI` the
value of the macro as a `double`, 884279719003555 / 2 ^ 48, which is a little below pi. -/
noncomputable def double_pi_libm : Libm ℝ where
  M_PI := 884279719003555 / 281474976710656
  sinf := Real.sin
  exp := Real.exp
  sqrtf := Real.sqrt
  cexp := fun z => ⟨Real.exp z.re * Real.cos z.im, Real.exp z.re * Real.sin z.im⟩

/-- A signal of 12 samples for the examples: two samples of value 1, nine zeros and one
sample of value -1. -/
def tie_burst {K : Type} [LinearOrderedField K] : List (complex K) :=
  [⟨1, 0⟩, ⟨1, 0⟩, ⟨0, 0⟩, ⟨0, 0⟩, ⟨0, 0⟩, ⟨0, 0⟩, ⟨0, 0⟩, ⟨0, 0⟩, ⟨0, 0⟩, ⟨0, 0⟩, ⟨0, 0⟩,
    ⟨-1, 0⟩]

/-! ## Facts about the tables -/

theorem next_state_lt : ∀ s < 16, ∀ b < 2, next_state s b < 16 := by decide

theorem next_state_shift : ∀ s < 16, ∀ b < 2, next_state s b = s / 2 + 8 * b := by decide

theorem prev_next_state_next : ∀ s < 16, ∀ b < 2, prev_next_state s (next_state s b) = b := by
  decide

theorem encode_lt : ∀ s < 16, ∀ b < 2, encode s b < 4 := by decide

theorem encode_generators : ∀ a < 2, ∀ b < 2, ∀ c < 2, ∀ d < 2, ∀ e < 2,
    bit_hi (encode (8 * a + 4 * b + 2 * c + d) e) = e ^^^ c ^^^ d ∧
    bit_lo (encode (8 * a + 4 * b + 2 * c + d) e) = e ^^^ a ^^^ c ^^^ d := by decide

theorem bit_hi_lt (o : Nat) : bit_hi o < 2 := by
  unfold bit_hi; split <;> omega

theorem bit_lo_lt (o : Nat) : bit_lo o < 2 := by
  unfold bit_lo
  have h : o &&& 1 ≤ 1 := Nat.and_le_right
  omega

/-! ## The encoder and the generator polynomials -/

theorem run_state_append (s : Nat) (u v : List Nat) :
    run_state s (u ++ v) = run_state (run_state s u) v := by
  simp [run_state, List.foldl_append]

theorem run_state_lt (u : List Nat) (hb : IsBits u) : ∀ s < 16, run_state s u < 16 := by
  induction u with
  | nil => intro s hs; simpa [run_state] using hs
  | cons d ds ih =>
    intro s hs
    have hd : d < 2 := hb d (by simp)
    have hds : IsBits ds := fun x hx => hb x (by simp [hx])
    exact ih hds _ (next_state_lt s hs d hd)

theorem conv_encode_loop_length (u : List Nat) : ∀ s, (conv_encode_loop s u).length = 2 * u.length := by
  induction u with
  | nil => intro s; simp [conv_encode_loop]
  | cons d ds ih => intro s; simp [conv_encode_loop, ih]; omega

theorem conv_encode_loop_isBits (u : List Nat) : ∀ s, IsBits (conv_encode_loop s u) := by
  induction u with
  | nil => intro s x hx; simp [conv_encode_loop] at hx
  | cons d ds ih =>
    intro s x hx
    simp only [conv_encode_loop, List.mem_cons] at hx
    rcases hx with h | h | h
    · rw [h]; exact bit_hi_lt _
    · rw [h]; exact bit_lo_lt _
    · exact ih _ x h

theorem conv_encode_loop_getD (u : List Nat) : ∀ s k, k < u.length →
    (conv_encode_loop s u).getD (2 * k) 0 = bit_hi (encode (run_state s (u.take k)) (u.getD k 0)) ∧
    (conv_encode_loop s u).getD (2 * k + 1) 0
      = bit_lo (encode (run_state s (u.take k)) (u.getD k 0)) := by
  induction u with
  | nil => intro s k hk; simp at hk
  | cons d ds ih =>
    intro s k hk
    cases k with
    | zero => simp [conv_encode_loop, run_state]
    | succ k =>
      have hk2 : k < ds.length := by simpa using hk
      have h := ih (next_state s d) k hk2
      have e1 : 2 * (k + 1) = 2 * k + 1 + 1 := by ring
      rw [e1]
      simpa [conv_encode_loop, run_state] using h

theorem tap_succ (u : List Nat) (k j : Nat) : tap u (k + 1) (j + 1) = tap u k j := by
  unfold tap
  by_cases h : j ≤ k
  · have h2 : j + 1 ≤ k + 1 := by omega
    have h3 : k + 1 - (j + 1) = k - j := by omega
    simp [h, h2, h3]
  · have h2 : ¬ (j + 1 ≤ k + 1) := by omega
    simp [h, h2]

theorem tap_lt (u : List Nat) (hb : IsBits u) (k j : Nat) : tap u k j < 2 := by
  unfold tap
  split
  · by_cases h : k - j < u.length
    · rw [List.getD_eq_getElem _ _ h]; exact hb _ (List.getElem_mem h)
    · rw [List.getD_eq_default _ _ (by omega)]; omega
  · omega

theorem run_state_take (u : List Nat) (hb : IsBits u) : ∀ k, k ≤ u.length →
    run_state 0 (u.take k) = 8 * tap u k 1 + 4 * tap u k 2 + 2 * tap u k 3 + tap u k 4 := by
  intro k
  induction k with
  | zero => intro _; simp [run_state, tap]
  | succ k ih =>
    intro hk
    have hk2 : k < u.length := by omega
    have ht : u.take (k + 1) = u.take k ++ [u.getD k 0] := by
      rw [List.take_succ, List.getD_eq_getElem _ _ hk2]
      simp [List.getElem?_eq_getElem hk2]
    have h1 := tap_lt u hb k 1
    have h2 := tap_lt u hb k 2
    have h3 := tap_lt u hb k 3
    have h4 := tap_lt u hb k 4
    have h0 : u.getD k 0 < 2 := by
      rw [List.getD_eq_getElem _ _ hk2]; exact hb _ (List.getElem_mem hk2)
    rw [ht, run_state_append, ih (by omega)]
    have hs : 8 * tap u k 1 + 4 * tap u k 2 + 2 * tap u k 3 + tap u k 4 < 16 := by omega
    have e1 : tap u (k + 1) 1 = u.getD k 0 := by simp [tap]
    have e2 : tap u (k + 1) 2 = tap u k 1 := tap_succ u k 1
    have e3 : tap u (k + 1) 3 = tap u k 2 := tap_succ u k 2
    have e4 : tap u (k + 1) 4 = tap u k 3 := tap_succ u k 3
    rw [e1, e2, e3, e4]
    simp only [run_state, List.foldl_cons, List.foldl_nil]
    rw [next_state_shift _ hs _ h0]
    omega

/-! ## Parity: the division loop is linear over GF(2) -/

theorem getD_set (l : List Nat) (i j v : Nat) :
    (l.set i v).getD j 0 = if j = i ∧ i < l.length then v else l.getD j 0 := by
  simp only [List.getD_eq_getElem?_getD, List.getElem?_set]
  by_cases h : i = j
  · subst h
    by_cases h2 : i < l.length
    · simp [h2]
    · simp [h2, List.getElem?_eq_none (Nat.le_of_not_lt h2)]
  · have h3 : ¬ (j = i) := fun e => h e.symm
    simp [h, h3]

theorem isBits_iff_getD (l : List Nat) : IsBits l ↔ ∀ j, l.getD j 0 < 2 := by
  constructor
  · intro h j
    by_cases hj : j < l.length
    · rw [List.getD_eq_getElem _ _ hj]; exact h _ (List.getElem_mem hj)
    · rw [List.getD_eq_default _ _ (by omega)]; omega
  · intro h x hx
    obtain ⟨j, hj, rfl⟩ := List.mem_iff_getElem.mp hx
    have := h j
    rwa [List.getD_eq_getElem _ _ hj] at this

theorem parity_polynomial_getD_lt (k : Nat) : parity_polynomial.getD k 0 < 2 :=
  (isBits_iff_getD parity_polynomial).mp (by decide) k

theorem xor_lt_two (x y : Nat) (hx : x < 2) (hy : y < 2) : x ^^^ y < 2 :=
  Nat.xor_lt_two_pow (n := 1) hx hy

theorem xor_swap (x y p : Nat) : (x ^^^ p) ^^^ y = (x ^^^ y) ^^^ p := by
  rw [Nat.xor_assoc, Nat.xor_comm p y, ← Nat.xor_assoc]

theorem xor_cancel (x y p : Nat) : (x ^^^ p) ^^^ (y ^^^ p) = x ^^^ y := by
  rw [Nat.xor_assoc, Nat.xor_comm y p, ← Nat.xor_assoc p, Nat.xor_self, Nat.zero_xor]

theorem xor_polynomial_length (n : Nat) (buf : List Nat) (q : Nat) :
    (xor_polynomial n buf q).length = buf.length := by
  induction n with
  | zero => rfl
  | succ n ih => simp [xor_polynomial, ih]

theorem xor_polynomial_getD (n : Nat) (buf : List Nat) (q j : Nat) :
    (xor_polynomial n buf q).getD j 0 =
      if q ≤ j ∧ j < q + n ∧ j < buf.length
      then buf.getD j 0 ^^^ parity_polynomial.getD (j - q) 0 else buf.getD j 0 := by
  induction n with
  | zero =>
    simp only [xor_polynomial]
    rw [if_neg (by omega)]
  | succ n ih =>
    simp only [xor_polynomial]
    rw [getD_set, xor_polynomial_length]
    by_cases h : j = q + n ∧ q + n < buf.length
    · obtain ⟨h1, h2⟩ := h
      subst h1
      have c1 : ¬ (q ≤ q + n ∧ q + n < q + n ∧ q + n < buf.length) := by omega
      have c2 : q ≤ q + n ∧ q + n < q + (n + 1) ∧ q + n < buf.length := by omega
      rw [ih] at *
      simp only [h2, and_self, if_true, c1, if_false, c2]
      simp
    · rw [if_neg h, ih]
      by_cases c : q ≤ j ∧ j < q + n ∧ j < buf.length
      · have c2 : q ≤ j ∧ j < q + (n + 1) ∧ j < buf.length := by omega
        rw [if_pos c, if_pos c2]
      · have c2 : ¬ (q ≤ j ∧ j < q + (n + 1) ∧ j < buf.length) := by omega
        rw [if_neg c, if_neg c2]

theorem xor_polynomial_isBits (n : Nat) (buf : List Nat) (q : Nat) (hb : IsBits buf) :
    IsBits (xor_polynomial n buf q) := by
  rw [isBits_iff_getD] at *
  intro j
  rw [xor_polynomial_getD]
  split
  · exact xor_lt_two _ _ (hb j) (parity_polynomial_getD_lt _)
  · exact hb j

theorem parity_loop_length (n : Nat) (buf : List Nat) :
    (parity_loop n buf).length = buf.length := by
  induction n with
  | zero => rfl
  | succ n ih =>
    simp only [parity_loop]
    split
    · rw [xor_polynomial_length, ih]
    · exact ih

theorem parity_loop_isBits (n : Nat) (buf : List Nat) (hb : IsBits buf) :
    IsBits (parity_loop n buf) := by
  induction n with
  | zero => exact hb
  | succ n ih =>
    simp only [parity_loop]
    split
    · exact xor_polynomial_isBits _ _ _ ih
    · exact ih

theorem parity_loop_xor (n : Nat) (a b c : List Nat) (ha : IsBits a) (hb : IsBits b)
    (hab : a.length = b.length) (hac : a.length = c.length) (h : XorRel a b c) :
    XorRel (parity_loop n a) (parity_loop n b) (parity_loop n c) := by
  induction n with
  | zero => exact h
  | succ n ih =>
    have ha2 := (isBits_iff_getD _).mp (parity_loop_isBits n a ha) n
    have hb2 := (isBits_iff_getD _).mp (parity_loop_isBits n b hb) n
    have hc := ih n
    have la := parity_loop_length n a
    have lb := parity_loop_length n b
    have lc := parity_loop_length n c
    intro j
    have hj := ih j
    simp only [parity_loop]
    generalize parity_loop n a = a2 at *
    generalize parity_loop n b = b2 at *
    generalize parity_loop n c = c2 at *
    have hcases : (a2.getD n 0 = 0 ∨ a2.getD n 0 = 1) ∧ (b2.getD n 0 = 0 ∨ b2.getD n 0 = 1) := by
      omega
    rcases hcases with ⟨h1 | h1, h2 | h2⟩
    · have h3 : c2.getD n 0 = 0 := by rw [hc, h1, h2]; rfl
      simp only [h1, h2, h3, ne_eq, not_true_eq_false, if_false]
      exact hj
    · have h3 : c2.getD n 0 = 1 := by rw [hc, h1, h2]; rfl
      simp only [h1, h2, h3, ne_eq, not_true_eq_false, if_false, one_ne_zero, not_false_eq_true,
        if_true, xor_polynomial_getD, hj]
      have : c2.length = b2.length := by omega
      rw [this]
      split
      · rw [Nat.xor_assoc]
      · rfl
    · have h3 : c2.getD n 0 = 1 := by rw [hc, h1, h2]; rfl
      simp only [h1, h2, h3, ne_eq, not_true_eq_false, if_false, one_ne_zero, not_false_eq_true,
        if_true, xor_polynomial_getD, hj]
      have : c2.length = a2.length := by omega
      rw [this]
      split
      · rw [xor_swap]
      · rfl
    · have h3 : c2.getD n 0 = 0 := by rw [hc, h1, h2]; rfl
      simp only [h1, h2, h3, ne_eq, not_true_eq_false, if_false, one_ne_zero, not_false_eq_true,
        if_true, xor_polynomial_getD, hj]
      have : b2.length = a2.length := by omega
      rw [this]
      split
      · rw [xor_cancel]
      · rfl

theorem parity_loop_zero (n : Nat) (buf : List Nat) (h : ∀ j < n, buf.getD j 0 = 0) :
    parity_loop n buf = buf := by
  induction n with
  | zero => rfl
  | succ n ih =>
    have e := ih (fun j hj => h j (by omega))
    simp only [parity_loop]
    rw [e, if_neg (not_not.mpr (h n (by omega)))]

theorem memcmp_eq_zero (n : Nat) : ∀ a b : List Nat,
    memcmp a b n = 0 ↔ ∀ i < n, a.getD i 0 = b.getD i 0 := by
  induction n with
  | zero => intro a b; simp [memcmp]
  | succ n ih =>
    intro a b
    have ta : ∀ i, a.tail.getD i 0 = a.getD (i + 1) 0 := by intro i; cases a <;> simp
    have tb : ∀ i, b.tail.getD i 0 = b.getD (i + 1) 0 := by intro i; cases b <;> simp
    have ha : a.headD 0 = a.getD 0 0 := by cases a <;> simp
    have hb : b.headD 0 = b.getD 0 0 := by cases b <;> simp
    simp only [memcmp]
    split
    next heq =>
      rw [ih]
      constructor
      · intro h i hi
        cases i with
        | zero => rw [← ha, ← hb]; exact heq
        | succ i => rw [← ta, ← tb]; exact h i (by omega)
      · intro h i hi
        rw [ta, tb]; exact h (i + 1) (by omega)
    next hne =>
      constructor
      · intro h; exfalso; apply hne; omega
      · intro h; exfalso; apply hne; rw [ha, hb]; exact h 0 (by omega)

/-! ## Parity: a block followed by its parity bits -/

theorem replicate_getD (n j : Nat) : (List.replicate n 0).getD j 0 = 0 := by
  by_cases h : j < n
  · rw [List.getD_eq_getElem _ _ (by simpa using h)]; simp
  · rw [List.getD_eq_default _ _ (by simpa using h)]

theorem drop_getD (l : List Nat) (n i : Nat) : (l.drop n).getD i 0 = l.getD (n + i) 0 := by
  simp [List.getD_eq_getElem?_getD, List.getElem?_drop]

theorem parity_encode_length (d : List Nat) : (parity_encode d).length = 10 := by
  simp [parity_encode, PARITY_SIZE]

theorem parity_encode_getD (d : List Nat) (i : Nat) (hi : i < 10) :
    (parity_encode d).getD i 0 =
      if (parity_loop 25 (d.take 25 ++ List.replicate 10 0)).getD (25 + i) 0 = 0 then 1 else 0 := by
  simp only [parity_encode, PARITY_SIZE, DATA_BLOCK_SIZE]
  rw [List.getD_eq_getElem _ _ (by simpa using hi)]
  simp

theorem parity_encode_isBits (d : List Nat) : IsBits (parity_encode d) := by
  intro x hx
  simp only [parity_encode, List.mem_map] at hx
  obtain ⟨i, _, rfl⟩ := hx
  split <;> omega

theorem isBits_append (a b : List Nat) (ha : IsBits a) (hb : IsBits b) : IsBits (a ++ b) := by
  intro x hx
  rcases List.mem_append.mp hx with h | h
  · exact ha x h
  · exact hb x h

theorem isBits_replicate_zero (n : Nat) : IsBits (List.replicate n 0) := by
  intro x hx
  rw [List.eq_of_mem_replicate hx]; omega

/-- After the division loop the ten trailing bytes of a block followed by its parity
bits are all 1. -/
theorem parity_valid_tail (info : List Nat) (hlen : info.length = 25) (hb : IsBits info) :
    ∀ i < 10, (parity_loop 25 (info ++ parity_encode info)).getD (25 + i) 0 = 1 := by
  intro i hi
  have hx : XorRel (info ++ List.replicate 10 0) (List.replicate 25 0 ++ parity_encode info)
      (info ++ parity_encode info) := by
    intro j
    by_cases hj : j < 25
    · rw [List.getD_append _ _ _ _ (by omega), List.getD_append _ _ _ _ (by omega),
        List.getD_append _ _ _ _ (by simpa using hj), replicate_getD, Nat.xor_zero]
    · rw [List.getD_append_right _ _ _ _ (by omega), List.getD_append_right _ _ _ _ (by omega),
        List.getD_append_right _ _ _ _ (by simp; omega), replicate_getD, Nat.zero_xor]
      simp [hlen]
  have h := parity_loop_xor 25 _ _ _ (isBits_append _ _ hb (isBits_replicate_zero 10))
    (isBits_append _ _ (isBits_replicate_zero 25) (parity_encode_isBits info))
    (by simp [hlen, parity_encode_length]) (by simp [hlen, parity_encode_length]) hx (25 + i)
  rw [h]
  have hz : parity_loop 25 (List.replicate 25 0 ++ parity_encode info)
      = List.replicate 25 0 ++ parity_encode info := by
    apply parity_loop_zero
    intro j hj
    rw [List.getD_append _ _ _ _ (by simpa using hj), replicate_getD]
  rw [hz, List.getD_append_right _ _ _ _ (by simp), parity_encode_getD info _ (by simp; omega)]
  have ht : info.take 25 = info := List.take_of_length_le (by omega)
  have hr := (isBits_iff_getD _).mp (parity_loop_isBits 25 _
    (isBits_append _ _ hb (isBits_replicate_zero 10))) (25 + i)
  simp only [List.length_replicate, Nat.add_sub_cancel_left, ht]
  generalize (parity_loop 25 (info ++ List.replicate 10 0)).getD (25 + i) 0 = r at *
  have : r = 0 ∨ r = 1 := by omega
  rcases this with h | h <;> subst h <;> rfl

theorem parity_remainder_getD (i : Nat) (hi : i < 10) : parity_remainder.getD i 0 = 1 := by
  have : ∀ i < 10, parity_remainder.getD i 0 = 1 := by decide
  exact this i hi

theorem parity_check_eq_zero (d : List Nat) (hlen : d.length = 35) :
    parity_check d = 0 ↔ ∀ i < 10, (parity_loop 25 d).getD (25 + i) 0 = 1 := by
  have ht : d.take 35 = d := List.take_of_length_le (by omega)
  simp only [parity_check, DATA_BLOCK_SIZE, PARITY_SIZE, ht]
  rw [memcmp_eq_zero]
  constructor
  · intro h i hi
    have := h i hi
    rwa [drop_getD, parity_remainder_getD i hi] at this
  · intro h i hi
    rw [drop_getD, parity_remainder_getD i hi]
    exact h i hi

set_option maxRecDepth 100000 in
theorem unit_block_remainder :
    ∀ p < 35, ∃ i < 10, (parity_loop 25 (unit_block p)).getD (25 + i) 0 = 1 := by
  decide

theorem flip_bit_xor (v : List Nat) (hlen : v.length = 35) (hb : IsBits v) (p : Nat) (hp : p < 35) :
    XorRel v (unit_block p) (flip_bit v p) := by
  intro j
  have hv := (isBits_iff_getD v).mp hb p
  simp only [flip_bit, unit_block, getD_set, List.length_replicate, replicate_getD, hlen, hp,
    and_true]
  split
  next h =>
    subst h
    have : v.getD j 0 = 0 ∨ v.getD j 0 = 1 := by omega
    rcases this with h | h <;> rw [h] <;> rfl
  next h => rw [Nat.xor_zero]

/-- C2: for every 25-bit info, `parity_check` returns 0 on the 35-bit block made of
info (indexes 0..24) followed by the ten bits written by `parity_encode(info)`
(indexes 25..34). -/
theorem parity_check_accepts_encoded (info : List Nat) (hlen : info.length = 25)
    (hb : IsBits info) : parity_check (info ++ parity_encode info) = 0 := by
  rw [parity_check_eq_zero _ (by simp [hlen, parity_encode_length])]
  exact parity_valid_tail info hlen hb

theorem parity_check_accepts_encoded_witness :
    parity_check ([1, 0, 1, 1, 0, 0, 1, 0, 1, 1, 1, 0, 0, 0, 1, 0, 1, 0, 1, 1, 0, 1, 0, 0, 1]
      ++ parity_encode [1, 0, 1, 1, 0, 0, 1, 0, 1, 1, 1, 0, 0, 0, 1, 0, 1, 0, 1, 1, 0, 1, 0, 0, 1])
      = 0 :=
  parity_check_accepts_encoded _ (by decide) (by decide)

/-- C3: for every 25-bit info and every position p in 0..34, flipping bit p of the
valid block (info followed by `parity_encode(info)`) makes `parity_check` return a
non-zero value. -/
theorem parity_check_rejects_single_flip (info : List Nat) (hlen : info.length = 25)
    (hb : IsBits info) (p : Nat) (hp : p < 35) :
    parity_check (flip_bit (info ++ parity_encode info) p) ≠ 0 := by
  have hl : (info ++ parity_encode info).length = 35 := by simp [hlen, parity_encode_length]
  have hbits : IsBits (info ++ parity_encode info) :=
    isBits_append _ _ hb (parity_encode_isBits info)
  rw [Ne, parity_check_eq_zero _ (by simp [flip_bit, hl])]
  intro hall
  obtain ⟨i, hi, hu⟩ := unit_block_remainder p hp
  have hx := parity_loop_xor 25 _ _ _ hbits ((isBits_iff_getD _).mpr (by
      intro j
      simp only [unit_block, getD_set, replicate_getD]
      split <;> omega))
    (by simp [hl, unit_block]) (by simp [flip_bit]) (flip_bit_xor _ hl hbits p hp) (25 + i)
  rw [hall i hi, parity_valid_tail info hlen hb i hi, hu] at hx
  exact absurd hx (by decide)

theorem parity_check_rejects_single_flip_witness :
    parity_check (flip_bit
      ([1, 0, 1, 1, 0, 0, 1, 0, 1, 1, 1, 0, 0, 0, 1, 0, 1, 0, 1, 1, 0, 1, 0, 0, 1]
        ++ parity_encode
          [1, 0, 1, 1, 0, 0, 1, 0, 1, 1, 1, 0, 0, 0, 1, 0, 1, 0, 1, 1, 0, 1, 0, 0, 1]) 7) ≠ 0 :=
  parity_check_rejects_single_flip _ (by decide) (by decide) 7 (by decide)

/-- C7: for every 39-bit input u, `conv_encode` writes exactly 78 bits, and for every
k in 0..38 output bit 2k is u[k] xor u[k-3] xor u[k-4] (generator 1 + x^3 + x^4) and
output bit 2k+1 is u[k] xor u[k-1] xor u[k-3] xor u[k-4] (generator 1 + x + x^3 + x^4),
with u[j] read as 0 for j < 0. -/
theorem conv_encode_implements_generators (u : List Nat) (hlen : u.length = 39)
    (hb : IsBits u) :
    (conv_encode u).length = 78 ∧ IsBits (conv_encode u) ∧
    ∀ k < 39,
      (conv_encode u).getD (2 * k) 0 = tap u k 0 ^^^ tap u k 3 ^^^ tap u k 4 ∧
      (conv_encode u).getD (2 * k + 1) 0
        = tap u k 0 ^^^ tap u k 1 ^^^ tap u k 3 ^^^ tap u k 4 := by
  have ht : u.take 39 = u := List.take_of_length_le (by omega)
  simp only [conv_encode, CONV_INPUT_SIZE, PARITY_OUTPUT_SIZE, DATA_BLOCK_SIZE, PARITY_SIZE,
    TAIL_BITS_SIZE, ht]
  refine ⟨by rw [conv_encode_loop_length, hlen], conv_encode_loop_isBits _ _, ?_⟩
  intro k hk
  have h := conv_encode_loop_getD u 0 k (by omega)
  rw [run_state_take u hb k (by omega)] at h
  have e0 : u.getD k 0 = tap u k 0 := by simp [tap]
  rw [e0] at h
  have hg := encode_generators _ (tap_lt u hb k 1) _ (tap_lt u hb k 2) _ (tap_lt u hb k 3) _
    (tap_lt u hb k 4) _ (tap_lt u hb k 0)
  rw [h.1, h.2]
  exact hg

theorem conv_encode_implements_generators_witness :
    (conv_encode (List.replicate 39 1)).length = 78 ∧ IsBits (conv_encode (List.replicate 39 1)) ∧
    ∀ k < 39,
      (conv_encode (List.replicate 39 1)).getD (2 * k) 0
        = tap (List.replicate 39 1) k 0 ^^^ tap (List.replicate 39 1) k 3
          ^^^ tap (List.replicate 39 1) k 4 ∧
      (conv_encode (List.replicate 39 1)).getD (2 * k + 1) 0
        = tap (List.replicate 39 1) k 0 ^^^ tap (List.replicate 39 1) k 1
          ^^^ tap (List.replicate 39 1) k 3 ^^^ tap (List.replicate 39 1) k 4 :=
  conv_encode_implements_generators _ (by decide) (by decide)

/-! ## Parity as polynomial division over GF(2) -/

section PolynomialDivision

open Polynomial

theorem cast_xor (x y : Nat) (hx : x < 2) (hy : y < 2) :
    ((x ^^^ y : ℕ) : ZMod 2) = (x : ZMod 2) + (y : ZMod 2) := by
  interval_cases x <;> interval_cases y <;> decide

theorem generator_polynomial_eq_sum :
    ∑ k in Finset.range 11, C ((parity_polynomial.getD k 0 : ℕ) : ZMod 2) * X ^ (10 - k)
      = generator_polynomial := by
  simp [Finset.sum_range_succ, parity_polynomial, generator_polynomial]

theorem block_polynomial_xor (buf : List Nat) (q : Nat) (hq : q < 25) (hlen : buf.length = 35)
    (hb : IsBits buf) :
    block_polynomial (xor_polynomial 11 buf q)
      = block_polynomial buf + X ^ (24 - q) * generator_polynomial := by
  have key : ∀ i ∈ Finset.range 35,
      C (((xor_polynomial 11 buf q).getD i 0 : ℕ) : ZMod 2) * X ^ (34 - i)
        = C ((buf.getD i 0 : ℕ) : ZMod 2) * X ^ (34 - i)
          + (if q ≤ i ∧ i < q + 11
              then C ((parity_polynomial.getD (i - q) 0 : ℕ) : ZMod 2) * X ^ (34 - i) else 0) := by
    intro i hi
    have hi2 : i < 35 := Finset.mem_range.mp hi
    rw [xor_polynomial_getD]
    by_cases c : q ≤ i ∧ i < q + 11
    · have c2 : q ≤ i ∧ i < q + 11 ∧ i < buf.length := by omega
      rw [if_pos c, if_pos c2,
        cast_xor _ _ ((isBits_iff_getD buf).mp hb i) (parity_polynomial_getD_lt _), map_add,
        add_mul]
    · have c2 : ¬ (q ≤ i ∧ i < q + 11 ∧ i < buf.length) := by omega
      rw [if_neg c, if_neg c2, add_zero]
  unfold block_polynomial
  rw [Finset.sum_congr rfl key, Finset.sum_add_distrib]
  congr 1
  rw [← Finset.sum_filter]
  have hf : (Finset.range 35).filter (fun i => q ≤ i ∧ i < q + 11) = Finset.Ico q (q + 11) := by
    ext i
    simp only [Finset.mem_filter, Finset.mem_range, Finset.mem_Ico]
    omega
  rw [hf, Finset.sum_Ico_eq_sum_range, Nat.add_sub_cancel_left, ← generator_polynomial_eq_sum,
    Finset.mul_sum]
  apply Finset.sum_congr rfl
  intro k hk
  have hk2 : k < 11 := Finset.mem_range.mp hk
  have e1 : q + k - q = k := by omega
  have e2 : 34 - (q + k) = (24 - q) + (10 - k) := by omega
  rw [e1, e2, pow_add]
  ring


theorem parity_loop_front_zero (n : Nat) (buf : List Nat) (hn : n ≤ 25) (hlen : buf.length = 35)
    (hb : IsBits buf) : ∀ j < n, (parity_loop n buf).getD j 0 = 0 := by
  induction n with
  | zero => intro j hj; omega
  | succ n ih =>
    intro j hj
    have ih2 := ih (by omega)
    have hbn := (isBits_iff_getD _).mp (parity_loop_isBits n buf hb) n
    have hl := parity_loop_length n buf
    simp only [parity_loop]
    by_cases h0 : (parity_loop n buf).getD n 0 = 0
    · rw [if_neg (not_not.mpr h0)]
      by_cases hjn : j = n
      · rw [hjn]; exact h0
      · exact ih2 j (by omega)
    · rw [if_pos h0, xor_polynomial_getD]
      by_cases hjn : j = n
      · subst hjn
        have h1 : (parity_loop j buf).getD j 0 = 1 := by omega
        rw [if_pos (by omega), h1]
        simp [parity_polynomial]
      · rw [if_neg (by omega)]
        exact ih2 j (by omega)

theorem parity_loop_congruent (n : Nat) (buf : List Nat) (hn : n ≤ 25) (hlen : buf.length = 35)
    (hb : IsBits buf) :
    ∃ f, block_polynomial (parity_loop n buf) + generator_polynomial * f = block_polynomial buf := by
  induction n with
  | zero => exact ⟨0, by simp [parity_loop]⟩
  | succ n ih =>
    obtain ⟨f, hf⟩ := ih (by omega)
    simp only [parity_loop, PARITY_SIZE]
    split
    · refine ⟨f + X ^ (24 - n), ?_⟩
      rw [block_polynomial_xor _ n (by omega) (by rw [parity_loop_length, hlen])
        (parity_loop_isBits n buf hb), ← hf]
      have h2 : X ^ (24 - n) * generator_polynomial + generator_polynomial * X ^ (24 - n) = 0 := by
        rw [mul_comm]; exact CharTwo.add_self_eq_zero _
      calc block_polynomial (parity_loop n buf) + X ^ (24 - n) * generator_polynomial
            + generator_polynomial * (f + X ^ (24 - n))
          = block_polynomial (parity_loop n buf) + generator_polynomial * f
            + (X ^ (24 - n) * generator_polynomial + generator_polynomial * X ^ (24 - n)) := by
            ring
        _ = block_polynomial (parity_loop n buf) + generator_polynomial * f := by
            rw [h2, add_zero]
    · exact ⟨f, hf⟩

theorem block_polynomial_tail (r : List Nat) (h0 : ∀ j < 25, r.getD j 0 = 0) :
    block_polynomial r
      = ∑ k in Finset.range 10, C ((r.getD (25 + k) 0 : ℕ) : ZMod 2) * X ^ (9 - k) := by
  unfold block_polynomial
  rw [show (35 : ℕ) = 25 + 10 from rfl, Finset.sum_range_add]
  have hz : ∑ i in Finset.range 25, C ((r.getD i 0 : ℕ) : ZMod 2) * X ^ (34 - i) = 0 := by
    apply Finset.sum_eq_zero
    intro i hi
    rw [h0 i (Finset.mem_range.mp hi)]
    simp
  rw [hz, zero_add]
  apply Finset.sum_congr rfl
  intro k hk
  have hk2 : k < 10 := Finset.mem_range.mp hk
  have e : 34 - (25 + k) = 9 - k := by omega
  rw [e]

theorem generator_polynomial_monic : generator_polynomial.Monic := by
  unfold generator_polynomial
  monicity!

theorem generator_polynomial_degree : generator_polynomial.degree = 10 := by
  unfold generator_polynomial
  compute_degree!

/-- The remainder of `D(x)` by `g(x)` is the polynomial of the ten trailing bytes left by
the division loop. -/
theorem block_polynomial_mod (d : List Nat) (hlen : d.length = 35) (hb : IsBits d) :
    modByMonic (block_polynomial d) generator_polynomial
      = ∑ k in Finset.range 10,
          C (((parity_loop 25 d).getD (25 + k) 0 : ℕ) : ZMod 2) * X ^ (9 - k) := by
  obtain ⟨f, hf⟩ := parity_loop_congruent 25 d (le_refl _) hlen hb
  have ht := block_polynomial_tail (parity_loop 25 d)
    (parity_loop_front_zero 25 d (le_refl _) hlen hb)
  rw [ht] at hf
  refine (div_modByMonic_unique f _ generator_polynomial_monic ⟨hf, ?_⟩).2
  rw [generator_polynomial_degree]
  have hm : (∑ k in Finset.range 10,
      C (((parity_loop 25 d).getD (25 + k) 0 : ℕ) : ZMod 2) * X ^ (9 - k))
        ∈ degreeLT (ZMod 2) 10 := by
    apply Submodule.sum_mem
    intro k hk
    rw [mem_degreeLT]
    have hk2 : k < 10 := Finset.mem_range.mp hk
    refine lt_of_le_of_lt (degree_C_mul_X_pow_le _ _) ?_
    exact_mod_cast (by omega : 9 - k < 10)
  exact mem_degreeLT.mp hm


theorem tail_polynomial_coeff (a : Nat → ZMod 2) (i : Nat) (hi : i < 10) :
    (∑ k in Finset.range 10, C (a k) * X ^ (9 - k)).coeff (9 - i) = a i := by
  rw [finset_sum_coeff, Finset.sum_eq_single i]
  · rw [coeff_C_mul_X_pow, if_pos rfl]
  · intro k hk hne
    have hk2 : k < 10 := Finset.mem_range.mp hk
    rw [coeff_C_mul_X_pow, if_neg (by omega)]
  · intro h
    exact absurd (Finset.mem_range.mpr hi) h

/-- C6: `parity_check` is polynomial division over GF(2): for every 35-bit block d it
returns 0 exactly when the remainder of `D(x) = sum of d[i] * x^(34 - i)` divided by
`g(x) = x^10 + x^8 + x^6 + x^5 + x^4 + x^2 + 1` is `x^9 + x^8 + ... + x + 1`. -/
theorem parity_check_is_polynomial_division (d : List Nat) (hlen : d.length = 35)
    (hb : IsBits d) :
    parity_check d = 0 ↔
      modByMonic (block_polynomial d) generator_polynomial
        = ∑ i in Finset.range 10, (X : Polynomial (ZMod 2)) ^ i := by
  rw [parity_check_eq_zero d hlen, block_polynomial_mod d hlen hb,
    ← Finset.sum_range_reflect (fun i => (X : Polynomial (ZMod 2)) ^ i) 10]
  constructor
  · intro h
    apply Finset.sum_congr rfl
    intro k hk
    rw [h k (Finset.mem_range.mp hk)]
    simp
  · intro h i hi
    have hc := congrArg (fun p => p.coeff (9 - i)) h
    simp only at hc
    rw [tail_polynomial_coeff (fun k => (((parity_loop 25 d).getD (25 + k) 0 : ℕ) : ZMod 2)) i hi]
      at hc
    have h1 : (∑ j in Finset.range 10, (X : Polynomial (ZMod 2)) ^ (10 - 1 - j)).coeff (9 - i)
        = 1 := by
      have := tail_polynomial_coeff (fun _ => (1 : ZMod 2)) i hi
      simpa using this
    rw [h1] at hc
    have hbit := (isBits_iff_getD _).mp (parity_loop_isBits 25 d hb) (25 + i)
    generalize (parity_loop 25 d).getD (25 + i) 0 = r at *
    have : r = 0 ∨ r = 1 := by omega
    rcases this with h | h
    · subst h; exact absurd hc (by decide)
    · exact h

theorem parity_check_is_polynomial_division_witness :
    parity_check (List.replicate 25 0 ++ List.replicate 10 1) = 0 ↔
      modByMonic (block_polynomial (List.replicate 25 0 ++ List.replicate 10 1))
          generator_polynomial
        = ∑ i in Finset.range 10, (X : Polynomial (ZMod 2)) ^ i :=
  parity_check_is_polynomial_division _ (by decide) (by decide)

end PolynomialDivision

/-! ## The forward pass of the Viterbi decoders -/

section Forward

variable {α : Type} [LinearOrderedSemiring α]

theorem relax_of_lt (d : Nat → α) (t st b : Nat) (T : Trellis α)
    (h : T.ae st + d (encode st b) < T.nae (next_state st b)) :
    relax d t st b T =
      { T with
        nae := Function.update T.nae (next_state st b) (T.ae st + d (encode st b))
        state_history := Function.update T.state_history (next_state st b)
          (Function.update (T.state_history (next_state st b)) (t + 1) st) } := by
  unfold relax
  exact if_pos h

theorem relax_of_not_lt (d : Nat → α) (t st b : Nat) (T : Trellis α)
    (h : ¬ T.ae st + d (encode st b) < T.nae (next_state st b)) :
    relax d t st b T = T := by
  unfold relax
  exact if_neg h

theorem relax_edgeInv (d : Nat → α) (t : Nat) (T0 : Trellis α) (Done : Nat → Nat → Prop)
    (T : Trellis α) (st b : Nat) (h : EdgeInv d t T0 Done T) :
    EdgeInv d t T0 (fun st2 b2 => Done st2 b2 ∨ (st2 = st ∧ b2 = b)) (relax d t st b T) := by
  obtain ⟨hae, hfr, hlo, hat⟩ := h
  by_cases hlt : T.ae st + d (encode st b) < T.nae (next_state st b)
  · rw [relax_of_lt d t st b T hlt]
    refine ⟨hae, ?_, ?_, ?_⟩
    · intro s t2 ht2
      show Function.update T.state_history (next_state st b)
        (Function.update (T.state_history (next_state st b)) (t + 1) st) s t2 = _
      by_cases hs : s = next_state st b
      · subst hs
        rw [Function.update_same, Function.update_noteq ht2]
        exact hfr _ _ ht2
      · rw [Function.update_noteq hs]
        exact hfr _ _ ht2
    · intro st2 b2 hD
      show Function.update T.nae (next_state st b) (T.ae st + d (encode st b))
        (next_state st2 b2) ≤ _
      rcases hD with hD | ⟨h1, h2⟩
      · by_cases hs : next_state st2 b2 = next_state st b
        · rw [hs, Function.update_same]
          have := hlo st2 b2 hD
          rw [hs] at this
          exact le_of_lt (lt_of_lt_of_le hlt this)
        · rw [Function.update_noteq hs]
          exact hlo st2 b2 hD
      · subst h1; subst h2
        rw [Function.update_same, hae]
    · intro s
      by_cases hs : s = next_state st b
      · right
        refine ⟨st, b, Or.inr ⟨rfl, rfl⟩, hs.symm, ?_, ?_⟩
        · show Function.update T.nae (next_state st b) (T.ae st + d (encode st b)) s = _
          rw [hs, Function.update_same, hae]
        · show Function.update T.state_history (next_state st b)
            (Function.update (T.state_history (next_state st b)) (t + 1) st) s (t + 1) = _
          rw [hs, Function.update_same, Function.update_same]
      · rcases hat s with h | ⟨st2, b2, hD, hn, hv, hh⟩
        · left
          show Function.update T.nae (next_state st b) (T.ae st + d (encode st b)) s = _
          rw [Function.update_noteq hs]
          exact h
        · right
          refine ⟨st2, b2, Or.inl hD, hn, ?_, ?_⟩
          · show Function.update T.nae (next_state st b) (T.ae st + d (encode st b)) s = _
            rw [Function.update_noteq hs]
            exact hv
          · show Function.update T.state_history (next_state st b)
              (Function.update (T.state_history (next_state st b)) (t + 1) st) s (t + 1) = _
            rw [Function.update_noteq hs]
            exact hh
  · rw [relax_of_not_lt d t st b T hlt]
    refine ⟨hae, hfr, ?_, ?_⟩
    · intro st2 b2 hD
      rcases hD with hD | ⟨h1, h2⟩
      · exact hlo st2 b2 hD
      · subst h1; subst h2
        rw [← hae]
        exact not_lt.mp hlt
    · intro s
      rcases hat s with h | ⟨st2, b2, hD, hn, hv, hh⟩
      · exact Or.inl h
      · exact Or.inr ⟨st2, b2, Or.inl hD, hn, hv, hh⟩

theorem edgeInv_congr (d : Nat → α) (t : Nat) (T0 : Trellis α) (Done Done2 : Nat → Nat → Prop)
    (T : Trellis α) (hd : ∀ st b, Done st b ↔ Done2 st b) (h : EdgeInv d t T0 Done T) :
    EdgeInv d t T0 Done2 T := by
  obtain ⟨hae, hfr, hlo, hat⟩ := h
  refine ⟨hae, hfr, fun st b hD => hlo st b ((hd st b).mpr hD), ?_⟩
  intro s
  rcases hat s with h | ⟨st2, b2, hD, hn, hv, hh⟩
  · exact Or.inl h
  · exact Or.inr ⟨st2, b2, (hd _ _).mp hD, hn, hv, hh⟩

theorem visit_state_edgeInv (d : Nat → α) (t : Nat) (T0 T : Trellis α) (k : Nat)
    (h : EdgeInv d t T0 (DoneUpTo T0.ae k) T) :
    EdgeInv d t T0 (DoneUpTo T0.ae (k + 1)) (visit_state d t T k) := by
  unfold visit_state
  by_cases hk : T.ae k ≥ (MAX_ERROR : α)
  · rw [if_pos hk]
    refine edgeInv_congr d t T0 _ _ T ?_ h
    intro st b
    rw [h.1] at hk
    unfold DoneUpTo
    constructor
    · rintro ⟨h1, h2, h3⟩; exact ⟨by omega, h2, h3⟩
    · rintro ⟨h1, h2, h3⟩
      refine ⟨?_, h2, h3⟩
      rcases Nat.lt_succ_iff_lt_or_eq.mp h1 with h4 | h4
      · exact h4
      · subst h4; exact absurd h3 (not_lt.mpr hk)
  · rw [if_neg hk]
    have h2 := relax_edgeInv d t T0 _ _ k 1 (relax_edgeInv d t T0 _ T k 0 h)
    refine edgeInv_congr d t T0 _ _ _ ?_ h2
    intro st b
    rw [h.1] at hk
    have hk2 : T0.ae k < (MAX_ERROR : α) := not_le.mp hk
    unfold DoneUpTo
    constructor
    · rintro ((⟨e1, e2, e3⟩ | ⟨e1, e2⟩) | ⟨e1, e2⟩)
      · exact ⟨by omega, e2, e3⟩
      · subst e1; subst e2; exact ⟨by omega, by omega, hk2⟩
      · subst e1; subst e2; exact ⟨by omega, by omega, hk2⟩
    · rintro ⟨h1, h2, h3⟩
      rcases Nat.lt_succ_iff_lt_or_eq.mp h1 with h4 | h4
      · exact Or.inl (Or.inl ⟨h4, h2, h3⟩)
      · have : b = 0 ∨ b = 1 := by omega
        rcases this with h5 | h5
        · exact Or.inl (Or.inr ⟨h4, h5⟩)
        · exact Or.inr ⟨h4, h5⟩

theorem foldl_visit_state_edgeInv (d : Nat → α) (t : Nat) (T0 : Trellis α)
    (h0 : ∀ s, T0.nae s = (MAX_ERROR : α)) (k : Nat) :
    EdgeInv d t T0 (DoneUpTo T0.ae k) ((List.range k).foldl (visit_state d t) T0) := by
  induction k with
  | zero =>
    refine ⟨rfl, fun _ _ _ => rfl, ?_, fun s => Or.inl (h0 s)⟩
    intro st b hD
    exact absurd hD.1 (Nat.not_lt_zero _)
  | succ k ih =>
    rw [List.range_succ, List.foldl_append]
    exact visit_state_edgeInv d t T0 _ k ih

end Forward

/-! ## Paths through the trellis -/

section Paths

variable {α : Type} [LinearOrderedSemiring α]

theorem path_metric_snoc (dist : Nat → Nat → α) (u : List Nat) (b : Nat) : ∀ t s,
    path_metric dist t s (u ++ [b])
      = path_metric dist t s u + dist (t + u.length) (encode (run_state s u) b) := by
  induction u with
  | nil => intro t s; simp [path_metric, run_state]
  | cons d ds ih =>
    intro t s
    have e : t + 1 + ds.length = t + (ds.length + 1) := by omega
    show dist t (encode s d) + path_metric dist (t + 1) (next_state s d) (ds ++ [b])
      = (dist t (encode s d) + path_metric dist (t + 1) (next_state s d) ds)
        + dist (t + (ds.length + 1)) (encode (run_state (next_state s d) ds) b)
    rw [ih, e, add_assoc]

theorem path_metric_bounds (dist : Nat → Nat → α) (hd : ∀ t o, 0 ≤ dist t o ∧ dist t o ≤ 2)
    (u : List Nat) : ∀ t s,
    0 ≤ path_metric dist t s u ∧ path_metric dist t s u ≤ ((2 * u.length : ℕ) : α) := by
  induction u with
  | nil => intro t s; simp [path_metric]
  | cons d ds ih =>
    intro t s
    obtain ⟨h1, h2⟩ := ih (t + 1) (next_state s d)
    obtain ⟨h3, h4⟩ := hd t (encode s d)
    simp only [path_metric, List.length_cons]
    refine ⟨add_nonneg h3 h1, ?_⟩
    have e : ((2 * (ds.length + 1) : ℕ) : α) = 2 + ((2 * ds.length : ℕ) : α) := by
      push_cast; rw [mul_add, mul_one, add_comm]
    rw [e]
    exact add_le_add h4 h2

theorem traceback_congr (h1 h2 : Nat → Nat → Nat) (n : Nat) :
    (∀ s t, t ≤ n → h1 s t = h2 s t) → ∀ s, traceback h1 n s = traceback h2 n s := by
  induction n with
  | zero => intro _ s; rfl
  | succ n ih =>
    intro h s
    simp only [traceback]
    rw [h s (n + 1) (le_refl _), ih (fun s t ht => h s t (by omega))]

theorem traceback_length (h : Nat → Nat → Nat) (n : Nat) : ∀ s, (traceback h n s).length = n := by
  induction n with
  | zero => intro s; rfl
  | succ n ih => intro s; simp [traceback, ih]

theorem exists_snoc (u : List Nat) (n : Nat) (hlen : u.length = n + 1) (hb : IsBits u) :
    ∃ v b, u = v ++ [b] ∧ v.length = n ∧ IsBits v ∧ b < 2 := by
  have hne : u ≠ [] := by intro h; rw [h] at hlen; simp at hlen
  refine ⟨u.dropLast, u.getLast hne, (List.dropLast_append_getLast hne).symm, ?_, ?_, ?_⟩
  · rw [List.length_dropLast, hlen]; rfl
  · intro x hx; exact hb x (List.mem_of_mem_dropLast hx)
  · exact hb _ (List.getLast_mem hne)

theorem max_error_cast : ((MAX_ERROR : ℕ) : α) = 79 := by
  simp [MAX_ERROR, CONV_INPUT_SIZE, PARITY_OUTPUT_SIZE, DATA_BLOCK_SIZE, PARITY_SIZE,
    TAIL_BITS_SIZE]

theorem lt_max_error (n : Nat) (hn : n ≤ 39) (x : α) (hx : x ≤ ((2 * n : ℕ) : α)) :
    x < ((MAX_ERROR : ℕ) : α) := by
  refine lt_of_le_of_lt hx ?_
  have : 2 * n < MAX_ERROR := by
    simp only [MAX_ERROR, CONV_INPUT_SIZE, PARITY_OUTPUT_SIZE, DATA_BLOCK_SIZE, PARITY_SIZE,
      TAIL_BITS_SIZE]
    omega
  exact_mod_cast this

theorem pathInv_init (dist : Nat → Nat → α) (h0 : Nat → Nat → Nat) :
    PathInv dist 0
      { ae := Function.update (fun _ => ((MAX_ERROR : ℕ) : α)) 0 0
        nae := fun _ => ((MAX_ERROR : ℕ) : α)
        state_history := h0 } := by
  refine ⟨fun _ => rfl, ?_, ?_⟩
  · intro u _ hlen
    have : u = [] := List.length_eq_zero.mp hlen
    subst this
    simp [run_state, path_metric]
  · intro s
    by_cases hs : s = 0
    · right
      subst hs
      exact ⟨[], by intro x hx; simp at hx, rfl, rfl, by simp [path_metric], rfl⟩
    · left
      show Function.update (fun _ => ((MAX_ERROR : ℕ) : α)) 0 0 s = _
      rw [Function.update_noteq hs]

theorem pathInv_step (dist : Nat → Nat → α) (hd : ∀ t o, 0 ≤ dist t o ∧ dist t o ≤ 2)
    (n : Nat) (hn : n < 39) (T : Trellis α) (h : PathInv dist n T) :
    PathInv dist (n + 1) (trellis_stage (dist n) n T) := by
  obtain ⟨hnae, hlo, hat⟩ := h
  have h16 : 1 <<< (K - 1) = 16 := by decide
  obtain ⟨eae, efr, elo, eat⟩ := foldl_visit_state_edgeInv (dist n) n T hnae 16
  unfold trellis_stage next_slice
  rw [h16]
  refine ⟨fun _ => rfl, ?_, ?_⟩
  · intro u hb hlen
    obtain ⟨v, b, rfl, hvl, hvb, hb2⟩ := exists_snoc u n hlen hb
    have hst := run_state_lt v hvb 0 (by omega)
    have hle := hlo v hvb hvl
    have hbound := (path_metric_bounds dist hd v 0 0).2
    rw [hvl] at hbound
    have hD : DoneUpTo T.ae 16 (run_state 0 v) b :=
      ⟨hst, hb2, lt_max_error n (by omega) _ (le_trans hle hbound)⟩
    have := elo _ _ hD
    rw [run_state_append, path_metric_snoc, hvl, Nat.zero_add]
    show ((List.range 16).foldl (visit_state (dist n) n) T).nae
      (run_state (run_state 0 v) [b]) ≤ _
    exact le_trans this (add_le_add_right hle _)
  · intro s
    rcases eat s with hl | ⟨st, b, hD, hns, hv, hh⟩
    · exact Or.inl hl
    · right
      obtain ⟨hst, hb2, hlt⟩ := hD
      rcases hat st with hm | ⟨v, hvb, hvl, hvs, hvm, hvt⟩
      · exact absurd hm (ne_of_lt hlt)
      · refine ⟨v ++ [b], isBits_append _ _ hvb (by intro x hx; simp at hx; omega), by simp [hvl],
          ?_, ?_, ?_⟩
        · rw [run_state_append, hvs]; exact hns
        · rw [path_metric_snoc, hvl, Nat.zero_add, hvs, hvm]
          exact hv.symm
        · show traceback ((List.range 16).foldl (visit_state (dist n) n) T).state_history
            (n + 1) s = _
          simp only [traceback]
          rw [hh, traceback_congr _ T.state_history n (fun s t ht => efr s t (by omega)), hvt,
            ← hns, prev_next_state_next st hst b hb2]

theorem pathInv_build (dist : Nat → Nat → α) (hd : ∀ t o, 0 ≤ dist t o ∧ dist t o ≤ 2)
    (h0 : Nat → Nat → Nat) (n : Nat) (hn : n ≤ 39) :
    PathInv dist n (build_trellis dist n
      { ae := Function.update (fun _ => ((MAX_ERROR : ℕ) : α)) 0 0
        nae := fun _ => ((MAX_ERROR : ℕ) : α)
        state_history := h0 }) := by
  induction n with
  | zero => exact pathInv_init dist h0
  | succ n ih => exact pathInv_step dist hd n (by omega) _ (ih (by omega))

theorem select_min_spec (ae : Nat → α) (k : Nat) :
    (∀ i < k, (select_min ae k).2 ≤ ae i) ∧ (select_min ae k).2 ≤ ((MAX_ERROR : ℕ) : α) ∧
    ((select_min ae k).2 = ((MAX_ERROR : ℕ) : α) ∨
      ((select_min ae k).1 < k ∧ ae (select_min ae k).1 = (select_min ae k).2)) := by
  induction k with
  | zero => exact ⟨fun i hi => absurd hi (Nat.not_lt_zero _), le_refl _, Or.inl rfl⟩
  | succ k ih =>
    obtain ⟨h1, h2, h3⟩ := ih
    simp only [select_min]
    by_cases hlt : ae k < (select_min ae k).2
    · rw [if_pos hlt]
      refine ⟨?_, le_of_lt (lt_of_lt_of_le hlt h2), Or.inr ⟨by simp, rfl⟩⟩
      intro i hi
      rcases Nat.lt_succ_iff_lt_or_eq.mp hi with h | h
      · exact le_trans (le_of_lt hlt) (h1 i h)
      · subst h; exact le_refl _
    · rw [if_neg hlt]
      refine ⟨?_, h2, ?_⟩
      · intro i hi
        rcases Nat.lt_succ_iff_lt_or_eq.mp hi with h | h
        · exact h1 i h
        · subst h; exact not_lt.mp hlt
      · rcases h3 with h | ⟨h, h4⟩
        · exact Or.inl h
        · exact Or.inr ⟨by omega, h4⟩

/-- The decoder returns a path of minimum accumulated distance, for every distance with
values in [0, 2]. -/
theorem viterbi_optimal (dist : Nat → Nat → α) (hd : ∀ t o, 0 ≤ dist t o ∧ dist t o ≤ 2)
    (h0 : Nat → Nat → Nat) :
    (viterbi dist h0).1.length = 39 ∧ IsBits (viterbi dist h0).1 ∧
    path_metric dist 0 0 (viterbi dist h0).1 = (viterbi dist h0).2 ∧
    ∀ u, u.length = 39 → IsBits u → (viterbi dist h0).2 ≤ path_metric dist 0 0 u := by
  have h16 : 1 <<< (K - 1) = 16 := by decide
  have h39 : CONV_INPUT_SIZE = 39 := by decide
  obtain ⟨_, hlo, hat⟩ := pathInv_build dist hd h0 39 (le_refl _)
  simp only [viterbi, h16, h39]
  generalize build_trellis dist 39
      { ae := Function.update (fun _ => ((MAX_ERROR : ℕ) : α)) 0 0
        nae := fun _ => ((MAX_ERROR : ℕ) : α)
        state_history := h0 } = T at *
  obtain ⟨m1, m2, m3⟩ := select_min_spec T.ae 16
  have hall : ∀ u, u.length = 39 → IsBits u → (select_min T.ae 16).2 ≤ path_metric dist 0 0 u := by
    intro u hlen hb
    exact le_trans (m1 _ (run_state_lt u hb 0 (by omega))) (hlo u hb hlen)
  have hz := hall (List.replicate 39 0) (by simp) (isBits_replicate_zero 39)
  have hzb := (path_metric_bounds dist hd (List.replicate 39 0) 0 0).2
  have hlt : (select_min T.ae 16).2 < ((MAX_ERROR : ℕ) : α) :=
    lt_max_error 39 (le_refl _) _ (le_trans hz (by simpa using hzb))
  rcases m3 with hm | ⟨hm1, hm2⟩
  · exact absurd hm (ne_of_lt hlt)
  · rcases hat (select_min T.ae 16).1 with hx | ⟨u, hub, hul, hus, hum, hut⟩
    · rw [hm2] at hx; exact absurd hx (ne_of_lt hlt)
    · rw [hut]
      exact ⟨hul, hub, by rw [hum, hm2], hall⟩

end Paths

/-! ## The hard decoder and the Hamming distance -/

theorem hard_symbol_distance : ∀ r0 < 2, ∀ r1 < 2, ∀ o < 4,
    hamming_distance2 (((r0 <<< 1) ||| r1) ^^^ o)
      = (if r0 = bit_hi o then 0 else 1) + (if r1 = bit_lo o then 0 else 1) := by decide

theorem encode_injective : ∀ s < 16, ∀ b < 2, ∀ c < 2,
    bit_hi (encode s b) = bit_hi (encode s c) → b = c := by decide

theorem hamming_distance2_le (w : Nat) : hamming_distance2 w ≤ 2 := by
  unfold hamming_distance2
  have h : w &&& 1 ≤ 1 := Nat.and_le_right
  split <;> omega

theorem hard_distance_bounds (data : List Nat) :
    ∀ t o, 0 ≤ hard_distance data t o ∧ hard_distance data t o ≤ 2 :=
  fun _ _ => ⟨Nat.zero_le _, hamming_distance2_le _⟩

theorem hamming_distance_cons (x y : Nat) (xs ys : List Nat) :
    hamming_distance (x :: xs) (y :: ys) = (if x = y then 0 else 1) + hamming_distance xs ys := by
  simp [hamming_distance]

theorem hamming_distance_self (a : List Nat) : hamming_distance a a = 0 := by
  induction a with
  | nil => rfl
  | cons x xs ih => rw [hamming_distance_cons, ih]; simp

theorem eq_of_hamming_distance_zero (a : List Nat) : ∀ b : List Nat, a.length = b.length →
    hamming_distance a b = 0 → a = b := by
  induction a with
  | nil => intro b hl _; exact (List.length_eq_zero.mp hl.symm).symm
  | cons x xs ih =>
    intro b hl h
    cases b with
    | nil => simp at hl
    | cons y ys =>
      rw [hamming_distance_cons] at h
      have hxy : x = y := by
        by_contra hne
        rw [if_neg hne] at h
        omega
      have := ih ys (by simpa using hl) (by omega)
      rw [hxy, this]

theorem path_metric_hard (r : List Nat) (hr : IsBits r) (u : List Nat) (hu : IsBits u) :
    ∀ t s, s < 16 → 2 * t + 2 * u.length ≤ r.length →
    path_metric (hard_distance r) t s u
      = hamming_distance ((r.drop (2 * t)).take (2 * u.length)) (conv_encode_loop s u) := by
  induction u with
  | nil => intro t s _ _; simp [path_metric, conv_encode_loop, hamming_distance]
  | cons d ds ih =>
    intro t s hs hlen
    simp only [List.length_cons] at hlen
    have hd : d < 2 := hu d (by simp)
    have hds : IsBits ds := fun x hx => hu x (by simp [hx])
    have h1 : 2 * t < r.length := by omega
    have h2 : 2 * t + 1 < r.length := by omega
    have e1 : r.drop (2 * t) = r[2 * t] :: r[2 * t + 1] :: r.drop (2 * (t + 1)) := by
      rw [List.drop_eq_getElem_cons h1, List.drop_eq_getElem_cons h2]
      rfl
    have e2 : 2 * (ds.length + 1) = 2 * ds.length + 1 + 1 := by omega
    have hb1 : r[2 * t] < 2 := hr _ (List.getElem_mem h1)
    have hb2 : r[2 * t + 1] < 2 := hr _ (List.getElem_mem h2)
    simp only [path_metric, conv_encode_loop, List.length_cons]
    rw [e1, e2, List.take_succ_cons, List.take_succ_cons, hamming_distance_cons,
      hamming_distance_cons, ← ih hds (t + 1) _ (next_state_lt s hs d hd) (by omega), ← add_assoc]
    congr 1
    unfold hard_distance
    rw [List.getD_eq_getElem _ _ h1, List.getD_eq_getElem _ _ h2]
    exact hard_symbol_distance _ hb1 _ hb2 _ (encode_lt s hs d hd)

theorem conv_encode_loop_injective (u : List Nat) (hu : IsBits u) : ∀ (v : List Nat) (s : Nat),
    IsBits v → s < 16 → conv_encode_loop s u = conv_encode_loop s v → u = v := by
  induction u with
  | nil =>
    intro v s _ _ h
    cases v with
    | nil => rfl
    | cons y ys => simp [conv_encode_loop] at h
  | cons x xs ih =>
    intro v s hv hs h
    cases v with
    | nil => simp [conv_encode_loop] at h
    | cons y ys =>
      simp only [conv_encode_loop, List.cons.injEq] at h
      obtain ⟨h1, _, h3⟩ := h
      have hx : x < 2 := hu x (by simp)
      have hy : y < 2 := hv y (by simp)
      have hxy := encode_injective s hs x hx y hy h1
      subst hxy
      rw [ih (fun z hz => hu z (by simp [hz])) ys _ (fun z hz => hv z (by simp [hz]))
        (next_state_lt s hs x hx) h3]

theorem conv_encode_eq_loop (u : List Nat) (hlen : u.length = 39) :
    conv_encode u = conv_encode_loop 0 u := by
  have ht : u.take 39 = u := List.take_of_length_le (by omega)
  simp only [conv_encode, CONV_INPUT_SIZE, PARITY_OUTPUT_SIZE, DATA_BLOCK_SIZE, PARITY_SIZE,
    TAIL_BITS_SIZE, ht]

theorem path_metric_hard_full (r : List Nat) (hr : IsBits r) (hrl : r.length = 78)
    (u : List Nat) (hu : IsBits u) (hul : u.length = 39) :
    path_metric (hard_distance r) 0 0 u = hamming_distance r (conv_encode u) := by
  rw [path_metric_hard r hr u hu 0 0 (by omega) (by omega), conv_encode_eq_loop u hul]
  have : (r.drop (2 * 0)).take (2 * u.length) = r := by
    simp only [Nat.mul_zero, List.drop_zero]
    exact List.take_of_length_le (by omega)
  rw [this]

/-- A path of distance 0 that is the only one of distance 0 is what the decoder
returns, with error 0. -/
theorem viterbi_exact {α : Type} [LinearOrderedSemiring α] (dist : Nat → Nat → α)
    (hd : ∀ t o, 0 ≤ dist t o ∧ dist t o ≤ 2) (h0 : Nat → Nat → Nat) (u : List Nat)
    (hul : u.length = 39) (hub : IsBits u) (hz : path_metric dist 0 0 u = 0)
    (huniq : ∀ v, v.length = 39 → IsBits v → path_metric dist 0 0 v = 0 → v = u) :
    viterbi dist h0 = (u, 0) := by
  obtain ⟨h1, h2, h3, h4⟩ := viterbi_optimal dist hd h0
  have hle := h4 u hul hub
  rw [hz] at hle
  have hge := (path_metric_bounds dist hd (viterbi dist h0).1 0 0).1
  rw [h3] at hge
  have he : (viterbi dist h0).2 = 0 := le_antisymm hle hge
  rw [he] at h3
  exact Prod.ext (huniq _ h1 h2 h3) he

theorem conv_decode_conv_encode (h0 : Nat → Nat → Nat) (u : List Nat) (hul : u.length = 39)
    (hub : IsBits u) : conv_decode h0 (conv_encode u) = (u, 0) := by
  have hrb : IsBits (conv_encode u) := by
    rw [conv_encode_eq_loop u hul]; exact conv_encode_loop_isBits _ _
  have hrl : (conv_encode u).length = 78 := by
    rw [conv_encode_eq_loop u hul, conv_encode_loop_length, hul]
  refine viterbi_exact _ (hard_distance_bounds _) h0 u hul hub ?_ ?_
  · rw [path_metric_hard_full _ hrb hrl u hub hul, hamming_distance_self]
  · intro v hvl hvb hv
    rw [path_metric_hard_full _ hrb hrl v hvb hvl] at hv
    have hvl2 : (conv_encode v).length = 78 := by
      rw [conv_encode_eq_loop v hvl, conv_encode_loop_length, hvl]
    have := eq_of_hamming_distance_zero _ _ (by rw [hrl, hvl2]) hv
    rw [conv_encode_eq_loop u hul, conv_encode_eq_loop v hvl] at this
    exact (conv_encode_loop_injective u hub v 0 hvb (by omega) this).symm

/-- C1: for every 39-bit sequence u (in particular info followed by its parity bits and
four zero tail bits), `conv_decode` applied to the 78 bits written by `conv_encode(u)`
outputs exactly u and returns 0 errors, whatever the initial content of the local array
`state_history`. -/
theorem conv_decode_inverts_conv_encode (state_history : Nat → Nat → Nat) (u : List Nat)
    (hlen : u.length = 39) (hbits : IsBits u) :
    conv_decode state_history (conv_encode u) = (u, 0) :=
  conv_decode_conv_encode state_history u hlen hbits

theorem conv_decode_inverts_conv_encode_witness :
    conv_decode (fun _ _ => 0)
      (conv_encode [1, 0, 1, 1, 0, 0, 1, 0, 1, 1, 1, 0, 0, 0, 1, 0, 1, 0, 1, 1, 0, 1, 0, 0, 1,
        0, 1, 0, 1, 1, 1, 1, 0, 1, 0, 0, 0, 0, 0])
      = ([1, 0, 1, 1, 0, 0, 1, 0, 1, 1, 1, 0, 0, 0, 1, 0, 1, 0, 1, 1, 0, 1, 0, 0, 1,
        0, 1, 0, 1, 1, 1, 1, 0, 1, 0, 0, 0, 0, 0], 0) :=
  conv_decode_inverts_conv_encode _ _ (by decide) (by decide)

/-- C5: maximum-likelihood decoding: for every 78-bit received sequence r, with out the
39 output bits and e the return value of `conv_decode(r)`, e is the Hamming distance
between r and `conv_encode(out)`, and no 39-bit u has a smaller Hamming distance between
r and `conv_encode(u)`. -/
theorem conv_decode_maximum_likelihood (state_history : Nat → Nat → Nat) (r : List Nat)
    (hlen : r.length = 78) (hbits : IsBits r) :
    (conv_decode state_history r).1.length = 39 ∧ IsBits (conv_decode state_history r).1 ∧
    (conv_decode state_history r).2
      = hamming_distance r (conv_encode (conv_decode state_history r).1) ∧
    ∀ u, u.length = 39 → IsBits u →
      (conv_decode state_history r).2 ≤ hamming_distance r (conv_encode u) := by
  obtain ⟨h1, h2, h3, h4⟩ := viterbi_optimal (hard_distance r) (hard_distance_bounds r)
    state_history
  unfold conv_decode
  refine ⟨h1, h2, ?_, ?_⟩
  · rw [← path_metric_hard_full r hbits hlen _ h2 h1]
    exact h3.symm
  · intro u hul hub
    rw [← path_metric_hard_full r hbits hlen u hub hul]
    exact h4 u hul hub

theorem conv_decode_maximum_likelihood_witness :
    (conv_decode (fun _ _ => 0) (List.replicate 78 1)).1.length = 39 ∧
    IsBits (conv_decode (fun _ _ => 0) (List.replicate 78 1)).1 ∧
    (conv_decode (fun _ _ => 0) (List.replicate 78 1)).2
      = hamming_distance (List.replicate 78 1)
          (conv_encode (conv_decode (fun _ _ => 0) (List.replicate 78 1)).1) ∧
    ∀ u, u.length = 39 → IsBits u →
      (conv_decode (fun _ _ => 0) (List.replicate 78 1)).2
        ≤ hamming_distance (List.replicate 78 1) (conv_encode u) :=
  conv_decode_maximum_likelihood _ _ (by decide) (by decide)

/-! ## Field extraction and `decode_sch` -/

theorem add26_loop_spec (tt t2 : Int) :
    t2 ≤ add26_loop tt t2 ∧ ∃ k : Nat, add26_loop tt t2 = tt + 26 * k := by
  induction tt, t2 using add26_loop.induct with
  | case1 tt t2 h ih =>
    rw [add26_loop, if_pos h]
    obtain ⟨h1, k, hk⟩ := ih
    exact ⟨h1, k + 1, by rw [hk]; push_cast; ring⟩
  | case2 tt t2 h =>
    rw [add26_loop, if_neg h]
    exact ⟨by omega, 0, by simp⟩

theorem bsic_bits : ∀ a < 2, ∀ b < 2, ∀ c < 2, ∀ d < 2, ∀ e < 2, ∀ f < 2,
    (a <<< 5) ||| (b <<< 4) ||| (c <<< 3) ||| (d <<< 2) ||| (e <<< 1) ||| (f <<< 0)
      = 32 * a + 16 * b + 8 * c + 4 * d + 2 * e + f := by decide

theorem t1_high_bits : ∀ a < 2, ∀ b < 2, ∀ c < 2, ∀ d < 2, ∀ e < 2, ∀ f < 2,
    (a <<< 10) ||| (b <<< 9) ||| (c <<< 8) ||| (d <<< 7) ||| (e <<< 6) ||| (f <<< 5)
      = 32 * (32 * a + 16 * b + 8 * c + 4 * d + 2 * e + f) := by decide

theorem t1_low_bits : ∀ m < 64, ∀ g < 2, ∀ h < 2, ∀ i < 2, ∀ j < 2, ∀ k < 2,
    (32 * m) ||| (g <<< 4) ||| (h <<< 3) ||| (i <<< 2) ||| (j <<< 1) ||| (k <<< 0)
      = 32 * m + 16 * g + 8 * h + 4 * i + 2 * j + k := by decide

theorem t2_bits : ∀ a < 2, ∀ b < 2, ∀ c < 2, ∀ d < 2, ∀ e < 2,
    (a <<< 4) ||| (b <<< 3) ||| (c <<< 2) ||| (d <<< 1) ||| (e <<< 0)
      = 16 * a + 8 * b + 4 * c + 2 * d + e := by decide

theorem t3p_bits : ∀ a < 2, ∀ b < 2, ∀ c < 2,
    (a <<< 2) ||| (b <<< 1) ||| (c <<< 0) = 4 * a + 2 * b + c := by decide

theorem sch_bsic_eq (dd : List Nat) (hb : IsBits dd) :
    sch_bsic dd = msb_value (pick dd [7, 6, 5, 4, 3, 2]) := by
  have g := (isBits_iff_getD dd).mp hb
  unfold sch_bsic
  rw [bsic_bits _ (g 7) _ (g 6) _ (g 5) _ (g 4) _ (g 3) _ (g 2)]
  simp only [msb_value, pick, List.map, List.foldl]
  omega

theorem sch_t1_eq (dd : List Nat) (hb : IsBits dd) :
    sch_t1 dd = msb_value (pick dd [1, 0, 15, 14, 13, 12, 11, 10, 9, 8, 23]) := by
  have g := (isBits_iff_getD dd).mp hb
  unfold sch_t1
  rw [t1_high_bits _ (g 1) _ (g 0) _ (g 15) _ (g 14) _ (g 13) _ (g 12),
    t1_low_bits _ (by have := g 1; have := g 0; have := g 15; have := g 14; have := g 13
                      have := g 12; omega) _ (g 11) _ (g 10) _ (g 9) _ (g 8) _ (g 23)]
  simp only [msb_value, pick, List.map, List.foldl]
  omega

theorem sch_t2_eq (dd : List Nat) (hb : IsBits dd) :
    sch_t2 dd = msb_value (pick dd [22, 21, 20, 19, 18]) := by
  have g := (isBits_iff_getD dd).mp hb
  unfold sch_t2
  rw [t2_bits _ (g 22) _ (g 21) _ (g 20) _ (g 19) _ (g 18)]
  simp only [msb_value, pick, List.map, List.foldl]
  omega

theorem sch_t3p_eq (dd : List Nat) (hb : IsBits dd) :
    sch_t3p dd = msb_value (pick dd [17, 16, 24]) := by
  have g := (isBits_iff_getD dd).mp hb
  unfold sch_t3p
  rw [t3p_bits _ (g 17) _ (g 16) _ (g 24)]
  simp only [msb_value, pick, List.map, List.foldl]
  omega

theorem sch_fields_le (dd : List Nat) (hb : IsBits dd) :
    sch_bsic dd ≤ 63 ∧ sch_t1 dd ≤ 2047 ∧ sch_t2 dd ≤ 31 ∧ sch_t3p dd ≤ 7 := by
  have g := (isBits_iff_getD dd).mp hb
  rw [sch_bsic_eq dd hb, sch_t1_eq dd hb, sch_t2_eq dd hb, sch_t3p_eq dd hb]
  simp only [msb_value, pick, List.map, List.foldl]
  have := g 0; have := g 1; have := g 2; have := g 3; have := g 4; have := g 5; have := g 6
  have := g 7; have := g 8; have := g 9; have := g 10; have := g 11; have := g 12; have := g 13
  have := g 14; have := g 15; have := g 16; have := g 17; have := g 18; have := g 19
  have := g 20; have := g 21; have := g 22; have := g 23; have := g 24
  omega

/-- The frame number is `51 * 26 * T1 + 51 * ((T3 - T2) mod 26) + T3` with the
non-negative remainder, for all field values. -/
theorem sch_fn_eq (dd : List Nat) :
    sch_fn dd = 51 * 26 * (sch_t1 dd : Int)
      + 51 * ((10 * (sch_t3p dd : Int) + 1 - (sch_t2 dd : Int)) % 26)
      + (10 * (sch_t3p dd : Int) + 1) := by
  unfold sch_fn
  obtain ⟨h1, k, hk⟩ := add26_loop_spec (10 * (sch_t3p dd : Int) + 1) (sch_t2 dd : Int)
  simp only []
  rw [Int.tmod_eq_emod (by omega) (by omega), hk]
  have e : 10 * (sch_t3p dd : Int) + 1 + 26 * (k : Int) - (sch_t2 dd : Int)
      = 10 * (sch_t3p dd : Int) + 1 - (sch_t2 dd : Int) + (k : Int) * 26 := by ring
  rw [e, Int.add_mul_emod_self]

theorem decode_sch_of_decoded (h0 : Nat → Nat → Nat) (buf dd : List Nat)
    (h : conv_decode h0 (sch_data buf) = (dd, 0)) (hp : parity_check dd = 0) :
    decode_sch h0 buf = (0, some (sch_fn dd, (sch_bsic dd : Int))) := by
  simp [decode_sch, h, hp]

theorem decode_sch_soft_of_decoded (h0 : Nat → Nat → Nat) (buf : List ℚ) (dd : List Nat)
    (h : (conv_decode_soft h0 (sch_data buf)).1 = dd) (hp : parity_check dd = 0) :
    decode_sch_soft h0 buf = (0, some (sch_fn dd, (sch_bsic dd : Int))) := by
  simp [decode_sch_soft, h, hp]

theorem parity_check_block (d tail : List Nat) (hlen : d.length = 25) (hb : IsBits d) :
    parity_check (d ++ parity_encode d ++ tail) = 0 := by
  have ht : (d ++ parity_encode d ++ tail).take 35 = d ++ parity_encode d := by
    rw [List.take_append_of_le_length (by simp [hlen, parity_encode_length])]
    exact List.take_of_length_le (by simp [hlen, parity_encode_length])
  have h2 := (parity_check_eq_zero (d ++ parity_encode d)
    (by simp [hlen, parity_encode_length])).mpr (parity_valid_tail d hlen hb)
  have ht2 : (d ++ parity_encode d).take 35 = d ++ parity_encode d :=
    List.take_of_length_le (by simp [hlen, parity_encode_length])
  unfold parity_check at *
  simp only [DATA_BLOCK_SIZE, PARITY_SIZE, ht, ht2] at *
  exact h2

theorem pick_block (d rest : List Nat) (idx : List Nat) (hi : ∀ i ∈ idx, i < d.length) :
    pick (d ++ rest) idx = pick d idx := by
  unfold pick
  apply List.map_congr_left
  intro i hmem
  exact List.getD_append _ _ _ _ (hi i hmem)

/-- The result of `decode_sch` on a burst that carries the encoded block of `d`. -/
theorem decode_sch_of_encoded (h0 : Nat → Nat → Nat) (d buf : List Nat) (hlen : d.length = 25)
    (hb : IsBits d) (h : sch_data buf = conv_encode (d ++ parity_encode d ++ [0, 0, 0, 0])) :
    decode_sch h0 buf = (0, some (
      51 * 26 * (msb_value (pick d [1, 0, 15, 14, 13, 12, 11, 10, 9, 8, 23]) : Int)
        + 51 * ((10 * (msb_value (pick d [17, 16, 24]) : Int) + 1
                  - (msb_value (pick d [22, 21, 20, 19, 18]) : Int)) % 26)
        + (10 * (msb_value (pick d [17, 16, 24]) : Int) + 1),
      (msb_value (pick d [7, 6, 5, 4, 3, 2]) : Int))) := by
  have hbl : IsBits (d ++ parity_encode d ++ [0, 0, 0, 0]) :=
    isBits_append _ _ (isBits_append _ _ hb (parity_encode_isBits d)) (by decide)
  have hdec := conv_decode_conv_encode h0 (d ++ parity_encode d ++ [0, 0, 0, 0])
    (by simp [hlen, parity_encode_length]) hbl
  rw [← h] at hdec
  rw [decode_sch_of_decoded h0 buf _ hdec (parity_check_block d _ hlen hb), sch_fn_eq,
    sch_t1_eq _ hbl, sch_t2_eq _ hbl, sch_t3p_eq _ hbl, sch_bsic_eq _ hbl, List.append_assoc,
    pick_block d _ _ (by rw [hlen]; decide), pick_block d _ _ (by rw [hlen]; decide),
    pick_block d _ _ (by rw [hlen]; decide), pick_block d _ _ (by rw [hlen]; decide)]

/-- C4: SCH round trip: for every 25-bit info d and every burst whose bits 3..41 and
106..144 hold `conv_encode(d ++ parity_encode(d) ++ 0000)`, `decode_sch` returns 0 and
reports bsic = the number with bits d[7], d[6], d[5], d[4], d[3], d[2] (MSB first) and
fn = 51*26*T1 + 51*((T3 - T2) mod 26) + T3 with the non-negative remainder, where
T1 = d[1], d[0], d[15], ..., d[8], d[23], T2 = d[22..18], T3' = d[17], d[16], d[24] and
T3 = 10*T3' + 1; the loop that adds 26 ends with tt = T3 + 26*k >= T2 for some k. -/
theorem decode_sch_round_trip (state_history : Nat → Nat → Nat) (d buf : List Nat)
    (hlen : d.length = 25) (hbits : IsBits d)
    (hdata : (buf.drop 3).take 39 ++ (buf.drop 106).take 39
      = conv_encode (d ++ parity_encode d ++ [0, 0, 0, 0])) :
    decode_sch state_history buf = (0, some (
      51 * 26 * (msb_value (pick d [1, 0, 15, 14, 13, 12, 11, 10, 9, 8, 23]) : Int)
        + 51 * ((10 * (msb_value (pick d [17, 16, 24]) : Int) + 1
                  - (msb_value (pick d [22, 21, 20, 19, 18]) : Int)) % 26)
        + (10 * (msb_value (pick d [17, 16, 24]) : Int) + 1),
      (msb_value (pick d [7, 6, 5, 4, 3, 2]) : Int))) ∧
    ∃ k : Nat,
      add26_loop (10 * (msb_value (pick d [17, 16, 24]) : Int) + 1)
          (msb_value (pick d [22, 21, 20, 19, 18]) : Int)
        = 10 * (msb_value (pick d [17, 16, 24]) : Int) + 1 + 26 * k ∧
      (msb_value (pick d [22, 21, 20, 19, 18]) : Int)
        ≤ 10 * (msb_value (pick d [17, 16, 24]) : Int) + 1 + 26 * k := by
  refine ⟨decode_sch_of_encoded state_history d buf hlen hbits hdata, ?_⟩
  obtain ⟨h1, k, hk⟩ := add26_loop_spec (10 * (msb_value (pick d [17, 16, 24]) : Int) + 1)
    (msb_value (pick d [22, 21, 20, 19, 18]) : Int)
  exact ⟨k, hk, by rw [← hk]; exact h1⟩

theorem decode_sch_round_trip_witness :
    decode_sch (fun _ _ => 0) burst_sample = (0, some (
      51 * 26 * (msb_value (pick info_sample [1, 0, 15, 14, 13, 12, 11, 10, 9, 8, 23]) : Int)
        + 51 * ((10 * (msb_value (pick info_sample [17, 16, 24]) : Int) + 1
                  - (msb_value (pick info_sample [22, 21, 20, 19, 18]) : Int)) % 26)
        + (10 * (msb_value (pick info_sample [17, 16, 24]) : Int) + 1),
      (msb_value (pick info_sample [7, 6, 5, 4, 3, 2]) : Int))) :=
  (decode_sch_round_trip (fun _ _ => 0) info_sample burst_sample (by decide) (by decide)
    (by set_option maxRecDepth 100000 in decide)).1

/-! ## The soft decoder on hard inputs -/

theorem soft_value_getD (data : List ℚ) (h : ∀ x ∈ data, 0 ≤ x ∧ x ≤ 1) (i : Nat) :
    0 ≤ data.getD i 0 ∧ data.getD i 0 ≤ 1 := by
  by_cases hi : i < data.length
  · rw [List.getD_eq_getElem _ _ hi]; exact h _ (List.getElem_mem hi)
  · rw [List.getD_eq_default _ _ (by omega)]; exact ⟨le_refl _, zero_le_one⟩

theorem abs_bit_sub_le (a : Nat) (ha : a ≤ 1) (x : ℚ) (h0 : 0 ≤ x) (h1 : x ≤ 1) :
    |(a : ℚ) - x| ≤ 1 := by
  have : a = 0 ∨ a = 1 := by omega
  rcases this with h | h <;> subst h <;> rw [abs_le] <;> constructor <;> push_cast <;> linarith

theorem soft_distance_bounds (data : List ℚ) (h : ∀ x ∈ data, 0 ≤ x ∧ x ≤ 1) :
    ∀ t o, 0 ≤ soft_distance data t o ∧ soft_distance data t o ≤ 2 := by
  intro t o
  unfold soft_distance
  have h1 : (o &&& 2) >>> 1 ≤ 1 := by
    have : o &&& 2 ≤ 2 := Nat.and_le_right
    rw [Nat.shiftRight_eq_div_pow]
    omega
  have h2 : o &&& 1 ≤ 1 := Nat.and_le_right
  obtain ⟨a0, a1⟩ := soft_value_getD data h (2 * t)
  obtain ⟨b0, b1⟩ := soft_value_getD data h (2 * t + 1)
  have e1 := abs_bit_sub_le _ h1 _ a0 a1
  have e2 := abs_bit_sub_le _ h2 _ b0 b1
  refine ⟨add_nonneg (abs_nonneg _) (abs_nonneg _), ?_⟩
  linarith

theorem shift_eq_bit_hi : ∀ o < 4, (o &&& 2) >>> 1 = bit_hi o := by decide

theorem abs_bit_sub (x y : Nat) (hx : x < 2) (hy : y < 2) :
    |(x : ℚ) - (y : ℚ)| = ((if y = x then 0 else 1 : ℕ) : ℚ) := by
  interval_cases x <;> interval_cases y <;> norm_num

theorem cast_getD (r : List Nat) (i : Nat) :
    (r.map (fun x : ℕ => (x : ℚ))).getD i 0 = ((r.getD i 0 : ℕ) : ℚ) := by
  have := List.getD_map (l := r) (d := 0) (n := i) (fun x : ℕ => (x : ℚ))
  simpa using this

theorem soft_distance_cast (r : List Nat) (hr : IsBits r) (t o : Nat) (ho : o < 4) :
    soft_distance (r.map (fun x : ℕ => (x : ℚ))) t o = ((hard_distance r t o : ℕ) : ℚ) := by
  have g := (isBits_iff_getD r).mp hr
  unfold soft_distance hard_distance
  have eo : o &&& 1 = bit_lo o := rfl
  rw [cast_getD, cast_getD, shift_eq_bit_hi o ho, eo,
    hard_symbol_distance _ (g (2 * t)) _ (g (2 * t + 1)) o ho,
    abs_bit_sub _ _ (bit_hi_lt o) (g (2 * t)), abs_bit_sub _ _ (bit_lo_lt o) (g (2 * t + 1))]
  push_cast
  rfl

theorem path_metric_soft_cast (r : List Nat) (hr : IsBits r) (u : List Nat) (hu : IsBits u) :
    ∀ t s, s < 16 →
    path_metric (soft_distance (r.map (fun x : ℕ => (x : ℚ)))) t s u
      = ((path_metric (hard_distance r) t s u : ℕ) : ℚ) := by
  induction u with
  | nil => intro t s _; simp [path_metric]
  | cons d ds ih =>
    intro t s hs
    have hd : d < 2 := hu d (by simp)
    have hds : IsBits ds := fun x hx => hu x (by simp [hx])
    simp only [path_metric]
    rw [soft_distance_cast r hr t _ (encode_lt s hs d hd),
      ih hds (t + 1) _ (next_state_lt s hs d hd)]
    push_cast
    rfl

theorem cast_bits_unit (r : List Nat) (hr : IsBits r) :
    ∀ x ∈ r.map (fun x : ℕ => (x : ℚ)), 0 ≤ x ∧ x ≤ 1 := by
  intro x hx
  obtain ⟨y, hy, rfl⟩ := List.mem_map.mp hx
  have : y < 2 := hr y hy
  constructor
  · exact Nat.cast_nonneg y
  · exact_mod_cast (by omega : y ≤ 1)

theorem conv_decode_soft_conv_encode (h0 : Nat → Nat → Nat) (u : List Nat) (hul : u.length = 39)
    (hub : IsBits u) :
    conv_decode_soft h0 ((conv_encode u).map (fun x : ℕ => (x : ℚ))) = (u, 0) := by
  have hrb : IsBits (conv_encode u) := by
    rw [conv_encode_eq_loop u hul]; exact conv_encode_loop_isBits _ _
  have hrl : (conv_encode u).length = 78 := by
    rw [conv_encode_eq_loop u hul, conv_encode_loop_length, hul]
  refine viterbi_exact _ (soft_distance_bounds _ (cast_bits_unit _ hrb)) h0 u hul hub ?_ ?_
  · rw [path_metric_soft_cast _ hrb u hub 0 0 (by omega),
      path_metric_hard_full _ hrb hrl u hub hul, hamming_distance_self]
    rfl
  · intro v hvl hvb hv
    rw [path_metric_soft_cast _ hrb v hvb 0 0 (by omega)] at hv
    have hv2 : path_metric (hard_distance (conv_encode u)) 0 0 v = 0 := by exact_mod_cast hv
    rw [path_metric_hard_full _ hrb hrl v hvb hvl] at hv2
    have hvl2 : (conv_encode v).length = 78 := by
      rw [conv_encode_eq_loop v hvl, conv_encode_loop_length, hvl]
    have := eq_of_hamming_distance_zero _ _ (by rw [hrl, hvl2]) hv2
    rw [conv_encode_eq_loop u hul, conv_encode_eq_loop v hvl] at this
    exact (conv_encode_loop_injective u hub v 0 hvb (by omega) this).symm

theorem sch_data_map (buf : List Nat) :
    sch_data (buf.map (fun x : ℕ => (x : ℚ))) = (sch_data buf).map (fun x : ℕ => (x : ℚ)) := by
  simp [sch_data, List.map_drop, List.map_take]

/-! ## Scenario D and the range of the frame number -/

theorem fields_of_zero_info (dd : List Nat) (hz : ∀ i < 25, dd.getD i 0 = 0) :
    sch_fn dd = 52 ∧ sch_bsic dd = 0 := by
  have e1 : sch_t1 dd = 0 := by
    unfold sch_t1
    rw [hz 1 (by omega), hz 0 (by omega), hz 15 (by omega), hz 14 (by omega), hz 13 (by omega),
      hz 12 (by omega), hz 11 (by omega), hz 10 (by omega), hz 9 (by omega), hz 8 (by omega),
      hz 23 (by omega)]
    rfl
  have e2 : sch_t2 dd = 0 := by
    unfold sch_t2
    rw [hz 22 (by omega), hz 21 (by omega), hz 20 (by omega), hz 19 (by omega), hz 18 (by omega)]
    rfl
  have e3 : sch_t3p dd = 0 := by
    unfold sch_t3p
    rw [hz 17 (by omega), hz 16 (by omega), hz 24 (by omega)]
    rfl
  have e4 : sch_bsic dd = 0 := by
    unfold sch_bsic
    rw [hz 7 (by omega), hz 6 (by omega), hz 5 (by omega), hz 4 (by omega), hz 3 (by omega),
      hz 2 (by omega)]
    rfl
  refine ⟨?_, e4⟩
  rw [sch_fn_eq, e1, e2, e3]
  rfl

theorem scenario_d_decoded :
    conv_decode (fun _ _ => 0) (sch_data burst_scenario_d) = (decoded_scenario_d, 0) := by
  have h : sch_data burst_scenario_d = conv_encode decoded_scenario_d := by decide
  rw [h]
  exact conv_decode_conv_encode _ _ (by decide) (by decide)

theorem scenario_d_decoded_soft :
    (conv_decode_soft (fun _ _ => 0)
      (sch_data (burst_scenario_d.map (fun x : ℕ => (x : ℚ))))).1 = decoded_scenario_d := by
  have h : sch_data burst_scenario_d = conv_encode decoded_scenario_d := by decide
  rw [sch_data_map, h, conv_decode_soft_conv_encode _ _ (by decide) (by decide)]

/-- C8 (counterexample): on the Scenario D burst (T1 = 0, T2 = 0, T3' = 0, BSIC = 0, valid
parity) `decode_sch` reports FN = 52, not 1. -/
theorem scenario_d_frame_number_is_not_one :
    decode_sch (fun _ _ => 0) burst_scenario_d = (0, some (52, 0)) ∧ (52 : Int) ≠ 1 := by
  have hf := fields_of_zero_info decoded_scenario_d (by decide)
  refine ⟨?_, by decide⟩
  rw [decode_sch_of_decoded _ _ _ scenario_d_decoded (by decide), hf.1, hf.2]
  rfl

/-- C8 (amended): for decoded data that encodes T1 = 0, T2 = 0, T3' = 0 and BSIC = 0
(info bits 0..24 all zero) with valid parity, `decode_sch` and `decode_sch_soft` return 0
and report FN = 52 (= 51 * ((T3 - T2) mod 26) + T3 with T3 = 1) and BSIC = 0. -/
theorem scenario_d_frame_number (state_history : Nat → Nat → Nat) (decoded_data : List Nat)
    (hzero : ∀ i < 25, decoded_data.getD i 0 = 0) (hparity : parity_check decoded_data = 0)
    (buf : List Nat) (soft_buf : List ℚ)
    (hhard : conv_decode state_history (sch_data buf) = (decoded_data, 0))
    (hsoft : (conv_decode_soft state_history (sch_data soft_buf)).1 = decoded_data) :
    decode_sch state_history buf = (0, some (52, 0)) ∧
    decode_sch_soft state_history soft_buf = (0, some (52, 0)) := by
  have hf := fields_of_zero_info decoded_data hzero
  rw [decode_sch_of_decoded _ _ _ hhard hparity,
    decode_sch_soft_of_decoded _ _ _ hsoft hparity, hf.1, hf.2]
  exact ⟨rfl, rfl⟩

theorem scenario_d_frame_number_witness :
    decode_sch (fun _ _ => 0) burst_scenario_d = (0, some (52, 0)) ∧
    decode_sch_soft (fun _ _ => 0) (burst_scenario_d.map (fun x : ℕ => (x : ℚ)))
      = (0, some (52, 0)) :=
  scenario_d_frame_number (fun _ _ => 0) decoded_scenario_d (by decide) (by decide)
    burst_scenario_d (burst_scenario_d.map (fun x : ℕ => (x : ℚ))) scenario_d_decoded
    scenario_d_decoded_soft

theorem sch_fn_range (dd : List Nat) (hb : IsBits dd) :
    0 ≤ sch_fn dd ∧ sch_fn dd ≤ 2715668 ∧ (sch_t3p dd ≤ 4 → sch_fn dd < 2715648) := by
  obtain ⟨_, h1, h2, h3⟩ := sch_fields_le dd hb
  rw [sch_fn_eq]
  omega

theorem mem_sch_data {β : Type} (buf : List β) (x : β) (hx : x ∈ sch_data buf) : x ∈ buf := by
  unfold sch_data at hx
  rcases List.mem_append.mp hx with h | h
  · exact List.mem_of_mem_drop (List.mem_of_mem_take h)
  · exact List.mem_of_mem_drop (List.mem_of_mem_take h)

theorem last_frame_decoded :
    decode_sch (fun _ _ => 0) burst_last_frame = (0, some (2715668, 0)) := by
  rw [decode_sch_of_encoded _ info_last_frame _ (by decide) (by decide)
    (by set_option maxRecDepth 100000 in decide)]
  decide

theorem sample_decoded :
    decode_sch (fun _ _ => 0) burst_sample = (0, some (868255, 19)) := by
  rw [decode_sch_of_encoded _ info_sample _ (by decide) (by decide)
    (by set_option maxRecDepth 100000 in decide)]
  decide

/-- C9 (counterexample): the burst that carries T1 = 2047, T2 = 20, T3' = 7 with valid
parity passes Viterbi and parity, `decode_sch` returns 0 and reports fn = 2715668, which
is not below MAX_FN = 2715648. -/
theorem frame_number_can_exceed_max_fn :
    decode_sch (fun _ _ => 0) burst_last_frame = (0, some (2715668, 0)) ∧
    ¬ ((2715668 : Int) < 26 * 51 * 2048) :=
  ⟨last_frame_decoded, by decide⟩

/-- C9 (amended): whenever `decode_sch` (on any burst) or `decode_sch_soft` (on a burst of
soft values in [0, 1]) returns 0, the reported frame number satisfies
0 <= fn <= 2715668, and fn < 2715648 (= MAX_FN) when the decoded field T3' is at most 4. -/
theorem frame_number_range (state_history : Nat → Nat → Nat) (buf : List Nat)
    (soft_buf : List ℚ) (hsoft : ∀ x ∈ soft_buf, 0 ≤ x ∧ x ≤ 1) :
    (∀ fn bsic, decode_sch state_history buf = (0, some (fn, bsic)) →
      0 ≤ fn ∧ fn ≤ 2715668 ∧
      (sch_t3p (conv_decode state_history (sch_data buf)).1 ≤ 4 → fn < 26 * 51 * 2048)) ∧
    (∀ fn bsic, decode_sch_soft state_history soft_buf = (0, some (fn, bsic)) →
      0 ≤ fn ∧ fn ≤ 2715668 ∧
      (sch_t3p (conv_decode_soft state_history (sch_data soft_buf)).1 ≤ 4 →
        fn < 26 * 51 * 2048)) := by
  constructor
  · intro fn bsic h
    have hb := (viterbi_optimal (hard_distance (sch_data buf)) (hard_distance_bounds _)
      state_history).2.1
    have hr := sch_fn_range _ hb
    unfold decode_sch at h
    simp only [] at h
    split_ifs at h with h1 h2
    · simp at h
    · simp at h
    · simp only [Prod.mk.injEq, Option.some.injEq, true_and] at h
      rw [← h.1]
      exact hr
  · intro fn bsic h
    have hb := (viterbi_optimal (soft_distance (sch_data soft_buf))
      (soft_distance_bounds _ (fun x hx => hsoft x (mem_sch_data _ x hx))) state_history).2.1
    have hr := sch_fn_range _ hb
    unfold decode_sch_soft at h
    simp only [] at h
    split_ifs at h with h1
    · simp at h
    · simp only [Prod.mk.injEq, Option.some.injEq, true_and] at h
      rw [← h.1]
      exact hr

theorem frame_number_range_witness :
    (0 : Int) ≤ 868255 ∧ (868255 : Int) ≤ 2715668 ∧
    (sch_t3p (conv_decode (fun _ _ => 0) (sch_data burst_sample)).1 ≤ 4 →
      (868255 : Int) < 26 * 51 * 2048) :=
  (frame_number_range (fun _ _ => 0) burst_sample (burst_sample.map (fun x : ℕ => (x : ℚ)))
    (cast_bits_unit _ (by set_option maxRecDepth 100000 in decide))).1 868255 19 sample_decoded

/-! ## Soft-bit polarity -/

/-- C10 (counterexample): `slice` maps the soft value 0 to bit 0 and the soft value 1 to
bit 1, and a received pair of soft values 0, 0 is at distance 0 from the coded bits 0, 0
(`o = 0`) and at distance 2 from the coded bits 1, 1 (`o = 3`): soft 0 is bit 0. -/
theorem soft_zero_is_bit_zero :
    slice [0, 1] = [0, 1] ∧ soft_distance [0, 0] 0 0 = 0 ∧ soft_distance [0, 0] 0 3 = 2 := by
  refine ⟨?_, ?_, ?_⟩
  · norm_num [slice]
  · norm_num [soft_distance]
  · have e1 : (3 &&& 2) >>> 1 = 1 := by decide
    have e2 : 3 &&& 1 = 1 := by decide
    simp only [soft_distance, e1, e2]
    norm_num

/-- C10 (amended): a soft value of 0 means bit 0 and a soft value of 1 means bit 1: the
hard slicer `slice` maps soft values above 0.5 to bit 1 and all others to bit 0, the
soft metric of `conv_decode_soft` for a received pair of soft values 0, 0 is the number
of coded bits of the edge that are 1 (so soft 0 matches coded bit 0), and 78 soft zeros
decode to the all-zero word with error 0. -/
theorem soft_bit_polarity (s : List ℚ) (i : Nat) (hi : i < s.length) (data : List ℚ)
    (t o : Nat) (h1 : data.getD (2 * t) 0 = 0) (h2 : data.getD (2 * t + 1) 0 = 0)
    (state_history : Nat → Nat → Nat) :
    (slice s).length = s.length ∧
    (slice s).getD i 0 = (if s.getD i 0 > 1 / 2 then 1 else 0) ∧
    soft_distance data t o = (((o &&& 2) >>> 1 : ℕ) : ℚ) + ((o &&& 1 : ℕ) : ℚ) ∧
    conv_decode_soft state_history (List.replicate 78 0) = (List.replicate 39 0, 0) := by
  refine ⟨by simp [slice], ?_, ?_, ?_⟩
  · unfold slice
    rw [List.getD_eq_getElem _ _ (by simpa using hi), List.getD_eq_getElem _ _ hi]
    simp
  · unfold soft_distance
    rw [h1, h2, sub_zero, sub_zero, abs_of_nonneg (Nat.cast_nonneg _),
      abs_of_nonneg (Nat.cast_nonneg _)]
  · have h := conv_decode_soft_conv_encode state_history (List.replicate 39 0) (by simp)
      (isBits_replicate_zero 39)
    have e : (conv_encode (List.replicate 39 0)).map (fun x : ℕ => (x : ℚ))
        = List.replicate 78 0 := by
      have e2 : conv_encode (List.replicate 39 0) = List.replicate 78 0 := by decide
      rw [e2]
      simp
    rw [e] at h
    exact h

theorem soft_bit_polarity_witness :
    (slice [0, 1 / 4, 3 / 4, 1]).length = ([0, 1 / 4, 3 / 4, 1] : List ℚ).length ∧
    (slice [0, 1 / 4, 3 / 4, 1]).getD 2 0
      = (if ([0, 1 / 4, 3 / 4, 1] : List ℚ).getD 2 0 > 1 / 2 then 1 else 0) ∧
    soft_distance (List.replicate 78 0) 5 3 = (((3 &&& 2) >>> 1 : ℕ) : ℚ) + ((3 &&& 1 : ℕ) : ℚ) ∧
    conv_decode_soft (fun _ _ => 0) (List.replicate 78 0) = (List.replicate 39 0, 0) :=
  soft_bit_polarity [0, 1 / 4, 3 / 4, 1] 2 (by decide) (List.replicate 78 0) 5 3
    (by simp) (by simp) (fun _ _ => 0)

/-! ## Complex samples -/

section ComplexSamples

variable {K : Type} [LinearOrderedField K]

@[simp] theorem complex_zero_re : (0 : complex K).re = 0 := rfl

@[simp] theorem complex_zero_im : (0 : complex K).im = 0 := rfl

@[simp] theorem complex_one_re : (1 : complex K).re = 1 := rfl

@[simp] theorem complex_one_im : (1 : complex K).im = 0 := rfl

@[simp] theorem complex_add_re (z w : complex K) : (z + w).re = z.re + w.re := rfl

@[simp] theorem complex_add_im (z w : complex K) : (z + w).im = z.im + w.im := rfl

@[simp] theorem complex_neg_re (z : complex K) : (-z).re = -z.re := rfl

@[simp] theorem complex_neg_im (z : complex K) : (-z).im = -z.im := rfl

@[simp] theorem complex_mul_re (z w : complex K) : (z * w).re = z.re * w.re - z.im * w.im := rfl

@[simp] theorem complex_mul_im (z w : complex K) : (z * w).im = z.re * w.im + z.im * w.re := rfl

@[simp] theorem conj_re (z : complex K) : (conj z).re = z.re := rfl

@[simp] theorem conj_im (z : complex K) : (conj z).im = -z.im := rfl

@[simp] theorem complex_sub_re (z w : complex K) : (z - w).re = z.re - w.re := by
  rw [sub_eq_add_neg, sub_eq_add_neg]; rfl

@[simp] theorem complex_sub_im (z w : complex K) : (z - w).im = z.im - w.im := by
  rw [sub_eq_add_neg, sub_eq_add_neg]; rfl

theorem norm_nonneg (z : complex K) : 0 ≤ norm z :=
  add_nonneg (mul_self_nonneg _) (mul_self_nonneg _)

theorem mul_conj_self (z : complex K) : z * conj z = of_real (norm z) := by
  ext
  · simp [norm, of_real]
  · simp [of_real]; ring

end ComplexSamples

/-! ## The soft slicer -/

theorem soft_value_eq {K : Type} [LinearOrderedField K] (z : complex K) :
    soft_value z = max 0 (min 1 ((1 - z.re) / 2)) := by
  unfold soft_value
  simp only []
  by_cases h1 : (1 - z.re) / 2 > 1
  · rw [if_pos h1, min_eq_left (le_of_lt h1), max_eq_right zero_le_one]
  · rw [if_neg h1, min_eq_right (not_lt.mp h1)]
    by_cases h2 : (1 - z.re) / 2 < 0
    · rw [if_pos h2, max_eq_left (le_of_lt h2)]
    · rw [if_neg h2, max_eq_right (not_lt.mp h2)]

theorem soft_value_mem {K : Type} [LinearOrderedField K] (z : complex K) :
    0 ≤ soft_value z ∧ soft_value z ≤ 1 := by
  rw [soft_value_eq]
  exact ⟨le_max_left _ _, max_le zero_le_one (min_le_left _ _)⟩

theorem slice_soft_getD {K : Type} [LinearOrderedField K] (v : List (complex K)) (i : Nat)
    (hi : i < v.length) : (slice_soft v).getD i 0 = soft_value (v.getD i 0) := by
  unfold slice_soft
  rw [List.getD_eq_getElem _ _ (by simpa using hi), List.getD_eq_getElem _ _ hi]
  simp

/-- C11: for every complex sample v[i], `slice_soft` yields `(1 - Re v[i]) / 2` clamped to
[0, 1], so every soft bit lies in [0, 1]; for the ideal symbol `1 - 2b` of a bit b the
soft value is exactly b and the hard slicer `slice` (threshold 0.5) applied to it
returns b. -/
theorem slice_soft_clamps {K : Type} [LinearOrderedField K] (v : List (complex K)) (i : Nat)
    (hi : i < v.length) (b : Nat) (hb : b < 2) :
    (slice_soft v).length = v.length ∧
    (slice_soft v).getD i 0 = max 0 (min 1 ((1 - (v.getD i 0).re) / 2)) ∧
    0 ≤ (slice_soft v).getD i 0 ∧ (slice_soft v).getD i 0 ≤ 1 ∧
    slice_soft [(⟨1 - 2 * (b : K), 0⟩ : complex K)] = [(b : K)] ∧
    slice (slice_soft [(⟨1 - 2 * (b : ℚ), 0⟩ : complex ℚ)]) = [b] := by
  have hcases : b = 0 ∨ b = 1 := by omega
  refine ⟨by simp [slice_soft], ?_, ?_, ?_, ?_, ?_⟩
  · rw [slice_soft_getD v i hi, soft_value_eq]
  · rw [slice_soft_getD v i hi]; exact (soft_value_mem _).1
  · rw [slice_soft_getD v i hi]; exact (soft_value_mem _).2
  · rcases hcases with h | h <;> subst h <;> norm_num [slice_soft, soft_value]
  · rcases hcases with h | h <;> subst h <;> norm_num [slice_soft, soft_value, slice]

theorem slice_soft_clamps_witness :
    (slice_soft [(⟨3, 1⟩ : complex ℚ), ⟨-1 / 2, 0⟩]).length
      = [(⟨3, 1⟩ : complex ℚ), ⟨-1 / 2, 0⟩].length ∧
    (slice_soft [(⟨3, 1⟩ : complex ℚ), ⟨-1 / 2, 0⟩]).getD 1 0
      = max 0 (min 1 ((1 - ([(⟨3, 1⟩ : complex ℚ), ⟨-1 / 2, 0⟩].getD 1 0).re) / 2)) ∧
    0 ≤ (slice_soft [(⟨3, 1⟩ : complex ℚ), ⟨-1 / 2, 0⟩]).getD 1 0 ∧
    (slice_soft [(⟨3, 1⟩ : complex ℚ), ⟨-1 / 2, 0⟩]).getD 1 0 ≤ 1 ∧
    slice_soft [(⟨1 - 2 * ((1 : ℕ) : ℚ), 0⟩ : complex ℚ)] = [((1 : ℕ) : ℚ)] ∧
    slice (slice_soft [(⟨1 - 2 * ((1 : ℕ) : ℚ), 0⟩ : complex ℚ)]) = [1] :=
  slice_soft_clamps [(⟨3, 1⟩ : complex ℚ), ⟨-1 / 2, 0⟩] 1 (by decide) 1 (by decide)

/-! ## Convolution and correlation -/

section Convolution

variable {K : Type} [LinearOrderedField K]

theorem map_range_getD (f : Nat → complex K) (len n : Nat) (hn : n < len) :
    ((List.range len).map f).getD n 0 = f n := by
  rw [List.getD_eq_getElem _ _ (by simpa using hn)]
  simp

theorem convolve_nodelay_loop_eq (s h : List (complex K)) (d n : Nat) :
    ∀ (fuel i : Nat) (y : complex K),
      convolve_nodelay_loop s h d n fuel i y = convolve_loop s h (n + d) fuel i y := by
  intro fuel
  induction fuel with
  | zero => intro i y; rfl
  | succ fuel ih =>
    intro i y
    simp only [convolve_nodelay_loop, convolve_loop]
    rw [ih]

/-- C16: for every signal s and every filter h with h_len >= 1, `convolve_nodelay(s, h)`
has exactly s_len samples and its sample n is sample `n + (h_len - 1) / 2` of the full
convolution `convolve(s, h)`, for every n < s_len. -/
theorem convolve_nodelay_is_shifted_convolve (s h : List (complex K)) (hh : 1 ≤ h.length) :
    (convolve_nodelay s h).length = s.length ∧
    ∀ n < s.length,
      (convolve_nodelay s h).getD n 0 = (convolve s h).getD (n + (h.length - 1) / 2) 0 := by
  refine ⟨by simp [convolve_nodelay], ?_⟩
  intro n hn
  unfold convolve_nodelay convolve
  rw [map_range_getD _ _ _ hn, map_range_getD _ _ _ (by omega), convolve_nodelay_loop_eq]

theorem convolve_nodelay_is_shifted_convolve_witness :
    (convolve_nodelay [(⟨1, 2⟩ : complex ℚ), ⟨0, 1⟩, ⟨3, 0⟩] [⟨1, 0⟩, ⟨2, 0⟩, ⟨0, 1⟩]).length
      = [(⟨1, 2⟩ : complex ℚ), ⟨0, 1⟩, ⟨3, 0⟩].length ∧
    ∀ n < [(⟨1, 2⟩ : complex ℚ), ⟨0, 1⟩, ⟨3, 0⟩].length,
      (convolve_nodelay [(⟨1, 2⟩ : complex ℚ), ⟨0, 1⟩, ⟨3, 0⟩] [⟨1, 0⟩, ⟨2, 0⟩, ⟨0, 1⟩]).getD n 0
        = (convolve [(⟨1, 2⟩ : complex ℚ), ⟨0, 1⟩, ⟨3, 0⟩] [⟨1, 0⟩, ⟨2, 0⟩, ⟨0, 1⟩]).getD
            (n + ([(⟨1, 0⟩ : complex ℚ), ⟨2, 0⟩, ⟨0, 1⟩].length - 1) / 2) 0 :=
  convolve_nodelay_is_shifted_convolve _ _ (by decide)

theorem correlate_loop_eq (s1 s2 h : List (complex K)) (n : Nat) (hl : h.length = s2.length)
    (hh : ∀ k < s2.length, h.getD k 0 = conj (s2.getD (s2.length - 1 - k) 0)) :
    ∀ (fuel i : Nat) (y : complex K),
      correlate_loop s1 s2 n fuel i y = convolve_loop s1 h n fuel i y := by
  intro fuel
  induction fuel with
  | zero => intro i y; rfl
  | succ fuel ih =>
    intro i y
    simp only [correlate_loop, convolve_loop]
    by_cases hi : i > n
    · rw [if_pos hi, if_pos hi]
    · rw [if_neg hi, if_neg hi, hl, ih]
      by_cases hc : n < s2.length + i
      · rw [if_pos hc, if_pos hc, hh (n - i) (by omega)]
        have e : s2.length - 1 - (n - i) = s2.length - 1 + i - n := by omega
        rw [e]
      · rw [if_neg hc, if_neg hc]

/-- C17: for all signals s1 and s2 (s2_len >= 1), `correlate(s1, s2)` equals
`convolve(s1, h)` sample for sample, where `h[k] = conj(s2[s2_len - 1 - k])` is s2
conjugated and reversed; both have length `s1_len + s2_len - 1`. -/
theorem correlate_is_convolve_with_reversed_conj (s1 s2 : List (complex K))
    (_h2 : 1 ≤ s2.length) :
    correlate s1 s2
      = convolve s1 ((List.range s2.length).map (fun k => conj (s2.getD (s2.length - 1 - k) 0))) ∧
    (correlate s1 s2).length = s1.length + s2.length - 1 ∧
    (convolve s1
      ((List.range s2.length).map (fun k => conj (s2.getD (s2.length - 1 - k) 0)))).length
      = s1.length + s2.length - 1 := by
  refine ⟨?_, by simp [correlate], by simp [convolve]⟩
  unfold correlate convolve
  rw [List.length_map, List.length_range]
  apply List.map_congr_left
  intro n _
  exact correlate_loop_eq s1 s2 _ n (by simp)
    (fun k hk => map_range_getD _ _ _ hk) _ _ _

theorem correlate_is_convolve_with_reversed_conj_witness :
    correlate [(⟨1, 2⟩ : complex ℚ), ⟨0, 1⟩, ⟨3, 0⟩] [⟨1, 1⟩, ⟨2, 0⟩]
      = convolve [(⟨1, 2⟩ : complex ℚ), ⟨0, 1⟩, ⟨3, 0⟩]
          ((List.range [(⟨1, 1⟩ : complex ℚ), ⟨2, 0⟩].length).map
            (fun k => conj ([(⟨1, 1⟩ : complex ℚ), ⟨2, 0⟩].getD
              ([(⟨1, 1⟩ : complex ℚ), ⟨2, 0⟩].length - 1 - k) 0))) ∧
    (correlate [(⟨1, 2⟩ : complex ℚ), ⟨0, 1⟩, ⟨3, 0⟩] [⟨1, 1⟩, ⟨2, 0⟩]).length
      = [(⟨1, 2⟩ : complex ℚ), ⟨0, 1⟩, ⟨3, 0⟩].length
        + [(⟨1, 1⟩ : complex ℚ), ⟨2, 0⟩].length - 1 ∧
    (convolve [(⟨1, 2⟩ : complex ℚ), ⟨0, 1⟩, ⟨3, 0⟩]
      ((List.range [(⟨1, 1⟩ : complex ℚ), ⟨2, 0⟩].length).map
        (fun k => conj ([(⟨1, 1⟩ : complex ℚ), ⟨2, 0⟩].getD
          ([(⟨1, 1⟩ : complex ℚ), ⟨2, 0⟩].length - 1 - k) 0)))).length
      = [(⟨1, 2⟩ : complex ℚ), ⟨0, 1⟩, ⟨3, 0⟩].length
        + [(⟨1, 1⟩ : complex ℚ), ⟨2, 0⟩].length - 1 :=
  correlate_is_convolve_with_reversed_conj _ _ (by decide)

end Convolution

/-! ## The autocorrelation peak -/

section Autocorrelation

variable {K : Type} [LinearOrderedField K]

theorem sum_re {ι : Type} (J : Finset ι) (f : ι → complex K) :
    (∑ j in J, f j).re = ∑ j in J, (f j).re :=
  map_sum (⟨⟨complex.re, rfl⟩, fun _ _ => rfl⟩ : complex K →+ K) f J

theorem sum_im {ι : Type} (J : Finset ι) (f : ι → complex K) :
    (∑ j in J, f j).im = ∑ j in J, (f j).im :=
  map_sum (⟨⟨complex.im, rfl⟩, fun _ _ => rfl⟩ : complex K →+ K) f J

theorem vectornorm2_loop_eq_sum (v : List (complex K)) (n : Nat) :
    vectornorm2_loop v n = ∑ j in Finset.range n, norm (v.getD j 0) := by
  induction n with
  | zero => simp [vectornorm2_loop]
  | succ n ih => rw [vectornorm2_loop, ih, Finset.sum_range_succ]

theorem vectornorm2_eq_sum (v : List (complex K)) :
    vectornorm2 v = ∑ j in Finset.range v.length, norm (v.getD j 0) :=
  vectornorm2_loop_eq_sum v v.length

/-- The term that iteration `j` of the loop of `correlate_nodelay` adds to `y[n]`. -/
theorem correlate_nodelay_loop_eq_sum (s1 s2 : List (complex K)) (d n : Nat) :
    ∀ (fuel i : Nat) (y : complex K),
      correlate_nodelay_loop s1 s2 d n fuel i y
        = y + ∑ j in Finset.range fuel,
            (if i + j ≤ n + d ∧ n + d < s2.length + (i + j)
              then s1.getD (i + j) 0 * conj (s2.getD (s2.length - 1 + (i + j) - n - d) 0)
              else 0) := by
  intro fuel
  induction fuel with
  | zero => intro i y; simp [correlate_nodelay_loop]
  | succ fuel ih =>
    intro i y
    simp only [correlate_nodelay_loop]
    by_cases hi : i > n + d
    · rw [if_pos hi, Finset.sum_eq_zero, add_zero]
      intro j _
      rw [if_neg (by omega)]
    · rw [if_neg hi, ih, Finset.sum_range_succ']
      have e : ∀ j, i + 1 + j = i + (j + 1) := fun j => by omega
      simp only [e, Nat.add_zero]
      by_cases hc : n + d < s2.length + i
      · rw [if_pos hc, if_pos ⟨by omega, hc⟩]
        abel
      · rw [if_neg hc, if_neg (fun h => hc h.2)]
        abel

/-- The Cauchy-Schwarz inequality for squared moduli. -/
theorem norm_sum_mul_conj_le {ι : Type} (J : Finset ι) (a b : ι → complex K) :
    norm (∑ j in J, a j * conj (b j)) ≤ (∑ j in J, norm (a j)) * (∑ j in J, norm (b j)) := by
  set S := ∑ j in J, a j * conj (b j) with hS
  set A := ∑ j in J, norm (a j) with hA
  set B := ∑ j in J, norm (b j) with hB
  have hB0 : 0 ≤ B := Finset.sum_nonneg (fun j _ => norm_nonneg _)
  have key : ∑ j in J, norm (scale_real (a j) B - S * b j) = B * (B * A - norm S) := by
    have hterm : ∀ j, norm (scale_real (a j) B - S * b j)
        = B * B * norm (a j)
          - 2 * B * (S.re * (a j * conj (b j)).re + S.im * (a j * conj (b j)).im)
          + norm S * norm (b j) := by
      intro j
      simp only [norm, scale_real, complex_sub_re, complex_sub_im, complex_mul_re,
        complex_mul_im, conj_re, conj_im]
      ring
    simp only [hterm, Finset.sum_add_distrib, Finset.sum_sub_distrib, ← Finset.mul_sum,
      ← Finset.sum_mul, ← sum_re, ← sum_im]
    rw [← hS, ← hA, ← hB]
    simp only [norm]
    ring
  have hsum : 0 ≤ ∑ j in J, norm (scale_real (a j) B - S * b j) :=
    Finset.sum_nonneg (fun j _ => norm_nonneg _)
  rw [key] at hsum
  rcases eq_or_lt_of_le hB0 with h0 | hpos
  · have hb : ∀ j ∈ J, b j = 0 := by
      intro j hj
      have hz : norm (b j) = 0 := by
        have := (Finset.sum_eq_zero_iff_of_nonneg (fun j _ => norm_nonneg (b j))).mp
          (show ∑ j in J, norm (b j) = 0 from h0.symm) j hj
        exact this
      have h1 : (b j).re * (b j).re = 0 := by
        have := mul_self_nonneg (b j).re
        have := mul_self_nonneg (b j).im
        unfold norm at hz
        linarith
      have h2 : (b j).im * (b j).im = 0 := by
        have := mul_self_nonneg (b j).re
        unfold norm at hz
        linarith
      ext
      · exact mul_self_eq_zero.mp h1
      · exact mul_self_eq_zero.mp h2
    have hSz : S = 0 := by
      rw [hS]
      apply Finset.sum_eq_zero
      intro j hj
      rw [hb j hj]
      ext <;> simp
    rw [hSz, ← h0]
    simp [norm]
  · have : 0 ≤ B * A - norm S := by
      by_contra hneg
      have := mul_neg_of_pos_of_neg hpos (not_le.mp hneg)
      linarith
    linarith [mul_comm A B]

theorem norm_of_real (x : K) : norm (of_real x) = x * x := by
  simp [norm, of_real]

theorem correlate_nodelay_getD (s1 s2 : List (complex K)) (n : Nat) (hn : n < s1.length) :
    (correlate_nodelay s1 s2).getD n 0
      = ∑ j in Finset.range s1.length,
          (if j ≤ n + (s2.length - 1) / 2 ∧ n + (s2.length - 1) / 2 < s2.length + j
            then s1.getD j 0
              * conj (s2.getD (s2.length - 1 + j - n - (s2.length - 1) / 2) 0)
            else 0) := by
  unfold correlate_nodelay
  rw [map_range_getD _ _ _ hn, correlate_nodelay_loop_eq_sum, zero_add]
  simp only [Nat.zero_add]

/-- The autocorrelation at the centre index is the energy of the signal. -/
theorem autocorrelation_centre (x : List (complex K)) (hx : 1 ≤ x.length) :
    (correlate_nodelay x x).getD (x.length - 1 - (x.length - 1) / 2) 0
      = of_real (vectornorm2 x) := by
  rw [correlate_nodelay_getD x x _ (by omega), vectornorm2_eq_sum]
  have hterm : ∀ j ∈ Finset.range x.length,
      (if j ≤ x.length - 1 - (x.length - 1) / 2 + (x.length - 1) / 2 ∧
          x.length - 1 - (x.length - 1) / 2 + (x.length - 1) / 2 < x.length + j
        then x.getD j 0 * conj (x.getD (x.length - 1 + j
          - (x.length - 1 - (x.length - 1) / 2) - (x.length - 1) / 2) 0)
        else 0) = of_real (norm (x.getD j 0)) := by
    intro j hj
    have hj2 : j < x.length := Finset.mem_range.mp hj
    rw [if_pos (by omega)]
    have e : x.length - 1 + j - (x.length - 1 - (x.length - 1) / 2) - (x.length - 1) / 2 = j := by
      omega
    rw [e, mul_conj_self]
  rw [Finset.sum_congr rfl hterm]
  ext
  · rw [sum_re]; rfl
  · rw [sum_im]; simp [of_real]

/-- No autocorrelation sample has a squared modulus above the squared energy. -/
theorem autocorrelation_le (x : List (complex K)) (n : Nat) (hn : n < x.length) :
    norm ((correlate_nodelay x x).getD n 0) ≤ vectornorm2 x * vectornorm2 x := by
  rw [correlate_nodelay_getD x x n hn, vectornorm2_eq_sum]
  set d := (x.length - 1) / 2 with hd
  set J := (Finset.range x.length).filter
    (fun j => j ≤ n + d ∧ n + d < x.length + j) with hJ
  have e1 : (∑ j in Finset.range x.length,
      (if j ≤ n + d ∧ n + d < x.length + j
        then x.getD j 0 * conj (x.getD (x.length - 1 + j - n - d) 0) else 0))
      = ∑ j in J, x.getD j 0 * conj (x.getD (x.length - 1 + j - n - d) 0) := by
    rw [hJ, Finset.sum_filter]
  rw [e1]
  refine le_trans (norm_sum_mul_conj_le J _ _) ?_
  have hA : ∑ j in J, norm (x.getD j 0) ≤ ∑ j in Finset.range x.length, norm (x.getD j 0) :=
    Finset.sum_le_sum_of_subset_of_nonneg (Finset.filter_subset _ _)
      (fun j _ _ => norm_nonneg _)
  have hB : ∑ j in J, norm (x.getD (x.length - 1 + j - n - d) 0)
      ≤ ∑ j in Finset.range x.length, norm (x.getD j 0) := by
    have hinj : ∀ a ∈ J, ∀ b ∈ J,
        x.length - 1 + a - n - d = x.length - 1 + b - n - d → a = b := by
      intro a ha b hb hab
      have ha2 := (Finset.mem_filter.mp ha).2
      have hb2 := (Finset.mem_filter.mp hb).2
      omega
    rw [← Finset.sum_image (f := fun k => norm (x.getD k 0)) hinj]
    apply Finset.sum_le_sum_of_subset_of_nonneg
    · intro k hk
      obtain ⟨j, hj, rfl⟩ := Finset.mem_image.mp hk
      have hj2 := (Finset.mem_filter.mp hj).2
      rw [Finset.mem_range]
      omega
    · intro k _ _
      exact norm_nonneg _
  exact mul_le_mul hA hB (Finset.sum_nonneg (fun j _ => norm_nonneg _))
    (Finset.sum_nonneg (fun j _ => norm_nonneg _))

/-- C14: for every non-empty complex signal x of length L, `correlate_nodelay(x, x)` at
the centre index `L - 1 - (L - 1) / 2` (index 13 when L = 26) equals `vectornorm2(x)`, the
sum of the `|x[i]|^2`, and no output sample has a larger modulus (stated for the squared
modulus `norm`). -/
theorem autocorrelation_peak_at_centre (x : List (complex K)) (hx : 1 ≤ x.length) :
    (correlate_nodelay x x).getD (x.length - 1 - (x.length - 1) / 2) 0
      = of_real (vectornorm2 x) ∧
    vectornorm2 x = ∑ i in Finset.range x.length, norm (x.getD i 0) ∧
    (∀ n < x.length,
      norm ((correlate_nodelay x x).getD n 0)
        ≤ norm ((correlate_nodelay x x).getD (x.length - 1 - (x.length - 1) / 2) 0)) ∧
    (x.length = 26 → x.length - 1 - (x.length - 1) / 2 = 13) := by
  refine ⟨autocorrelation_centre x hx, vectornorm2_eq_sum x, ?_, fun h => by omega⟩
  intro n hn
  rw [autocorrelation_centre x hx, norm_of_real]
  exact autocorrelation_le x n hn

theorem autocorrelation_peak_at_centre_witness :
    (correlate_nodelay [(⟨1, 2⟩ : complex ℚ), ⟨0, 1⟩, ⟨3, 0⟩]
        [(⟨1, 2⟩ : complex ℚ), ⟨0, 1⟩, ⟨3, 0⟩]).getD 1 0
      = of_real (vectornorm2 [(⟨1, 2⟩ : complex ℚ), ⟨0, 1⟩, ⟨3, 0⟩]) :=
  (autocorrelation_peak_at_centre [(⟨1, 2⟩ : complex ℚ), ⟨0, 1⟩, ⟨3, 0⟩] (by decide)).1

end Autocorrelation

/-! ## Interpolation at an integer index -/

section Interpolation

variable {K : Type} [LinearOrderedField K]

theorem scale_real_one (z : complex K) : scale_real z 1 = z := by
  ext <;> simp [scale_real]

theorem scale_real_zero (z : complex K) : scale_real z 0 = 0 := by
  ext <;> simp [scale_real]

theorem sinc_zero (m : Libm K) : sinc m 0 = 1 := by
  unfold sinc
  rw [if_neg]
  intro h
  rcases h with h | h
  · have : (0 : K) < 1 / 10000 := by positivity
    linarith
  · have : (0 : K) < 1 / 10000 := by positivity
    linarith

theorem sinc_int_mul_pi (m : Libm K) (hsin : ∀ k : ℤ, k ≠ 0 → m.sinf (m.M_PI * k) = 0)
    (hpi : 1 / 10000 ≤ m.M_PI) (k : ℤ) (hk : k ≠ 0) : sinc m (m.M_PI * k) = 0 := by
  unfold sinc
  have hpos : 0 ≤ m.M_PI := le_trans (by positivity) hpi
  rw [if_pos, hsin k hk, zero_div]
  rcases lt_or_gt_of_ne hk with h | h
  · left
    have h1 : (k : K) ≤ -1 := by exact_mod_cast (by omega : k ≤ -1)
    have : m.M_PI * k ≤ m.M_PI * (-1) := mul_le_mul_of_nonneg_left h1 hpos
    linarith
  · right
    have h1 : (1 : K) ≤ k := by exact_mod_cast (by omega : (1 : ℤ) ≤ k)
    have : m.M_PI * 1 ≤ m.M_PI * k := mul_le_mul_of_nonneg_left h1 hpos
    linarith

theorem interpolate_point_loop_integer (m : Libm K)
    (hsin : ∀ k : ℤ, k ≠ 0 → m.sinf (m.M_PI * k) = 0) (hpi : 1 / 10000 ≤ m.M_PI)
    (s : List (complex K)) (i : Nat) :
    ∀ (fuel : Nat) (a : Int) (point : complex K), 0 ≤ a →
      interpolate_point_loop m s (i : K) fuel a point
        = point + (if a ≤ i ∧ (i : Int) < a + fuel then s.getD i 0 else 0) := by
  intro fuel
  induction fuel with
  | zero =>
    intro a point _
    simp only [interpolate_point_loop]
    rw [if_neg (by omega), add_zero]
  | succ fuel ih =>
    intro a point ha
    simp only [interpolate_point_loop]
    rw [ih (a + 1) _ (by omega)]
    by_cases hai : a = i
    · have e1 : ((a : ℤ) : K) - (i : K) = 0 := by rw [hai]; simp
      have e2 : a.toNat = i := by omega
      rw [e1, mul_zero, sinc_zero, scale_real_one, e2, if_neg (by omega), if_pos (by omega),
        add_zero]
    · have e1 : ((a : ℤ) : K) - (i : K) = ((a - i : ℤ) : K) := by push_cast; ring
      rw [e1, sinc_int_mul_pi m hsin hpi _ (by omega), scale_real_zero, add_zero]
      by_cases hc : a ≤ i ∧ (i : Int) < a + (fuel + 1 : Nat)
      · rw [if_pos hc, if_pos (by omega)]
      · rw [if_neg hc, if_neg (by omega)]

/-- C15: for every signal s and every integer index i inside it (in particular for
10 <= i <= len - 11), `interpolate_point(s, len, i)` equals `s[i]` in exact arithmetic,
that is when `sinf` is 0 at the non-zero multiples of `M_PI` (and `M_PI >= 0.0001`, so
that `sinc` takes its quotient branch there): every other tap has weight 0 and tap i has
weight `sinc(0) = 1`. -/
theorem interpolate_point_at_integer [FloorRing K] (m : Libm K)
    (hsin : ∀ k : ℤ, k ≠ 0 → m.sinf (m.M_PI * k) = 0) (hpi : 1 / 10000 ≤ m.M_PI)
    (s : List (complex K)) (i : Nat) (hi : i < s.length) :
    interpolate_point m s (i : K) = s.getD i 0 := by
  unfold interpolate_point
  simp only [COMMON_FILTER_LEN, Int.floor_natCast]
  rw [interpolate_point_loop_integer m hsin hpi s i _ _ _ (by split <;> omega), zero_add,
    if_pos]
  constructor
  · split <;> omega
  · split <;> split <;> omega

end Interpolation

theorem real_libm_sin (k : ℤ) : real_libm.sinf (real_libm.M_PI * k) = 0 := by
  show Real.sin (Real.pi * k) = 0
  rw [mul_comm]
  exact Real.sin_int_mul_pi k

theorem real_libm_pi : 1 / 10000 ≤ real_libm.M_PI := by
  show 1 / 10000 ≤ Real.pi
  have := Real.pi_gt_three
  linarith

theorem interpolate_point_at_integer_witness :
    interpolate_point real_libm
        [(⟨1, 2⟩ : complex ℝ), ⟨0, 1⟩, ⟨3, 0⟩, ⟨5, 5⟩] ((2 : ℕ) : ℝ)
      = [(⟨1, 2⟩ : complex ℝ), ⟨0, 1⟩, ⟨3, 0⟩, ⟨5, 5⟩].getD 2 0 :=
  interpolate_point_at_integer real_libm (fun k _ => real_libm_sin k) real_libm_pi _ 2
    (by decide)

/-! ## Integer delay -/

section Delay

variable {K : Type} [LinearOrderedField K]

theorem list_getD_set {α : Type} (l : List α) (i j : Nat) (v d : α) :
    (l.set i v).getD j d = if j = i ∧ i < l.length then v else l.getD j d := by
  simp only [List.getD_eq_getElem?_getD, List.getElem?_set]
  by_cases h : i = j
  · subst h
    by_cases h2 : i < l.length
    · simp [h2]
    · simp [h2, List.getElem?_eq_none (Nat.le_of_not_lt h2)]
  · have h3 : ¬ (j = i) := fun e => h e.symm
    simp [h, h3]

theorem delay_copy_up_length (p : Option (List (complex K))) (ids : Int) (k : Nat)
    (v : List (complex K)) : (delay_copy_up p ids k v).length = v.length := by
  induction k with
  | zero => rfl
  | succ k ih => simp [delay_copy_up, ih]

theorem delay_zero_up_length (start k : Nat) (v : List (complex K)) :
    (delay_zero_up start k v).length = v.length := by
  induction k with
  | zero => rfl
  | succ k ih => simp [delay_zero_up, ih]

theorem delay_copy_down_length (p : Option (List (complex K))) (ids top : Int) (k : Nat)
    (v : List (complex K)) : (delay_copy_down p ids top k v).length = v.length := by
  induction k with
  | zero => rfl
  | succ k ih => simp [delay_copy_down, ih]

theorem delay_zero_down_length (top : Int) (k : Nat) (v : List (complex K)) :
    (delay_zero_down top k v).length = v.length := by
  induction k with
  | zero => rfl
  | succ k ih => simp [delay_zero_down, ih]

theorem delay_copy_up_getD (a : Nat) (v : List (complex K)) :
    ∀ k, k + a ≤ v.length → ∀ i,
      (delay_copy_up none (-(a : Int)) k v).getD i 0
        = if i < k then v.getD (i + a) 0 else v.getD i 0 := by
  intro k
  induction k with
  | zero => intro _ i; rfl
  | succ k ih =>
    intro hk i
    have ih2 := ih (by omega)
    simp only [delay_copy_up, Option.getD_none]
    have e : ((k : Int) - -(a : Int)).toNat = k + a := by omega
    rw [list_getD_set, delay_copy_up_length, e, ih2 (k + a), ih2 i]
    by_cases hik : i = k
    · subst hik
      have c1 : i = i ∧ i < v.length := ⟨rfl, by omega⟩
      have c2 : i < i + 1 := by omega
      rw [if_pos c1, if_pos c2]
      by_cases c3 : i + a < i
      · rw [if_pos c3]
        have : a = 0 := by omega
        subst this
        rfl
      · rw [if_neg c3]
    · have c1 : ¬ (i = k ∧ k < v.length) := fun h => hik h.1
      rw [if_neg c1]
      by_cases hlt : i < k
      · have c2 : i < k + 1 := by omega
        rw [if_pos hlt, if_pos c2]
      · have c2 : ¬ i < k + 1 := by omega
        rw [if_neg hlt, if_neg c2]

theorem delay_zero_up_getD (start : Nat) (v : List (complex K)) (k i : Nat) :
    (delay_zero_up start k v).getD i 0
      = if start ≤ i ∧ i < start + k ∧ i < v.length then 0 else v.getD i 0 := by
  induction k with
  | zero =>
    simp only [delay_zero_up]
    have c : ¬ (start ≤ i ∧ i < start + 0 ∧ i < v.length) := by omega
    rw [if_neg c]
  | succ k ih =>
    simp only [delay_zero_up]
    rw [list_getD_set, delay_zero_up_length, ih]
    by_cases h1 : i = start + k ∧ start + k < v.length
    · have c : start ≤ i ∧ i < start + (k + 1) ∧ i < v.length := by omega
      rw [if_pos h1, if_pos c]
    · rw [if_neg h1]
      by_cases h2 : start ≤ i ∧ i < start + k ∧ i < v.length
      · have c : start ≤ i ∧ i < start + (k + 1) ∧ i < v.length := by omega
        rw [if_pos h2, if_pos c]
      · have c : ¬ (start ≤ i ∧ i < start + (k + 1) ∧ i < v.length) := by omega
        rw [if_neg h2, if_neg c]

theorem delay_copy_down_getD (a : Nat) (ha : 0 < a) (v : List (complex K)) :
    ∀ k, k + a ≤ v.length → ∀ i,
      (delay_copy_down none (a : Int) ((v.length : Int) - 1) k v).getD i 0
        = if v.length - k ≤ i ∧ i < v.length then v.getD (i - a) 0 else v.getD i 0 := by
  intro k
  induction k with
  | zero =>
    intro _ i
    simp only [delay_copy_down]
    have c : ¬ (v.length - 0 ≤ i ∧ i < v.length) := by omega
    rw [if_neg c]
  | succ k ih =>
    intro hk i
    have ih2 := ih (by omega)
    simp only [delay_copy_down, Option.getD_none]
    have e1 : ((v.length : Int) - 1 - ((k : Nat) : Int)).toNat = v.length - 1 - k := by omega
    have e2 : ((v.length : Int) - 1 - ((k : Nat) : Int) - (a : Int)).toNat
        = v.length - 1 - k - a := by omega
    rw [list_getD_set, delay_copy_down_length, e1, e2, ih2 (v.length - 1 - k - a), ih2 i]
    have c0 : ¬ (v.length - k ≤ v.length - 1 - k - a ∧ v.length - 1 - k - a < v.length) := by
      omega
    rw [if_neg c0]
    by_cases hik : i = v.length - 1 - k
    · have c1 : i = v.length - 1 - k ∧ v.length - 1 - k < v.length := ⟨hik, by omega⟩
      have c2 : v.length - (k + 1) ≤ i ∧ i < v.length := by omega
      rw [if_pos c1, if_pos c2, hik]
    · have c1 : ¬ (i = v.length - 1 - k ∧ v.length - 1 - k < v.length) := fun h => hik h.1
      rw [if_neg c1]
      by_cases hc : v.length - k ≤ i ∧ i < v.length
      · have c2 : v.length - (k + 1) ≤ i ∧ i < v.length := by omega
        rw [if_pos hc, if_pos c2]
      · have c2 : ¬ (v.length - (k + 1) ≤ i ∧ i < v.length) := by omega
        rw [if_neg hc, if_neg c2]

theorem delay_zero_down_getD (a : Nat) (v : List (complex K)) :
    ∀ k, k ≤ a → ∀ i,
      (delay_zero_down ((a : Int) - 1) k v).getD i 0
        = if a - k ≤ i ∧ i < a ∧ i < v.length then 0 else v.getD i 0 := by
  intro k
  induction k with
  | zero =>
    intro _ i
    simp only [delay_zero_down]
    have c : ¬ (a - 0 ≤ i ∧ i < a ∧ i < v.length) := by omega
    rw [if_neg c]
  | succ k ih =>
    intro hk i
    simp only [delay_zero_down]
    have e1 : ((a : Int) - 1 - ((k : Nat) : Int)).toNat = a - 1 - k := by omega
    rw [list_getD_set, delay_zero_down_length, e1, ih (by omega)]
    by_cases h1 : i = a - 1 - k ∧ a - 1 - k < v.length
    · have c : a - (k + 1) ≤ i ∧ i < a ∧ i < v.length := by omega
      rw [if_pos h1, if_pos c]
    · rw [if_neg h1]
      by_cases h2 : a - k ≤ i ∧ i < a ∧ i < v.length
      · have c : a - (k + 1) ≤ i ∧ i < a ∧ i < v.length := by omega
        rw [if_pos h2, if_pos c]
      · have c : ¬ (a - (k + 1) ≤ i ∧ i < a ∧ i < v.length) := by omega
        rw [if_neg h2, if_neg c]

theorem delay_integer_neg [FloorRing K] (m : Libm K) (v : List (complex K)) (a : Nat)
    (ha : 0 < a) (hle : a ≤ v.length) :
    delay m v ((-(a : Int) : Int) : K)
      = (0, delay_zero_up (v.length - a) a (delay_copy_up none (-(a : Int)) (v.length - a) v)) := by
  unfold delay
  simp only [Int.floor_intCast, sub_self]
  have hf : ¬ ((0 : K) ≥ 1 / 100) := by
    have : (0 : K) < 1 / 100 := by positivity
    exact not_le.mpr this
  have e1 : ((v.length : Int) + -(a : Int)).toNat = v.length - a := by omega
  have e2 : ((v.length : Int) - ((v.length : Int) + -(a : Int))).toNat = a := by omega
  have c : -(a : Int) < 0 := by omega
  rw [if_neg hf, if_pos c, e1, e2]

theorem delay_integer_pos [FloorRing K] (m : Libm K) (v : List (complex K)) (a : Nat)
    (ha : 0 < a) (hle : a ≤ v.length) :
    delay m v (((a : Int) : Int) : K)
      = (0, delay_zero_down ((a : Int) - 1) a
          (delay_copy_down none (a : Int) ((v.length : Int) - 1) (v.length - a) v)) := by
  unfold delay
  simp only [Int.floor_intCast, sub_self]
  have hf : ¬ ((0 : K) ≥ 1 / 100) := by
    have : (0 : K) < 1 / 100 := by positivity
    exact not_le.mpr this
  have e1 : ((v.length : Int) - 1 - (a : Int) + 1).toNat = v.length - a := by omega
  have e2 : ((a : Int)).toNat = a := by omega
  have c1 : ¬ ((a : Int) < 0) := by omega
  have c2 : (a : Int) > 0 := by omega
  rw [if_neg hf, if_neg c1, if_pos c2, e1, e2]

theorem delay_integer_zero [FloorRing K] (m : Libm K) (v : List (complex K)) :
    delay m v (((0 : Int) : Int) : K) = (0, v) := by
  unfold delay
  simp only [Int.floor_intCast, sub_self]
  have hf : ¬ ((0 : K) ≥ 1 / 100) := by
    have : (0 : K) < 1 / 100 := by positivity
    exact not_le.mpr this
  have c1 : ¬ ((0 : Int) < 0) := by omega
  have c2 : ¬ ((0 : Int) > 0) := by omega
  rw [if_neg hf, if_neg c1, if_neg c2]

/-- C18: for every buffer v of length n and every integer-valued toa = k with |k| <= n,
`delay(v, n, k)` returns 0 and leaves `v[i] = v_old[i - k]` for every i with
0 <= i - k < n and `v[i] = 0` for every other i < n; k = 0 leaves v unchanged. -/
theorem delay_by_integer [FloorRing K] (m : Libm K) (v : List (complex K)) (k : Int)
    (hlo : -(v.length : Int) ≤ k) (hhi : k ≤ v.length) :
    (delay m v (k : K)).1 = 0 ∧
    (delay m v (k : K)).2.length = v.length ∧
    (∀ i < v.length,
      (delay m v (k : K)).2.getD i 0
        = if 0 ≤ (i : Int) - k ∧ (i : Int) - k < v.length
          then v.getD ((i : Int) - k).toNat 0 else 0) ∧
    (k = 0 → (delay m v (k : K)).2 = v) := by
  rcases lt_trichotomy k 0 with hk | hk | hk
  · obtain ⟨a, rfl⟩ : ∃ a : Nat, k = -(a : Int) := ⟨k.natAbs, by omega⟩
    rw [delay_integer_neg m v a (by omega) (by omega)]
    refine ⟨rfl, ?_, ?_, fun h => by omega⟩
    · rw [delay_zero_up_length, delay_copy_up_length]
    · intro i hi
      have hcopy := delay_copy_up_getD a v (v.length - a) (by omega) i
      rw [delay_zero_up_getD, delay_copy_up_length, hcopy]
      by_cases hc : v.length - a ≤ i ∧ i < v.length - a + a ∧ i < v.length
      · have c2 : ¬ (0 ≤ (i : Int) - -(a : Int) ∧ (i : Int) - -(a : Int) < v.length) := by omega
        rw [if_pos hc, if_neg c2]
      · have e : ((i : Int) - -(a : Int)).toNat = i + a := by omega
        have c1 : i < v.length - a := by omega
        have c2 : 0 ≤ (i : Int) - -(a : Int) ∧ (i : Int) - -(a : Int) < v.length := by omega
        rw [if_neg hc, if_pos c1, if_pos c2, e]
  · subst hk
    rw [delay_integer_zero]
    refine ⟨rfl, rfl, ?_, fun _ => rfl⟩
    intro i hi
    have e : ((i : Int) - 0).toNat = i := by omega
    have c : 0 ≤ (i : Int) - 0 ∧ (i : Int) - 0 < v.length := by omega
    rw [if_pos c, e]
  · obtain ⟨a, rfl⟩ : ∃ a : Nat, k = (a : Int) := ⟨k.natAbs, by omega⟩
    rw [delay_integer_pos m v a (by omega) (by omega)]
    refine ⟨rfl, ?_, ?_, fun h => by omega⟩
    · rw [delay_zero_down_length, delay_copy_down_length]
    · intro i hi
      have hcopy := delay_copy_down_getD a (by omega) v (v.length - a) (by omega) i
      rw [delay_zero_down_getD a _ a (le_refl _), delay_copy_down_length, hcopy]
      by_cases hc : a - a ≤ i ∧ i < a ∧ i < v.length
      · have c2 : ¬ (0 ≤ (i : Int) - (a : Int) ∧ (i : Int) - (a : Int) < v.length) := by omega
        rw [if_pos hc, if_neg c2]
      · have e : ((i : Int) - (a : Int)).toNat = i - a := by omega
        have c1 : v.length - (v.length - a) ≤ i ∧ i < v.length := by omega
        have c2 : 0 ≤ (i : Int) - (a : Int) ∧ (i : Int) - (a : Int) < v.length := by omega
        rw [if_neg hc, if_pos c1, if_pos c2, e]

end Delay

theorem delay_by_integer_witness :
    (delay real_libm [(⟨1, 2⟩ : complex ℝ), ⟨0, 1⟩, ⟨3, 0⟩, ⟨5, 5⟩] (((-2 : Int) : Int) : ℝ)).1 = 0 :=
  (delay_by_integer real_libm [(⟨1, 2⟩ : complex ℝ), ⟨0, 1⟩, ⟨3, 0⟩, ⟨5, 5⟩] (-2)
    (by decide) (by decide)).1

/-! ## GMSK rotation -/

section Rotation

variable {K : Type} [LinearOrderedField K]

theorem list_ext_getD (l1 l2 : List (complex K)) (hl : l1.length = l2.length)
    (h : ∀ i < l1.length, l1.getD i 0 = l2.getD i 0) : l1 = l2 := by
  apply List.ext_getElem hl
  intro i h1 h2
  have := h i h1
  rw [List.getD_eq_getElem _ _ h1, List.getD_eq_getElem _ _ h2] at this
  exact this

theorem rotate_loop_length (table : List (complex K)) (offset : Nat) (v : List (complex K))
    (k : Nat) : (rotate_loop table offset k v).length = v.length := by
  induction k with
  | zero => rfl
  | succ k ih => simp only [rotate_loop, List.length_set, ih]

theorem rotate_loop_getD (table : List (complex K)) (offset : Nat) (v : List (complex K))
    (k : Nat) : ∀ i,
    (rotate_loop table offset k v).getD i 0
      = if i < k ∧ i < v.length then table.getD (offset + i) 0 * v.getD i 0 else v.getD i 0 := by
  induction k with
  | zero =>
    intro i
    simp only [rotate_loop]
    have c : ¬ (i < 0 ∧ i < v.length) := by omega
    rw [if_neg c]
  | succ k ih =>
    intro i
    simp only [rotate_loop]
    rw [list_getD_set, rotate_loop_length, ih i, ih k]
    have c0 : ¬ (k < k ∧ k < v.length) := by omega
    rw [if_neg c0]
    by_cases h1 : i = k ∧ k < v.length
    · have c : i < k + 1 ∧ i < v.length := by omega
      rw [if_pos h1, if_pos c, h1.1]
    · rw [if_neg h1]
      by_cases h2 : i < k ∧ i < v.length
      · have c : i < k + 1 ∧ i < v.length := by omega
        rw [if_pos h2, if_pos c]
      · have c : ¬ (i < k + 1 ∧ i < v.length) := by omega
        rw [if_neg h2, if_neg c]

theorem rotator_tables (m : Libm K) (n : Nat) (hn : n < ROTATOR_LEN) :
    (rotator_table m).getD n 0 = m.cexp ⟨0, (m.M_PI / 2) * ((n % 4 : Nat) : K)⟩ ∧
    (rrotator_table m).getD n 0 = m.cexp ⟨0, -(m.M_PI / 2) * ((n % 4 : Nat) : K)⟩ := by
  unfold rotator_table rrotator_table
  exact ⟨map_range_getD _ _ _ hn, map_range_getD _ _ _ hn⟩

/-- After `gmsk_rotate` on a state in which the tables were built together, both tables are
those of `build_rotators`, the call returned 0 and the array was multiplied entry by entry
by the rotator table. -/
theorem gmsk_rotate_eq (m : Libm K) (st : DspState K) (v : List (complex K)) (offset : Nat)
    (hst : rotators_together m st) (hv : v.length ≤ ROTATOR_LEN) :
    gmsk_rotate m st v offset
      = (0, ⟨some (rotator_table m), some (rrotator_table m), st.m_gaussian_pulse⟩,
          rotate_loop (rotator_table m) offset v.length v) := by
  have hlen : ¬ v.length > ROTATOR_LEN := by omega
  cases st with
  | mk a b c =>
    unfold gmsk_rotate
    rw [if_neg hlen]
    rcases hst with ⟨h1, h2⟩ | ⟨h1, h2⟩
    · have h1a : a = none := h1
      have h2a : b = none := h2
      subst h1a
      subst h2a
      rfl
    · have h1a : a = some (rotator_table m) := h1
      have h2a : b = some (rrotator_table m) := h2
      subst h1a
      subst h2a
      rfl

/-- On a state in which the reverse table is built, `gmsk_rrotate` returns 0, leaves the
state and multiplies the array entry by entry by the reverse table. -/
theorem gmsk_rrotate_spec (m : Libm K) (st : DspState K) (v : List (complex K))
    (r : List (complex K)) (hr : st.m_gmsk_rrotator = some r) (hv : v.length ≤ ROTATOR_LEN) :
    gmsk_rrotate m st v = (0, st, rotate_loop r 0 v.length v) := by
  have hlen : ¬ v.length > ROTATOR_LEN := by omega
  unfold gmsk_rrotate
  rw [if_neg hlen, hr]

/-- The round trip through both rotations, entry by entry. -/
theorem rotate_rrotate_loop (rot rrot v : List (complex K))
    (hinv : ∀ n < v.length, rrot.getD n 0 * rot.getD n 0 = 1) :
    rotate_loop rrot 0 (rotate_loop rot 0 v.length v).length (rotate_loop rot 0 v.length v)
      = v := by
  apply list_ext_getD
  · rw [rotate_loop_length, rotate_loop_length]
  · intro i hi
    rw [rotate_loop_length, rotate_loop_length] at hi
    rw [rotate_loop_getD, rotate_loop_length, rotate_loop_getD]
    have c : i < v.length ∧ i < v.length := ⟨hi, hi⟩
    rw [if_pos c, if_pos c, Nat.zero_add, ← mul_assoc, hinv i hi, one_mul]

/-- C13: on every state in which the rotator tables were built together (in particular
the start state) and for every buffer of length at most 1024, `gmsk_rotate` returns 0,
`gmsk_rrotate` on the result returns 0 and gives back the original buffer; entry `n` of
the rotator table is `exp(j (pi/2) (n mod 4))`, entry `n` of the reverse table is
`exp(-j (pi/2) (n mod 4))`, and their product is 1.  The complex exponential of the
library is assumed to give inverse values at opposite quarter turns. -/
theorem gmsk_rotate_rrotate_identity (m : Libm K) (st : DspState K) (v : List (complex K))
    (hst : rotators_together m st) (hv : v.length ≤ 1024)
    (hinv : ∀ k < 4, m.cexp ⟨0, -(m.M_PI / 2) * ((k : Nat) : K)⟩
        * m.cexp ⟨0, (m.M_PI / 2) * ((k : Nat) : K)⟩ = 1) :
    (gmsk_rotate m st v 0).1 = 0 ∧
    (gmsk_rrotate m (gmsk_rotate m st v 0).2.1 (gmsk_rotate m st v 0).2.2).1 = 0 ∧
    (gmsk_rrotate m (gmsk_rotate m st v 0).2.1 (gmsk_rotate m st v 0).2.2).2.2 = v ∧
    ∀ n < 1024,
      ((gmsk_rotate m st v 0).2.1.m_gmsk_rotator.getD []).getD n 0
        = m.cexp ⟨0, (m.M_PI / 2) * ((n % 4 : Nat) : K)⟩ ∧
      ((gmsk_rotate m st v 0).2.1.m_gmsk_rrotator.getD []).getD n 0
        = m.cexp ⟨0, -(m.M_PI / 2) * ((n % 4 : Nat) : K)⟩ ∧
      ((gmsk_rotate m st v 0).2.1.m_gmsk_rotator.getD []).getD n 0
        * ((gmsk_rotate m st v 0).2.1.m_gmsk_rrotator.getD []).getD n 0 = 1 := by
  have htab : ∀ n < 1024, (rrotator_table m).getD n 0 * (rotator_table m).getD n 0 = 1 := by
    intro n hn
    rw [(rotator_tables m n hn).1, (rotator_tables m n hn).2]
    exact hinv (n % 4) (Nat.mod_lt _ (by decide))
  rw [gmsk_rotate_eq m st v 0 hst hv]
  have hlen : (rotate_loop (rotator_table m) 0 v.length v).length ≤ ROTATOR_LEN := by
    rw [rotate_loop_length]; exact hv
  rw [gmsk_rrotate_spec m _ _ (rrotator_table m) rfl hlen]
  refine ⟨rfl, rfl, ?_, ?_⟩
  · exact rotate_rrotate_loop _ _ v (fun n hn => htab n (by omega))
  · intro n hn
    refine ⟨(rotator_tables m n hn).1, (rotator_tables m n hn).2, ?_⟩
    rw [mul_comm]
    exact htab n hn

theorem real_libm_cexp_inv (x : ℝ) :
    real_libm.cexp ⟨0, -x⟩ * real_libm.cexp ⟨0, x⟩ = 1 := by
  apply complex.ext
  · simp only [real_libm, complex_mul_re, complex_one_re, Real.exp_zero, one_mul, Real.cos_neg,
      Real.sin_neg]
    have := Real.sin_sq_add_cos_sq x
    nlinarith
  · simp only [real_libm, complex_mul_im, complex_one_im, Real.exp_zero, one_mul, Real.cos_neg,
      Real.sin_neg]
    ring

theorem gmsk_rotate_rrotate_identity_witness :
    (gmsk_rotate real_libm start_state [(⟨1, 2⟩ : complex ℝ), ⟨0, 1⟩, ⟨3, 0⟩] 0).1 = 0 ∧
    (gmsk_rrotate real_libm
      (gmsk_rotate real_libm start_state [(⟨1, 2⟩ : complex ℝ), ⟨0, 1⟩, ⟨3, 0⟩] 0).2.1
      (gmsk_rotate real_libm start_state [(⟨1, 2⟩ : complex ℝ), ⟨0, 1⟩, ⟨3, 0⟩] 0).2.2).1 = 0 ∧
    (gmsk_rrotate real_libm
      (gmsk_rotate real_libm start_state [(⟨1, 2⟩ : complex ℝ), ⟨0, 1⟩, ⟨3, 0⟩] 0).2.1
      (gmsk_rotate real_libm start_state [(⟨1, 2⟩ : complex ℝ), ⟨0, 1⟩, ⟨3, 0⟩] 0).2.2).2.2
        = [(⟨1, 2⟩ : complex ℝ), ⟨0, 1⟩, ⟨3, 0⟩] :=
  let h := gmsk_rotate_rrotate_identity real_libm start_state
    [(⟨1, 2⟩ : complex ℝ), ⟨0, 1⟩, ⟨3, 0⟩] (Or.inl ⟨rfl, rfl⟩) (by norm_num)
    (fun k _ => by
      have := real_libm_cexp_inv (real_libm.M_PI / 2 * ((k : Nat) : ℝ))
      rw [← neg_mul] at this
      exact this)
  ⟨h.1, h.2.1, h.2.2.1⟩

end Rotation

/-! ## Modulation -/

section Modulation

variable {K : Type} [LinearOrderedField K]

theorem convolve_nodelay_loop_eq_sum (s h : List (complex K)) (d n : Nat) :
    ∀ (fuel i : Nat) (y : complex K),
      convolve_nodelay_loop s h d n fuel i y
        = y + ∑ j in Finset.range fuel,
            (if i + j ≤ n + d ∧ n + d < h.length + (i + j)
              then s.getD (i + j) 0 * h.getD (n + d - (i + j)) 0
              else 0) := by
  intro fuel
  induction fuel with
  | zero => intro i y; simp [convolve_nodelay_loop]
  | succ fuel ih =>
    intro i y
    simp only [convolve_nodelay_loop]
    by_cases hi : i > n + d
    · rw [if_pos hi, Finset.sum_eq_zero, add_zero]
      intro j _
      have c : ¬ (i + j ≤ n + d ∧ n + d < h.length + (i + j)) := by omega
      rw [if_neg c]
    · rw [if_neg hi, ih, Finset.sum_range_succ']
      have e : ∀ j, i + 1 + j = i + (j + 1) := fun j => by omega
      simp only [e, Nat.add_zero]
      by_cases hc : n + d < h.length + i
      · have c : i ≤ n + d ∧ n + d < h.length + i := ⟨by omega, hc⟩
        rw [if_pos hc, if_pos c]
        abel
      · rw [if_neg hc, if_neg (fun h => hc h.2)]
        abel

theorem convolve_nodelay_getD (s h : List (complex K)) (n : Nat) (hn : n < s.length) :
    (convolve_nodelay s h).getD n 0
      = ∑ j in Finset.range s.length,
          (if j ≤ n + (h.length - 1) / 2 ∧ n + (h.length - 1) / 2 < h.length + j
            then s.getD j 0 * h.getD (n + (h.length - 1) / 2 - j) 0
            else 0) := by
  unfold convolve_nodelay
  rw [map_range_getD _ _ _ hn, convolve_nodelay_loop_eq_sum, zero_add]
  simp only [Nat.zero_add]

theorem polarize_loop_length (bv : List Nat) (stride : Nat) (c : List (complex K)) (k : Nat) :
    (polarize_loop bv stride k c).length = c.length := by
  induction k with
  | zero => rfl
  | succ k ih => simp only [polarize_loop, List.length_set, ih]

theorem polarize_loop_getD (bv : List Nat) (c : List (complex K)) (k : Nat) : ∀ i,
    (polarize_loop bv 1 k c).getD i 0
      = if i < k ∧ i < c.length then of_real (1 - 2 * (bv.getD i 0 : K)) else c.getD i 0 := by
  induction k with
  | zero =>
    intro i
    simp only [polarize_loop]
    have c0 : ¬ (i < 0 ∧ i < c.length) := by omega
    rw [if_neg c0]
  | succ k ih =>
    intro i
    simp only [polarize_loop, Nat.mul_one]
    rw [list_getD_set, polarize_loop_length, ih i]
    by_cases h1 : i = k ∧ k < c.length
    · have c1 : i < k + 1 ∧ i < c.length := by omega
      rw [if_pos h1, if_pos c1, h1.1]
    · rw [if_neg h1]
      by_cases h2 : i < k ∧ i < c.length
      · have c1 : i < k + 1 ∧ i < c.length := by omega
        rw [if_pos h2, if_pos c1]
      · have c1 : ¬ (i < k + 1 ∧ i < c.length) := by omega
        rw [if_neg h2, if_neg c1]

theorem replicate_zero_getD (L i : Nat) : (List.replicate L (0 : complex K)).getD i 0 = 0 := by
  by_cases h : i < L
  · rw [List.getD_eq_getElem _ _ (by simpa using h)]
    simp
  · rw [List.getD_eq_default _ _ (by simpa using h)]

theorem of_real_zero : of_real (0 : K) = 0 := rfl

theorem quarter_turn_mod (k : Nat) : (quarter_turn (k % 4) : complex K) = quarter_turn k := by
  unfold quarter_turn
  rw [Nat.mod_mod]

theorem quarter_turn_cases (k : Nat) :
    (k % 4 = 0 ∧ (quarter_turn k : complex K) = ⟨1, 0⟩) ∨
    (k % 4 = 1 ∧ (quarter_turn k : complex K) = ⟨0, 1⟩) ∨
    (k % 4 = 2 ∧ (quarter_turn k : complex K) = ⟨-1, 0⟩) ∨
    (k % 4 = 3 ∧ (quarter_turn k : complex K) = ⟨0, -1⟩) := by
  unfold quarter_turn
  have h : k % 4 = 0 ∨ k % 4 = 1 ∨ k % 4 = 2 ∨ k % 4 = 3 := by omega
  rcases h with h | h | h | h <;> simp [h]

/-- A quarter turn times the conjugate of a neighbouring one is purely imaginary, and
times its own conjugate is 1. -/
theorem quarter_turn_conj (k j : Nat) :
    ((j = k + 1 ∨ j + 1 = k) → (conj (quarter_turn k) * (quarter_turn j : complex K)).re = 0) ∧
    (conj (quarter_turn k) * (quarter_turn k : complex K)).re = 1 := by
  constructor
  · intro hadj
    rcases quarter_turn_cases (K := K) k with ⟨hk, ek⟩ | ⟨hk, ek⟩ | ⟨hk, ek⟩ | ⟨hk, ek⟩ <;>
    rcases quarter_turn_cases (K := K) j with ⟨hj, ej⟩ | ⟨hj, ej⟩ | ⟨hj, ej⟩ | ⟨hj, ej⟩ <;>
    first
      | (exfalso; omega)
      | (rw [ek, ej]; simp [conj])
  · rcases quarter_turn_cases (K := K) k with ⟨_, ek⟩ | ⟨_, ek⟩ | ⟨_, ek⟩ | ⟨_, ek⟩ <;>
    (rw [ek]; simp [conj])

/-- At an even index the neighbouring quarter turns are purely imaginary and the quarter
turn itself is 1 (index 0 mod 4) or -1 (index 2 mod 4). -/
theorem quarter_turn_even (k j : Nat) (hk : k % 2 = 0) :
    ((j = k + 1 ∨ j + 1 = k) → ((1 : complex K) * quarter_turn j).re = 0) ∧
    (k % 4 = 0 → ((1 : complex K) * quarter_turn k).re = 1) ∧
    (k % 4 = 2 → ((1 : complex K) * quarter_turn k).re = -1) := by
  refine ⟨?_, ?_, ?_⟩
  · intro hadj
    rcases quarter_turn_cases (K := K) j with ⟨hj, ej⟩ | ⟨hj, ej⟩ | ⟨hj, ej⟩ | ⟨hj, ej⟩ <;>
    first
      | (exfalso; omega)
      | (rw [ej]; simp)
  · intro h
    rcases quarter_turn_cases (K := K) k with ⟨hj, ej⟩ | ⟨hj, ej⟩ | ⟨hj, ej⟩ | ⟨hj, ej⟩ <;>
    first
      | (exfalso; omega)
      | (rw [ej]; simp)
  · intro h
    rcases quarter_turn_cases (K := K) k with ⟨hj, ej⟩ | ⟨hj, ej⟩ | ⟨hj, ej⟩ | ⟨hj, ej⟩ <;>
    first
      | (exfalso; omega)
      | (rw [ej]; simp)

/-- The real part of `c` times output sample `k` of a three-tap real filter applied to a
real sequence `X` rotated by `Q`, when `c` times the neighbouring rotations is purely
imaginary: only the centre tap contributes. -/
theorem re_mul_sum_window (c : complex K) (Q : Nat → complex K) (X H : Nat → K) (L k : Nat)
    (hk : k < L) (hadj : ∀ j, (j = k + 1 ∨ j + 1 = k) → (c * Q j).re = 0) :
    (c * ∑ j in Finset.range L,
        (if j ≤ k + 1 ∧ k + 1 < 3 + j
          then Q j * of_real (X j) * of_real (H (k + 1 - j)) else 0)).re
      = (c * Q k).re * X k * H 1 := by
  rw [Finset.mul_sum, sum_re, Finset.sum_eq_single k]
  · have c1 : k ≤ k + 1 ∧ k + 1 < 3 + k := by omega
    have e : k + 1 - k = 1 := by omega
    rw [if_pos c1, e]
    simp only [complex_mul_re, complex_mul_im, of_real]
    ring
  · intro j _ hjk
    by_cases hw : j ≤ k + 1 ∧ k + 1 < 3 + j
    · have hz := hadj j (by omega)
      rw [if_pos hw]
      simp only [complex_mul_re, complex_mul_im, of_real] at hz ⊢
      linear_combination X j * H (k + 1 - j) * hz
    · rw [if_neg hw]
      simp
  · intro hnot
    exact absurd (Finset.mem_range.mpr hk) hnot

theorem soft_value_gt_half (z : complex K) : soft_value z > 1 / 2 ↔ z.re < 0 := by
  unfold soft_value
  simp only []
  by_cases h1 : (1 - z.re) / 2 > 1
  · rw [if_pos h1]
    constructor
    · intro _; linarith
    · intro _; norm_num
  · rw [if_neg h1]
    by_cases h2 : (1 - z.re) / 2 < 0
    · rw [if_pos h2]
      constructor
      · intro h; norm_num at h
      · intro h; linarith
    · rw [if_neg h2]
      constructor
      · intro h; linarith
      · intro h; linarith

/-- The array that `modulate` hands to the pulse-shaping filter: sample `j` is the quarter
turn `j` times the polarized bit `j` (0 in the guard period). -/
theorem rotated_getD (m : Libm K) (bv : List Nat) (guard_len : Nat)
    (hlen : bv.length + guard_len ≤ ROTATOR_LEN) (hq : exact_quarter_turns m) (j : Nat) :
    (rotate_loop (rotator_table m) 0 (bv.length + guard_len)
      (polarize_loop bv 1 bv.length (List.replicate (bv.length + guard_len) 0))).getD j 0
      = quarter_turn j
        * of_real (if j < bv.length then 1 - 2 * (bv.getD j 0 : K) else 0) := by
  rw [rotate_loop_getD, polarize_loop_length, List.length_replicate, polarize_loop_getD,
    List.length_replicate, replicate_zero_getD]
  by_cases hj : j < bv.length
  · have c1 : j < bv.length + guard_len ∧ j < bv.length + guard_len := by omega
    have c2 : j < bv.length ∧ j < bv.length + guard_len := by omega
    rw [if_pos c1, if_pos c2, if_pos hj, Nat.zero_add, (rotator_tables m j (by omega)).1,
      (hq (j % 4) (Nat.mod_lt _ (by decide))).1, quarter_turn_mod]
  · have c2 : ¬ (j < bv.length ∧ j < bv.length + guard_len) := fun h => hj h.1
    rw [if_neg c2, if_neg hj, of_real_zero, mul_zero, mul_zero, ite_self]

end Modulation

section ModulationRoundTrip

variable {K : Type} [LinearOrderedField K] [FloorRing K]

/-- The pulse that `modulate` caches (`sps` = 1.0): three real taps with a positive
centre tap. -/
theorem gaussian_pulse_unit (m : Libm K) (hexp : ∀ x, 0 < m.exp x)
    (hsqrt : ∀ x, 0 < x → 0 < m.sqrtf x) :
    (generate_gaussian_pulse m 1).length = 3 ∧
    (∀ i, ((generate_gaussian_pulse m 1).getD i 0).im = 0) ∧
    0 < ((generate_gaussian_pulse m 1).getD 1 0).re := by
  have e : ⌈(2 * 1 + 1 : K)⌉.toNat = 3 := by
    have : (2 * 1 + 1 : K) = ((3 : ℤ) : K) := by norm_num
    rw [this, Int.ceil_intCast]
    rfl
  have r3 : List.range 3 = [0, 1, 2] := by decide
  unfold generate_gaussian_pulse
  simp only [e, r3, List.map_cons, List.map_nil, List.length_cons, List.length_nil]
  refine ⟨trivial, ?_, ?_⟩
  · intro i
    match i with
    | 0 => simp [div_real, of_real]
    | 1 => simp [div_real, of_real]
    | 2 => simp [div_real, of_real]
    | i + 3 => simp
  · simp only [List.getD_cons_succ, List.getD_cons_zero, div_real, of_real]
    apply div_pos (mul_pos (by norm_num) (hexp _))
    apply hsqrt
    rw [div_one]
    simp only [vectornorm2, vectornorm2_loop, List.length_cons, List.length_nil,
      List.getD_cons_succ, List.getD_cons_zero, norm, of_real]
    have key : ∀ a b c : K, 0 < b →
        0 < 0 + (96 / 100 * a * (96 / 100 * a) + 0 * 0)
          + (96 / 100 * b * (96 / 100 * b) + 0 * 0)
          + (96 / 100 * c * (96 / 100 * c) + 0 * 0) := by
      intro a b c hb
      nlinarith [mul_self_nonneg a, mul_self_nonneg c, mul_pos hb hb]
    exact key _ _ _ (hexp _)

theorem modulate_eq (m : Libm K) (st : DspState K) (bv : List Nat) (guard_len : Nat)
    (hst : reachable m st) (hlen : bv.length + guard_len ≤ ROTATOR_LEN) :
    modulate m st bv guard_len 1
      = (some (convolve_nodelay
          (rotate_loop (rotator_table m) 0 (bv.length + guard_len)
            (polarize_loop bv 1 bv.length (List.replicate (bv.length + guard_len) 0)))
          (generate_gaussian_pulse m 1)),
         ⟨some (rotator_table m), some (rrotator_table m),
           some (generate_gaussian_pulse m 1)⟩) := by
  have e1 : ⌈(1 : K) * ((bv.length + guard_len : Nat) : K)⌉.toNat = bv.length + guard_len := by
    rw [one_mul, Int.ceil_natCast, Int.toNat_ofNat]
  have e2 : ⌊(1 : K)⌋.toNat = 1 := by rw [Int.floor_one]; rfl
  have hl : (polarize_loop bv 1 bv.length
      (List.replicate (bv.length + guard_len) (0 : complex K))).length
        = bv.length + guard_len := by
    rw [polarize_loop_length, List.length_replicate]
  unfold modulate
  simp only [e1, e2]
  rw [gmsk_rotate_eq m st _ 0 hst.1 (by rw [hl]; exact hlen), hl]
  simp only [ne_eq, not_true_eq_false, if_false]
  rcases hst.2 with h | h <;> rw [h]

/-- A buffer longer than the rotator table: `gmsk_rotate` fails and `modulate` returns the
null pointer. -/
theorem modulate_too_long (m : Libm K) (st : DspState K) (bv : List Nat) (guard_len : Nat)
    (hlen : ROTATOR_LEN < bv.length + guard_len) :
    (modulate m st bv guard_len 1).1 = none := by
  have e1 : ⌈(1 : K) * ((bv.length + guard_len : Nat) : K)⌉.toNat = bv.length + guard_len := by
    rw [one_mul, Int.ceil_natCast, Int.toNat_ofNat]
  have hl : ∀ s : Nat, (polarize_loop bv s bv.length
      (List.replicate (bv.length + guard_len) (0 : complex K))).length > ROTATOR_LEN := by
    intro s
    rw [polarize_loop_length, List.length_replicate]
    exact hlen
  unfold modulate gmsk_rotate
  simp only [e1]
  rw [if_pos (hl _)]
  simp

/-- The real part of `c` times sample `k` of the output of `modulate`, when `c` times the
neighbouring quarter turns is purely imaginary: the centre tap of the pulse times the
polarized bit `k`. -/
theorem modulate_output_re (m : Libm K) (bv : List Nat) (guard_len : Nat)
    (hlen : bv.length + guard_len ≤ ROTATOR_LEN) (hq : exact_quarter_turns m)
    (hexp : ∀ x, 0 < m.exp x) (hsqrt : ∀ x, 0 < x → 0 < m.sqrtf x)
    (k : Nat) (hk : k < bv.length + guard_len) (c : complex K)
    (hadj : ∀ j, (j = k + 1 ∨ j + 1 = k) → (c * quarter_turn j).re = 0) :
    (c * (convolve_nodelay
          (rotate_loop (rotator_table m) 0 (bv.length + guard_len)
            (polarize_loop bv 1 bv.length (List.replicate (bv.length + guard_len) 0)))
          (generate_gaussian_pulse m 1)).getD k 0).re
      = (c * quarter_turn k).re
        * (if k < bv.length then 1 - 2 * (bv.getD k 0 : K) else 0)
        * ((generate_gaussian_pulse m 1).getD 1 0).re := by
  obtain ⟨hp3, hpim, _⟩ := gaussian_pulse_unit m hexp hsqrt
  have hsl : (rotate_loop (rotator_table m) 0 (bv.length + guard_len)
      (polarize_loop bv 1 bv.length
        (List.replicate (bv.length + guard_len) (0 : complex K)))).length
        = bv.length + guard_len := by
    rw [rotate_loop_length, polarize_loop_length, List.length_replicate]
  rw [convolve_nodelay_getD _ _ k (by rw [hsl]; exact hk), hsl, hp3]
  have hd : (3 - 1) / 2 = 1 := by decide
  rw [hd]
  have hsum : ∀ j ∈ Finset.range (bv.length + guard_len),
      (if j ≤ k + 1 ∧ k + 1 < 3 + j
        then (rotate_loop (rotator_table m) 0 (bv.length + guard_len)
            (polarize_loop bv 1 bv.length
              (List.replicate (bv.length + guard_len) 0))).getD j 0
          * (generate_gaussian_pulse m 1).getD (k + 1 - j) 0
        else 0)
      = (if j ≤ k + 1 ∧ k + 1 < 3 + j
        then quarter_turn j
          * of_real (if j < bv.length then 1 - 2 * (bv.getD j 0 : K) else 0)
          * of_real (((generate_gaussian_pulse m 1).getD (k + 1 - j) 0).re)
        else 0) := by
    intro j _
    have e : (generate_gaussian_pulse m 1).getD (k + 1 - j) 0
        = of_real (((generate_gaussian_pulse m 1).getD (k + 1 - j) 0).re) :=
      complex.ext rfl (hpim _)
    rw [rotated_getD m bv guard_len hlen hq j, ← e]
  rw [Finset.sum_congr rfl hsum]
  exact re_mul_sum_window c quarter_turn
    (fun j => if j < bv.length then 1 - 2 * (bv.getD j 0 : K) else 0)
    (fun i => ((generate_gaussian_pulse m 1).getD i 0).re) _ k hk hadj

end ModulationRoundTrip

/-! ## The modulation round trip -/

theorem slice_getD (s : List ℚ) (i : Nat) (hi : i < s.length) :
    (slice s).getD i 0 = if s.getD i 0 > 1 / 2 then 1 else 0 := by
  unfold slice
  rw [List.getD_eq_getElem _ _ (by simpa using hi), List.getD_eq_getElem _ _ hi]
  simp

theorem slice_slice_soft_getD (v : List (complex ℚ)) (i : Nat) (hi : i < v.length) :
    (slice (slice_soft v)).getD i 0 = if (v.getD i 0).re < 0 then 1 else 0 := by
  rw [slice_getD _ i (by simpa [slice_soft] using hi), slice_soft_getD v i hi]
  by_cases h : (v.getD i 0).re < 0
  · rw [if_pos h, if_pos ((soft_value_gt_half _).mpr h)]
  · rw [if_neg h, if_neg (fun h2 => h ((soft_value_gt_half _).mp h2))]

/-- The sliced bit of a sample whose real part is `sigma * x * h` for a polarized bit
`x = 1 - 2 b`, a positive `h` and a sign `sigma`. -/
theorem sliced_bit (re h : ℚ) (b : Nat) (hb : b < 2) (hh : 0 < h) :
    (re = 1 * (1 - 2 * (b : ℚ)) * h → (if re < 0 then 1 else 0) = b) ∧
    (re = -1 * (1 - 2 * (b : ℚ)) * h → (if re < 0 then 1 else 0) = 1 - b) := by
  have hcases : b = 0 ∨ b = 1 := by omega
  constructor
  · intro hre
    rcases hcases with h0 | h1
    · subst h0
      have : ¬ re < 0 := by rw [hre]; norm_num; exact le_of_lt hh
      rw [if_neg this]
    · subst h1
      have : re < 0 := by rw [hre]; norm_num; exact hh
      rw [if_pos this]
  · intro hre
    rcases hcases with h0 | h1
    · subst h0
      have : re < 0 := by rw [hre]; norm_num; exact hh
      rw [if_pos this]
    · subst h1
      have : ¬ re < 0 := by rw [hre]; norm_num; exact le_of_lt hh
      rw [if_neg this]

/-- The bits sliced from the output of `modulate`, with and without the reverse rotation. -/
theorem modulate_sliced (m : Libm ℚ) (st : DspState ℚ) (b : List Nat) (guard : Nat)
    (hst : reachable m st) (hb : ∀ i < b.length, b.getD i 0 < 2)
    (hlen : b.length + guard ≤ 1024) (hq : exact_quarter_turns m)
    (hexp : ∀ x, 0 < m.exp x) (hsqrt : ∀ x, 0 < x → 0 < m.sqrtf x) :
    ∃ out, modulate m st b guard 1
        = (some out, ⟨some (rotator_table m), some (rrotator_table m),
            some (generate_gaussian_pulse m 1)⟩) ∧
      out.length = b.length + guard ∧
      (gmsk_rrotate m (modulate m st b guard 1).2 out).1 = 0 ∧
      (∀ k < b.length,
        (slice (slice_soft (gmsk_rrotate m (modulate m st b guard 1).2 out).2.2)).getD k 0
          = b.getD k 0) ∧
      (∀ k < b.length, k % 4 = 0 → (slice (slice_soft out)).getD k 0 = b.getD k 0) ∧
      (∀ k < b.length, k % 4 = 2 → (slice (slice_soft out)).getD k 0 = 1 - b.getD k 0) := by
  have hme := modulate_eq m st b guard hst hlen
  obtain ⟨_, _, hh1⟩ := gaussian_pulse_unit m hexp hsqrt
  have hol : (convolve_nodelay
      (rotate_loop (rotator_table m) 0 (b.length + guard)
        (polarize_loop b 1 b.length (List.replicate (b.length + guard) 0)))
      (generate_gaussian_pulse m 1)).length = b.length + guard := by
    simp [convolve_nodelay, rotate_loop_length, polarize_loop_length]
  have hrr := gmsk_rrotate_spec m
    ⟨some (rotator_table m), some (rrotator_table m), some (generate_gaussian_pulse m 1)⟩
    (convolve_nodelay
      (rotate_loop (rotator_table m) 0 (b.length + guard)
        (polarize_loop b 1 b.length (List.replicate (b.length + guard) 0)))
      (generate_gaussian_pulse m 1)) (rrotator_table m) rfl (by rw [hol]; exact hlen)
  refine ⟨_, hme, hol, ?_, ?_, ?_, ?_⟩
  · rw [hme, hrr]
  · intro k hk
    rw [hme, hrr]
    have hre := modulate_output_re m b guard hlen hq hexp hsqrt k (by omega)
      (conj (quarter_turn k)) (fun j hj => (quarter_turn_conj k j).1 hj)
    rw [(quarter_turn_conj k k).2, if_pos hk] at hre
    have c : k < b.length + guard ∧ k < b.length + guard := by omega
    have hk2 : k < ROTATOR_LEN := lt_of_lt_of_le c.1 hlen
    rw [slice_slice_soft_getD _ k (by rw [rotate_loop_length, hol]; omega), rotate_loop_getD,
      hol, if_pos c, Nat.zero_add, (rotator_tables m k hk2).2,
      (hq (k % 4) (Nat.mod_lt _ (by decide))).2, quarter_turn_mod]
    exact (sliced_bit _ _ _ (hb k hk) hh1).1 hre
  · intro k hk h0
    have hre := modulate_output_re m b guard hlen hq hexp hsqrt k (by omega)
      (1 : complex ℚ) (fun j hj => (quarter_turn_even k j (by omega)).1 hj)
    have e : ∀ z : complex ℚ, 1 * z = z := one_mul
    rw [(quarter_turn_even k k (by omega)).2.1 h0, if_pos hk, e] at hre
    rw [slice_slice_soft_getD _ k (by rw [hol]; omega)]
    exact (sliced_bit _ _ _ (hb k hk) hh1).1 hre
  · intro k hk h2
    have hre := modulate_output_re m b guard hlen hq hexp hsqrt k (by omega)
      (1 : complex ℚ) (fun j hj => (quarter_turn_even k j (by omega)).1 hj)
    have e : ∀ z : complex ℚ, 1 * z = z := one_mul
    rw [(quarter_turn_even k k (by omega)).2.2 h2, if_pos hk, e] at hre
    rw [slice_slice_soft_getD _ k (by rw [hol]; omega)]
    exact (sliced_bit _ _ _ (hb k hk) hh1).2 hre

theorem rational_libm_exp_pos (x : ℚ) : 0 < rational_libm.exp x := by
  show 0 < (if 0 ≤ x then 1 + x + x * x / 2 else 1 / (1 - x + x * x / 2))
  by_cases h : 0 ≤ x
  · rw [if_pos h]
    nlinarith [mul_self_nonneg x]
  · rw [if_neg h]
    apply div_pos one_pos
    nlinarith [mul_self_nonneg x]

theorem rational_libm_sqrtf_pos (x : ℚ) (hx : 0 < x) : 0 < rational_libm.sqrtf x := by
  show 0 < (1 + x) / 2
  linarith

theorem rational_libm_quarter_turns : exact_quarter_turns rational_libm := by
  intro k hk
  have e1 : ∀ n : ℤ, ((355 / 113 / 2 : ℚ) * (n : ℚ)) / (355 / 113 / 2) = ((n : ℤ) : ℚ) := by
    intro n
    field_simp
  have hpos : ∀ j : ℤ, rational_libm.cexp ⟨0, (355 / 113 / 2 : ℚ) * (j : ℚ)⟩
      = (if j % 4 = 0 then ⟨1, 0⟩ else if j % 4 = 1 then ⟨0, 1⟩
        else if j % 4 = 2 then ⟨-1, 0⟩ else ⟨0, -1⟩) := by
    intro j
    show (let q : ℚ := ((355 / 113 / 2 : ℚ) * (j : ℚ)) / (355 / 113 / 2)
      let e : ℚ := if (0 : ℚ) ≤ 0 then 1 + 0 + 0 * 0 / 2 else 1 / (1 - 0 + 0 * 0 / 2)
      if q = ⌊q⌋ then
        (if ⌊q⌋ % 4 = 0 then (⟨e, 0⟩ : complex ℚ) else if ⌊q⌋ % 4 = 1 then ⟨0, e⟩
          else if ⌊q⌋ % 4 = 2 then ⟨-e, 0⟩ else ⟨0, -e⟩)
      else ⟨e * (1 - ((355 / 113 / 2 : ℚ) * (j : ℚ)) * ((355 / 113 / 2 : ℚ) * (j : ℚ)) / 2),
        e * ((355 / 113 / 2 : ℚ) * (j : ℚ))⟩) = _
    simp only [e1, Int.floor_intCast, if_true, le_refl]
    norm_num
  have hk4 : k = 0 ∨ k = 1 ∨ k = 2 ∨ k = 3 := by omega
  constructor
  · have := hpos (k : ℤ)
    rw [show rational_libm.M_PI = 355 / 113 from rfl]
    rw [show ((k : ℤ) : ℚ) = ((k : Nat) : ℚ) from Int.cast_natCast k] at this
    rw [this]
    rcases hk4 with h | h | h | h <;> subst h <;> simp [quarter_turn]
  · have := hpos (-(k : ℤ))
    rw [show rational_libm.M_PI = 355 / 113 from rfl]
    rw [show ((-(k : ℤ) : ℤ) : ℚ) = -((k : Nat) : ℚ) by push_cast; rfl, mul_neg, ← neg_mul] at this
    rw [this]
    rcases hk4 with h | h | h | h <;> subst h <;> simp [quarter_turn, conj]

/-- C12 (amended): for every vector b of bits 0/1 and every guard with
len(b) + guard <= 1024, from every reachable state, `modulate(b, guard, 1.0)` returns an
array `out` of len(b) + guard samples; `gmsk_rrotate` on it returns 0 and after this reverse
rotation slice(slice_soft(.))[k] = b[k] at every index k < len(b).  Without the reverse
rotation the equality holds at the indices k = 0 mod 4, and at the indices k = 2 mod 4 the
sliced bit is the complement 1 - b[k].  The library is assumed exact at quarter turns, with
a positive `exp` and a `sqrtf` that is positive on positive arguments. -/
theorem modulate_round_trip (m : Libm ℚ) (st : DspState ℚ) (b : List Nat) (guard : Nat)
    (hst : reachable m st) (hb : ∀ i < b.length, b.getD i 0 < 2)
    (hlen : b.length + guard ≤ 1024) (hq : exact_quarter_turns m)
    (hexp : ∀ x, 0 < m.exp x) (hsqrt : ∀ x, 0 < x → 0 < m.sqrtf x) :
    ∃ out, (modulate m st b guard 1).1 = some out ∧
      out.length = b.length + guard ∧
      (gmsk_rrotate m (modulate m st b guard 1).2 out).1 = 0 ∧
      (∀ k < b.length,
        (slice (slice_soft (gmsk_rrotate m (modulate m st b guard 1).2 out).2.2)).getD k 0
          = b.getD k 0) ∧
      (∀ k < b.length, k % 4 = 0 → (slice (slice_soft out)).getD k 0 = b.getD k 0) ∧
      (∀ k < b.length, k % 4 = 2 → (slice (slice_soft out)).getD k 0 = 1 - b.getD k 0) := by
  obtain ⟨out, h1, h2, h3, h4, h5, h6⟩ := modulate_sliced m st b guard hst hb hlen hq hexp hsqrt
  exact ⟨out, by rw [h1], h2, h3, h4, h5, h6⟩

theorem modulate_round_trip_witness :
    ∃ out, (modulate rational_libm start_state
        [1, 0, 1, 1, 0, 0, 1, 0, 1, 1, 1, 0, 0, 0, 1, 0, 1, 0, 0, 1] 1 1).1 = some out ∧
      out.length = 21 :=
  (modulate_round_trip rational_libm start_state
    [1, 0, 1, 1, 0, 0, 1, 0, 1, 1, 1, 0, 0, 0, 1, 0, 1, 0, 0, 1] 1
    ⟨Or.inl ⟨rfl, rfl⟩, Or.inl rfl⟩ (by decide) (by decide) rational_libm_quarter_turns
    rational_libm_exp_pos rational_libm_sqrtf_pos).imp (fun _ h => ⟨h.1, h.2.1⟩)

/-- C12 (counterexample): for the 20 zero bits with guard 1 the output of
`modulate(b, 1, 1.0)` slices to bit 1 at index 10, in the middle of the vector, while
b[10] = 0; and for 1024 bits with guard 1 `modulate` returns the null pointer. -/
theorem modulate_round_trip_fails :
    (slice (slice_soft ((modulate rational_libm start_state
        [0, 0, 0, 0, 0, 0, 0, 0, 0, 0, 0, 0, 0, 0, 0, 0, 0, 0, 0, 0] 1 1).1.getD []))).getD 10 0
      = 1 ∧
    ([0, 0, 0, 0, 0, 0, 0, 0, 0, 0, 0, 0, 0, 0, 0, 0, 0, 0, 0, 0] : List Nat).getD 10 0 = 0 ∧
    (modulate rational_libm start_state (List.replicate 1024 0) 1 1).1 = none := by
  refine ⟨?_, rfl, ?_⟩
  · obtain ⟨out, h1, _, _, _, _, h6⟩ := modulate_sliced rational_libm start_state
      [0, 0, 0, 0, 0, 0, 0, 0, 0, 0, 0, 0, 0, 0, 0, 0, 0, 0, 0, 0] 1
      ⟨Or.inl ⟨rfl, rfl⟩, Or.inl rfl⟩ (by decide) (by decide) rational_libm_quarter_turns
      rational_libm_exp_pos rational_libm_sqrtf_pos
    rw [h1]
    exact h6 10 (by decide) (by decide)
  · apply modulate_too_long
    rw [List.length_replicate]
    decide

/-! ## The channel response window -/

section ChannelResponse

variable {K : Type} [LinearOrderedField K]

theorem vectornorm2_nonneg (v : List (complex K)) : 0 ≤ vectornorm2 v := by
  rw [vectornorm2_eq_sum]
  exact Finset.sum_nonneg (fun j _ => norm_nonneg _)

/-- The state of the selection loop after `k` iterations: nothing selected yet and no
candidate met, or `max_i` is a candidate met, `max_energy` is the energy of its window,
every candidate after it has at most 0.95 times that energy, and every candidate `j` before
it has at most `(20/19)^(max_i - j)` times that energy. -/
theorem select_window_loop_spec (a : List (complex K)) (c_len u_toa : Nat) : ∀ k,
    ((select_window_loop a c_len u_toa k) = (0, -1) ∧
      ∀ j < k, ¬ candidate a.length c_len u_toa j) ∨
    ((select_window_loop a c_len u_toa k).1 < k ∧
      candidate a.length c_len u_toa (select_window_loop a c_len u_toa k).1 ∧
      (select_window_loop a c_len u_toa k).2
        = vectornorm2 (channel_window a c_len u_toa (select_window_loop a c_len u_toa k).1) ∧
      ∀ j < k, candidate a.length c_len u_toa j →
        (j ≤ (select_window_loop a c_len u_toa k).1 →
          (19 / 20 : K) ^ ((select_window_loop a c_len u_toa k).1 - j)
            * vectornorm2 (channel_window a c_len u_toa j)
            ≤ (select_window_loop a c_len u_toa k).2) ∧
        ((select_window_loop a c_len u_toa k).1 < j →
          vectornorm2 (channel_window a c_len u_toa j)
            ≤ 19 / 20 * (select_window_loop a c_len u_toa k).2)) := by
  intro k
  induction k with
  | zero =>
    left
    exact ⟨rfl, fun j hj => absurd hj (Nat.not_lt_zero j)⟩
  | succ k ih =>
    simp only [select_window_loop]
    by_cases hc : u_toa + k < c_len - 1 ∨ u_toa + k > a.length - 1
    · rw [if_pos hc]
      rcases ih with ⟨h1, h2⟩ | ⟨h1, h2, h3, h4⟩
      · left
        refine ⟨h1, fun j hj => ?_⟩
        by_cases hjk : j = k
        · subst hjk
          exact fun hcand => hcand hc
        · exact h2 j (by omega)
      · right
        refine ⟨by omega, h2, h3, fun j hj hcand => ?_⟩
        by_cases hjk : j = k
        · subst hjk
          exact absurd hc hcand
        · exact h4 j (by omega) hcand
    · rw [if_neg hc]
      have hE := vectornorm2_nonneg (channel_window a c_len u_toa k)
      by_cases hu : vectornorm2 (channel_window a c_len u_toa k)
          > 95 / 100 * (select_window_loop a c_len u_toa k).2
      · rw [if_pos hu]
        right
        refine ⟨by omega, hc, rfl, fun j hj hcand => ⟨fun _ => ?_, fun hlt => ?_⟩⟩
        · show (19 / 20 : K) ^ (k - j) * vectornorm2 (channel_window a c_len u_toa j)
            ≤ vectornorm2 (channel_window a c_len u_toa k)
          by_cases hjk : j = k
          · subst hjk
            rw [Nat.sub_self, pow_zero, one_mul]
          · have hj2 : j < k := by omega
            have hEj := vectornorm2_nonneg (channel_window a c_len u_toa j)
            rcases ih with ⟨_, h2⟩ | ⟨h1, _, h3, h4⟩
            · exact absurd hcand (h2 j hj2)
            · have hM : 0 ≤ (select_window_loop a c_len u_toa k).2 := by
                rw [h3]; exact vectornorm2_nonneg _
              have hp1 : (19 / 20 : K) ^ (k - j) ≤ 19 / 20 := by
                have : k - j = (k - j - 1) + 1 := by omega
                rw [this, pow_succ]
                have hle : (19 / 20 : K) ^ (k - j - 1) ≤ 1 :=
                  pow_le_one₀ (by norm_num) (by norm_num)
                have hnn : (0 : K) ≤ 19 / 20 := by norm_num
                nlinarith
              by_cases hjs : j ≤ (select_window_loop a c_len u_toa k).1
              · have h5 := (h4 j hj2 hcand).1 hjs
                have hsplit : k - j = (k - (select_window_loop a c_len u_toa k).1)
                    + ((select_window_loop a c_len u_toa k).1 - j) := by omega
                have hp2 : (19 / 20 : K) ^ (k - (select_window_loop a c_len u_toa k).1)
                    ≤ 19 / 20 := by
                  have : k - (select_window_loop a c_len u_toa k).1
                      = (k - (select_window_loop a c_len u_toa k).1 - 1) + 1 := by omega
                  rw [this, pow_succ]
                  have hle : (19 / 20 : K)
                      ^ (k - (select_window_loop a c_len u_toa k).1 - 1) ≤ 1 :=
                    pow_le_one₀ (by norm_num) (by norm_num)
                  have hnn : (0 : K) ≤ 19 / 20 := by norm_num
                  nlinarith
                have hp3 : (0 : K) ≤ (19 / 20 : K)
                    ^ (k - (select_window_loop a c_len u_toa k).1) := by positivity
                rw [hsplit, pow_add, mul_assoc]
                calc (19 / 20 : K) ^ (k - (select_window_loop a c_len u_toa k).1)
                      * ((19 / 20 : K) ^ ((select_window_loop a c_len u_toa k).1 - j)
                        * vectornorm2 (channel_window a c_len u_toa j))
                    ≤ (19 / 20 : K) ^ (k - (select_window_loop a c_len u_toa k).1)
                      * (select_window_loop a c_len u_toa k).2 :=
                      mul_le_mul_of_nonneg_left h5 hp3
                  _ ≤ 19 / 20 * (select_window_loop a c_len u_toa k).2 :=
                      mul_le_mul_of_nonneg_right hp2 hM
                  _ ≤ vectornorm2 (channel_window a c_len u_toa k) := by
                      have : (95 / 100 : K) = 19 / 20 := by norm_num
                      rw [this] at hu
                      exact le_of_lt hu
              · have h5 := (h4 j hj2 hcand).2 (by omega)
                have : (95 / 100 : K) = 19 / 20 := by norm_num
                rw [this] at hu
                have hp3 : (19 / 20 : K) ^ (k - j)
                    * vectornorm2 (channel_window a c_len u_toa j)
                    ≤ 1 * vectornorm2 (channel_window a c_len u_toa j) :=
                  mul_le_mul_of_nonneg_right (le_trans hp1 (by norm_num)) hEj
                linarith
        · exact absurd hlt (by show ¬ k < j; omega)
      · rw [if_neg hu]
        have hu2 : vectornorm2 (channel_window a c_len u_toa k)
            ≤ 19 / 20 * (select_window_loop a c_len u_toa k).2 := by
          have : (95 / 100 : K) = 19 / 20 := by norm_num
          rw [this] at hu
          exact not_lt.mp hu
        rcases ih with ⟨h1, _⟩ | ⟨h1, h2, h3, h4⟩
        · exfalso
          rw [h1] at hu2
          have : (19 / 20 : K) * (-1) < 0 := by norm_num
          have hu3 : vectornorm2 (channel_window a c_len u_toa k) ≤ 19 / 20 * (-1 : K) := hu2
          linarith
        · right
          refine ⟨by omega, h2, h3, fun j hj hcand => ?_⟩
          by_cases hjk : j = k
          · subst hjk
            exact ⟨fun hle => absurd h1 (by omega), fun _ => hu2⟩
          · exact h4 j (by omega) hcand

theorem take_drop_getD (a : List (complex K)) (off n i : Nat) (hi : i < n) :
    ((a.drop off).take n).getD i 0 = a.getD (off + i) 0 := by
  simp [List.getD_eq_getElem?_getD, List.getElem?_take, hi, List.getElem?_drop]

/-- The copy loop of `generate_channel_response` copies the candidate window. -/
theorem copied_window (a : List (complex K)) (c_len u_toa s : Nat) (ha : 1 ≤ a.length)
    (hs : candidate a.length c_len u_toa s) :
    (List.range c_len).map
        (fun i : Nat => a.getD ((u_toa : Int) + s - c_len + 1 + i).toNat 0)
      = channel_window a c_len u_toa s := by
  unfold candidate at hs
  have hoff : ((u_toa : Int) + s - c_len + 1).toNat + c_len ≤ a.length := by omega
  apply list_ext_getD
  · unfold channel_window
    rw [List.length_map, List.length_range, List.length_take, List.length_drop]
    omega
  · intro i hi
    rw [List.length_map, List.length_range] at hi
    unfold channel_window
    rw [map_range_getD _ _ _ hi, take_drop_getD _ _ _ _ hi]
    congr 1
    omega

end ChannelResponse

section ChannelResponseWindow

variable {K : Type} [LinearOrderedField K] [FloorRing K]

/-- The result of `generate_channel_response` in terms of the candidate windows. -/
theorem generate_channel_response_spec (a : List (complex K)) (c_len : Nat) (toa : K)
    (peak : complex K) (ha : 1 ≤ a.length) :
    (generate_channel_response a c_len toa peak = none ↔
      ∀ i < c_len, ¬ candidate a.length c_len (nearbyintf toa).toNat i) ∧
    ∀ c, generate_channel_response a c_len toa peak = some c →
      ∃ s < c_len, candidate a.length c_len (nearbyintf toa).toNat s ∧
        c = scale (channel_window a c_len (nearbyintf toa).toNat s) (cdiv 1 peak) ∧
        ∀ j < c_len, candidate a.length c_len (nearbyintf toa).toNat j →
          (j ≤ s → (19 / 20 : K) ^ (s - j)
              * vectornorm2 (channel_window a c_len (nearbyintf toa).toNat j)
            ≤ vectornorm2 (channel_window a c_len (nearbyintf toa).toNat s)) ∧
          (s < j → vectornorm2 (channel_window a c_len (nearbyintf toa).toNat j)
            ≤ 19 / 20 * vectornorm2 (channel_window a c_len (nearbyintf toa).toNat s)) := by
  unfold generate_channel_response
  simp only []
  rcases select_window_loop_spec a c_len (nearbyintf toa).toNat c_len with
    ⟨h1, h2⟩ | ⟨h1, h2, h3, h4⟩
  · have hneg : (select_window_loop a c_len (nearbyintf toa).toNat c_len).2 < 0 := by
      rw [h1]; norm_num
    rw [if_pos hneg]
    exact ⟨⟨fun _ => h2, fun _ => rfl⟩, fun c hc => absurd hc (by simp)⟩
  · have hnn : ¬ (select_window_loop a c_len (nearbyintf toa).toNat c_len).2 < 0 := by
      rw [h3]; exact not_lt.mpr (vectornorm2_nonneg _)
    rw [if_neg hnn]
    refine ⟨⟨fun h => absurd h (by simp), fun h => absurd h2 (h _ h1)⟩, ?_⟩
    intro c hc
    refine ⟨_, h1, h2, ?_, ?_⟩
    · rw [← copied_window a c_len _ _ ha h2]
      exact (Option.some.inj hc).symm
    · intro j hj hcand
      have h5 := h4 j hj hcand
      rw [h3] at h5
      exact h5

end ChannelResponseWindow

/-- C19 (amended): `generate_channel_response` returns the null pointer exactly when no
window ending at round(toa) + i, i in 0..c_len-1, lies inside `a`; otherwise it returns a
candidate window, scaled by 1/peak, that need not have maximum energy: a candidate that
ends later has at most 0.95 times the energy of the selected window and a candidate that
ends j samples earlier has at most (20/19)^j times its energy (so no candidate has more
than (20/19)^(c_len-1) times the selected energy). -/
theorem channel_response_window {K : Type} [LinearOrderedField K] [FloorRing K]
    (a : List (complex K)) (c_len : Nat) (toa : K) (peak : complex K) (ha : 1 ≤ a.length) :
    (generate_channel_response a c_len toa peak = none ↔
      ∀ i < c_len, ¬ candidate a.length c_len (nearbyintf toa).toNat i) ∧
    ∀ c, generate_channel_response a c_len toa peak = some c →
      ∃ s < c_len, candidate a.length c_len (nearbyintf toa).toNat s ∧
        c = scale (channel_window a c_len (nearbyintf toa).toNat s) (cdiv 1 peak) ∧
        ∀ j < c_len, candidate a.length c_len (nearbyintf toa).toNat j →
          (j ≤ s → (19 / 20 : K) ^ (s - j)
              * vectornorm2 (channel_window a c_len (nearbyintf toa).toNat j)
            ≤ vectornorm2 (channel_window a c_len (nearbyintf toa).toNat s)) ∧
          (s < j → vectornorm2 (channel_window a c_len (nearbyintf toa).toNat j)
            ≤ 19 / 20 * vectornorm2 (channel_window a c_len (nearbyintf toa).toNat s)) :=
  generate_channel_response_spec a c_len toa peak ha

theorem channel_response_window_witness :
    (generate_channel_response [(1 : complex ℚ), 0, ⟨49 / 50, 0⟩] 2 1 1 = none ↔
      ∀ i < 2, ¬ candidate [(1 : complex ℚ), 0, ⟨49 / 50, 0⟩].length 2
        (nearbyintf (1 : ℚ)).toNat i) :=
  (channel_response_window [(1 : complex ℚ), 0, ⟨49 / 50, 0⟩] 2 1 1 (by decide)).1

theorem nearbyintf_one : (nearbyintf (1 : ℚ)).toNat = 1 := by
  unfold nearbyintf
  rw [Int.floor_one]
  norm_num

/-- C19 (counterexample): for a = [1, 0, 0.98], c_len = 2, toa = 1 and peak = 1 the
windows [1, 0] (ending at index 1) and [0, 0.98] (ending at index 2) are the candidates;
the function returns [0, 0.98], of energy 0.9604, although [1, 0] has energy 1. -/
theorem channel_response_not_maximum :
    generate_channel_response [(1 : complex ℚ), 0, ⟨49 / 50, 0⟩] 2 1 1
      = some [0, ⟨49 / 50, 0⟩] ∧
    candidate 3 2 (nearbyintf (1 : ℚ)).toNat 0 ∧
    channel_window [(1 : complex ℚ), 0, ⟨49 / 50, 0⟩] 2 (nearbyintf (1 : ℚ)).toNat 0 = [1, 0] ∧
    vectornorm2 [(0 : complex ℚ), ⟨49 / 50, 0⟩] < vectornorm2 [(1 : complex ℚ), 0] := by
  have hw0 : channel_window [(1 : complex ℚ), 0, ⟨49 / 50, 0⟩] 2 1 0 = [1, 0] := rfl
  have hw1 : channel_window [(1 : complex ℚ), 0, ⟨49 / 50, 0⟩] 2 1 1 = [0, ⟨49 / 50, 0⟩] := rfl
  have he0 : vectornorm2 [(1 : complex ℚ), 0] = 1 := by
    norm_num [vectornorm2, vectornorm2_loop, norm]
  have he1 : vectornorm2 [(0 : complex ℚ), ⟨49 / 50, 0⟩] = 2401 / 2500 := by
    norm_num [vectornorm2, vectornorm2_loop, norm]
  have hsel : select_window_loop [(1 : complex ℚ), 0, ⟨49 / 50, 0⟩] 2 1 2 = (1, 2401 / 2500) := by
    simp only [select_window_loop, hw0, hw1, he0, he1]
    norm_num
  rw [nearbyintf_one]
  refine ⟨?_, by decide, hw0, ?_⟩
  · unfold generate_channel_response
    simp only [nearbyintf_one, hsel]
    have hc : cdiv (1 : complex ℚ) 1 = 1 := by
      apply complex.ext <;> norm_num [cdiv, div_real, conj, norm]
    have hn : ¬ ((2401 / 2500 : ℚ) < 0) := by norm_num
    rw [if_neg hn, copied_window _ 2 1 1 (by decide) (by decide), hw1, hc]
    simp [scale]
  · rw [he0, he1]; norm_num

/-! ## Scenario E of the equalizer design -/

section ScenarioE

variable {K : Type} [LinearOrderedField K]

theorem complex_one_eq : (1 : complex K) = ⟨1, 0⟩ := rfl

theorem complex_zero_eq : (0 : complex K) = ⟨0, 0⟩ := rfl

theorem range_one : List.range 1 = [0] := rfl

/-- One iteration of the main loop of `design_DFE` for a one-tap channel (`nu = 0`). -/
theorem dfe_step_one_tap (m : Libm K) (Nf i : Nat) (d : K) (g r : complex K)
    (L : Nat → Nat → complex K) :
    (dfe_step m Nf 0 i ⟨d, [g], [r], L⟩).d = norm g + norm r ∧
    (dfe_step m Nf 0 i ⟨d, [g], [r], L⟩).Gl
      = (if i ≠ Nf - 1
          then [of_real (1 / m.sqrtf (1 + norm (cdiv r g))) * (conj (cdiv r g) * r + g)]
          else [g]) ∧
    (dfe_step m Nf 0 i ⟨d, [g], [r], L⟩).Gr = (if i ≠ Nf - 1 then [0] else [r]) ∧
    (∀ a b, a ≠ b → (dfe_step m Nf 0 i ⟨d, [g], [r], L⟩).L a b = L a b) := by
  unfold dfe_step
  by_cases hi : i ≠ Nf - 1
  · simp only [if_pos hi]
    refine ⟨rfl, ?_, ?_, ?_⟩
    · simp [scale, add, range_one]
    · simp [scale, add, range_one, dfe_shift_loop]
    · intro a b hab
      simp only [dfe_row_loop, Nat.add_zero]
      by_cases ha : a = i
      · subst ha
        rw [Function.update_same, Function.update_noteq (Ne.symm hab)]
      · rw [Function.update_noteq ha]
  · simp only [if_neg hi]
    refine ⟨rfl, trivial, trivial, ?_⟩
    intro a b hab
    simp only [dfe_row_loop, Nat.add_zero]
    by_cases ha : a = i
    · subst ha
      rw [Function.update_same, Function.update_noteq (Ne.symm hab)]
    · rw [Function.update_noteq ha]

/-- For a one-tap channel the array `L` stays zero off its diagonal. -/
theorem dfe_one_tap_shape (m : Libm K) (h0 : complex K) (SNR : K) (Nf : Nat) : ∀ c,
    (∃ g r, (dfe_main_loop m [h0] SNR Nf 0 c).Gl = [g] ∧
      (dfe_main_loop m [h0] SNR Nf 0 c).Gr = [r]) ∧
    ∀ a b, a ≠ b → (dfe_main_loop m [h0] SNR Nf 0 c).L a b = 0 := by
  intro c
  induction c with
  | zero =>
    refine ⟨⟨_, _, rfl, rfl⟩, fun _ _ _ => rfl⟩
  | succ c ih =>
    obtain ⟨⟨g, r, hg, hr⟩, hL⟩ := ih
    have hst : dfe_main_loop m [h0] SNR Nf 0 c
        = ⟨(dfe_main_loop m [h0] SNR Nf 0 c).d, [g], [r],
            (dfe_main_loop m [h0] SNR Nf 0 c).L⟩ := by
      rw [← hg, ← hr]
    have hstep := dfe_step_one_tap m Nf c (dfe_main_loop m [h0] SNR Nf 0 c).d g r
      (dfe_main_loop m [h0] SNR Nf 0 c).L
    rw [← hst] at hstep
    show (∃ g r, (dfe_step m Nf 0 c (dfe_main_loop m [h0] SNR Nf 0 c)).Gl = [g] ∧
      (dfe_step m Nf 0 c (dfe_main_loop m [h0] SNR Nf 0 c)).Gr = [r]) ∧
      ∀ a b, a ≠ b → (dfe_step m Nf 0 c (dfe_main_loop m [h0] SNR Nf 0 c)).L a b = 0
    refine ⟨?_, fun a b hab => by rw [hstep.2.2.2 a b hab]; exact hL a b hab⟩
    by_cases hi : c ≠ Nf - 1
    · exact ⟨_, _, by rw [hstep.2.1, if_pos hi], by rw [hstep.2.2.1, if_pos hi]⟩
    · exact ⟨_, _, by rw [hstep.2.1, if_neg hi], by rw [hstep.2.2.1, if_neg hi]⟩

/-- One more iteration of the main loop for a one-tap channel. -/
theorem dfe_succ_one_tap (m : Libm K) (h0 : complex K) (SNR : K) (Nf c : Nat)
    (g r : complex K) (hg : (dfe_main_loop m [h0] SNR Nf 0 c).Gl = [g])
    (hr : (dfe_main_loop m [h0] SNR Nf 0 c).Gr = [r]) :
    (dfe_main_loop m [h0] SNR Nf 0 (c + 1)).d = norm g + norm r ∧
    (dfe_main_loop m [h0] SNR Nf 0 (c + 1)).Gl
      = (if c ≠ Nf - 1
          then [of_real (1 / m.sqrtf (1 + norm (cdiv r g))) * (conj (cdiv r g) * r + g)]
          else [g]) ∧
    (dfe_main_loop m [h0] SNR Nf 0 (c + 1)).Gr = (if c ≠ Nf - 1 then [0] else [r]) := by
  have hst : dfe_main_loop m [h0] SNR Nf 0 c
      = ⟨(dfe_main_loop m [h0] SNR Nf 0 c).d, [g], [r],
          (dfe_main_loop m [h0] SNR Nf 0 c).L⟩ := by
    rw [← hg, ← hr]
  have hstep := dfe_step_one_tap m Nf c (dfe_main_loop m [h0] SNR Nf 0 c).d g r
    (dfe_main_loop m [h0] SNR Nf 0 c).L
  rw [← hst] at hstep
  exact ⟨hstep.1, hstep.2.1, hstep.2.2.1⟩

theorem dfe_vk_loop_zero (L : Nat → Nat → complex K) (v : Nat → complex K) (k : Nat)
    (hL : ∀ a b, a ≠ b → L a b = 0) : ∀ c, dfe_vk_loop L v k c = 0 := by
  intro c
  induction c with
  | zero => rfl
  | succ c ih =>
    simp only [dfe_vk_loop]
    rw [ih, hL k (k + 1 + c) (by omega), zero_mul, sub_zero]

/-- With `L` zero off its diagonal the back substitution gives `v = [0, ..., 0, 1]`. -/
theorem dfe_back_loop_unit (L : Nat → Nat → complex K) (Nf : Nat) (hNf : 2 ≤ Nf)
    (hL : ∀ a b, a ≠ b → L a b = 0) : ∀ c k,
    dfe_back_loop L Nf c k = if k = Nf - 1 then 1 else 0 := by
  intro c
  induction c with
  | zero =>
    intro k
    simp only [dfe_back_loop]
    by_cases hk : k = Nf - 1
    · rw [if_pos hk, hk, Function.update_same]
    · rw [if_neg hk, Function.update_noteq hk]
  | succ c ih =>
    intro k
    simp only [dfe_back_loop]
    rw [dfe_vk_loop_zero L _ _ hL]
    by_cases hk : k = Nf - 2 - c
    · have hne : ¬ (k = Nf - 1) := by omega
      rw [hk, Function.update_same, ← hk, if_neg hne]
    · rw [Function.update_noteq hk, ih k]

theorem range_three : List.range 3 = [0, 1, 2] := rfl

/-- Scenario E in the model: the feedforward filter is [0, 0, 100/101] and the feedback
filter is empty. -/
theorem design_DFE_scenario_e (m : Libm K) (h100 : m.sqrtf 100 = 10) (h1 : m.sqrtf 1 = 1)
    (h101 : m.sqrtf 101 * m.sqrtf 101 = 101) :
    design_DFE m [1] 100 3 = some ([0, 0, ⟨100 / 101, 0⟩], []) := by
  have hr101 : m.sqrtf 101 ≠ 0 := by
    intro h
    rw [h, mul_zero] at h101
    norm_num at h101
  have hg0 : (dfe_main_loop m [1] 100 3 0 0).Gl = [⟨1 / 10, 0⟩] := by
    simp [dfe_main_loop, of_real, h100]
  have hr0 : (dfe_main_loop m [1] 100 3 0 0).Gr = [⟨1, 0⟩] := by
    simp [dfe_main_loop, conj, complex_one_eq, range_one]
  have hk0 : cdiv (⟨1, 0⟩ : complex K) ⟨1 / 10, 0⟩ = ⟨10, 0⟩ := by
    apply complex.ext <;> norm_num [cdiv, div_real, conj, norm]
  obtain ⟨_, hg1, hr1⟩ := dfe_succ_one_tap m 1 100 3 0 _ _ hg0 hr0
  rw [if_pos (by decide)] at hg1 hr1
  have hg1b : (dfe_main_loop m [1] 100 3 0 1).Gl = [⟨101 / 10 / m.sqrtf 101, 0⟩] := by
    rw [hg1, hk0]
    have e : (1 : K) + norm (⟨10, 0⟩ : complex K) = 101 := by norm_num [norm]
    rw [e]
    congr 1
    apply complex.ext
    · simp [of_real, conj]
      field_simp
      ring
    · simp [of_real, conj]
  have hk1 : ∀ g : complex K, cdiv 0 g = 0 := by
    intro g
    apply complex.ext <;> simp [cdiv, div_real]
  obtain ⟨_, hg2, hr2⟩ := dfe_succ_one_tap m 1 100 3 1 _ _ hg1b hr1
  rw [if_pos (by decide)] at hg2 hr2
  have hg2b : (dfe_main_loop m [1] 100 3 0 2).Gl = [⟨101 / 10 / m.sqrtf 101, 0⟩] := by
    rw [hg2, hk1]
    have e : (1 : K) + norm (0 : complex K) = 1 := by simp [norm]
    rw [e, h1]
    congr 1
    apply complex.ext <;> simp [of_real, conj]
  obtain ⟨hd3, _, _⟩ := dfe_succ_one_tap m 1 100 3 2 _ _ hg2b hr2
  have hd3b : (dfe_main_loop m [1] 100 3 0 3).d = 101 / 100 := by
    rw [hd3]
    simp only [norm, complex_zero_re, complex_zero_im, mul_zero, add_zero]
    have e : (101 / 10 / m.sqrtf 101) * (101 / 10 / m.sqrtf 101)
        = 10201 / 100 / (m.sqrtf 101 * m.sqrtf 101) := by
      field_simp
      ring
    rw [e, h101]
    norm_num
  have hL := (dfe_one_tap_shape m 1 100 3 3).2
  have hv := dfe_back_loop_unit (dfe_main_loop m [1] 100 3 0 3).L 3 (by decide) hL 2
  unfold design_DFE
  have hn : ¬ (3 < 2) := by decide
  rw [if_neg hn]
  simp only [List.length_singleton, Nat.sub_self, List.range_zero, List.map_nil, scale,
    conjugate_vector, hd3b, range_three, List.map_cons, Nat.zero_min, Nat.zero_add,
    dfe_wi_loop, Nat.add_zero]
  rw [hv 0, hv 1, hv 2]
  simp only [List.getD_cons_zero]
  have a0 : div_real (0 + (0 : complex K) * conj 1) (101 / 100) = 0 := by
    apply complex.ext <;> simp [div_real]
  have a2 : div_real (0 + (1 : complex K) * conj 1) (101 / 100) = ⟨100 / 101, 0⟩ := by
    apply complex.ext <;> simp [div_real, conj]
  have c0 : ¬ (0 = 3 - 1) := by decide
  have c1 : ¬ (1 = 3 - 1) := by decide
  simp only [if_neg c0, if_neg c1, if_true, a0, a2]

end ScenarioE

theorem real_libm_sqrtf_100 : real_libm.sqrtf 100 = 10 := by
  show Real.sqrt 100 = 10
  rw [show (100 : ℝ) = 10 * 10 by norm_num]
  exact Real.sqrt_mul_self (by norm_num)

theorem real_libm_sqrtf_1 : real_libm.sqrtf 1 = 1 := Real.sqrt_one

theorem real_libm_sqrtf_101 : real_libm.sqrtf 101 * real_libm.sqrtf 101 = 101 :=
  Real.mul_self_sqrt (by norm_num)

/-- C20 (amended): Scenario E, `design_DFE` with h = [1], SNR = 100, Nf = 3, returns 0 with
an empty feedback filter and the feedforward filter [0, 0, 100/101]: the first two taps
are 0 and the last tap is 100/101 (about 0.990).  `sqrtf` is assumed exact at 100, 1 and
101. -/
theorem scenario_e_feedforward {K : Type} [LinearOrderedField K] (m : Libm K)
    (h100 : m.sqrtf 100 = 10) (h1 : m.sqrtf 1 = 1)
    (h101 : m.sqrtf 101 * m.sqrtf 101 = 101) :
    design_DFE m [1] 100 3 = some ([0, 0, ⟨100 / 101, 0⟩], []) :=
  design_DFE_scenario_e m h100 h1 h101

theorem scenario_e_feedforward_witness :
    design_DFE real_libm [1] 100 3 = some ([0, 0, ⟨100 / 101, 0⟩], []) :=
  scenario_e_feedforward real_libm real_libm_sqrtf_100 real_libm_sqrtf_1 real_libm_sqrtf_101

/-- C20 (counterexample): in Scenario E, with the exact square root, the first
feedforward tap is 0, not near 1, and the third tap is 100/101, not 0. -/
theorem scenario_e_first_tap_is_zero :
    (design_DFE real_libm [1] 100 3).map (fun p => p.1.getD 0 0) = some 0 ∧
    (design_DFE real_libm [1] 100 3).map (fun p => p.1.getD 2 0) = some ⟨100 / 101, 0⟩ := by
  rw [design_DFE_scenario_e real_libm real_libm_sqrtf_100 real_libm_sqrtf_1
    real_libm_sqrtf_101]
  exact ⟨rfl, rfl⟩

/-! ## The rotators: offsets and the first call of `gmsk_rrotate` -/

section RotatorCalls

variable {K : Type} [LinearOrderedField K]

theorem mem_rotate_loop_reads (offset k n : Nat) :
    n ∈ rotate_loop_reads offset k ↔ offset ≤ n ∧ n < offset + k := by
  induction k with
  | zero =>
    simp only [rotate_loop_reads, List.not_mem_nil, false_iff]
    omega
  | succ k ih =>
    simp only [rotate_loop_reads, List.mem_append, ih, List.mem_singleton]
    omega

/-- The result of `gmsk_rotate` with an offset on a state in which the tables were built
together: entry `i` is multiplied by table entry `offset + i`. -/
theorem gmsk_rotate_offset (m : Libm K) (st : DspState K) (v : List (complex K))
    (offset : Nat) (hst : rotators_together m st) (hv : v.length ≤ ROTATOR_LEN) :
    (gmsk_rotate m st v offset).1 = 0 ∧
    (gmsk_rotate m st v offset).2.2.length = v.length ∧
    (∀ i < v.length, offset + i < ROTATOR_LEN →
      (gmsk_rotate m st v offset).2.2.getD i 0
        = m.cexp ⟨0, (m.M_PI / 2) * (((offset + i) % 4 : Nat) : K)⟩ * v.getD i 0) ∧
    (∀ n, n ∈ gmsk_rotate_reads v.length offset ↔ offset ≤ n ∧ n < offset + v.length) := by
  have hlen : ¬ v.length > ROTATOR_LEN := by omega
  rw [gmsk_rotate_eq m st v offset hst hv]
  refine ⟨rfl, rotate_loop_length _ _ _ _, ?_, ?_⟩
  · intro i hi hin
    show (rotate_loop (rotator_table m) offset v.length v).getD i 0 = _
    have c : i < v.length ∧ i < v.length := ⟨hi, hi⟩
    rw [rotate_loop_getD, if_pos c, (rotator_tables m (offset + i) hin).1]
  · intro n
    unfold gmsk_rotate_reads
    rw [if_neg hlen]
    exact mem_rotate_loop_reads offset v.length n

/-- The first call of `gmsk_rrotate`: the tables are built, the call returns -1 and the
array is as before. -/
theorem gmsk_rrotate_unbuilt (m : Libm K) (st : DspState K) (v : List (complex K))
    (hst : st.m_gmsk_rrotator = none) (hv : v.length ≤ ROTATOR_LEN) :
    gmsk_rrotate m st v
      = (-1, ⟨some (rotator_table m), some (rrotator_table m), st.m_gaussian_pulse⟩, v) := by
  have hlen : ¬ v.length > ROTATOR_LEN := by omega
  unfold gmsk_rrotate
  rw [if_neg hlen, hst]
  rfl

/-- C27 (within the table): for every buffer of length len <= 1024 and every offset with
offset + len <= 1024, on a state in which the tables were built together,
`gmsk_rotate(v, len, offset)` returns 0, reads the table entries offset .. offset + len - 1
and no other, all of them inside the 1024-entry table, and replaces each v[i] by
exp(j (pi/2) ((offset + i) mod 4)) * v[i]. -/
theorem gmsk_rotate_with_offset (m : Libm K) (st : DspState K) (v : List (complex K))
    (offset : Nat) (hst : rotators_together m st) (hv : v.length ≤ 1024)
    (hoff : offset + v.length ≤ 1024) :
    (gmsk_rotate m st v offset).1 = 0 ∧
    (∀ n, n ∈ gmsk_rotate_reads v.length offset ↔ offset ≤ n ∧ n < offset + v.length) ∧
    (∀ n ∈ gmsk_rotate_reads v.length offset, n < 1024) ∧
    (gmsk_rotate m st v offset).2.2.length = v.length ∧
    ∀ i < v.length,
      (gmsk_rotate m st v offset).2.2.getD i 0
        = m.cexp ⟨0, (m.M_PI / 2) * (((offset + i) % 4 : Nat) : K)⟩ * v.getD i 0 := by
  obtain ⟨h1, h2, h3, h4⟩ := gmsk_rotate_offset m st v offset hst hv
  refine ⟨h1, h4, ?_, h2, ?_⟩
  · intro n hn
    have := (h4 n).mp hn
    omega
  · intro i hi
    have hR : ROTATOR_LEN = 1024 := rfl
    exact h3 i hi (by omega)

theorem gmsk_rotate_with_offset_witness :
    (gmsk_rotate rational_libm start_state [(⟨1, 2⟩ : complex ℚ), ⟨0, 1⟩, ⟨3, 0⟩] 1021).1 = 0 ∧
    ∀ n ∈ gmsk_rotate_reads [(⟨1, 2⟩ : complex ℚ), ⟨0, 1⟩, ⟨3, 0⟩].length 1021, n < 1024 :=
  let h := gmsk_rotate_with_offset rational_libm start_state
    [(⟨1, 2⟩ : complex ℚ), ⟨0, 1⟩, ⟨3, 0⟩] 1021 (Or.inl ⟨rfl, rfl⟩) (by norm_num) (by norm_num)
  ⟨h.1, h.2.2.1⟩

/-- C27 (counterexample): `gmsk_rotate(v, 1, 1024)` on a one-sample buffer passes the
length check, returns 0 and reads table entry 1024, which is past the last entry 1023. -/
theorem gmsk_rotate_reads_past_table :
    (gmsk_rotate rational_libm start_state [(⟨1, 0⟩ : complex ℚ)] 1024).1 = 0 ∧
    1024 ∈ gmsk_rotate_reads [(⟨1, 0⟩ : complex ℚ)].length 1024 ∧
    ¬ (1024 < ROTATOR_LEN) := by
  obtain ⟨h1, _, _, h4⟩ := gmsk_rotate_offset rational_libm start_state
    [(⟨1, 0⟩ : complex ℚ)] 1024 (Or.inl ⟨rfl, rfl⟩) (by norm_num [ROTATOR_LEN])
  refine ⟨h1, (h4 1024).mpr ⟨le_refl _, by norm_num⟩, by decide⟩

/-- C28: when the reverse table has not been built yet, `gmsk_rrotate` on a buffer of
length <= 1024 calls `build_rotators`, which returns 0 and leaves both tables built, and
then takes the failure branch: it returns -1 and the buffer is as before.  A later call
of `gmsk_rrotate` on a buffer w of length <= 1024 returns 0 and replaces each w[i] by
exp(-j (pi/2) (i mod 4)) * w[i]. -/
theorem gmsk_rrotate_first_call_fails (m : Libm K) (st : DspState K)
    (v w : List (complex K)) (hst : st.m_gmsk_rrotator = none) (hv : v.length ≤ 1024)
    (hw : w.length ≤ 1024) :
    (build_rotators m st).1 = 0 ∧
    (gmsk_rrotate m st v).1 = -1 ∧
    (gmsk_rrotate m st v).2.2 = v ∧
    (gmsk_rrotate m st v).2.1.m_gmsk_rotator = (build_rotators m st).2.m_gmsk_rotator ∧
    (gmsk_rrotate m st v).2.1.m_gmsk_rrotator = (build_rotators m st).2.m_gmsk_rrotator ∧
    (gmsk_rrotate m st v).2.1.m_gmsk_rrotator ≠ none ∧
    (gmsk_rrotate m (gmsk_rrotate m st v).2.1 w).1 = 0 ∧
    (gmsk_rrotate m (gmsk_rrotate m st v).2.1 w).2.2.length = w.length ∧
    ∀ i < w.length,
      (gmsk_rrotate m (gmsk_rrotate m st v).2.1 w).2.2.getD i 0
        = m.cexp ⟨0, -(m.M_PI / 2) * ((i % 4 : Nat) : K)⟩ * w.getD i 0 := by
  rw [gmsk_rrotate_unbuilt m st v hst hv]
  rw [gmsk_rrotate_spec m _ w (rrotator_table m) rfl hw]
  refine ⟨rfl, rfl, rfl, rfl, rfl, by simp, rfl, rotate_loop_length _ _ _ _, ?_⟩
  intro i hi
  show (rotate_loop (rrotator_table m) 0 w.length w).getD i 0 = _
  have c : i < w.length ∧ i < w.length := ⟨hi, hi⟩
  have hR : ROTATOR_LEN = 1024 := rfl
  rw [rotate_loop_getD, if_pos c, Nat.zero_add, (rotator_tables m i (by omega)).2]

theorem gmsk_rrotate_first_call_fails_witness :
    (gmsk_rrotate rational_libm start_state [(⟨1, 2⟩ : complex ℚ), ⟨0, 1⟩, ⟨3, 0⟩]).1 = -1 ∧
    (gmsk_rrotate rational_libm start_state [(⟨1, 2⟩ : complex ℚ), ⟨0, 1⟩, ⟨3, 0⟩]).2.2
      = [(⟨1, 2⟩ : complex ℚ), ⟨0, 1⟩, ⟨3, 0⟩] ∧
    (gmsk_rrotate rational_libm
      (gmsk_rrotate rational_libm start_state [(⟨1, 2⟩ : complex ℚ), ⟨0, 1⟩, ⟨3, 0⟩]).2.1
      [(⟨1, 2⟩ : complex ℚ), ⟨0, 1⟩, ⟨3, 0⟩]).1 = 0 :=
  let h := gmsk_rrotate_first_call_fails rational_libm start_state
    [(⟨1, 2⟩ : complex ℚ), ⟨0, 1⟩, ⟨3, 0⟩] [(⟨1, 2⟩ : complex ℚ), ⟨0, 1⟩, ⟨3, 0⟩] rfl
    (by norm_num) (by norm_num)
  ⟨h.2.1, h.2.2.1, h.2.2.2.2.2.2.1⟩

end RotatorCalls

/-! ## The run detector -/

section RunDetector

variable {K : Type} [LinearOrderedField K]

theorem low_run_le (thr : K) (a : List K) (i : Nat) : low_run thr a i ≤ i := by
  induction i with
  | zero => exact le_refl _
  | succ i ih =>
    simp only [low_run]
    split_ifs
    · omega
    · omega

/-- The run counted by `low_run` is a maximal run of samples below the threshold. -/
theorem low_run_maximal (thr : K) (a : List K) (i : Nat) :
    (∀ j, i - low_run thr a i ≤ j → j < i → a.getD j 0 < thr) ∧
    (i - low_run thr a i = 0 ∨ thr ≤ a.getD (i - low_run thr a i - 1) 0) := by
  induction i with
  | zero => exact ⟨fun j _ hj => absurd hj (Nat.not_lt_zero j), Or.inl rfl⟩
  | succ i ih =>
    have hle := low_run_le thr a i
    simp only [low_run]
    by_cases hlow : a.getD i 0 < thr
    · rw [if_pos hlow]
      have e : i + 1 - (low_run thr a i + 1) = i - low_run thr a i := by omega
      rw [e]
      refine ⟨fun j h1 h2 => ?_, ih.2⟩
      by_cases hj : j = i
      · rw [hj]; exact hlow
      · exact ih.1 j h1 (by omega)
    · rw [if_neg hlow]
      refine ⟨fun j h1 h2 => absurd h2 (by omega), Or.inr ?_⟩
      have e : i + 1 - 0 - 1 = i := by omega
      rw [e]
      exact not_lt.mp hlow

/-- The variables after `k` samples: the threshold is kept, `g_sign` is -1 exactly when
the last sample was below the threshold, and `g_count` is then the length of the run of
samples below the threshold that ends with it. -/
theorem low_to_high_feed_spec (thr : K) (a : List K) (k : Nat) :
    (low_to_high_feed thr a k).g_threshold = thr ∧
    ((low_to_high_feed thr a k).g_sign = 1 ∨ (low_to_high_feed thr a k).g_sign = -1) ∧
    ((low_to_high_feed thr a k).g_sign = -1 ↔ (0 < k ∧ a.getD (k - 1) 0 < thr)) ∧
    ((low_to_high_feed thr a k).g_sign = -1 →
      (low_to_high_feed thr a k).g_count = low_run thr a k) := by
  have hne : ¬ ((1 : Int) = -1) := by decide
  induction k with
  | zero =>
    refine ⟨rfl, Or.inl rfl, ?_, ?_⟩
    · constructor
      · intro h; exact absurd (h : (1 : Int) = -1) hne
      · intro h; exact absurd h.1 (Nat.lt_irrefl 0)
    · intro h; exact absurd (h : (1 : Int) = -1) hne
  | succ k ih =>
    obtain ⟨h1, h2, h3, h4⟩ := ih
    have e : k + 1 - 1 = k := by omega
    simp only [low_to_high_feed, low_to_high, h1, e]
    by_cases hge : a.getD k 0 ≥ thr
    · have hnl : ¬ a.getD k 0 < thr := not_lt.mpr hge
      rw [if_pos hge]
      by_cases hs : (low_to_high_feed thr a k).g_sign = -1
      · rw [if_pos hs]
        dsimp only
        refine ⟨rfl, Or.inl rfl, ?_, fun h => absurd h hne⟩
        constructor
        · intro h; exact absurd h hne
        · intro h; exact absurd h.2 hnl
      · rw [if_neg hs]
        dsimp only
        refine ⟨rfl, h2, ?_, fun h => absurd h hs⟩
        constructor
        · intro h; exact absurd h hs
        · intro h; exact absurd h.2 hnl
    · have hlt : a.getD k 0 < thr := not_le.mp hge
      rw [if_neg hge]
      by_cases hs : (low_to_high_feed thr a k).g_sign = 1
      · rw [if_pos hs]
        dsimp only
        refine ⟨rfl, Or.inr rfl, ?_, fun _ => ?_⟩
        · exact ⟨fun _ => ⟨by omega, hlt⟩, fun _ => rfl⟩
        · show 0 + 1 = low_run thr a (k + 1)
          simp only [low_run]
          rw [if_pos hlt]
          have hk : ¬ (0 < k ∧ a.getD (k - 1) 0 < thr) := by
            intro hh
            have := h3.mpr hh
            rw [hs] at this
            exact absurd this hne
          have hz : low_run thr a k = 0 := by
            cases k with
            | zero => rfl
            | succ j =>
              simp only [low_run]
              have e2 : j + 1 - 1 = j := by omega
              rw [e2] at hk
              rw [if_neg (fun hh => hk ⟨by omega, hh⟩)]
          rw [hz]
      · rw [if_neg hs]
        dsimp only
        have hm : (low_to_high_feed thr a k).g_sign = -1 := by
          rcases h2 with h | h
          · exact absurd h hs
          · exact h
        refine ⟨rfl, h2, ?_, fun _ => ?_⟩
        · exact ⟨fun _ => ⟨by omega, hlt⟩, fun _ => hm⟩
        · show (low_to_high_feed thr a k).g_count + 1 = low_run thr a (k + 1)
          simp only [low_run]
          rw [if_pos hlt, h4 hm]

/-- The value returned for sample `i`. -/
theorem low_to_high_at_eq (thr : K) (a : List K) (i : Nat) :
    low_to_high_at thr a i
      = if thr ≤ a.getD i 0 ∧ 0 < i ∧ a.getD (i - 1) 0 < thr then low_run thr a i else 0 := by
  obtain ⟨h1, h2, h3, h4⟩ := low_to_high_feed_spec thr a i
  unfold low_to_high_at low_to_high
  rw [h1]
  by_cases hge : a.getD i 0 ≥ thr
  · rw [if_pos hge]
    by_cases hs : (low_to_high_feed thr a i).g_sign = -1
    · have hc := h3.mp hs
      have c : thr ≤ a.getD i 0 ∧ 0 < i ∧ a.getD (i - 1) 0 < thr := ⟨hge, hc⟩
      rw [if_pos hs, if_pos c]
      exact h4 hs
    · have c : ¬ (thr ≤ a.getD i 0 ∧ 0 < i ∧ a.getD (i - 1) 0 < thr) :=
        fun hh => hs (h3.mpr hh.2)
      rw [if_neg hs, if_neg c]
  · have c : ¬ (thr ≤ a.getD i 0 ∧ 0 < i ∧ a.getD (i - 1) 0 < thr) := fun hh => hge hh.1
    rw [if_neg hge, if_neg c]
    split_ifs <;> rfl

theorem low_run_pos (thr : K) (a : List K) (i : Nat) (hi : 0 < i)
    (hlow : a.getD (i - 1) 0 < thr) : 0 < low_run thr a i := by
  cases i with
  | zero => exact absurd hi (Nat.lt_irrefl 0)
  | succ j =>
    have e : j + 1 - 1 = j := by omega
    rw [e] at hlow
    simp only [low_run]
    rw [if_pos hlow]
    omega

end RunDetector

/-- C30: after `low_to_high_init(thr)` and the calls of `low_to_high` on a[0], ...,
a[i - 1], the call on a[i] returns a non-zero value exactly when a[i] >= thr, i >= 1 and
a[i - 1] < thr; that value r is then at most i, the samples a[i - r], ..., a[i - 1] are
all below thr and the run cannot be extended to the left (i - r = 0 or
a[i - r - 1] >= thr), so i - r is the first index of the run.  When all samples from
some index k on are below thr, no call from index k on returns a non-zero value. -/
theorem low_to_high_reports_runs {K : Type} [LinearOrderedField K] (thr : K) (a : List K)
    (i : Nat) (hi : i < a.length) :
    (low_to_high_at thr a i ≠ 0 ↔ thr ≤ a.getD i 0 ∧ 0 < i ∧ a.getD (i - 1) 0 < thr) ∧
    (low_to_high_at thr a i ≠ 0 →
      low_to_high_at thr a i ≤ i ∧
      (∀ j, i - low_to_high_at thr a i ≤ j → j < i → a.getD j 0 < thr) ∧
      (i - low_to_high_at thr a i = 0 ∨
        thr ≤ a.getD (i - low_to_high_at thr a i - 1) 0)) ∧
    (∀ k, (∀ j, k ≤ j → j < a.length → a.getD j 0 < thr) → k ≤ i →
      low_to_high_at thr a i = 0) := by
  have heq := low_to_high_at_eq thr a i
  refine ⟨?_, ?_, ?_⟩
  · constructor
    · intro h
      by_contra hc
      rw [if_neg hc] at heq
      exact h heq
    · intro hc
      rw [if_pos hc] at heq
      rw [heq]
      exact Nat.pos_iff_ne_zero.mp (low_run_pos thr a i hc.2.1 hc.2.2)
  · intro h
    have hc : thr ≤ a.getD i 0 ∧ 0 < i ∧ a.getD (i - 1) 0 < thr := by
      by_contra hc
      rw [if_neg hc] at heq
      exact h heq
    rw [if_pos hc] at heq
    rw [heq]
    exact ⟨low_run_le thr a i, (low_run_maximal thr a i).1, (low_run_maximal thr a i).2⟩
  · intro k hk hki
    have hc : ¬ (thr ≤ a.getD i 0 ∧ 0 < i ∧ a.getD (i - 1) 0 < thr) :=
      fun hh => absurd (hk i hki hi) (not_lt.mpr hh.1)
    rw [if_neg hc] at heq
    exact heq

theorem low_to_high_reports_runs_witness :
    low_to_high_at (1 : ℚ) [2, 0, 0, 0, 3, 0, 0] 4 ≠ 0 ↔
      (1 : ℚ) ≤ ([2, 0, 0, 0, 3, 0, 0] : List ℚ).getD 4 0 ∧ 0 < 4 ∧
        ([2, 0, 0, 0, 3, 0, 0] : List ℚ).getD (4 - 1) 0 < 1 :=
  (low_to_high_reports_runs (1 : ℚ) [2, 0, 0, 0, 3, 0, 0] 4 (by decide)).1

/-! ## The tie-break of the Viterbi decoders -/

section TieBreak

variable {α : Type} [LinearOrderedSemiring α]

theorem relax_tieInv (d : Nat → α) (t : Nat) (T0 : Trellis α) (Done : Nat → Nat → Prop)
    (T : Trellis α) (st b : Nat) (hord : ∀ q c, Done q c → q ≤ st)
    (h : TieInv d t T0 Done T) :
    TieInv d t T0 (fun st2 b2 => Done st2 b2 ∨ (st2 = st ∧ b2 = b)) (relax d t st b T) := by
  obtain ⟨hae, hs⟩ := h
  by_cases hlt : T.ae st + d (encode st b) < T.nae (next_state st b)
  · rw [relax_of_lt d t st b T hlt]
    have hlt0 : T0.ae st + d (encode st b) < T.nae (next_state st b) := hae ▸ hlt
    have gen : ∀ T2 : Trellis α, T2.ae = T.ae →
        T2.nae = Function.update T.nae (next_state st b) (T.ae st + d (encode st b)) →
        T2.state_history = Function.update T.state_history (next_state st b)
          (Function.update (T.state_history (next_state st b)) (t + 1) st) →
        TieInv d t T0 (fun st2 b2 => Done st2 b2 ∨ (st2 = st ∧ b2 = b)) T2 := by
      intro T2 e1 e2 e3
      refine ⟨e1.trans hae, ?_⟩
      intro s
      by_cases hsn : s = next_state st b
      · right
        have hnew : T2.nae s = T0.ae st + d (encode st b) := by
          rw [e2, hsn, Function.update_same, hae]
        have hold : T.nae (next_state st b) ≤ ((MAX_ERROR : ℕ) : α) := by
          rcases hs (next_state st b) with ⟨h1, _, _⟩ | ⟨_, _, _, _, _, h4, _, _⟩
          · exact le_of_eq h1
          · exact le_of_lt h4
        refine ⟨st, b, Or.inr ⟨rfl, rfl⟩, hsn.symm, hnew, ?_, ?_, ?_⟩
        · rw [hnew]
          exact lt_of_lt_of_le hlt0 hold
        · rw [e3, hsn, Function.update_same, Function.update_same]
        · intro q c hD hn
          rw [hnew]
          rcases hD with hD | ⟨e4, e5⟩
          · have hle : T.nae (next_state st b) ≤ T0.ae q + d (encode q c) := by
              rcases hs (next_state st b) with ⟨h1, _, h3⟩ | ⟨_, _, _, _, _, _, _, h6⟩
              · rw [h1]; exact h3 q c hD (hn.trans hsn)
              · exact (h6 q c hD (hn.trans hsn)).1
            have hlt2 : T0.ae st + d (encode st b) < T0.ae q + d (encode q c) :=
              lt_of_lt_of_le hlt0 hle
            exact ⟨le_of_lt hlt2, fun he => absurd he (ne_of_gt hlt2)⟩
          · subst e4; subst e5
            exact ⟨le_refl _, fun _ => le_refl _⟩
      · have hnae : T2.nae s = T.nae s := by
          rw [e2, Function.update_noteq hsn]
        have hsh : T2.state_history s (t + 1) = T.state_history s (t + 1) := by
          rw [e3, Function.update_noteq hsn]
        rcases hs s with ⟨h1, h2, h3⟩ | ⟨p, b2, h1, h2, h3, h4, h5, h6⟩
        · left
          refine ⟨hnae.trans h1, hsh.trans h2, ?_⟩
          intro q c hD hn
          rcases hD with hD | ⟨e4, e5⟩
          · exact h3 q c hD hn
          · subst e4; subst e5; exact absurd hn.symm hsn
        · right
          refine ⟨p, b2, Or.inl h1, h2, hnae.trans h3, ?_, hsh.trans h5, ?_⟩
          · rw [hnae]; exact h4
          · intro q c hD hn
            rw [hnae]
            rcases hD with hD | ⟨e4, e5⟩
            · exact h6 q c hD hn
            · subst e4; subst e5; exact absurd hn.symm hsn
    exact gen _ rfl rfl rfl
  · rw [relax_of_not_lt d t st b T hlt]
    refine ⟨hae, ?_⟩
    intro s
    have hge : T.nae (next_state st b) ≤ T0.ae st + d (encode st b) := by
      rw [← hae]; exact not_lt.mp hlt
    rcases hs s with ⟨h1, h2, h3⟩ | ⟨p, b2, h1, h2, h3, h4, h5, h6⟩
    · left
      refine ⟨h1, h2, ?_⟩
      intro q c hD hn
      rcases hD with hD | ⟨e1, e2⟩
      · exact h3 q c hD hn
      · subst e1; subst e2
        rw [hn, h1] at hge
        exact hge
    · right
      refine ⟨p, b2, Or.inl h1, h2, h3, h4, h5, ?_⟩
      intro q c hD hn
      rcases hD with hD | ⟨e1, e2⟩
      · exact h6 q c hD hn
      · subst e1; subst e2
        rw [hn] at hge
        exact ⟨hge, fun _ => hord p b2 h1⟩

theorem tieInv_congr (d : Nat → α) (t : Nat) (T0 : Trellis α) (Done Done2 : Nat → Nat → Prop)
    (T : Trellis α) (hd : ∀ st b, Done st b ↔ Done2 st b) (h : TieInv d t T0 Done T) :
    TieInv d t T0 Done2 T := by
  obtain ⟨hae, hs⟩ := h
  refine ⟨hae, fun s => ?_⟩
  rcases hs s with ⟨h1, h2, h3⟩ | ⟨p, b2, h1, h2, h3, h4, h5, h6⟩
  · exact Or.inl ⟨h1, h2, fun q c hD hn => h3 q c ((hd q c).mpr hD) hn⟩
  · exact Or.inr ⟨p, b2, (hd p b2).mp h1, h2, h3, h4, h5,
      fun q c hD hn => h6 q c ((hd q c).mpr hD) hn⟩

theorem visit_state_tieInv (d : Nat → α) (t : Nat) (T0 T : Trellis α) (k : Nat)
    (h : TieInv d t T0 (DoneUpTo T0.ae k) T) :
    TieInv d t T0 (DoneUpTo T0.ae (k + 1)) (visit_state d t T k) := by
  unfold visit_state
  by_cases hk : T.ae k ≥ ((MAX_ERROR : ℕ) : α)
  · rw [if_pos hk]
    refine tieInv_congr d t T0 _ _ T ?_ h
    intro st b
    rw [h.1] at hk
    unfold DoneUpTo
    constructor
    · rintro ⟨h1, h2, h3⟩; exact ⟨by omega, h2, h3⟩
    · rintro ⟨h1, h2, h3⟩
      refine ⟨?_, h2, h3⟩
      rcases Nat.lt_succ_iff_lt_or_eq.mp h1 with h4 | h4
      · exact h4
      · subst h4; exact absurd h3 (not_lt.mpr hk)
  · rw [if_neg hk]
    have ha := relax_tieInv d t T0 _ T k 0 (fun q c hD => le_of_lt hD.1) h
    have hb := relax_tieInv d t T0 _ _ k 1
      (fun q c hD => by
        rcases hD with hD | ⟨e1, _⟩
        · exact le_of_lt hD.1
        · exact le_of_eq e1) ha
    refine tieInv_congr d t T0 _ _ _ ?_ hb
    intro st b
    rw [h.1] at hk
    have hk2 : T0.ae k < ((MAX_ERROR : ℕ) : α) := not_le.mp hk
    unfold DoneUpTo
    constructor
    · rintro ((⟨e1, e2, e3⟩ | ⟨e1, e2⟩) | ⟨e1, e2⟩)
      · exact ⟨by omega, e2, e3⟩
      · subst e1; subst e2; exact ⟨by omega, by omega, hk2⟩
      · subst e1; subst e2; exact ⟨by omega, by omega, hk2⟩
    · rintro ⟨h1, h2, h3⟩
      rcases Nat.lt_succ_iff_lt_or_eq.mp h1 with h4 | h4
      · exact Or.inl (Or.inl ⟨h4, h2, h3⟩)
      · have : b = 0 ∨ b = 1 := by omega
        rcases this with h5 | h5
        · exact Or.inl (Or.inr ⟨h4, h5⟩)
        · exact Or.inr ⟨h4, h5⟩

theorem foldl_visit_state_tieInv (d : Nat → α) (t : Nat) (T0 : Trellis α)
    (h0 : ∀ s, T0.nae s = ((MAX_ERROR : ℕ) : α)) (k : Nat) :
    TieInv d t T0 (DoneUpTo T0.ae k) ((List.range k).foldl (visit_state d t) T0) := by
  induction k with
  | zero =>
    refine ⟨rfl, fun s => Or.inl ⟨h0 s, rfl, ?_⟩⟩
    intro q c hD
    exact absurd hD.1 (Nat.not_lt_zero _)
  | succ k ih =>
    rw [List.range_succ, List.foldl_append]
    exact visit_state_tieInv d t T0 _ k ih

/-- One stage of the trellis: a state reached at stage `t + 1` stores the lowest-numbered
best predecessor, and a state not reached keeps its column entry. -/
theorem trellis_stage_tie_break (d : Nat → α) (t : Nat) (T0 : Trellis α)
    (h0 : ∀ s, T0.nae s = ((MAX_ERROR : ℕ) : α)) (n : Nat) :
    ((trellis_stage d t T0).ae n = ((MAX_ERROR : ℕ) : α) ∧
      (trellis_stage d t T0).state_history n (t + 1) = T0.state_history n (t + 1) ∧
      ∀ q < 16, ∀ c < 2, T0.ae q < ((MAX_ERROR : ℕ) : α) → next_state q c = n →
        ((MAX_ERROR : ℕ) : α) ≤ T0.ae q + d (encode q c)) ∨
    ((trellis_stage d t T0).ae n < ((MAX_ERROR : ℕ) : α) ∧
      IsLowestBest d T0.ae n ((trellis_stage d t T0).state_history n (t + 1))
        ((trellis_stage d t T0).ae n)) := by
  have h16 : 1 <<< (K - 1) = 16 := by decide
  obtain ⟨_, hs⟩ := foldl_visit_state_tieInv d t T0 h0 16
  unfold trellis_stage next_slice
  rw [h16]
  rcases hs n with ⟨h1, h2, h3⟩ | ⟨p, b, h1, h2, h3, h4, h5, h6⟩
  · left
    exact ⟨h1, h2, fun q hq c hc hr hn => h3 q c ⟨hq, hc, hr⟩ hn⟩
  · right
    refine ⟨h4, ?_⟩
    show IsLowestBest d T0.ae n
      (((List.range 16).foldl (visit_state d t) T0).state_history n (t + 1))
      (((List.range 16).foldl (visit_state d t) T0).nae n)
    rw [h5]
    exact ⟨h1.1, h1.2.2, ⟨b, h1.2.1, h2, h3⟩,
      fun q hq c hc hr hn => h6 q c ⟨hq, hc, hr⟩ hn⟩

theorem build_trellis_nae (dist : Nat → Nat → α) (h0 : Nat → Nat → Nat) (n : Nat) :
    ∀ s, (build_trellis dist n (initial_trellis h0)).nae s = ((MAX_ERROR : ℕ) : α) := by
  cases n with
  | zero => intro s; rfl
  | succ n => intro s; rfl

/-- Stage `t` writes only column `t + 1` of `state_history`. -/
theorem trellis_stage_frame (d : Nat → α) (t : Nat) (T0 : Trellis α)
    (h0 : ∀ s, T0.nae s = ((MAX_ERROR : ℕ) : α)) (s t2 : Nat) (ht2 : t2 ≠ t + 1) :
    (trellis_stage d t T0).state_history s t2 = T0.state_history s t2 := by
  have h16 : 1 <<< (K - 1) = 16 := by decide
  obtain ⟨_, hfr, _, _⟩ := foldl_visit_state_edgeInv d t T0 h0 16
  unfold trellis_stage next_slice
  rw [h16]
  exact hfr s t2 ht2

theorem build_trellis_frame (dist : Nat → Nat → α) (h0 : Nat → Nat → Nat) (t s : Nat) :
    ∀ n, t + 1 ≤ n →
      (build_trellis dist n (initial_trellis h0)).state_history s (t + 1)
        = (build_trellis dist (t + 1) (initial_trellis h0)).state_history s (t + 1) := by
  intro n
  induction n with
  | zero => intro h; exact absurd h (by omega)
  | succ n ih =>
    intro h
    by_cases hn : n = t
    · rw [hn]
    · show (trellis_stage (dist n) n (build_trellis dist n (initial_trellis h0))).state_history
        s (t + 1) = _
      rw [trellis_stage_frame (dist n) n _ (build_trellis_nae dist h0 n) s (t + 1) (by omega)]
      exact ih (by omega)

/-- The search for the final state: nothing is chosen when no state has an accumulated
error below `MAX_ERROR`, and else the lowest-numbered state of minimum error is chosen. -/
theorem select_min_lowest (ae : Nat → α) (k : Nat) :
    (select_min ae k = (4294967295, ((MAX_ERROR : ℕ) : α)) ∧
      ∀ i < k, ((MAX_ERROR : ℕ) : α) ≤ ae i) ∨
    ((select_min ae k).1 < k ∧ ae (select_min ae k).1 = (select_min ae k).2 ∧
      (select_min ae k).2 < ((MAX_ERROR : ℕ) : α) ∧
      ∀ i < k, (select_min ae k).2 ≤ ae i ∧
        (ae i = (select_min ae k).2 → (select_min ae k).1 ≤ i)) := by
  induction k with
  | zero => exact Or.inl ⟨rfl, fun i hi => absurd hi (Nat.not_lt_zero _)⟩
  | succ k ih =>
    simp only [select_min]
    by_cases hlt : ae k < (select_min ae k).2
    · rw [if_pos hlt]
      right
      have hmax : (select_min ae k).2 ≤ ((MAX_ERROR : ℕ) : α) := by
        rcases ih with ⟨h1, _⟩ | ⟨_, _, h3, _⟩
        · rw [h1]
        · exact le_of_lt h3
      refine ⟨Nat.lt_succ_self k, rfl, lt_of_lt_of_le hlt hmax, ?_⟩
      intro i hi
      show ae k ≤ ae i ∧ (ae i = ae k → k ≤ i)
      rcases Nat.lt_succ_iff_lt_or_eq.mp hi with h | h
      · have hle : (select_min ae k).2 ≤ ae i := by
          rcases ih with ⟨h1, h2⟩ | ⟨_, _, _, h4⟩
          · rw [h1]; exact h2 i h
          · exact (h4 i h).1
        have hlt2 : ae k < ae i := lt_of_lt_of_le hlt hle
        exact ⟨le_of_lt hlt2, fun he => absurd he (ne_of_gt hlt2)⟩
      · rw [h]
        exact ⟨le_refl _, fun _ => le_refl _⟩
    · rw [if_neg hlt]
      rcases ih with ⟨h1, h2⟩ | ⟨h1, h2, h3, h4⟩
      · left
        refine ⟨h1, ?_⟩
        intro i hi
        rcases Nat.lt_succ_iff_lt_or_eq.mp hi with h | h
        · exact h2 i h
        · rw [h]
          have := not_lt.mp hlt
          rw [h1] at this
          exact this
      · right
        refine ⟨Nat.lt_succ_of_lt h1, h2, h3, ?_⟩
        intro i hi
        rcases Nat.lt_succ_iff_lt_or_eq.mp hi with h | h
        · exact h4 i h
        · rw [h]
          exact ⟨not_lt.mp hlt, fun _ => le_of_lt h1⟩

theorem isLowestBest_unique (d : Nat → α) (ae : Nat → α) (n p p2 : Nat) (e : α)
    (h1 : IsLowestBest d ae n p e) (h2 : IsLowestBest d ae n p2 e) : p = p2 := by
  obtain ⟨a1, a2, ⟨b, hb, a3, a4⟩, a5⟩ := h1
  obtain ⟨c1, c2, ⟨b2, hb2, c3, c4⟩, c5⟩ := h2
  have x1 := (a5 p2 c1 b2 hb2 c2 c3).2 c4.symm
  have x2 := (c5 p a1 b hb a2 a3).2 a4.symm
  omega

/-- The stored predecessor of a state reached at stage `t + 1`, as the trellis after all
39 stages holds it. -/
theorem build_trellis_tie_break (dist : Nat → Nat → α) (h0 : Nat → Nat → Nat) (t n : Nat)
    (ht : t < 39)
    (hr : (build_trellis dist (t + 1) (initial_trellis h0)).ae n < ((MAX_ERROR : ℕ) : α)) :
    IsLowestBest (dist t) (build_trellis dist t (initial_trellis h0)).ae n
      ((build_trellis dist 39 (initial_trellis h0)).state_history n (t + 1))
      ((build_trellis dist (t + 1) (initial_trellis h0)).ae n) := by
  rw [build_trellis_frame dist h0 t n 39 (by omega)]
  rcases trellis_stage_tie_break (dist t) t (build_trellis dist t (initial_trellis h0))
    (build_trellis_nae dist h0 t) n with ⟨h1, _, _⟩ | ⟨_, h2⟩
  · exact absurd hr (not_lt.mpr (le_of_eq h1.symm))
  · exact h2

theorem relax_errors (d : Nat → α) (t st b : Nat) (T T2 : Trellis α) (h1 : T.ae = T2.ae)
    (h2 : T.nae = T2.nae) :
    (relax d t st b T).ae = (relax d t st b T2).ae ∧
    (relax d t st b T).nae = (relax d t st b T2).nae := by
  by_cases hlt : T.ae st + d (encode st b) < T.nae (next_state st b)
  · have hlt2 : T2.ae st + d (encode st b) < T2.nae (next_state st b) := by
      rw [← h1, ← h2]; exact hlt
    rw [relax_of_lt d t st b T hlt, relax_of_lt d t st b T2 hlt2]
    refine ⟨h1, ?_⟩
    show Function.update T.nae _ _ = Function.update T2.nae _ _
    rw [h1, h2]
  · have hlt2 : ¬ T2.ae st + d (encode st b) < T2.nae (next_state st b) := by
      rw [← h1, ← h2]; exact hlt
    rw [relax_of_not_lt d t st b T hlt, relax_of_not_lt d t st b T2 hlt2]
    exact ⟨h1, h2⟩

theorem visit_state_errors (d : Nat → α) (t st : Nat) (T T2 : Trellis α) (h1 : T.ae = T2.ae)
    (h2 : T.nae = T2.nae) :
    (visit_state d t T st).ae = (visit_state d t T2 st).ae ∧
    (visit_state d t T st).nae = (visit_state d t T2 st).nae := by
  unfold visit_state
  rw [← h1]
  by_cases hk : T.ae st ≥ ((MAX_ERROR : ℕ) : α)
  · rw [if_pos hk, if_pos hk]
    exact ⟨h1, h2⟩
  · rw [if_neg hk, if_neg hk]
    have ha := relax_errors d t st 0 T T2 h1 h2
    exact relax_errors d t st 1 _ _ ha.1 ha.2

theorem foldl_visit_state_errors (d : Nat → α) (t : Nat) (T T2 : Trellis α)
    (h1 : T.ae = T2.ae) (h2 : T.nae = T2.nae) (k : Nat) :
    ((List.range k).foldl (visit_state d t) T).ae
        = ((List.range k).foldl (visit_state d t) T2).ae ∧
    ((List.range k).foldl (visit_state d t) T).nae
        = ((List.range k).foldl (visit_state d t) T2).nae := by
  induction k with
  | zero => exact ⟨h1, h2⟩
  | succ k ih =>
    rw [List.range_succ, List.foldl_append, List.foldl_append]
    exact visit_state_errors d t k _ _ ih.1 ih.2

/-- The accumulated errors do not depend on the content of `state_history` on entry. -/
theorem build_trellis_errors (dist : Nat → Nat → α) (h1 h2 : Nat → Nat → Nat) (n : Nat) :
    (build_trellis dist n (initial_trellis h1)).ae
      = (build_trellis dist n (initial_trellis h2)).ae := by
  induction n with
  | zero => rfl
  | succ n ih =>
    have hn : (build_trellis dist n (initial_trellis h1)).nae
        = (build_trellis dist n (initial_trellis h2)).nae := by
      funext s
      rw [build_trellis_nae, build_trellis_nae]
    exact (foldl_visit_state_errors (dist n) n _ _ ih hn (1 <<< (K - 1))).2

/-- The path traced back from a state that was reached does not depend on the content of
`state_history` on entry: every entry read was written. -/
theorem traceback_independent (dist : Nat → Nat → α) (h1 h2 : Nat → Nat → Nat) :
    ∀ n s, (build_trellis dist n (initial_trellis h1)).ae s < ((MAX_ERROR : ℕ) : α) →
      traceback (build_trellis dist n (initial_trellis h1)).state_history n s
        = traceback (build_trellis dist n (initial_trellis h2)).state_history n s := by
  intro n
  induction n with
  | zero => intro s _; rfl
  | succ n ih =>
    intro s hr
    have hr2 : (build_trellis dist (n + 1) (initial_trellis h2)).ae s
        < ((MAX_ERROR : ℕ) : α) := by
      rw [← build_trellis_errors dist h1 h2 (n + 1)]; exact hr
    have b1 : IsLowestBest (dist n) (build_trellis dist n (initial_trellis h1)).ae s
        ((build_trellis dist (n + 1) (initial_trellis h1)).state_history s (n + 1))
        ((build_trellis dist (n + 1) (initial_trellis h1)).ae s) := by
      rcases trellis_stage_tie_break (dist n) n (build_trellis dist n (initial_trellis h1))
        (build_trellis_nae dist h1 n) s with ⟨x, _, _⟩ | ⟨_, x⟩
      · exact absurd hr (not_lt.mpr (le_of_eq x.symm))
      · exact x
    have b2 : IsLowestBest (dist n) (build_trellis dist n (initial_trellis h2)).ae s
        ((build_trellis dist (n + 1) (initial_trellis h2)).state_history s (n + 1))
        ((build_trellis dist (n + 1) (initial_trellis h2)).ae s) := by
      rcases trellis_stage_tie_break (dist n) n (build_trellis dist n (initial_trellis h2))
        (build_trellis_nae dist h2 n) s with ⟨x, _, _⟩ | ⟨_, x⟩
      · exact absurd hr2 (not_lt.mpr (le_of_eq x.symm))
      · exact x
    rw [← build_trellis_errors dist h1 h2 n, ← build_trellis_errors dist h1 h2 (n + 1)] at b2
    have hp := isLowestBest_unique _ _ _ _ _ _ b1 b2
    have f1 : ∀ p, traceback (build_trellis dist (n + 1) (initial_trellis h1)).state_history n p
        = traceback (build_trellis dist n (initial_trellis h1)).state_history n p :=
      traceback_congr _ _ n (fun s2 t2 ht2 =>
        trellis_stage_frame (dist n) n _ (build_trellis_nae dist h1 n) s2 t2 (by omega))
    have f2 : ∀ p, traceback (build_trellis dist (n + 1) (initial_trellis h2)).state_history n p
        = traceback (build_trellis dist n (initial_trellis h2)).state_history n p :=
      traceback_congr _ _ n (fun s2 t2 ht2 =>
        trellis_stage_frame (dist n) n _ (build_trellis_nae dist h2 n) s2 t2 (by omega))
    simp only [traceback]
    rw [f1, f2, ← hp, ih _ b1.2.1]

/-- When some final state has an accumulated error below `MAX_ERROR`, the result of the
decoder does not depend on the content of `state_history` on entry. -/
theorem viterbi_independent (dist : Nat → Nat → α) (h1 h2 : Nat → Nat → Nat)
    (hr : (select_min (build_trellis dist 39 (initial_trellis h1)).ae 16).2
      < ((MAX_ERROR : ℕ) : α)) :
    viterbi dist h1 = viterbi dist h2 := by
  have h16 : 1 <<< (K - 1) = 16 := by decide
  have h39 : CONV_INPUT_SIZE = 39 := by decide
  have e1 : ∀ h : Nat → Nat → Nat, viterbi dist h
      = (traceback (build_trellis dist 39 (initial_trellis h)).state_history 39
          (select_min (build_trellis dist 39 (initial_trellis h)).ae 16).1,
        (select_min (build_trellis dist 39 (initial_trellis h)).ae 16).2) := by
    intro h
    simp only [viterbi, h16, h39]
    rfl
  have hreach : (build_trellis dist 39 (initial_trellis h1)).ae
      (select_min (build_trellis dist 39 (initial_trellis h1)).ae 16).1
      < ((MAX_ERROR : ℕ) : α) := by
    rcases select_min_lowest (build_trellis dist 39 (initial_trellis h1)).ae 16 with
      ⟨x, _⟩ | ⟨_, x2, x3, _⟩
    · rw [x] at hr
      exact absurd hr (lt_irrefl _)
    · rw [x2]; exact x3
  rw [e1 h1, e1 h2, ← build_trellis_errors dist h1 h2 39,
    traceback_independent dist h1 h2 39 _ hreach]

/-- With distances between 0 and 2 some final state has an accumulated error below
`MAX_ERROR`. -/
theorem select_min_reached (dist : Nat → Nat → α) (hd : ∀ t o, 0 ≤ dist t o ∧ dist t o ≤ 2)
    (h0 : Nat → Nat → Nat) :
    (select_min (build_trellis dist 39 (initial_trellis h0)).ae 16).2
      < ((MAX_ERROR : ℕ) : α) := by
  obtain ⟨_, hlo, _⟩ := pathInv_build dist hd h0 39 (le_refl _)
  have hb : IsBits (List.replicate 39 0) := by decide
  have hle := hlo (List.replicate 39 0) hb (by simp)
  have hst := run_state_lt (List.replicate 39 0) hb 0 (by omega)
  have hpm := (path_metric_bounds dist hd (List.replicate 39 0) 0 0).2
  have hlt := lt_max_error 39 (le_refl _) _ (le_trans hle (by simpa using hpm))
  rcases select_min_lowest (build_trellis dist 39 (initial_trellis h0)).ae 16 with
    ⟨_, x⟩ | ⟨_, _, x3, _⟩
  · exact absurd hlt (not_lt.mpr (x _ hst))
  · exact x3

theorem viterbi_eq (dist : Nat → Nat → α) (h : Nat → Nat → Nat) :
    viterbi dist h
      = (traceback (build_trellis dist 39 (initial_trellis h)).state_history 39
          (select_min (build_trellis dist 39 (initial_trellis h)).ae 16).1,
        (select_min (build_trellis dist 39 (initial_trellis h)).ae 16).2) := by
  have h16 : 1 <<< (K - 1) = 16 := by decide
  have h39 : CONV_INPUT_SIZE = 39 := by decide
  simp only [viterbi, h16, h39]
  rfl

theorem isLowestMin_select_min (ae : Nat → α)
    (hr : (select_min ae 16).2 < ((MAX_ERROR : ℕ) : α)) :
    IsLowestMin ae (select_min ae 16).1 (select_min ae 16).2 := by
  rcases select_min_lowest ae 16 with ⟨x, _⟩ | ⟨x1, x2, _, x4⟩
  · rw [x] at hr
    exact absurd hr (lt_irrefl _)
  · exact ⟨x1, x2, x4⟩

end TieBreak

/-- C29: in `conv_decode` and in `conv_decode_soft`, for every stage t < 39 and every state
n reached at stage t + 1 (accumulated error below MAX_ERROR), the entry
state_history[n][t + 1] is the lowest-numbered state among the predecessors p of n with
ae[p] < MAX_ERROR that attain the minimum of ae[p] + distance(p -> n), and that minimum is
the accumulated error of n; the final state chosen is the lowest-numbered state of
minimum accumulated error (for `conv_decode_soft` whenever some final state has an error
below MAX_ERROR, which is so for soft values in [0, 1]); the decoders trace back from that
state through these entries. -/
theorem viterbi_tie_break (sh : Nat → Nat → Nat) (data : List Nat) (soft : List ℚ)
    (t n : Nat) (ht : t < 39) :
    ((build_trellis (hard_distance data) (t + 1) (initial_trellis sh)).ae n < MAX_ERROR →
      IsLowestBest (hard_distance data t)
        (build_trellis (hard_distance data) t (initial_trellis sh)).ae n
        ((build_trellis (hard_distance data) 39 (initial_trellis sh)).state_history n (t + 1))
        ((build_trellis (hard_distance data) (t + 1) (initial_trellis sh)).ae n)) ∧
    IsLowestMin (build_trellis (hard_distance data) 39 (initial_trellis sh)).ae
      (select_min (build_trellis (hard_distance data) 39 (initial_trellis sh)).ae 16).1
      (select_min (build_trellis (hard_distance data) 39 (initial_trellis sh)).ae 16).2 ∧
    conv_decode sh data
      = (traceback (build_trellis (hard_distance data) 39 (initial_trellis sh)).state_history 39
          (select_min (build_trellis (hard_distance data) 39 (initial_trellis sh)).ae 16).1,
        (select_min (build_trellis (hard_distance data) 39 (initial_trellis sh)).ae 16).2) ∧
    ((build_trellis (soft_distance soft) (t + 1) (initial_trellis sh)).ae n
        < ((MAX_ERROR : ℕ) : ℚ) →
      IsLowestBest (soft_distance soft t)
        (build_trellis (soft_distance soft) t (initial_trellis sh)).ae n
        ((build_trellis (soft_distance soft) 39 (initial_trellis sh)).state_history n (t + 1))
        ((build_trellis (soft_distance soft) (t + 1) (initial_trellis sh)).ae n)) ∧
    ((select_min (build_trellis (soft_distance soft) 39 (initial_trellis sh)).ae 16).2
        < ((MAX_ERROR : ℕ) : ℚ) →
      IsLowestMin (build_trellis (soft_distance soft) 39 (initial_trellis sh)).ae
        (select_min (build_trellis (soft_distance soft) 39 (initial_trellis sh)).ae 16).1
        (select_min (build_trellis (soft_distance soft) 39 (initial_trellis sh)).ae 16).2) ∧
    ((∀ x ∈ soft, 0 ≤ x ∧ x ≤ 1) →
      (select_min (build_trellis (soft_distance soft) 39 (initial_trellis sh)).ae 16).2
        < ((MAX_ERROR : ℕ) : ℚ)) ∧
    conv_decode_soft sh soft
      = (traceback (build_trellis (soft_distance soft) 39 (initial_trellis sh)).state_history 39
          (select_min (build_trellis (soft_distance soft) 39 (initial_trellis sh)).ae 16).1,
        (select_min (build_trellis (soft_distance soft) 39 (initial_trellis sh)).ae 16).2) := by
  refine ⟨?_, ?_, viterbi_eq _ sh, ?_, ?_, ?_, viterbi_eq _ sh⟩
  · intro hr
    exact build_trellis_tie_break (hard_distance data) sh t n ht hr
  · exact isLowestMin_select_min _
      (select_min_reached (hard_distance data) (hard_distance_bounds data) sh)
  · intro hr
    exact build_trellis_tie_break (soft_distance soft) sh t n ht hr
  · exact isLowestMin_select_min _
  · intro hs
    exact select_min_reached (soft_distance soft) (soft_distance_bounds soft hs) sh

theorem viterbi_tie_break_witness :
    IsLowestMin
      (build_trellis (hard_distance (List.replicate 78 0)) 39
        (initial_trellis (fun _ _ => 0))).ae
      (select_min (build_trellis (hard_distance (List.replicate 78 0)) 39
        (initial_trellis (fun _ _ => 0))).ae 16).1
      (select_min (build_trellis (hard_distance (List.replicate 78 0)) 39
        (initial_trellis (fun _ _ => 0))).ae 16).2 :=
  (viterbi_tie_break (fun _ _ => 0) (List.replicate 78 0) [] 0 0 (by decide)).2.1

/-- The hard decoder does not depend on the content of `state_history` on entry. -/
theorem conv_decode_independent (h1 h2 : Nat → Nat → Nat) (data : List Nat) :
    conv_decode h1 data = conv_decode h2 data :=
  viterbi_independent (hard_distance data) h1 h2
    (select_min_reached (hard_distance data) (hard_distance_bounds data) h1)

theorem sch_data_congr (buf1 buf2 : List Nat) (h1 : buf1.length = 148)
    (h2 : buf2.length = 148)
    (h : ∀ i, (3 ≤ i ∧ i ≤ 41) ∨ (106 ≤ i ∧ i ≤ 144) → buf1.getD i 0 = buf2.getD i 0) :
    sch_data buf1 = sch_data buf2 := by
  have key : ∀ (os : Nat), (∀ i, os ≤ i → i < os + 39 → buf1.getD i 0 = buf2.getD i 0) →
      os + 39 ≤ 148 → (buf1.drop os).take 39 = (buf2.drop os).take 39 := by
    intro os hos hle
    apply List.ext_getElem
    · simp only [List.length_take, List.length_drop, h1, h2]
    · intro i hi1 hi2
      have hi : i < 39 := by
        simp only [List.length_take, List.length_drop, h1] at hi1
        omega
      have := hos (os + i) (by omega) (by omega)
      rw [List.getD_eq_getElem buf1 0 (by omega), List.getD_eq_getElem buf2 0 (by omega)] at this
      simp only [List.getElem_take, List.getElem_drop]
      exact this
  unfold sch_data
  have e1 : SB_EDATA_OS_1 = 3 := rfl
  have e2 : SB_EDATA_OS_2 = 106 := rfl
  have e3 : SB_EDATA_LEN_1 = 39 := rfl
  have e4 : SB_EDATA_LEN_2 = 39 := rfl
  rw [e1, e2, e3, e4, key 3 (fun i a b => h i (Or.inl ⟨a, by omega⟩)) (by omega),
    key 106 (fun i a b => h i (Or.inr ⟨a, by omega⟩)) (by omega)]

/-- C26: two 148-bit bursts that agree at the offsets 3..41 and 106..144 give the same
result of `decode_sch` (return code, and fn and bsic when they are written), whatever
the other positions hold and whatever the uninitialised array `state_history` of the
decoder holds on entry in each of the two calls. -/
theorem decode_sch_depends_on_data_bits (sh1 sh2 : Nat → Nat → Nat) (buf1 buf2 : List Nat)
    (h1 : buf1.length = 148) (h2 : buf2.length = 148)
    (h : ∀ i, (3 ≤ i ∧ i ≤ 41) ∨ (106 ≤ i ∧ i ≤ 144) → buf1.getD i 0 = buf2.getD i 0) :
    decode_sch sh1 buf1 = decode_sch sh2 buf2 := by
  unfold decode_sch
  rw [sch_data_congr buf1 buf2 h1 h2 h, conv_decode_independent sh1 sh2]

theorem decode_sch_depends_on_data_bits_witness :
    decode_sch (fun _ _ => 0) burst_sample
      = decode_sch (fun _ _ => 1) (burst_sample.set 0 1) :=
  decode_sch_depends_on_data_bits (fun _ _ => 0) (fun _ _ => 1) burst_sample
    (burst_sample.set 0 1) (by set_option maxRecDepth 100000 in decide)
    (by rw [List.length_set]; set_option maxRecDepth 100000 in decide)
    (by
      intro i hi
      rw [list_getD_set]
      have c : ¬ (i = 0 ∧ 0 < burst_sample.length) := by omega
      rw [if_neg c])

/-! ## The frequency burst detector and the burst demodulator -/

section Detector

variable {K : Type} [LinearOrderedField K]

theorem get_delay_constructed [FloorRing K] (sample_rate : K) (D : Nat) (p G : K) :
    (fcch_detector.construct sample_rate D p G).get_delay = 16 + D := rfl

theorem scan_feed_step (s : List (complex K)) (det0 det : fcch_detector K) (len : Nat)
    (sum : K) (hcap : det0.get_delay < det0.m_x_cb.capacity) (hinv : FeedInv det0 det len)
    (hlen : len < s.length) (fuel : Nat) :
    ∃ sum1 det1, scan_feed_loop s (fuel + 1) len sum det
        = scan_feed_loop s fuel (len + 1) sum1 det1 ∧ FeedInv det0 det1 (len + 1) := by
  obtain ⟨h1, h2, h3, h4, h5, h6, h7, h8⟩ := hinv
  have hd : det0.get_delay = det0.m_w_len - 1 + det0.m_D := rfl
  have hw : min 1 (det.m_x_cb.capacity - det.m_x_cb.data.length) = 1 := by
    rw [h5, h7]; omega
  rw [scan_feed_loop, if_pos hlen]
  simp only [circular_buffer.write, List.length_singleton, hw, List.take_succ_cons,
    List.take_zero]
  by_cases hc : det.m_w_len - 1 + det.m_D ≥ det.m_x_cb.data.length + 1
  · refine ⟨sum, { det with m_x_cb := ⟨det.m_x_cb.capacity, det.m_x_cb.data ++ [s.getD len 0]⟩ },
      ?_, ?_⟩
    · simp only [fcch_detector.next_norm_error, circular_buffer.peek, List.length_append,
        List.length_singleton, if_pos hc]
    · refine ⟨h1, h2, h3, h4, h5, h6, ?_, ?_⟩
      · simp only [List.length_append, List.length_singleton]; omega
      · simp only []; omega
  · simp only [fcch_detector.next_norm_error, circular_buffer.peek, List.length_append,
      List.length_singleton, if_neg hc, circular_buffer.purge]
    refine ⟨_, _, rfl, ?_⟩
    refine ⟨h1, h2, h3, h4, h5, h6, ?_, ?_⟩
    · simp only [List.length_drop, List.length_append, List.length_singleton]; omega
    · simp only [List.length_append, List.length_take, List.length_singleton]; omega

theorem scan_feed_loop_spec (s : List (complex K)) (det0 : fcch_detector K)
    (hcap : det0.get_delay < det0.m_x_cb.capacity) :
    ∀ (fuel len : Nat) (sum : K) (det : fcch_detector K), FeedInv det0 det len →
      len ≤ s.length → s.length - len ≤ fuel →
      ∃ sum1 det1, scan_feed_loop s fuel len sum det = some (sum1, det1) ∧
        FeedInv det0 det1 s.length := by
  intro fuel
  induction fuel with
  | zero =>
    intro len sum det hinv h1 h2
    have e : len = s.length := by omega
    subst e
    exact ⟨sum, det, by rw [scan_feed_loop, if_neg (lt_irrefl _)], hinv⟩
  | succ fuel ih =>
    intro len sum det hinv h1 h2
    by_cases hlen : len < s.length
    · obtain ⟨sum1, det1, e, hinv1⟩ := scan_feed_step s det0 det len sum hcap hinv hlen fuel
      rw [e]
      exact ih (len + 1) sum1 det1 hinv1 hlen (by omega)
    · have e : len = s.length := by omega
      subst e
      exact ⟨sum, det, by rw [scan_feed_loop, if_neg hlen], hinv⟩

theorem feedInv_flush {L : Type} (det : fcch_detector L) :
    FeedInv det { det with m_e_cb := det.m_e_cb.flush, m_x_cb := det.m_x_cb.flush } 0 := by
  refine ⟨rfl, rfl, rfl, rfl, rfl, rfl, ?_, ?_⟩
  · simp [circular_buffer.flush]
  · simp [circular_buffer.flush]

theorem low_to_high_at_le (thr : K) (a : List K) (i : Nat) : low_to_high_at thr a i ≤ i := by
  rw [low_to_high_at_eq]
  split_ifs
  · exact low_run_le thr a i
  · exact Nat.zero_le _

theorem scan_search_loop_spec [FloorRing K] (m : Libm K) (f : Fftw K) (det : fcch_detector K)
    (s : List (complex K)) (a : List K) (limit : K) (MIN_FB_LEN : Nat) :
    ∀ (fuel i : Nat) (v : ScanVars K),
      (fuel = 0 →
        scan_search_loop m f det s a MIN_FB_LEN fuel i (low_to_high_feed limit a i) v = v) ∧
      (0 < fuel →
        (scan_search_loop m f det s a MIN_FB_LEN fuel i (low_to_high_feed limit a i) v).pm
            ≤ (MIN_PM : K) ∨
        ∃ j, i ≤ j ∧ j < i + fuel ∧ MIN_FB_LEN ≤ low_to_high_at limit a j ∧
          scan_search_loop m f det s a MIN_FB_LEN fuel i (low_to_high_feed limit a i) v
            = ⟨(det.freq_detect m f
                  ((s.drop (j - low_to_high_at limit a j)).take
                    (min (low_to_high_at limit a j) det.m_fcch_burst_len))).2,
                j - low_to_high_at limit a j,
                min (low_to_high_at limit a j) det.m_fcch_burst_len,
                (det.freq_detect m f
                  ((s.drop (j - low_to_high_at limit a j)).take
                    (min (low_to_high_at limit a j) det.m_fcch_burst_len))).1⟩) := by
  intro fuel
  induction fuel with
  | zero => intro i v; exact ⟨fun _ => rfl, fun h => absurd h (lt_irrefl 0)⟩
  | succ fuel ih =>
    intro i v
    refine ⟨fun h => absurd h (Nat.succ_ne_zero fuel), fun _ => ?_⟩
    have hfeed : (low_to_high (low_to_high_feed limit a i) (a.getD i 0)).2
        = low_to_high_feed limit a (i + 1) := rfl
    have hat : (low_to_high (low_to_high_feed limit a i) (a.getD i 0)).1
        = low_to_high_at limit a i := rfl
    have hmin : ∀ l b : Nat, (if l < b then l else b) = min l b := by
      intro l b
      split_ifs with h
      · exact (min_eq_left (le_of_lt h)).symm
      · exact (min_eq_right (not_lt.mp h)).symm
    have h50 : (0 : K) ≤ (MIN_PM : K) := Nat.cast_nonneg _
    rw [scan_search_loop]
    simp only [hfeed, hat, hmin]
    by_cases hl : low_to_high_at limit a i ≥ MIN_FB_LEN
    · rw [if_pos hl]
      by_cases hpm : (det.freq_detect m f
          ((s.drop (i - low_to_high_at limit a i)).take
            (min (low_to_high_at limit a i) det.m_fcch_burst_len))).2 > (MIN_PM : K)
      · rw [if_pos hpm]
        exact Or.inr ⟨i, le_refl _, by omega, hl, rfl⟩
      · rw [if_neg hpm]
        rcases Nat.eq_zero_or_pos fuel with h0 | hpos
        · rw [((ih (i + 1) _).1 h0)]
          exact Or.inl (not_lt.mp hpm)
        · rcases (ih (i + 1) _).2 hpos with h | ⟨j, hj1, hj2, hj3, hj4⟩
          · exact Or.inl h
          · exact Or.inr ⟨j, by omega, by omega, hj3, hj4⟩
    · rw [if_neg hl]
      rcases Nat.eq_zero_or_pos fuel with h0 | hpos
      · rw [((ih (i + 1) _).1 h0)]
        exact Or.inl h50
      · rcases (ih (i + 1) _).2 hpos with h | ⟨j, hj1, hj2, hj3, hj4⟩
        · exact Or.inl h
        · exact Or.inr ⟨j, by omega, by omega, hj3, hj4⟩

theorem scan_eq [FloorRing K] (m : Libm K) (f : Fftw K) (pm0 : K) (det : fcch_detector K)
    (s : List (complex K)) (hcap : det.get_delay < det.m_x_cb.capacity) :
    ∃ sum det1,
      scan_feed_loop s s.length 0 0
          { det with m_e_cb := det.m_e_cb.flush, m_x_cb := det.m_x_cb.flush }
        = some (sum, det1) ∧
      FeedInv det det1 s.length ∧
      det.scan m f pm0 s = some
        (if (scan_search_loop m f det1 s det1.m_e_cb.data
              ⌊100 * (det.m_sample_rate / GSM_RATE)⌋.toNat det1.m_e_cb.data.length 0
              (low_to_high_init (7 / 10 * (sum / (det1.m_e_cb.data.length : K))))
              ⟨pm0, 0, 0, 0⟩).pm ≤ (MIN_PM : K)
          then ⟨0, none, s.length, det1⟩
          else ⟨1,
            some (scan_search_loop m f det1 s det1.m_e_cb.data
              ⌊100 * (det.m_sample_rate / GSM_RATE)⌋.toNat det1.m_e_cb.data.length 0
              (low_to_high_init (7 / 10 * (sum / (det1.m_e_cb.data.length : K))))
              ⟨pm0, 0, 0, 0⟩).loff,
            (scan_search_loop m f det1 s det1.m_e_cb.data
              ⌊100 * (det.m_sample_rate / GSM_RATE)⌋.toNat det1.m_e_cb.data.length 0
              (low_to_high_init (7 / 10 * (sum / (det1.m_e_cb.data.length : K))))
              ⟨pm0, 0, 0, 0⟩).y_offset +
            (scan_search_loop m f det1 s det1.m_e_cb.data
              ⌊100 * (det.m_sample_rate / GSM_RATE)⌋.toNat det1.m_e_cb.data.length 0
              (low_to_high_init (7 / 10 * (sum / (det1.m_e_cb.data.length : K))))
              ⟨pm0, 0, 0, 0⟩).y_len + det1.get_delay, det1⟩) := by
  obtain ⟨sum, det1, e, hinv⟩ := scan_feed_loop_spec s det hcap s.length 0 0 _
    (feedInv_flush det) (Nat.zero_le _) (by omega)
  refine ⟨sum, det1, e, hinv, ?_⟩
  unfold fcch_detector.scan
  simp only [e, circular_buffer.peek]
  split_ifs <;> rfl

theorem scan_buffers [FloorRing K] (m : Libm K) (f : Fftw K) (pm0 : K)
    (det : fcch_detector K) (s : List (complex K))
    (hcap : det.get_delay < det.m_x_cb.capacity) :
    ∃ r, det.scan m f pm0 s = some r ∧ (r.ret = 0 ∨ r.ret = 1) ∧
      r.det.m_x_cb.data.length = min s.length det.get_delay ∧
      r.det.m_e_cb.data.length = min (s.length - det.get_delay) det.m_e_cb.capacity ∧
      r.det.get_delay = det.get_delay := by
  obtain ⟨sum, det1, _, hinv, e⟩ := scan_eq m f pm0 det s hcap
  obtain ⟨h1, h2, _, _, _, _, h7, h8⟩ := hinv
  have hd : det1.get_delay = det.get_delay := by
    unfold fcch_detector.get_delay
    rw [h1, h2]
  rw [e]
  split_ifs
  · exact ⟨_, rfl, Or.inl rfl, h7, h8, hd⟩
  · exact ⟨_, rfl, Or.inr rfl, h7, h8, hd⟩

theorem scan_short_fails [FloorRing K] (m : Libm K) (f : Fftw K) (pm0 : K)
    (det : fcch_detector K) (s : List (complex K))
    (hcap : det.get_delay < det.m_x_cb.capacity) (hecap : 0 < det.m_e_cb.capacity)
    (hlen : det.get_delay < s.length)
    (hshort : s.length - det.get_delay ≤ ⌊100 * (det.m_sample_rate / GSM_RATE)⌋.toNat) :
    ∃ r, det.scan m f pm0 s = some r ∧ r.ret = 0 := by
  obtain ⟨sum, det1, _, hinv, e⟩ := scan_eq m f pm0 det s hcap
  obtain ⟨_, _, _, _, _, _, _, h8⟩ := hinv
  have hpos : 0 < det1.m_e_cb.data.length := by rw [h8]; omega
  rw [e]
  rcases (scan_search_loop_spec m f det1 s det1.m_e_cb.data
      (7 / 10 * (sum / (det1.m_e_cb.data.length : K)))
      ⌊100 * (det.m_sample_rate / GSM_RATE)⌋.toNat det1.m_e_cb.data.length 0
      ⟨pm0, 0, 0, 0⟩).2 hpos with h | ⟨j, _, hj2, hj3, _⟩
  · have h2 : (scan_search_loop m f det1 s det1.m_e_cb.data
        ⌊100 * (det.m_sample_rate / GSM_RATE)⌋.toNat det1.m_e_cb.data.length 0
        (low_to_high_init (7 / 10 * (sum / (det1.m_e_cb.data.length : K))))
        ⟨pm0, 0, 0, 0⟩).pm ≤ (MIN_PM : K) := h
    rw [if_pos h2]
    exact ⟨_, rfl, rfl⟩
  · have := low_to_high_at_le (7 / 10 * (sum / (det1.m_e_cb.data.length : K)))
      det1.m_e_cb.data j
    rw [h8] at hj2
    omega

end Detector

section PeakExamples

variable {K : Type} [LinearOrderedField K]

theorem interpolate_point_nat [FloorRing K] (m : Libm K)
    (hsin : ∀ k : ℤ, k ≠ 0 → m.sinf (m.M_PI * k) = 0) (hpi : 1 / 10000 ≤ m.M_PI)
    (s : List (complex K)) (i : Nat) (hi : i < s.length) :
    interpolate_point m s (i : K) = s.getD i 0 := by
  unfold interpolate_point
  simp only [COMMON_FILTER_LEN, Int.floor_natCast]
  rw [interpolate_point_loop_integer m hsin hpi s i _ _ _ (by split <;> omega), zero_add,
    if_pos]
  constructor
  · split <;> omega
  · split <;> split <;> omega

theorem peak_detect_eq [FloorRing K] (m : Libm K) (s : List (complex K)) (mx mi sp : K)
    (hp : peak_power_loop s s.length = (mx, mi, sp)) (e l r x : K)
    (he : (if 1 ≤ mi then mi - 1 else 0) = e)
    (hl : (if mi + 1 < (s.length : K) then mi + 1 else ((s.length - 1 : Nat) : K)) = l)
    (hr : peak_refine_loop m s 10 (1 / 2) e l = r)
    (hx : (if (if r + 1 < 0 then 0 else r + 1) > ((s.length - 1 : Nat) : K)
        then ((s.length - 1 : Nat) : K) else (if r + 1 < 0 then 0 else r + 1)) = x) :
    peak_detect m s
      = (x, interpolate_point m s x,
          (sp - norm (interpolate_point m s x)) / ((s.length - 1 : Nat) : K)) := by
  subst he hl hr hx
  unfold peak_detect
  rw [hp]

theorem peak_detect_tone [FloorRing K] (m : Libm K)
    (hsin : ∀ k : ℤ, k ≠ 0 → m.sinf (m.M_PI * k) = 0) (hpi : 1 / 10000 ≤ m.M_PI) :
    peak_detect m [(⟨1, 0⟩ : complex K), ⟨10, 0⟩, ⟨1, 0⟩, ⟨0, 0⟩] = (1, ⟨10, 0⟩, 2 / 3) := by
  have i0 := interpolate_point_nat m hsin hpi [(⟨1, 0⟩ : complex K), ⟨10, 0⟩, ⟨1, 0⟩, ⟨0, 0⟩] 0
    (by simp)
  have i1 := interpolate_point_nat m hsin hpi [(⟨1, 0⟩ : complex K), ⟨10, 0⟩, ⟨1, 0⟩, ⟨0, 0⟩] 1
    (by simp)
  have i2 := interpolate_point_nat m hsin hpi [(⟨1, 0⟩ : complex K), ⟨10, 0⟩, ⟨1, 0⟩, ⟨0, 0⟩] 2
    (by simp)
  simp only [Nat.cast_zero, Nat.cast_one, Nat.cast_ofNat, List.getD_cons_zero,
    List.getD_cons_succ] at i0 i1 i2
  have hp : peak_power_loop [(⟨1, 0⟩ : complex K), ⟨10, 0⟩, ⟨1, 0⟩, ⟨0, 0⟩] 4 = (100, 1, 102) := by
    simp only [peak_power_loop, List.getD_cons_zero, List.getD_cons_succ, norm]
    norm_num
  have hr : peak_refine_loop m [(⟨1, 0⟩ : complex K), ⟨10, 0⟩, ⟨1, 0⟩, ⟨0, 0⟩] 10 (1 / 2) 0 2
      = 0 := by
    rw [peak_refine_loop, if_pos (by norm_num), i0, i2]
    simp only [lt_irrefl, gt_iff_lt, if_false]
  rw [peak_detect_eq m _ 100 1 102 hp 0 2 0 1 (by norm_num) (by norm_num) hr (by norm_num), i1]
  simp only [norm]
  norm_num

end PeakExamples

section FrozenPredictor

variable {K : Type} [LinearOrderedField K]

theorem filter_loop_zero (w x : List (complex K)) (n : Nat) :
    ∀ k, (∀ i, i < k → w.getD i 0 = 0) → filter_loop w x n k = 0 := by
  intro k
  induction k with
  | zero => intro _; rfl
  | succ k ih =>
    intro h
    rw [filter_loop, ih (fun i hi => h i (by omega)), h k (by omega)]
    have : conj (0 : complex K) = 0 := by
      apply complex.ext <;> simp [conj]
    rw [this, zero_mul, add_zero]

theorem update_loop_zero (e : complex K) (x : List (complex K)) (n : Nat)
    (w : List (complex K)) : ∀ k, update_loop 0 e x n k w = w := by
  intro k
  induction k with
  | zero => rfl
  | succ k ih =>
    rw [update_loop, ih]
    have : of_real (0 : K) = 0 := rfl
    rw [this, zero_mul, zero_mul, add_zero]
    apply list_ext_getD
    · simp
    · intro i _
      rw [list_getD_set]
      split_ifs with h
      · rw [h.1]
      · rfl

theorem next_norm_error_frozen (det : fcch_detector K)
    (hG : det.m_G = 0) (hw : ∀ i, i < det.m_w_len → det.m_w.getD i 0 = 0)
    (hx : det.m_w_len - 1 + det.m_D < det.m_x_cb.data.length)
    (hE : 0 < vectornorm2_loop det.m_x_cb.data det.m_w_len) :
    det.next_norm_error
      = (0,
          some (((1 - det.m_p) * det.m_e
              + det.m_p * norm (det.m_x_cb.data.getD (det.m_w_len - 1 + det.m_D) 0))
            / (vectornorm2_loop det.m_x_cb.data det.m_w_len / (det.m_w_len : K))),
          { det with
            m_e := (1 - det.m_p) * det.m_e
              + det.m_p * norm (det.m_x_cb.data.getD (det.m_w_len - 1 + det.m_D) 0),
            m_x_cb := det.m_x_cb.purge 1 }) := by
  have hc : ¬ (det.m_w_len - 1 + det.m_D ≥ det.m_x_cb.data.length) := by omega
  have hg : ¬ ((0 : K) ≥ 2 / vectornorm2_loop det.m_x_cb.data det.m_w_len) := by
    have : 0 < 2 / vectornorm2_loop det.m_x_cb.data det.m_w_len := by positivity
    exact not_le.mpr this
  unfold fcch_detector.next_norm_error
  simp only [circular_buffer.peek, if_neg hc, if_neg hg, filter_loop_zero _ _ _ _ hw, sub_zero,
    hG, update_loop_zero]

theorem scan_feed_fill (s : List (complex K)) (det : fcch_detector K)
    (hcap : det.get_delay < det.m_x_cb.capacity) (hempty : det.m_x_cb.data = []) :
    ∀ (k fuel : Nat) (sum : K), k ≤ det.get_delay → k ≤ s.length →
      scan_feed_loop s (fuel + k) 0 sum det
        = scan_feed_loop s fuel k sum
            { det with m_x_cb := ⟨det.m_x_cb.capacity, s.take k⟩ } := by
  intro k
  induction k with
  | zero =>
    intro fuel sum _ _
    have e : det = { det with m_x_cb := ⟨det.m_x_cb.capacity, s.take 0⟩ } := by
      cases det with
      | mk a b c d e f g h i x y =>
        cases x
        simp only at hempty
        subst hempty
        rfl
    rw [← e]
    rfl
  | succ k ih =>
    intro fuel sum h1 h2
    have hd : det.get_delay = det.m_w_len - 1 + det.m_D := rfl
    have e : fuel + (k + 1) = (fuel + 1) + k := by omega
    rw [e, ih (fuel + 1) sum (by omega) (by omega), scan_feed_loop, if_pos (by omega)]
    have hk : (s.take k).length = k := by rw [List.length_take]; omega
    have hw : min 1 (det.m_x_cb.capacity - k) = 1 := by omega
    have ht : s.take k ++ [s.getD k 0] = s.take (k + 1) := by
      rw [List.take_succ, List.getD_eq_getElem?_getD, List.getElem?_eq_getElem (by omega)]
      rfl
    have hc : det.m_w_len - 1 + det.m_D ≥ k + 1 := by omega
    simp only [circular_buffer.write, List.length_singleton, hk, hw, List.take_succ_cons,
      List.take_zero, ht, fcch_detector.next_norm_error, circular_buffer.peek,
      List.length_take, if_pos hc]
    rw [if_pos]
    omega

theorem scan_feed_step_frozen (s : List (complex K)) (det : fcch_detector K)
    (len fuel : Nat) (sum : K) (hG : det.m_G = 0)
    (hw : ∀ i, i < det.m_w_len → det.m_w.getD i 0 = 0)
    (hx : det.m_x_cb.data.length = det.m_w_len - 1 + det.m_D)
    (hcap : det.m_x_cb.data.length < det.m_x_cb.capacity)
    (hecap : det.m_e_cb.data.length < det.m_e_cb.capacity) (hlen : len < s.length)
    (hE : 0 < vectornorm2_loop (det.m_x_cb.data ++ [s.getD len 0]) det.m_w_len) :
    scan_feed_loop s (fuel + 1) len sum det
      = scan_feed_loop s fuel (len + 1)
          (sum + ((1 - det.m_p) * det.m_e + det.m_p * norm (s.getD len 0))
            / (vectornorm2_loop (det.m_x_cb.data ++ [s.getD len 0]) det.m_w_len
                / (det.m_w_len : K)))
          { det with
            m_e := (1 - det.m_p) * det.m_e + det.m_p * norm (s.getD len 0),
            m_x_cb := ⟨det.m_x_cb.capacity, (det.m_x_cb.data ++ [s.getD len 0]).drop 1⟩,
            m_e_cb := ⟨det.m_e_cb.capacity,
              det.m_e_cb.data ++
                [((1 - det.m_p) * det.m_e + det.m_p * norm (s.getD len 0))
                  / (vectornorm2_loop (det.m_x_cb.data ++ [s.getD len 0]) det.m_w_len
                      / (det.m_w_len : K))]⟩ } := by
  have hw1 : min 1 (det.m_x_cb.capacity - det.m_x_cb.data.length) = 1 := by omega
  have hw2 : min 1 (det.m_e_cb.capacity - det.m_e_cb.data.length) = 1 := by omega
  have hlast : (det.m_x_cb.data ++ [s.getD len 0]).getD (det.m_w_len - 1 + det.m_D) 0
      = s.getD len 0 := by
    rw [← hx, List.getD_append_right _ _ _ _ (le_refl _), Nat.sub_self]
    rfl
  rw [scan_feed_loop, if_pos hlen]
  simp only [circular_buffer.write, List.length_singleton, hw1, List.take_succ_cons,
    List.take_zero]
  have h := next_norm_error_frozen
    { det with m_x_cb := ⟨det.m_x_cb.capacity, det.m_x_cb.data ++ [s.getD len 0]⟩ } hG hw
    (by simp only [List.length_append, List.length_singleton]; omega) hE
  rw [h]
  simp only [hlast, circular_buffer.purge, circular_buffer.write, List.length_singleton, hw2,
    List.take_succ_cons, List.take_zero]

end FrozenPredictor

section ToneExample

variable {K : Type} [LinearOrderedField K]

theorem vectornorm2_loop_ones (n : Nat) (l : List (complex K)) :
    ∀ k, k ≤ n → vectornorm2_loop (List.replicate n (⟨1, 0⟩ : complex K) ++ l) k = (k : K) := by
  intro k
  induction k with
  | zero => intro _; simp [vectornorm2_loop]
  | succ k ih =>
    intro h
    rw [vectornorm2_loop, ih (by omega), List.getD_append _ _ _ _ (by simp; omega),
      List.getD_eq_getElem _ _ (by simp; omega), List.getElem_replicate]
    simp [norm]

theorem tone_burst_feed (R : K) (B : Nat) :
    ∃ (xs : List (complex K)),
      scan_feed_loop tone_burst 50 0 0
          (⟨32, 1 / 2, 0, 0, R, B, 8, 17, List.replicate 17 0, ⟨1024, []⟩, ⟨1000000, []⟩⟩ :
            fcch_detector K)
        = some (50, ⟨32, 1 / 2, 0, 50, R, B, 8, 17, List.replicate 17 0, ⟨1024, xs⟩,
            ⟨1000000, [0, 50]⟩⟩) := by
  have hfill := scan_feed_fill (tone_burst : List (complex K))
    ⟨32, 1 / 2, 0, 0, R, B, 8, 17, List.replicate 17 0, ⟨1024, []⟩, ⟨1000000, []⟩⟩
    (show (48 : Nat) < 1024 by decide) rfl 48 2 0 (show (48 : Nat) ≤ 48 by decide)
    (show (48 : Nat) ≤ 50 by decide)
  have e50 : (50 : Nat) = 2 + 48 := rfl
  have t48 : (tone_burst : List (complex K)).take 48 = List.replicate 48 ⟨1, 0⟩ := rfl
  have g48 : (tone_burst : List (complex K)).getD 48 0 = ⟨0, 0⟩ := rfl
  have g49 : (tone_burst : List (complex K)).getD 49 0 = ⟨10, 0⟩ := rfl
  have d1 : (List.replicate 48 (⟨1, 0⟩ : complex K) ++ [(⟨0, 0⟩ : complex K)]).drop 1
      = List.replicate 47 ⟨1, 0⟩ ++ [⟨0, 0⟩] := rfl
  have v1 := vectornorm2_loop_ones 48 [(⟨0, 0⟩ : complex K)] 17 (by decide)
  have v2 := vectornorm2_loop_ones 47 [(⟨0, 0⟩ : complex K), ⟨10, 0⟩] 17 (by decide)
  rw [e50, hfill]
  dsimp only
  rw [t48]
  rw [scan_feed_step_frozen tone_burst _ 48 1 0 rfl (fun i _ => replicate_zero_getD 17 i)
    (by simp) (by simp) (by simp) (show (48 : Nat) < 50 by decide)
    (by dsimp only; rw [g48, v1]; norm_num)]
  dsimp only
  rw [g48, v1, d1]
  rw [scan_feed_step_frozen tone_burst _ 49 0 _ rfl (fun i _ => replicate_zero_getD 17 i)
    (by simp) (by simp) (by simp) (show (49 : Nat) < 50 by decide)
    (by dsimp only; rw [g49, List.append_assoc]; exact v2 ▸ (by norm_num))]
  dsimp only
  rw [g49, List.append_assoc, List.singleton_append, v2, scan_feed_loop,
    if_neg (show ¬ (49 + 1 < (tone_burst : List (complex K)).length) by
      rw [show (tone_burst : List (complex K)).length = 50 from rfl]; decide)]
  have n0 : norm (⟨0, 0⟩ : complex K) = 0 := by simp [norm]
  have n10 : norm (⟨10, 0⟩ : complex K) = 100 := by simp only [norm]; norm_num
  rw [n0, n10]
  norm_num

theorem freq_detect_tone [FloorRing K] (m : Libm K)
    (hsin : ∀ k : ℤ, k ≠ 0 → m.sinf (m.M_PI * k) = 0) (hpi : 1 / 10000 ≤ m.M_PI)
    (det : fcch_detector K) (y : List (complex K)) :
    det.freq_detect m tone_fftw y = (itof 1 det.m_sample_rate 4, 150) := by
  have hc : center_loop [(⟨1, 0⟩ : complex K), ⟨0, 0⟩, ⟨1, 0⟩, ⟨10, 0⟩] 2 4
      (List.replicate 4 0) = [⟨1, 0⟩, ⟨10, 0⟩, ⟨1, 0⟩, ⟨0, 0⟩] := rfl
  unfold fcch_detector.freq_detect
  simp only [tone_fftw]
  have h2 : (4 : Nat) / 2 = 2 := rfl
  rw [h2, hc, peak_detect_tone m hsin hpi]
  simp only [norm]
  norm_num

theorem tone_rate [FloorRing K] :
    ⌊(100 : K) * (GSM_RATE / 100 / GSM_RATE)⌋.toNat = 1 ∧
    ⌊((DATA_LEN : Nat) : K) * (GSM_RATE / 100 / GSM_RATE)⌋.toNat = 1 := by
  have h1 : (100 : K) * (GSM_RATE / 100 / GSM_RATE) = ((1 : ℤ) : K) := by
    simp only [GSM_RATE]; norm_num
  have h2 : ⌊((DATA_LEN : Nat) : K) * (GSM_RATE / 100 / GSM_RATE)⌋ = 1 := by
    rw [Int.floor_eq_iff]
    simp only [GSM_RATE, DATA_LEN]
    constructor <;> norm_num
  rw [h1, Int.floor_intCast, h2]
  exact ⟨rfl, rfl⟩

theorem scan_tone_burst [FloorRing K] (m : Libm K)
    (hsin : ∀ k : ℤ, k ≠ 0 → m.sinf (m.M_PI * k) = 0) (hpi : 1 / 10000 ≤ m.M_PI) (pm0 : K) :
    ∃ r, (fcch_detector.construct (GSM_RATE / 100) 32 (1 / 2) 0).scan m tone_fftw pm0 tone_burst
        = some r ∧ r.ret = 1 ∧ r.consumed = 49 ∧
      r.offset = some (itof 1 (GSM_RATE / 100) 4) := by
  obtain ⟨xs, hfeed⟩ := tone_burst_feed (GSM_RATE / 100 : K)
    ⌊((DATA_LEN : Nat) : K) * (GSM_RATE / 100 / GSM_RATE)⌋.toNat
  obtain ⟨hr1, hr2⟩ := tone_rate (K := K)
  obtain ⟨sum, det1, hf, _, hscan⟩ := scan_eq m tone_fftw pm0
    (fcch_detector.construct (GSM_RATE / 100) 32 (1 / 2) 0) tone_burst
    (show (48 : Nat) < 1024 by decide)
  have hinj := hf.symm.trans hfeed
  simp only [Option.some.injEq, Prod.mk.injEq] at hinj
  obtain ⟨hsum, hdet⟩ := hinj
  subst hsum hdet
  have hsr : (fcch_detector.construct (GSM_RATE / 100) 32 (1 / 2) 0 :
      fcch_detector K).m_sample_rate = GSM_RATE / 100 := rfl
  rw [hscan]
  simp only [hsr, hr1, hr2, List.length_cons, List.length_nil]
  have hloop : scan_search_loop m tone_fftw
      (⟨32, 1 / 2, 0, 50, GSM_RATE / 100, 1, 8, 17, List.replicate 17 0, ⟨1024, xs⟩,
        ⟨1000000, [0, 50]⟩⟩ : fcch_detector K) tone_burst [0, 50] 1 (0 + 1 + 1) 0
      (low_to_high_init (7 / 10 * (50 / ((0 + 1 + 1 : Nat) : K)))) ⟨pm0, 0, 0, 0⟩
      = ⟨150, 0, 1, itof 1 (GSM_RATE / 100) 4⟩ := by
    simp only [scan_search_loop, low_to_high, low_to_high_init, List.getD_cons_zero,
      List.getD_cons_succ, freq_detect_tone m hsin hpi, MIN_PM]
    norm_num
  rw [hloop, if_neg (by simp only [MIN_PM]; norm_num)]
  exact ⟨_, rfl, rfl, rfl, rfl⟩

end ToneExample

/-- C22: when the loop that feeds the samples ends, which it does when the delay
`m_w_len - 1 + m_D` is below the capacity of the sample buffer, `scan` returns, and whenever
it returns 0 (no detection) the value it leaves in `*consumed` is `s_len`, whatever the
uninitialised local `pm` holds. -/
theorem scan_no_detection_consumes_all {K : Type} [LinearOrderedField K] [FloorRing K]
    (m : Libm K) (f : Fftw K) (pm0 : K) (det : fcch_detector K) (s : List (complex K))
    (hcap : det.get_delay < det.m_x_cb.capacity) :
    (∃ r, det.scan m f pm0 s = some r) ∧
    ∀ r, det.scan m f pm0 s = some r → r.ret = 0 → r.consumed = s.length := by
  obtain ⟨sum, det1, _, _, e⟩ := scan_eq m f pm0 det s hcap
  refine ⟨⟨_, e⟩, ?_⟩
  intro r hr h0
  rw [e] at hr
  split_ifs at hr
  · injection hr with hr
    subst hr
    rfl
  · injection hr with hr
    subst hr
    have h1 : (1 : Nat) = 0 := h0
    exact absurd h1 (by decide)

theorem scan_no_detection_consumes_all_witness :
    ∃ r, (fcch_detector.construct (GSM_RATE : ℚ) 32 (1 / 2) (1 / 2)).scan rational_libm
        ⟨4, fun x => x⟩ 0 (List.replicate 100 ⟨1, 0⟩) = some r ∧ r.ret = 0 ∧
      r.consumed = 100 := by
  have hcap : (fcch_detector.construct (GSM_RATE : ℚ) 32 (1 / 2) (1 / 2)).get_delay
      < (fcch_detector.construct (GSM_RATE : ℚ) 32 (1 / 2) (1 / 2)).m_x_cb.capacity := by
    decide
  obtain ⟨r, hr, h0⟩ := scan_short_fails rational_libm ⟨4, fun x => x⟩ 0
    (fcch_detector.construct (GSM_RATE : ℚ) 32 (1 / 2) (1 / 2)) (List.replicate 100 ⟨1, 0⟩)
    hcap (by decide) (by simp [fcch_detector.get_delay, fcch_detector.construct])
    (by
      have h1 : (100 : ℚ) * (GSM_RATE / GSM_RATE) = ((100 : ℤ) : ℚ) := by
        simp only [GSM_RATE]; norm_num
      show (List.replicate 100 (⟨1, 0⟩ : complex ℚ)).length - 48
        ≤ ⌊(100 : ℚ) * (GSM_RATE / GSM_RATE)⌋.toNat
      rw [h1, Int.floor_intCast, List.length_replicate]
      decide)
  have h := (scan_no_detection_consumes_all rational_libm ⟨4, fun x => x⟩ 0
    (fcch_detector.construct (GSM_RATE : ℚ) 32 (1 / 2) (1 / 2)) (List.replicate 100 ⟨1, 0⟩)
    hcap).2 r hr h0
  rw [List.length_replicate] at h
  exact ⟨r, hr, h0, h⟩

/-- C23 (for buffers longer than the delay): when `m_w_len - 1 + m_D` is below the capacity
of the sample buffer and below `s_len`, and `scan` reports a detection, there is an index i
of the error array a (left in `m_e_cb`) at which `low_to_high` returned a run length l that
is at least `MIN_FB_LEN` and at most i; for l > 0 the errors a[i - l], ..., a[i - 1] are the
run below the limit `0.7 * sum / e_count` that a[i] ends and that cannot be extended to the
left; the peak-to-mean of the slice is above 50; and
consumed = (i - l) + min(l, m_fcch_burst_len) + (m_w_len - 1 + m_D), which is at most
`s_len`.  This holds whatever the uninitialised local `pm` holds. -/
theorem scan_detection_consumed {K : Type} [LinearOrderedField K] [FloorRing K]
    (m : Libm K) (f : Fftw K) (pm0 : K) (det : fcch_detector K) (s : List (complex K))
    (r : ScanResult K) (hcap : det.get_delay < det.m_x_cb.capacity)
    (hecap : 0 < det.m_e_cb.capacity) (hlen : det.get_delay < s.length)
    (hr : det.scan m f pm0 s = some r) (hdet : r.ret = 1) :
    ∃ (sum : K) (i : Nat),
      scan_feed_loop s s.length 0 0
          { det with m_e_cb := det.m_e_cb.flush, m_x_cb := det.m_x_cb.flush }
        = some (sum, r.det) ∧
      i < r.det.m_e_cb.data.length ∧
      r.det.m_e_cb.data.length = min (s.length - det.get_delay) det.m_e_cb.capacity ∧
      ⌊100 * (det.m_sample_rate / GSM_RATE)⌋.toNat
        ≤ low_to_high_at (7 / 10 * (sum / (r.det.m_e_cb.data.length : K))) r.det.m_e_cb.data i ∧
      low_to_high_at (7 / 10 * (sum / (r.det.m_e_cb.data.length : K))) r.det.m_e_cb.data i ≤ i ∧
      (low_to_high_at (7 / 10 * (sum / (r.det.m_e_cb.data.length : K))) r.det.m_e_cb.data i ≠ 0 →
        (∀ j, i - low_to_high_at (7 / 10 * (sum / (r.det.m_e_cb.data.length : K)))
              r.det.m_e_cb.data i ≤ j → j < i →
            r.det.m_e_cb.data.getD j 0 < 7 / 10 * (sum / (r.det.m_e_cb.data.length : K))) ∧
        (i - low_to_high_at (7 / 10 * (sum / (r.det.m_e_cb.data.length : K)))
              r.det.m_e_cb.data i = 0 ∨
          7 / 10 * (sum / (r.det.m_e_cb.data.length : K))
            ≤ r.det.m_e_cb.data.getD
                (i - low_to_high_at (7 / 10 * (sum / (r.det.m_e_cb.data.length : K)))
                  r.det.m_e_cb.data i - 1) 0) ∧
        7 / 10 * (sum / (r.det.m_e_cb.data.length : K)) ≤ r.det.m_e_cb.data.getD i 0) ∧
      (MIN_PM : K) < (r.det.freq_detect m f
        ((s.drop (i - low_to_high_at (7 / 10 * (sum / (r.det.m_e_cb.data.length : K)))
            r.det.m_e_cb.data i)).take
          (min (low_to_high_at (7 / 10 * (sum / (r.det.m_e_cb.data.length : K)))
            r.det.m_e_cb.data i) det.m_fcch_burst_len))).2 ∧
      r.offset = some (r.det.freq_detect m f
        ((s.drop (i - low_to_high_at (7 / 10 * (sum / (r.det.m_e_cb.data.length : K)))
            r.det.m_e_cb.data i)).take
          (min (low_to_high_at (7 / 10 * (sum / (r.det.m_e_cb.data.length : K)))
            r.det.m_e_cb.data i) det.m_fcch_burst_len))).1 ∧
      r.consumed
        = (i - low_to_high_at (7 / 10 * (sum / (r.det.m_e_cb.data.length : K)))
              r.det.m_e_cb.data i)
          + min (low_to_high_at (7 / 10 * (sum / (r.det.m_e_cb.data.length : K)))
              r.det.m_e_cb.data i) det.m_fcch_burst_len
          + (det.m_w_len - 1 + det.m_D) ∧
      r.consumed ≤ s.length := by
  obtain ⟨sum, det1, hf, hinv, e⟩ := scan_eq m f pm0 det s hcap
  obtain ⟨h1, h2, _, h4, _, _, _, h8⟩ := hinv
  have hd : det.get_delay = det.m_w_len - 1 + det.m_D := rfl
  have hd1 : det1.get_delay = det.m_w_len - 1 + det.m_D := by
    unfold fcch_detector.get_delay
    rw [h1, h2]
  have hpos : 0 < det1.m_e_cb.data.length := by rw [h8]; omega
  rw [e] at hr
  split_ifs at hr with hpm
  · injection hr with hr
    subst hr
    have h0 : (0 : Nat) = 1 := hdet
    exact absurd h0 (by decide)
  · injection hr with hr
    subst hr
    rcases (scan_search_loop_spec m f det1 s det1.m_e_cb.data
        (7 / 10 * (sum / (det1.m_e_cb.data.length : K)))
        ⌊100 * (det.m_sample_rate / GSM_RATE)⌋.toNat det1.m_e_cb.data.length 0
        ⟨pm0, 0, 0, 0⟩).2 hpos with h | ⟨j, _, hj2, hj3, hj4⟩
    · exact absurd h hpm
    · have hv : scan_search_loop m f det1 s det1.m_e_cb.data
          ⌊100 * (det.m_sample_rate / GSM_RATE)⌋.toNat det1.m_e_cb.data.length 0
          (low_to_high_init (7 / 10 * (sum / (det1.m_e_cb.data.length : K)))) ⟨pm0, 0, 0, 0⟩
          = _ := hj4
      rw [hv] at hpm
      have hle := low_to_high_at_le (7 / 10 * (sum / (det1.m_e_cb.data.length : K)))
        det1.m_e_cb.data j
      have heq := low_to_high_at_eq (7 / 10 * (sum / (det1.m_e_cb.data.length : K)))
        det1.m_e_cb.data j
      rw [h4] at hpm hv
      refine ⟨sum, j, hf, (show j < det1.m_e_cb.data.length by omega), h8, hj3, hle, ?_,
        not_le.mp hpm, ?_, ?_, ?_⟩
      · intro hne
        have hc : 7 / 10 * (sum / (det1.m_e_cb.data.length : K)) ≤ det1.m_e_cb.data.getD j 0 ∧
            0 < j ∧
            det1.m_e_cb.data.getD (j - 1) 0 < 7 / 10 * (sum / (det1.m_e_cb.data.length : K)) := by
          by_contra hc
          rw [if_neg hc] at heq
          exact hne heq
        rw [if_pos hc] at heq
        rw [heq]
        exact ⟨(low_run_maximal _ _ j).1, (low_run_maximal _ _ j).2, hc.1⟩
      · show some (scan_search_loop m f det1 s det1.m_e_cb.data
          ⌊100 * (det.m_sample_rate / GSM_RATE)⌋.toNat det1.m_e_cb.data.length 0
          (low_to_high_init (7 / 10 * (sum / (det1.m_e_cb.data.length : K))))
          ⟨pm0, 0, 0, 0⟩).loff = _
        rw [hv]
      · show (scan_search_loop m f det1 s det1.m_e_cb.data
          ⌊100 * (det.m_sample_rate / GSM_RATE)⌋.toNat det1.m_e_cb.data.length 0
          (low_to_high_init (7 / 10 * (sum / (det1.m_e_cb.data.length : K))))
          ⟨pm0, 0, 0, 0⟩).y_offset + (scan_search_loop m f det1 s det1.m_e_cb.data
          ⌊100 * (det.m_sample_rate / GSM_RATE)⌋.toNat det1.m_e_cb.data.length 0
          (low_to_high_init (7 / 10 * (sum / (det1.m_e_cb.data.length : K))))
          ⟨pm0, 0, 0, 0⟩).y_len + det1.get_delay = _
        rw [hv, hd1]
      · show (scan_search_loop m f det1 s det1.m_e_cb.data
          ⌊100 * (det.m_sample_rate / GSM_RATE)⌋.toNat det1.m_e_cb.data.length 0
          (low_to_high_init (7 / 10 * (sum / (det1.m_e_cb.data.length : K))))
          ⟨pm0, 0, 0, 0⟩).y_offset + (scan_search_loop m f det1 s det1.m_e_cb.data
          ⌊100 * (det.m_sample_rate / GSM_RATE)⌋.toNat det1.m_e_cb.data.length 0
          (low_to_high_init (7 / 10 * (sum / (det1.m_e_cb.data.length : K))))
          ⟨pm0, 0, 0, 0⟩).y_len + det1.get_delay ≤ s.length
        rw [hv, hd1]
        show j - _ + min _ _ + _ ≤ _
        have hmin := min_le_left
          (low_to_high_at (7 / 10 * (sum / (det1.m_e_cb.data.length : K))) det1.m_e_cb.data j)
          det.m_fcch_burst_len
        omega

theorem scan_detection_consumed_witness :
    ∃ r, (fcch_detector.construct (GSM_RATE / 100 : ℝ) 32 (1 / 2) 0).scan real_libm tone_fftw 0
        tone_burst = some r ∧ r.ret = 1 ∧ r.consumed = 49 ∧
      r.consumed ≤ (tone_burst : List (complex ℝ)).length := by
  obtain ⟨r, hr, h1, h2, _⟩ := scan_tone_burst real_libm (fun k _ => real_libm_sin k)
    real_libm_pi (0 : ℝ)
  obtain ⟨_, _, _, _, _, _, _, _, _, _, _, hle⟩ := scan_detection_consumed real_libm tone_fftw 0
    (fcch_detector.construct (GSM_RATE / 100 : ℝ) 32 (1 / 2) 0) tone_burst r
    (show (48 : Nat) < 1024 by decide) (show (0 : Nat) < 1000000 by decide)
    (show (48 : Nat) < 50 by decide) hr h1
  exact ⟨r, hr, h1, h2, hle⟩

/-- C23 (failing input): on an empty buffer no error is computed, the loop over the errors
runs no iteration and the local `pm` is read as it was left; when it holds a value above 50
(here 51) `scan` reports a detection with consumed = 0 + 0 + 48, more than the 0 samples
supplied. -/
theorem scan_short_buffer_overruns :
    ((fcch_detector.construct (GSM_RATE : ℚ) 32 (1 / 2) (1 / 2)).scan rational_libm
        ⟨4, fun x => x⟩ 51 []).map (fun r => (r.ret, r.consumed)) = some (1, 48) ∧
    ¬ (48 ≤ ([] : List (complex ℚ)).length) := by
  constructor
  · simp only [fcch_detector.scan, scan_feed_loop, List.length_nil, lt_irrefl, if_false,
      circular_buffer.peek, circular_buffer.flush, scan_search_loop, MIN_PM]
    norm_num [fcch_detector.get_delay, fcch_detector.construct]
  · decide

/-- C24 (amended): the detector that the constructor builds has `m_w_len = 17` taps, and
`get_delay()`, the value that `scan` adds to `y_offset + y_len` when it reports consumed, is
`m_w_len - 1 + m_D = 16 + D`: 48 samples for the prediction horizon D = 32, and 33 samples
only for D = 17. -/
theorem get_delay_of_default_detector {K : Type} [LinearOrderedField K] [FloorRing K]
    (sample_rate p G : K) :
    (fcch_detector.construct sample_rate 32 p G).m_w_len = 17 ∧
    (fcch_detector.construct sample_rate 32 p G).m_D = 32 ∧
    (fcch_detector.construct sample_rate 32 p G).get_delay = 48 ∧
    ∀ D : Nat, (fcch_detector.construct sample_rate D p G).get_delay = 16 + D ∧
      ((fcch_detector.construct sample_rate D p G).get_delay = 33 ↔ D = 17) := by
  refine ⟨rfl, rfl, rfl, ?_⟩
  intro D
  have h : (fcch_detector.construct sample_rate D p G).get_delay = 16 + D := rfl
  rw [h]
  exact ⟨rfl, by omega⟩

/-- C24 (counterexample): for the detector built with 17 taps and D = 32 the value of
`get_delay()` is 48, not 33. -/
theorem default_delay_is_48 :
    (fcch_detector.construct (GSM_RATE : ℚ) 32 (1 / 2) (1 / 2)).m_w_len = 17 ∧
    (fcch_detector.construct (GSM_RATE : ℚ) 32 (1 / 2) (1 / 2)).m_D = 32 ∧
    (fcch_detector.construct (GSM_RATE : ℚ) 32 (1 / 2) (1 / 2)).get_delay = 48 ∧
    (fcch_detector.construct (GSM_RATE : ℚ) 32 (1 / 2) (1 / 2)).get_delay ≠ 33 := by
  decide

/-- C25 (amended): `scan` empties both buffers only when it starts.  When it returns, the
sample buffer holds min(s_len, m_w_len - 1 + m_D) samples, the ones that no error was
computed for yet, and the error buffer holds the min(s_len - (m_w_len - 1 + m_D), capacity)
errors that were computed, whether a detection is reported or not. -/
theorem scan_leaves_buffers_filled {K : Type} [LinearOrderedField K] [FloorRing K]
    (m : Libm K) (f : Fftw K) (pm0 : K) (det : fcch_detector K) (s : List (complex K))
    (r : ScanResult K) (hcap : det.get_delay < det.m_x_cb.capacity)
    (hr : det.scan m f pm0 s = some r) :
    r.det.m_x_cb.data.length = min s.length (det.m_w_len - 1 + det.m_D) ∧
    r.det.m_e_cb.data.length
      = min (s.length - (det.m_w_len - 1 + det.m_D)) det.m_e_cb.capacity := by
  obtain ⟨r1, hr1, _, hx, he, _⟩ := scan_buffers m f pm0 det s hcap
  rw [hr] at hr1
  injection hr1 with hr1
  subst hr1
  exact ⟨hx, he⟩

theorem scan_leaves_buffers_filled_witness :
    ∃ r, (fcch_detector.construct (GSM_RATE / 100 : ℝ) 32 (1 / 2) 0).scan real_libm tone_fftw 0
        tone_burst = some r ∧
      r.det.m_x_cb.data.length = 48 ∧ r.det.m_e_cb.data.length = 2 := by
  obtain ⟨r, hr, _⟩ := scan_tone_burst real_libm (fun k _ => real_libm_sin k)
    real_libm_pi (0 : ℝ)
  exact ⟨r, hr, scan_leaves_buffers_filled real_libm tone_fftw 0
    (fcch_detector.construct (GSM_RATE / 100 : ℝ) 32 (1 / 2) 0) tone_burst r
    (show (48 : Nat) < 1024 by decide) hr⟩

/-- C25 (counterexample): the scan of the 50-sample example burst reports a detection and
leaves 48 samples in the sample buffer; the scan of 100 samples of value 1 at one sample per
symbol reports no detection and leaves 48 samples in the sample buffer and 52 errors in the
error buffer. -/
theorem scan_leaves_samples_behind :
    ((fcch_detector.construct (GSM_RATE / 100 : ℝ) 32 (1 / 2) 0).scan real_libm tone_fftw 0
        tone_burst).map (fun r => (r.ret, r.det.m_x_cb.data.length)) = some (1, 48) ∧
    ((fcch_detector.construct (GSM_RATE : ℚ) 32 (1 / 2) (1 / 2)).scan rational_libm
        ⟨4, fun x => x⟩ 0 (List.replicate 100 ⟨1, 0⟩)).map
      (fun r => (r.ret, r.det.m_x_cb.data.length, r.det.m_e_cb.data.length))
      = some (0, 48, 52) := by
  constructor
  · obtain ⟨r, hr, h1, _⟩ := scan_tone_burst real_libm (fun k _ => real_libm_sin k)
      real_libm_pi (0 : ℝ)
    obtain ⟨r1, hr1, _, hx, _⟩ := scan_buffers real_libm tone_fftw 0
      (fcch_detector.construct (GSM_RATE / 100 : ℝ) 32 (1 / 2) 0) tone_burst
      (show (48 : Nat) < 1024 by decide)
    rw [hr] at hr1
    injection hr1 with hr1
    subst hr1
    rw [hr, Option.map_some', h1, hx]
    rfl
  · have hcap : (fcch_detector.construct (GSM_RATE : ℚ) 32 (1 / 2) (1 / 2)).get_delay
        < (fcch_detector.construct (GSM_RATE : ℚ) 32 (1 / 2) (1 / 2)).m_x_cb.capacity := by
      decide
    obtain ⟨r, hr, h0⟩ := scan_short_fails rational_libm ⟨4, fun x => x⟩ 0
      (fcch_detector.construct (GSM_RATE : ℚ) 32 (1 / 2) (1 / 2)) (List.replicate 100 ⟨1, 0⟩)
      hcap (by decide) (by simp [fcch_detector.get_delay, fcch_detector.construct])
      (by
        have h1 : (100 : ℚ) * (GSM_RATE / GSM_RATE) = ((100 : ℤ) : ℚ) := by
          simp only [GSM_RATE]; norm_num
        show (List.replicate 100 (⟨1, 0⟩ : complex ℚ)).length - 48
          ≤ ⌊(100 : ℚ) * (GSM_RATE / GSM_RATE)⌋.toNat
        rw [h1, Int.floor_intCast, List.length_replicate]
        decide)
    obtain ⟨r1, hr1, _, hx, he, _⟩ := scan_buffers rational_libm ⟨4, fun x => x⟩ 0
      (fcch_detector.construct (GSM_RATE : ℚ) 32 (1 / 2) (1 / 2)) (List.replicate 100 ⟨1, 0⟩)
      hcap
    rw [hr] at hr1
    injection hr1 with hr1
    subst hr1
    rw [hr, Option.map_some', h0, hx, he, List.length_replicate]
    rfl

section Demod

variable {K : Type} [LinearOrderedField K]

theorem equalize_loop_length (st : DspState K) (feedback : List (complex K)) :
    ∀ (k : Nat) (a : List (complex K) × List (complex K)),
      (equalize_loop st feedback k a).2.length = a.2.length := by
  intro k
  induction k with
  | zero => intro a; rfl
  | succ k ih =>
    intro a
    simp only [equalize_loop, List.length_set]
    exact ih a

theorem equalize_length (st : DspState K) (v feedforward feedback : List (complex K)) :
    (equalize st v feedforward feedback).length = v.length := by
  unfold equalize slice_soft
  rw [List.length_map, equalize_loop_length]
  simp

theorem delay_length [FloorRing K] (m : Libm K) (v : List (complex K)) (toa : K) :
    (delay m v toa).2.length = v.length := by
  unfold delay
  simp only
  split_ifs <;>
    simp only [delay_zero_up_length, delay_copy_up_length, delay_zero_down_length,
      delay_copy_down_length]

theorem correlate_nodelay_unit (s : List (complex K)) :
    correlate_nodelay s [(⟨1, 0⟩ : complex K)] = s := by
  apply list_ext_getD
  · simp [correlate_nodelay]
  · intro n hn
    have hn2 : n < s.length := by simpa [correlate_nodelay] using hn
    rw [correlate_nodelay_getD s _ n hn2]
    rw [Finset.sum_eq_single n]
    · simp only [List.length_singleton, Nat.sub_self, Nat.zero_div, add_zero, le_refl,
        true_and]
      rw [if_pos (by omega)]
      have e : 0 + n - n - 0 = 0 := by omega
      rw [e]
      apply complex.ext <;> simp [conj, complex_mul_re, complex_mul_im]
    · intro j _ hj
      rw [if_neg]
      simp only [List.length_singleton, Nat.sub_self, Nat.zero_div, add_zero]
      omega
    · intro h
      exact absurd (Finset.mem_range.mpr hn2) h

theorem demod_burst_some [FloorRing K] (m : Libm K) (st : DspState K) (sps : K)
    (s : List (complex K)) (mtsc : Option (mtsc_s K)) (d : Option (Option (dfe_filter_s K)))
    (cr_len dfe_len : Nat) (b : List K)
    (hb : (demod_burst m st sps s mtsc d cr_len dfe_len).1 = some b) :
    ∃ (t : mtsc_s K) (SNR : K) (dfe : dfe_filter_s K), mtsc = some t ∧
      ¬ ((s.length : K) < sps * (DATA_LEN : K)) ∧
      peak2mean m (correlate_nodelay s t.tsc) (peak_detect m (correlate_nodelay s t.tsc)).2.1
        (nearbyintf (peak_detect m (correlate_nodelay s t.tsc)).1).toNat 4 = some SNR ∧
      ¬ (SNR < 3) ∧
      ¬ ((peak_detect m (correlate_nodelay s t.tsc)).1 - t.toa < -2) ∧
      ¬ ((s.length : K) < (DATA_LEN : K) * sps
          + ((peak_detect m (correlate_nodelay s t.tsc)).1 - t.toa) + 2) ∧
      b = equalize st
        (delay m
          (s.take ⌈(DATA_LEN : K) * sps
            + ((peak_detect m (correlate_nodelay s t.tsc)).1 - t.toa) + 2⌉.toNat)
          (-((peak_detect m (correlate_nodelay s t.tsc)).1 - t.toa))).2 dfe.ff dfe.fb := by
  unfold demod_burst at hb
  by_cases h1 : (s.length : K) < sps * (DATA_LEN : K)
  · rw [if_pos h1] at hb
    exact absurd hb (fun h => Option.noConfusion h)
  · rw [if_neg h1] at hb
    cases mtsc with
    | none => exact absurd hb (fun h => Option.noConfusion h)
    | some t =>
      simp only at hb
      cases hSNR : peak2mean m (correlate_nodelay s t.tsc)
          (peak_detect m (correlate_nodelay s t.tsc)).2.1
          (nearbyintf (peak_detect m (correlate_nodelay s t.tsc)).1).toNat 4 with
      | none =>
        rw [hSNR] at hb
        exact absurd hb (fun h => Option.noConfusion h)
      | some SNR =>
        rw [hSNR] at hb
        simp only at hb
        by_cases h2 : SNR < 3
        · rw [if_pos h2] at hb
          exact absurd hb (fun h => Option.noConfusion h)
        · rw [if_neg h2] at hb
          by_cases h3 : (peak_detect m (correlate_nodelay s t.tsc)).1 - t.toa < -2
          · rw [if_pos h3] at hb
            exact absurd hb (fun h => Option.noConfusion h)
          · rw [if_neg h3] at hb
            by_cases h4 : (s.length : K) < (DATA_LEN : K) * sps
                + ((peak_detect m (correlate_nodelay s t.tsc)).1 - t.toa) + 2
            · rw [if_pos h4] at hb
              exact absurd hb (fun h => Option.noConfusion h)
            · rw [if_neg h4] at hb
              split at hb
              · rename_i dfe
                exact ⟨t, SNR, dfe, rfl, h1, hSNR, h2, h3, h4, (Option.some.inj hb).symm⟩
              · split at hb
                · exact absurd hb (fun h => Option.noConfusion h)
                · rename_i dfe _
                  exact ⟨t, SNR, dfe, rfl, h1, hSNR, h2, h3, h4, (Option.some.inj hb).symm⟩
              · split at hb
                · exact absurd hb (fun h => Option.noConfusion h)
                · rename_i dfe _
                  exact ⟨t, SNR, dfe, rfl, h1, hSNR, h2, h3, h4, (Option.some.inj hb).symm⟩

theorem demod_burst_of_checks [FloorRing K] (m : Libm K) (st : DspState K) (sps : K)
    (s : List (complex K)) (t : mtsc_s K) (dfe : dfe_filter_s K) (cr_len dfe_len : Nat)
    (SNR : K) (h1 : ¬ ((s.length : K) < sps * (DATA_LEN : K)))
    (hSNR : peak2mean m (correlate_nodelay s t.tsc)
        (peak_detect m (correlate_nodelay s t.tsc)).2.1
        (nearbyintf (peak_detect m (correlate_nodelay s t.tsc)).1).toNat 4 = some SNR)
    (h2 : ¬ (SNR < 3))
    (h3 : ¬ ((peak_detect m (correlate_nodelay s t.tsc)).1 - t.toa < -2))
    (h4 : ¬ ((s.length : K) < (DATA_LEN : K) * sps
          + ((peak_detect m (correlate_nodelay s t.tsc)).1 - t.toa) + 2)) :
    (demod_burst m st sps s (some t) (some (some dfe)) cr_len dfe_len).1
      = some (equalize st
        (delay m
          (s.take ⌈(DATA_LEN : K) * sps
            + ((peak_detect m (correlate_nodelay s t.tsc)).1 - t.toa) + 2⌉.toNat)
          (-((peak_detect m (correlate_nodelay s t.tsc)).1 - t.toa))).2 dfe.ff dfe.fb) := by
  unfold demod_burst
  rw [if_neg h1]
  simp only [hSNR, if_neg h2, if_neg h3, if_neg h4]

theorem peak_detect_impulse [FloorRing K] (m : Libm K)
    (hsin : ∀ k : ℤ, k ≠ 0 → m.sinf (m.M_PI * k) = 0) (hpi : 1 / 10000 ≤ m.M_PI) :
    peak_detect m (impulse_burst : List (complex K)) = (3, ⟨10, 0⟩, 0) := by
  have i2 := interpolate_point_nat m hsin hpi (impulse_burst : List (complex K)) 2
    (by simp [impulse_burst])
  have i3 := interpolate_point_nat m hsin hpi (impulse_burst : List (complex K)) 3
    (by simp [impulse_burst])
  have i4 := interpolate_point_nat m hsin hpi (impulse_burst : List (complex K)) 4
    (by simp [impulse_burst])
  simp only [Nat.cast_ofNat, impulse_burst, List.getD_cons_zero, List.getD_cons_succ]
    at i2 i3 i4
  have hp : peak_power_loop (impulse_burst : List (complex K))
      (impulse_burst : List (complex K)).length = (100, 3, 100) := by
    simp only [impulse_burst, List.length_cons, List.length_nil, peak_power_loop,
      List.getD_cons_zero, List.getD_cons_succ, norm]
    norm_num
  have hr : peak_refine_loop m (impulse_burst : List (complex K)) 10 (1 / 2) 2 4 = 2 := by
    rw [peak_refine_loop, if_pos (by norm_num)]
    simp only [impulse_burst, i2, i4, lt_irrefl, gt_iff_lt, if_false]
  have hlen : (impulse_burst : List (complex K)).length = 7 := rfl
  rw [peak_detect_eq m _ 100 3 100 hp 2 4 2 3 (by norm_num) (by rw [hlen]; norm_num) hr
    (by rw [hlen]; norm_num)]
  simp only [impulse_burst, i3, norm]
  norm_num

theorem peak2mean_impulse (m : Libm K) (h0 : m.sqrtf 0 = 0) (h100 : m.sqrtf 100 = 10) :
    peak2mean m (impulse_burst : List (complex K)) ⟨10, 0⟩ 3 4 = some 1000000 := by
  have hl : peak2mean_loop (impulse_burst : List (complex K)) 3 4 = (0, 4) := by
    simp only [peak2mean_loop, impulse_burst, List.length_cons, List.length_nil,
      List.getD_cons_zero, List.getD_cons_succ, norm]
    norm_num
  unfold peak2mean
  simp only [hl]
  rw [if_neg (by decide)]
  have hn : norm (⟨10, 0⟩ : complex K) = 100 := by simp only [norm]; norm_num
  rw [hn, h100, zero_div, h0]
  norm_num

theorem nearbyintf_three [FloorRing K] : (nearbyintf (3 : K)).toNat = 3 := by
  have h : ⌊(3 : K)⌋ = 3 := by
    have e : (3 : K) = ((3 : ℤ) : K) := by norm_num
    rw [e, Int.floor_intCast]
  unfold nearbyintf
  rw [h, if_pos (by norm_num)]
  rfl

end Demod

/-- C21: when `demod_burst`, called with a positive `sps`, returns soft bits, the training
sequence was given, `peak2mean` returned 0 with an SNR of at least 3,
adjusted_toa = toa - mtsc->toa is at least -2, and the number of soft bits is
ceil(DATA_LEN * sps + adjusted_toa + 2), which is at most `s_len`, so that the copy of the
first `v_len` samples of `s` stays inside `s`.  In every other case the result is the null
pointer (`none`). -/
theorem demod_burst_soft_bits {K : Type} [LinearOrderedField K] [FloorRing K] (m : Libm K)
    (st : DspState K) (sps : K) (s : List (complex K)) (mtsc : Option (mtsc_s K))
    (d : Option (Option (dfe_filter_s K))) (cr_len dfe_len : Nat) (b : List K)
    (hsps : 0 < sps)
    (hb : (demod_burst m st sps s mtsc d cr_len dfe_len).1 = some b) :
    ∃ (t : mtsc_s K) (SNR : K), mtsc = some t ∧
      peak2mean m (correlate_nodelay s t.tsc) (peak_detect m (correlate_nodelay s t.tsc)).2.1
        (nearbyintf (peak_detect m (correlate_nodelay s t.tsc)).1).toNat 4 = some SNR ∧
      3 ≤ SNR ∧
      -2 ≤ (peak_detect m (correlate_nodelay s t.tsc)).1 - t.toa ∧
      (b.length : ℤ) = ⌈(DATA_LEN : K) * sps
          + ((peak_detect m (correlate_nodelay s t.tsc)).1 - t.toa) + 2⌉ ∧
      b.length ≤ s.length := by
  obtain ⟨t, SNR, dfe, ht, _, hSNR, h2, h3, h4, hbe⟩ :=
    demod_burst_some m st sps s mtsc d cr_len dfe_len b hb
  have h3a := not_lt.mp h3
  have h4a := not_lt.mp h4
  have hpos : 0 < (DATA_LEN : K) * sps
      + ((peak_detect m (correlate_nodelay s t.tsc)).1 - t.toa) + 2 := by
    have : (0 : K) < (DATA_LEN : K) * sps := by
      apply mul_pos _ hsps
      simp only [DATA_LEN]
      norm_num
    linarith
  have hc0 : 0 < ⌈(DATA_LEN : K) * sps
      + ((peak_detect m (correlate_nodelay s t.tsc)).1 - t.toa) + 2⌉ := Int.ceil_pos.mpr hpos
  have hc1 : ⌈(DATA_LEN : K) * sps
      + ((peak_detect m (correlate_nodelay s t.tsc)).1 - t.toa) + 2⌉ ≤ (s.length : ℤ) := by
    rw [Int.ceil_le]
    exact_mod_cast h4a
  have hl : b.length = min ⌈(DATA_LEN : K) * sps
      + ((peak_detect m (correlate_nodelay s t.tsc)).1 - t.toa) + 2⌉.toNat s.length := by
    rw [hbe, equalize_length, delay_length, List.length_take]
  refine ⟨t, SNR, ht, hSNR, not_lt.mp h2, h3a, ?_, ?_⟩
  · rw [hl]
    omega
  · rw [hl]
    omega

theorem demod_burst_soft_bits_witness :
    ∃ b, (demod_burst real_libm start_state (1 / 37) impulse_burst
        (some ⟨[⟨1, 0⟩], 3, ⟨1, 0⟩⟩) (some (some ⟨[⟨1, 0⟩], []⟩)) 6 5).1 = some b ∧
      b.length = 6 ∧ b.length ≤ (impulse_burst : List (complex ℝ)).length := by
  have hpk := peak_detect_impulse real_libm (fun k _ => real_libm_sin k) real_libm_pi
  have hc := correlate_nodelay_unit (impulse_burst : List (complex ℝ))
  have hp2 := peak2mean_impulse real_libm Real.sqrt_zero real_libm_sqrtf_100
  have hlen : (impulse_burst : List (complex ℝ)).length = 7 := rfl
  have hb := demod_burst_of_checks real_libm start_state (1 / 37) impulse_burst
    ⟨[⟨1, 0⟩], 3, ⟨1, 0⟩⟩ ⟨[⟨1, 0⟩], []⟩ 6 5 1000000
    (by rw [hlen]; simp only [DATA_LEN]; norm_num)
    (by simp only [hc, hpk, nearbyintf_three]; exact hp2)
    (by norm_num)
    (by simp only [hc, hpk]; norm_num)
    (by rw [hlen]; simp only [hc, hpk, DATA_LEN]; norm_num)
  obtain ⟨b, hb⟩ : ∃ b, (demod_burst real_libm start_state (1 / 37) impulse_burst
      (some ⟨[⟨1, 0⟩], 3, ⟨1, 0⟩⟩) (some (some ⟨[⟨1, 0⟩], []⟩)) 6 5).1 = some b := ⟨_, hb⟩
  obtain ⟨t, SNR, ht, _, _, _, h5, h6⟩ := demod_burst_soft_bits real_libm start_state (1 / 37)
    impulse_burst (some ⟨[⟨1, 0⟩], 3, ⟨1, 0⟩⟩) (some (some ⟨[⟨1, 0⟩], []⟩)) 6 5 b
    (by norm_num) hb
  refine ⟨b, hb, ?_, h6⟩
  have ht2 := (Option.some.inj ht).symm
  subst ht2
  simp only [hc, hpk, DATA_LEN] at h5
  have e : ((148 : Nat) : ℝ) * (1 / 37) + (3 - 3) + 2 = ((6 : ℤ) : ℝ) := by norm_num
  rw [e, Int.ceil_intCast] at h5
  exact_mod_cast h5

/-- The loop of `peak_detect` that halves `incr` ends within `f` iterations when `incr` is
at most `2 ^ f / 1024`: more fuel does not change its result.  From `incr = 0.5` nine
iterations suffice, so the 10 iterations of the model never cut the loop short. -/
theorem peak_refine_loop_fuel {K : Type} [LinearOrderedField K] [FloorRing K] (m : Libm K)
    (s : List (complex K)) :
    ∀ (f k : Nat) (incr early_i late_i : K), incr ≤ 2 ^ f / 1024 →
      peak_refine_loop m s (f + k) incr early_i late_i
        = peak_refine_loop m s f incr early_i late_i := by
  intro f
  induction f with
  | zero =>
    intro k incr early_i late_i h
    have hn : ¬ (incr > 1 / 1024) := by
      rw [pow_zero] at h
      exact not_lt.mpr h
    cases k with
    | zero => rfl
    | succ k =>
      simp only [Nat.zero_add, peak_refine_loop, if_neg hn]
  | succ f ih =>
    intro k incr early_i late_i h
    have h2 : incr / 2 ≤ 2 ^ f / 1024 := by
      rw [pow_succ] at h
      linarith
    have e : f + 1 + k = (f + k) + 1 := by omega
    rw [e, peak_refine_loop, peak_refine_loop, ih k _ _ _ h2, ih k _ _ _ h2]

/-! ## The frame number and the acceptance test of `decode_sch` -/

theorem sch_fn_decomposition (dd : List Nat) (h2 : sch_t2 dd ≤ 25) (h3 : sch_t3p dd ≤ 4) :
    sch_fn dd / (26 * 51) = (sch_t1 dd : Int) ∧ sch_fn dd % 26 = (sch_t2 dd : Int) ∧
    sch_fn dd % 51 = 10 * (sch_t3p dd : Int) + 1 := by
  rw [sch_fn_eq]
  have h2i : (sch_t2 dd : Int) ≤ 25 := by exact_mod_cast h2
  have h3i : (sch_t3p dd : Int) ≤ 4 := by exact_mod_cast h3
  have h0 : (0 : Int) ≤ sch_t2 dd := Int.natCast_nonneg _
  have h1 : (0 : Int) ≤ sch_t3p dd := Int.natCast_nonneg _
  have h4 : (0 : Int) ≤ sch_t1 dd := Int.natCast_nonneg _
  generalize (sch_t1 dd : Int) = t1 at *
  generalize (sch_t2 dd : Int) = t2 at *
  generalize (sch_t3p dd : Int) = t3 at *
  refine ⟨?_, ?_, ?_⟩ <;> omega

theorem decode_sch_writes (h : Nat → Nat → Nat) (buf : List Nat) (fn bsic : Int)
    (hd : decode_sch h buf = (0, some (fn, bsic))) :
    fn = sch_fn (conv_decode h (sch_data buf)).1 ∧
    bsic = (sch_bsic (conv_decode h (sch_data buf)).1 : Int) := by
  unfold decode_sch at hd
  simp only at hd
  split_ifs at hd with h1 h2
  · simp only [Prod.mk.injEq] at hd
    exact absurd hd.2 (by simp)
  · simp only [Prod.mk.injEq] at hd
    exact absurd hd.2 (by simp)
  · simp only [Prod.mk.injEq, Option.some.injEq, true_and] at hd
    exact ⟨hd.1.symm, hd.2.symm⟩

theorem decode_sch_soft_writes (h : Nat → Nat → Nat) (buf : List ℚ) (fn bsic : Int)
    (hd : decode_sch_soft h buf = (0, some (fn, bsic))) :
    fn = sch_fn (conv_decode_soft h (sch_data buf)).1 ∧
    bsic = (sch_bsic (conv_decode_soft h (sch_data buf)).1 : Int) := by
  unfold decode_sch_soft at hd
  simp only at hd
  split_ifs at hd with h1
  · simp only [Prod.mk.injEq] at hd
    exact absurd hd.2 (by simp)
  · simp only [Prod.mk.injEq, Option.some.injEq, true_and] at hd
    exact ⟨hd.1.symm, hd.2.symm⟩

/-- C35: whenever `decode_sch` or `decode_sch_soft` returns 0, the frame number written is
`sch_fn` of the decoded block, and for every decoded block with T2 <= 25 and T3' <= 4 (any
T1) that number satisfies fn div (26 * 51) = T1, fn mod 26 = T2 and
fn mod 51 = T3 = 10 * T3' + 1. -/
theorem frame_number_inverts_decomposition (dd : List Nat) (h2 : sch_t2 dd ≤ 25)
    (h3 : sch_t3p dd ≤ 4) :
    (sch_fn dd / (26 * 51) = (sch_t1 dd : Int) ∧ sch_fn dd % 26 = (sch_t2 dd : Int) ∧
      sch_fn dd % 51 = 10 * (sch_t3p dd : Int) + 1) ∧
    (∀ (h : Nat → Nat → Nat) (buf : List Nat) (fn bsic : Int),
      decode_sch h buf = (0, some (fn, bsic)) → (conv_decode h (sch_data buf)).1 = dd →
      fn / (26 * 51) = (sch_t1 dd : Int) ∧ fn % 26 = (sch_t2 dd : Int) ∧
        fn % 51 = 10 * (sch_t3p dd : Int) + 1) ∧
    (∀ (h : Nat → Nat → Nat) (buf : List ℚ) (fn bsic : Int),
      decode_sch_soft h buf = (0, some (fn, bsic)) →
      (conv_decode_soft h (sch_data buf)).1 = dd →
      fn / (26 * 51) = (sch_t1 dd : Int) ∧ fn % 26 = (sch_t2 dd : Int) ∧
        fn % 51 = 10 * (sch_t3p dd : Int) + 1) := by
  refine ⟨sch_fn_decomposition dd h2 h3, ?_, ?_⟩
  · intro h buf fn bsic hd hdd
    rw [(decode_sch_writes h buf fn bsic hd).1, hdd]
    exact sch_fn_decomposition dd h2 h3
  · intro h buf fn bsic hd hdd
    rw [(decode_sch_soft_writes h buf fn bsic hd).1, hdd]
    exact sch_fn_decomposition dd h2 h3

theorem frame_number_inverts_decomposition_witness :
    sch_t1 info_sample = 654 ∧ sch_t2 info_sample = 11 ∧ sch_t3p info_sample = 3 ∧
    sch_fn info_sample = 868255 ∧
    (868255 : Int) / (26 * 51) = 654 ∧ (868255 : Int) % 26 = 11 ∧ (868255 : Int) % 51 = 31 := by
  have h := (frame_number_inverts_decomposition info_sample (by decide) (by decide)).1
  have e1 : sch_t1 info_sample = 654 := by decide
  have e2 : sch_t2 info_sample = 11 := by decide
  have e3 : sch_t3p info_sample = 3 := by decide
  have e4 : sch_fn info_sample = 868255 := by
    rw [sch_fn_eq, e1, e2, e3]
    decide
  rw [e4, e1, e2, e3] at h
  exact ⟨e1, e2, e3, e4, h.1, h.2.1, h.2.2⟩

theorem sch_data_bits (buf : List Nat) (hlen : buf.length = 148) (hbits : IsBits buf) :
    (sch_data buf).length = 78 ∧ IsBits (sch_data buf) := by
  constructor
  · simp [sch_data, SB_EDATA_OS_1, SB_EDATA_LEN_1, SB_EDATA_OS_2, SB_EDATA_LEN_2, hlen]
  · intro x hx
    exact hbits x (mem_sch_data buf x hx)

theorem conv_decode_distance (h : Nat → Nat → Nat) (r : List Nat) (hlen : r.length = 78)
    (hbits : IsBits r) :
    (conv_decode h r).1.length = 39 ∧ IsBits (conv_decode h r).1 ∧
    (conv_decode h r).2 = hamming_distance r (conv_encode (conv_decode h r).1) ∧
    ∀ u, u.length = 39 → IsBits u → (conv_decode h r).2 ≤ hamming_distance r (conv_encode u) := by
  obtain ⟨h1, h2, h3, h4⟩ := viterbi_optimal (hard_distance r) (hard_distance_bounds r) h
  unfold conv_decode
  refine ⟨h1, h2, ?_, ?_⟩
  · rw [← path_metric_hard_full r hbits hlen _ h2 h1]
    exact h3.symm
  · intro u hul hub
    rw [← path_metric_hard_full r hbits hlen u hub hul]
    exact h4 u hul hub

theorem conv_decode_zero_iff (h : Nat → Nat → Nat) (r : List Nat) (hlen : r.length = 78)
    (hbits : IsBits r) :
    (conv_decode h r).2 = 0 ↔ r = conv_encode (conv_decode h r).1 := by
  obtain ⟨h1, _, h3, _⟩ := conv_decode_distance h r hlen hbits
  constructor
  · intro h0
    rw [h0] at h3
    apply eq_of_hamming_distance_zero r _ _ h3.symm
    rw [hlen, conv_encode_eq_loop _ h1, conv_encode_loop_length, h1]
  · intro he
    rw [h3, ← he]
    exact hamming_distance_self r

/-- C33: for a 148-bit burst, `decode_sch` returns 0 exactly when the 78 extracted bits are
`conv_encode` of the 39 decoded bits (the Viterbi error count is 0, nothing was corrected)
and `parity_check` accepts the decoded block, of which it reads the first 35 bits; then fn
and bsic are written.  Otherwise the return value is positive and fn and bsic are not
written; this is so for every burst whose extracted bits are at non-zero Hamming distance
from every codeword.  The four decoded tail bits are not checked: the codeword of a valid
35-bit block followed by any four tail bits is accepted. -/
theorem decode_sch_no_error_correction (h : Nat → Nat → Nat) (buf : List Nat)
    (hlen : buf.length = 148) (hbits : IsBits buf) :
    ((conv_decode h (sch_data buf)).1.length = 39 ∧ IsBits (conv_decode h (sch_data buf)).1) ∧
    ((decode_sch h buf).1 = 0 ↔
      (sch_data buf = conv_encode (conv_decode h (sch_data buf)).1 ∧
        (conv_decode h (sch_data buf)).2 = 0 ∧
        parity_check ((conv_decode h (sch_data buf)).1.take 35) = 0)) ∧
    ((decode_sch h buf).1 = 0 →
      (decode_sch h buf).2 = some (sch_fn (conv_decode h (sch_data buf)).1,
        (sch_bsic (conv_decode h (sch_data buf)).1 : Int))) ∧
    ((decode_sch h buf).1 ≠ 0 → 0 < (decode_sch h buf).1 ∧ (decode_sch h buf).2 = none) ∧
    ((∀ u, u.length = 39 → IsBits u → hamming_distance (sch_data buf) (conv_encode u) ≠ 0) →
      0 < (decode_sch h buf).1 ∧ (decode_sch h buf).2 = none) ∧
    (∀ d tail, d.length = 25 → IsBits d → tail.length = 4 → IsBits tail →
      sch_data buf = conv_encode (d ++ parity_encode d ++ tail) →
      (conv_decode h (sch_data buf)).1 = d ++ parity_encode d ++ tail ∧
      (decode_sch h buf).1 = 0) := by
  obtain ⟨hl78, hb78⟩ := sch_data_bits buf hlen hbits
  obtain ⟨h1, h2, h3, h4⟩ := conv_decode_distance h (sch_data buf) hl78 hb78
  have hz := conv_decode_zero_iff h (sch_data buf) hl78 hb78
  have hpar : parity_check ((conv_decode h (sch_data buf)).1.take 35)
      = parity_check (conv_decode h (sch_data buf)).1 := by
    unfold parity_check
    simp only [DATA_BLOCK_SIZE, PARITY_SIZE, List.take_take]
    rfl
  have hret : (decode_sch h buf).1 ≠ 0 → 0 < (decode_sch h buf).1 ∧ (decode_sch h buf).2 = none := by
    intro hne
    unfold decode_sch at hne ⊢
    simp only at hne ⊢
    split_ifs at hne ⊢ with c1 c2
    · refine ⟨?_, rfl⟩
      show (0 : Int) < ((conv_decode h (sch_data buf)).2 : Int)
      have : (conv_decode h (sch_data buf)).2 ≠ 0 := by
        intro e
        apply c1
        rw [e]
        rfl
      exact_mod_cast Nat.pos_of_ne_zero this
    · exact ⟨by decide, rfl⟩
    · exact absurd rfl hne
  have hiff : (decode_sch h buf).1 = 0 ↔
      ((conv_decode h (sch_data buf)).2 = 0 ∧ parity_check (conv_decode h (sch_data buf)).1 = 0) := by
    unfold decode_sch
    simp only
    split_ifs with c1 c2
    · constructor
      · intro e
        exact absurd e c1
      · intro e
        exact absurd (by rw [e.1]; rfl) c1
    · constructor
      · intro e
        exact absurd e (by decide)
      · intro e
        exact absurd e.2 c2
    · constructor
      · intro _
        refine ⟨?_, not_not.mp c2⟩
        have := not_not.mp c1
        exact_mod_cast this
      · intro _
        rfl
  refine ⟨⟨h1, h2⟩, ?_, ?_, hret, ?_, ?_⟩
  · rw [hiff, hpar]
    constructor
    · intro e
      exact ⟨hz.mp e.1, e.1, e.2⟩
    · intro e
      exact ⟨e.2.1, e.2.2⟩
  · intro e
    obtain ⟨e1, e2⟩ := hiff.mp e
    unfold decode_sch
    simp only
    rw [if_neg (by rw [e1]; simp), if_neg (by rw [e2]; simp)]
  · intro hall
    apply hret
    intro e
    have e1 := (hiff.mp e).1
    rw [h3] at e1
    exact hall _ h1 h2 e1
  · intro d tail hd hbd ht hbt he
    have hul : (d ++ parity_encode d ++ tail).length = 39 := by
      simp [hd, ht, parity_encode_length]
    have hub : IsBits (d ++ parity_encode d ++ tail) :=
      isBits_append _ _ (isBits_append _ _ hbd (parity_encode_isBits d)) hbt
    have hc := conv_decode_conv_encode h (d ++ parity_encode d ++ tail) hul hub
    rw [← he] at hc
    refine ⟨by rw [hc], ?_⟩
    rw [hiff, hc]
    exact ⟨rfl, parity_check_block d tail hd hbd⟩

theorem decode_sch_no_error_correction_witness :
    (conv_decode (fun _ _ => 0) (sch_data burst_tail_set)).1
      = info_sample ++ parity_encode info_sample ++ [1, 0, 1, 1] ∧
    (decode_sch (fun _ _ => 0) burst_tail_set).1 = 0 :=
  (decode_sch_no_error_correction (fun _ _ => 0) burst_tail_set
    (by set_option maxRecDepth 100000 in decide)
    (by set_option maxRecDepth 100000 in decide)).2.2.2.2.2 info_sample [1, 0, 1, 1]
    (by decide) (by decide) (by decide) (by decide)
    (by set_option maxRecDepth 100000 in decide)

/-! ## The soft decoder follows the hard decoder on bits -/

section HardSoft

theorem relax_cast (d : Nat → Nat) (d2 : Nat → ℚ) (t st b : Nat) (T : Trellis Nat)
    (T2 : Trellis ℚ) (hd : d2 (encode st b) = ((d (encode st b) : Nat) : ℚ))
    (h : TrellisCast T T2) : TrellisCast (relax d t st b T) (relax d2 t st b T2) := by
  obtain ⟨h1, h2, h3⟩ := h
  have hc : (T2.ae st + d2 (encode st b) < T2.nae (next_state st b))
      ↔ (T.ae st + d (encode st b) < T.nae (next_state st b)) := by
    rw [h1, h2, hd, ← Nat.cast_add, Nat.cast_lt]
  unfold relax
  by_cases c : T.ae st + d (encode st b) < T.nae (next_state st b)
  · simp only [if_pos c, if_pos (hc.mpr c)]
    refine ⟨h1, ?_, ?_⟩
    · intro s
      simp only [Function.update_apply]
      split_ifs
      · rw [h1, hd, Nat.cast_add]
      · exact h2 s
    · simp only [h3]
  · simp only [if_neg c, if_neg (fun x => c (hc.mp x))]
    exact ⟨h1, h2, h3⟩

theorem visit_state_cast (d : Nat → Nat) (d2 : Nat → ℚ) (t st : Nat) (T : Trellis Nat)
    (T2 : Trellis ℚ) (hd : ∀ b, b < 2 → d2 (encode st b) = ((d (encode st b) : Nat) : ℚ))
    (h : TrellisCast T T2) : TrellisCast (visit_state d t T st) (visit_state d2 t T2 st) := by
  have hc : (T2.ae st ≥ ((MAX_ERROR : Nat) : ℚ)) ↔ (T.ae st ≥ (Nat.cast MAX_ERROR : Nat)) := by
    rw [h.1, Nat.cast_id]
    exact Nat.cast_le
  unfold visit_state
  by_cases c : T.ae st ≥ (Nat.cast MAX_ERROR : Nat)
  · rw [if_pos c, if_pos (hc.mpr c)]
    exact h
  · rw [if_neg c, if_neg (fun x => c (hc.mp x))]
    exact relax_cast d d2 t st 1 _ _ (hd 1 (by decide))
      (relax_cast d d2 t st 0 _ _ (hd 0 (by decide)) h)

theorem foldl_visit_state_cast (d : Nat → Nat) (d2 : Nat → ℚ) (t : Nat) :
    ∀ (l : List Nat) (T : Trellis Nat) (T2 : Trellis ℚ),
      (∀ st ∈ l, ∀ b, b < 2 → d2 (encode st b) = ((d (encode st b) : Nat) : ℚ)) →
      TrellisCast T T2 →
      TrellisCast (l.foldl (visit_state d t) T) (l.foldl (visit_state d2 t) T2) := by
  intro l
  induction l with
  | nil => intro T T2 _ h; exact h
  | cons st l ih =>
    intro T T2 hd h
    simp only [List.foldl_cons]
    exact ih _ _ (fun s hs => hd s (List.mem_cons_of_mem _ hs))
      (visit_state_cast d d2 t st T T2 (hd st (List.mem_cons_self _ _)) h)

theorem trellis_stage_cast (d : Nat → Nat) (d2 : Nat → ℚ) (t : Nat) (T : Trellis Nat)
    (T2 : Trellis ℚ)
    (hd : ∀ st, st < 16 → ∀ b, b < 2 → d2 (encode st b) = ((d (encode st b) : Nat) : ℚ))
    (h : TrellisCast T T2) :
    TrellisCast (trellis_stage d t T) (trellis_stage d2 t T2) := by
  have h16 : (1 <<< (K - 1)) = 16 := rfl
  have hf := foldl_visit_state_cast d d2 t (List.range (1 <<< (K - 1))) T T2
    (fun st hst => hd st (by rw [h16] at hst; exact List.mem_range.mp hst)) h
  unfold trellis_stage
  generalize (List.range (1 <<< (K - 1))).foldl (visit_state d t) T = A at hf ⊢
  generalize (List.range (1 <<< (K - 1))).foldl (visit_state d2 t) T2 = A2 at hf ⊢
  obtain ⟨_, f2, f3⟩ := hf
  exact ⟨f2, fun _ => by simp only [next_slice, Nat.cast_id], f3⟩

theorem build_trellis_cast (dist : Nat → Nat → Nat) (dist2 : Nat → Nat → ℚ)
    (hd : ∀ t st, st < 16 → ∀ b, b < 2 →
      dist2 t (encode st b) = ((dist t (encode st b) : Nat) : ℚ)) :
    ∀ (n : Nat) (T : Trellis Nat) (T2 : Trellis ℚ), TrellisCast T T2 →
      TrellisCast (build_trellis dist n T) (build_trellis dist2 n T2) := by
  intro n
  induction n with
  | zero => intro T T2 h; exact h
  | succ n ih =>
    intro T T2 h
    exact trellis_stage_cast (dist n) (dist2 n) n _ _ (hd n) (ih T T2 h)

theorem select_min_cast (ae : Nat → Nat) (ae2 : Nat → ℚ)
    (h : ∀ s, ae2 s = ((ae s : Nat) : ℚ)) :
    ∀ k, select_min ae2 k = ((select_min ae k).1, (((select_min ae k).2 : Nat) : ℚ)) := by
  intro k
  induction k with
  | zero => simp [select_min]
  | succ k ih =>
    simp only [select_min]
    rw [ih, h k]
    simp only [Nat.cast_lt]
    split_ifs <;> rfl

theorem initial_trellis_cast (h : Nat → Nat → Nat) :
    TrellisCast (initial_trellis h) (initial_trellis h) := by
  refine ⟨?_, ?_, rfl⟩
  · intro s
    simp only [initial_trellis, Function.update_apply]
    split_ifs <;> simp
  · intro s
    simp [initial_trellis]

theorem viterbi_cast (dist : Nat → Nat → Nat) (dist2 : Nat → Nat → ℚ)
    (hd : ∀ t st, st < 16 → ∀ b, b < 2 →
      dist2 t (encode st b) = ((dist t (encode st b) : Nat) : ℚ))
    (h : Nat → Nat → Nat) :
    viterbi dist2 h = ((viterbi dist h).1, (((viterbi dist h).2 : Nat) : ℚ)) := by
  obtain ⟨h1, _, h3⟩ := build_trellis_cast dist dist2 hd 39 _ _ (initial_trellis_cast h)
  rw [viterbi_eq, viterbi_eq, select_min_cast _ _ h1 16, h3]

theorem conv_decode_soft_of_bits (h1 h2 : Nat → Nat → Nat) (r : List Nat) (hr : IsBits r) :
    conv_decode_soft h2 (r.map (fun x : ℕ => (x : ℚ)))
      = ((conv_decode h1 r).1, (((conv_decode h1 r).2 : Nat) : ℚ)) := by
  have e : conv_decode_soft h2 (r.map (fun x : ℕ => (x : ℚ)))
      = conv_decode_soft h1 (r.map (fun x : ℕ => (x : ℚ))) :=
    viterbi_independent _ h2 h1
      (select_min_reached _ (soft_distance_bounds _ (cast_bits_unit r hr)) h2)
  rw [e]
  exact viterbi_cast (hard_distance r) (soft_distance (r.map (fun x : ℕ => (x : ℚ))))
    (fun t st hst b hb => soft_distance_cast r hr t _ (encode_lt st hst b hb)) h1

theorem decode_sch_accepts (h : Nat → Nat → Nat) (buf : List Nat) (fn bsic : Int)
    (hd : decode_sch h buf = (0, some (fn, bsic))) :
    parity_check (conv_decode h (sch_data buf)).1 = 0 ∧
    fn = sch_fn (conv_decode h (sch_data buf)).1 ∧
    bsic = (sch_bsic (conv_decode h (sch_data buf)).1 : Int) := by
  unfold decode_sch at hd
  simp only at hd
  split_ifs at hd with h1 h2
  · simp only [Prod.mk.injEq] at hd
    exact absurd hd.2 (by simp)
  · simp only [Prod.mk.injEq] at hd
    exact absurd hd.2 (by simp)
  · simp only [Prod.mk.injEq, Option.some.injEq, true_and] at hd
    exact ⟨not_not.mp h2, hd.1.symm, hd.2.symm⟩

end HardSoft

/-- C34: for every sequence r of bits (in particular of 78 bits), `conv_decode_soft` applied
to r read as the reals 0.0 and 1.0 writes the same 39 output bits as `conv_decode(r)` and
returns the same error value, whatever the two uninitialised `state_history` arrays hold;
hence whenever `decode_sch` returns 0 on a burst of bits and writes fn and bsic,
`decode_sch_soft` on the same bits returns 0 and writes the same fn and bsic. -/
theorem soft_decoder_equals_hard_on_bits (h1 h2 : Nat → Nat → Nat) (r buf : List Nat)
    (hr : IsBits r) (hb : IsBits buf) :
    conv_decode_soft h2 (r.map (fun x : ℕ => (x : ℚ)))
      = ((conv_decode h1 r).1, (((conv_decode h1 r).2 : Nat) : ℚ)) ∧
    ∀ fn bsic, decode_sch h1 buf = (0, some (fn, bsic)) →
      decode_sch_soft h2 (buf.map (fun x : ℕ => (x : ℚ))) = (0, some (fn, bsic)) := by
  refine ⟨conv_decode_soft_of_bits h1 h2 r hr, ?_⟩
  intro fn bsic hd
  obtain ⟨hp, hfn, hbs⟩ := decode_sch_accepts h1 buf fn bsic hd
  have hbd : IsBits (sch_data buf) := fun x hx => hb x (mem_sch_data buf x hx)
  have hs := conv_decode_soft_of_bits h1 h2 (sch_data buf) hbd
  rw [← sch_data_map] at hs
  rw [decode_sch_soft_of_decoded h2 _ (conv_decode h1 (sch_data buf)).1 (by rw [hs]) hp,
    hfn, hbs]

theorem soft_decoder_equals_hard_on_bits_witness :
    conv_decode_soft (fun _ _ => 1) ((sch_data burst_sample).map (fun x : ℕ => (x : ℚ)))
      = ((conv_decode (fun _ _ => 0) (sch_data burst_sample)).1,
          (((conv_decode (fun _ _ => 0) (sch_data burst_sample)).2 : Nat) : ℚ)) ∧
    decode_sch_soft (fun _ _ => 1) (burst_sample.map (fun x : ℕ => (x : ℚ)))
      = (0, some (868255, 19)) :=
  ⟨(soft_decoder_equals_hard_on_bits (fun _ _ => 0) (fun _ _ => 1) (sch_data burst_sample)
      burst_sample (by set_option maxRecDepth 100000 in decide)
      (by set_option maxRecDepth 100000 in decide)).1,
    (soft_decoder_equals_hard_on_bits (fun _ _ => 0) (fun _ _ => 1) (sch_data burst_sample)
      burst_sample (by set_option maxRecDepth 100000 in decide)
      (by set_option maxRecDepth 100000 in decide)).2 868255 19 sample_decoded⟩

/-! ## The traceback of the Viterbi decoders -/

section Traceback

variable {α : Type} [LinearOrderedSemiring α]

theorem traceback_pairs_length (h : Nat → Nat → Nat) (n : Nat) :
    ∀ s, (traceback_pairs h n s).length = n := by
  induction n with
  | zero => intro s; rfl
  | succ n ih => intro s; simp [traceback_pairs, ih]

theorem traceback_eq_map (h : Nat → Nat → Nat) (n : Nat) :
    ∀ s, traceback h n s
      = (traceback_pairs h n s).map (fun pc => prev_next_state pc.1 pc.2) := by
  induction n with
  | zero => intro s; rfl
  | succ n ih =>
    intro s
    simp only [traceback, traceback_pairs, List.map_append, List.map_cons, List.map_nil, ih]

/-- The pairs looked up by the traceback from a state reached at stage `n`. -/
theorem traceback_pairs_spec (dist : Nat → Nat → α) (sh : Nat → Nat → Nat) :
    ∀ n ≤ 39, ∀ s,
      (build_trellis dist n (initial_trellis sh)).ae s < ((MAX_ERROR : ℕ) : α) →
      ∀ i < n, ∀ p c,
        (traceback_pairs (build_trellis dist 39 (initial_trellis sh)).state_history n
          s).getD i (0, 0) = (p, c) →
        p < 16 ∧ c < 16 ∧
        (build_trellis dist (i + 1) (initial_trellis sh)).ae c < ((MAX_ERROR : ℕ) : α) ∧
        p = (build_trellis dist 39 (initial_trellis sh)).state_history c (i + 1) ∧
        (∀ sh2, (build_trellis dist 39 (initial_trellis sh2)).state_history c (i + 1) = p) ∧
        ∃ b < 2, next_state p b = c ∧ prev_next_state p c = b := by
  intro n
  induction n with
  | zero => intro _ s _ i hi; exact absurd hi (Nat.not_lt_zero _)
  | succ n ih =>
    intro hn s hr i hi p c hpc
    have hb := build_trellis_tie_break dist sh n s (by omega) hr
    have hlen := traceback_pairs_length
      (build_trellis dist 39 (initial_trellis sh)).state_history n
      ((build_trellis dist 39 (initial_trellis sh)).state_history s (n + 1))
    simp only [traceback_pairs] at hpc
    rcases Nat.lt_succ_iff_lt_or_eq.mp hi with h | h
    · rw [List.getD_append _ _ _ _ (by rw [hlen]; exact h)] at hpc
      exact ih (by omega) _ hb.2.1 i h p c hpc
    · rw [List.getD_append_right _ _ _ _ (by rw [hlen, h]), hlen, h, Nat.sub_self] at hpc
      simp only [List.getD_cons_zero, Prod.mk.injEq] at hpc
      obtain ⟨hp, hc⟩ := hpc
      subst hc
      rw [h]
      obtain ⟨a1, a2, ⟨b, hb2, a3, a4⟩, a5⟩ := hb
      rw [hp] at a1 a3
      refine ⟨a1, ?_, hr, hp.symm, ?_, b, hb2, a3, ?_⟩
      · rw [← a3]; exact next_state_lt p a1 b hb2
      · intro sh2
        have hr2 : (build_trellis dist (n + 1) (initial_trellis sh2)).ae s
            < ((MAX_ERROR : ℕ) : α) := by
          rw [build_trellis_errors dist sh2 sh (n + 1)]; exact hr
        have hb3 := build_trellis_tie_break dist sh2 n s (by omega) hr2
        rw [build_trellis_errors dist sh2 sh n, build_trellis_errors dist sh2 sh (n + 1)]
          at hb3
        have hb1 := build_trellis_tie_break dist sh n s (by omega) hr
        rw [← hp]
        exact isLowestBest_unique _ _ _ _ _ _ hb3 hb1
      · rw [← a3]; exact prev_next_state_next p a1 b hb2

/-- With distances between 0 and 2 the traceback is well defined. -/
theorem tracebackDefined_of_bounds (dist : Nat → Nat → α)
    (hd : ∀ t o, 0 ≤ dist t o ∧ dist t o ≤ 2) (sh : Nat → Nat → Nat) :
    TracebackDefined dist sh := by
  have hr := select_min_reached dist hd sh
  have hm := isLowestMin_select_min _ hr
  have hreach : (build_trellis dist 39 (initial_trellis sh)).ae
      (select_min (build_trellis dist 39 (initial_trellis sh)).ae 16).1
      < ((MAX_ERROR : ℕ) : α) := by
    rw [hm.2.1]; exact hr
  obtain ⟨o1, o2, _, _⟩ := viterbi_optimal dist hd sh
  refine ⟨hr, hm.1, traceback_pairs_length _ _ _,
    traceback_pairs_spec dist sh 39 (le_refl _) _ hreach, ?_, o1, ?_, ?_, ?_⟩
  · rw [viterbi_eq]
    exact traceback_eq_map _ _ _
  · intro x hx
    have := o2 x hx
    omega
  · intro h2
    have := o2 2 h2
    omega
  · intro sh2
    exact (viterbi_independent dist sh sh2 hr).symm

end Traceback

/-- C36: the traceback of both Viterbi decoders is well defined.  For every input `data` of
`conv_decode` (in particular every 78 bits) and every input `soft` of `conv_decode_soft`
with all values in [0, 1], and whatever the uninitialised `state_history` holds on entry:
some final state has accumulated error below MAX_ERROR = 79 and `min_state` is a state
0..15; each of the 39 `state_history` entries read by the traceback belongs to a state
reached at that stage, so it was written in the forward pass and does not depend on the
content on entry; each pair (previous, current) looked up in `prev_next_state` is a
transition of the encoder; the 39 output values are 0 or 1, never the marker 2. -/
theorem viterbi_traceback_well_defined (sh : Nat → Nat → Nat) (data : List Nat)
    (soft : List ℚ) (hs : ∀ x ∈ soft, 0 ≤ x ∧ x ≤ 1) :
    MAX_ERROR = 79 ∧
    TracebackDefined (hard_distance data) sh ∧
    (conv_decode sh data).1 = (viterbi (hard_distance data) sh).1 ∧
    TracebackDefined (soft_distance soft) sh ∧
    (conv_decode_soft sh soft).1 = (viterbi (soft_distance soft) sh).1 :=
  ⟨by decide, tracebackDefined_of_bounds _ (hard_distance_bounds data) sh, rfl,
    tracebackDefined_of_bounds _ (soft_distance_bounds soft hs) sh, rfl⟩

theorem viterbi_traceback_well_defined_witness :
    MAX_ERROR = 79 ∧
    TracebackDefined (hard_distance (sch_data burst_sample)) (fun _ _ => 7) ∧
    (conv_decode (fun _ _ => 7) (sch_data burst_sample)).1
      = (viterbi (hard_distance (sch_data burst_sample)) (fun _ _ => 7)).1 ∧
    TracebackDefined (soft_distance (List.replicate 78 (1 / 2))) (fun _ _ => 7) ∧
    (conv_decode_soft (fun _ _ => 7) (List.replicate 78 (1 / 2))).1
      = (viterbi (soft_distance (List.replicate 78 (1 / 2))) (fun _ _ => 7)).1 :=
  viterbi_traceback_well_defined (fun _ _ => 7) (sch_data burst_sample)
    (List.replicate 78 (1 / 2)) (by
      intro x hx
      rw [List.eq_of_mem_replicate hx]
      constructor <;> norm_num)

/-! ## The taps of `interpolate_point` -/

section InterpolationTaps

variable {K : Type} [LinearOrderedField K]

theorem mem_interpolate_point_reads_loop (fuel : Nat) :
    ∀ (i j : Int), j ∈ interpolate_point_reads_loop fuel i ↔ i ≤ j ∧ j < i + fuel := by
  induction fuel with
  | zero =>
    intro i j
    simp only [interpolate_point_reads_loop, List.not_mem_nil, false_iff]
    omega
  | succ fuel ih =>
    intro i j
    simp only [interpolate_point_reads_loop, List.mem_cons, ih]
    omega

theorem interpolate_point_reads_loop_length (fuel : Nat) :
    ∀ i : Int, (interpolate_point_reads_loop fuel i).length = fuel := by
  induction fuel with
  | zero => intro i; rfl
  | succ fuel ih => intro i; simp only [interpolate_point_reads_loop, List.length_cons, ih]

theorem interpolate_point_reads_loop_nodup (fuel : Nat) :
    ∀ i : Int, (interpolate_point_reads_loop fuel i).Nodup := by
  induction fuel with
  | zero => intro i; exact List.nodup_nil
  | succ fuel ih =>
    intro i
    simp only [interpolate_point_reads_loop, List.nodup_cons, ih, and_true,
      mem_interpolate_point_reads_loop]
    omega

theorem interpolate_point_loop_eq_sum (m : Libm K) (s : List (complex K)) (s_i : K)
    (fuel : Nat) :
    ∀ (i : Int) (point : complex K),
      interpolate_point_loop m s s_i fuel i point
        = point + ((interpolate_point_reads_loop fuel i).map (fun j : Int =>
            scale_real (s.getD j.toNat 0) (sinc m (m.M_PI * ((j : K) - s_i))))).sum := by
  induction fuel with
  | zero =>
    intro i point
    simp only [interpolate_point_loop, interpolate_point_reads_loop, List.map_nil,
      List.sum_nil, add_zero]
  | succ fuel ih =>
    intro i point
    simp only [interpolate_point_loop, interpolate_point_reads_loop, List.map_cons,
      List.sum_cons, ih, add_assoc]

theorem mem_interpolate_point_reads [FloorRing K] (s_len : Nat) (s_i : K) (j : Int) :
    j ∈ interpolate_point_reads s_len s_i ↔
      ⌊s_i⌋ - 10 ≤ j ∧ j ≤ ⌊s_i⌋ + 11 ∧ 0 ≤ j ∧ j ≤ (s_len : Int) - 1 := by
  unfold interpolate_point_reads
  simp only [COMMON_FILTER_LEN, mem_interpolate_point_reads_loop]
  split_ifs <;> omega

theorem interpolate_point_reads_length [FloorRing K] (s_len : Nat) (s_i : K) :
    (interpolate_point_reads s_len s_i).length ≤ 22 := by
  unfold interpolate_point_reads
  simp only [COMMON_FILTER_LEN, interpolate_point_reads_loop_length]
  split_ifs <;> omega

theorem interpolate_point_eq_sum [FloorRing K] (m : Libm K) (s : List (complex K)) (s_i : K) :
    interpolate_point m s s_i
      = ((interpolate_point_reads s.length s_i).map (fun j : Int =>
          scale_real (s.getD j.toNat 0) (sinc m (m.M_PI * ((j : K) - s_i))))).sum := by
  unfold interpolate_point interpolate_point_reads
  simp only [interpolate_point_loop_eq_sum, zero_add]

/-- C31: `interpolate_point(s, len, x)` reads exactly the samples `s[j]` with
floor(x) - 10 <= j <= floor(x) + 11 and 0 <= j <= len - 1, each once and each weighted by
sinc(pi * (j - x)): at most 22 samples (the loop runs to floor(x) + d + 1 inclusive), never
an index outside the signal, and the result is the sum of the weighted samples. -/
theorem interpolate_point_taps [FloorRing K] (m : Libm K) (s : List (complex K)) (x : K) :
    (∀ j : Int, j ∈ interpolate_point_reads s.length x ↔
      ⌊x⌋ - 10 ≤ j ∧ j ≤ ⌊x⌋ + 11 ∧ 0 ≤ j ∧ j ≤ (s.length : Int) - 1) ∧
    (interpolate_point_reads s.length x).length ≤ 22 ∧
    (interpolate_point_reads s.length x).Nodup ∧
    (∀ j ∈ interpolate_point_reads s.length x, 0 ≤ j ∧ j.toNat < s.length) ∧
    interpolate_point m s x
      = ((interpolate_point_reads s.length x).map (fun j : Int =>
          scale_real (s.getD j.toNat 0) (sinc m (m.M_PI * ((j : K) - x))))).sum := by
  refine ⟨mem_interpolate_point_reads s.length x, interpolate_point_reads_length s.length x,
    interpolate_point_reads_loop_nodup _ _, ?_, interpolate_point_eq_sum m s x⟩
  intro j hj
  rw [mem_interpolate_point_reads] at hj
  omega

end InterpolationTaps

/-- The sample at floor(x) + 11 is read and carries weight: at x = 1/2 in a signal of 12
samples the index 11 is read, a window of 22 indices is read around x = 15.5 in a signal
of 30 samples, and with only `s[11]` non-zero the result is not zero. -/
theorem interpolate_point_reads_tap_eleven :
    (11 : Int) ∈ interpolate_point_reads 12 (1 / 2 : ℝ) ∧
    ⌊(1 / 2 : ℝ)⌋ + 10 < 11 ∧
    (interpolate_point_reads 30 (15 + 1 / 2 : ℝ)).length = 22 ∧
    (interpolate_point real_libm (List.replicate 11 (0 : complex ℝ) ++ [(⟨1, 0⟩ : complex ℝ)]) (1 / 2)).re
      = 2 / (21 * Real.pi) := by
  have f1 : ⌊(1 / 2 : ℝ)⌋ = 0 := by
    rw [Int.floor_eq_iff]; norm_num
  have f2 : ⌊(15 + 1 / 2 : ℝ)⌋ = 15 := by
    rw [Int.floor_eq_iff]; norm_num
  have hr : interpolate_point_reads 12 (1 / 2 : ℝ) = [0, 1, 2, 3, 4, 5, 6, 7, 8, 9, 10, 11] := by
    unfold interpolate_point_reads
    simp only [f1, COMMON_FILTER_LEN]
    rfl
  refine ⟨?_, ?_, ?_, ?_⟩
  · rw [hr]; decide
  · rw [f1]; decide
  · unfold interpolate_point_reads
    simp only [f2, COMMON_FILTER_LEN, interpolate_point_reads_loop_length]
    rfl
  · have hsin : Real.sin (Real.pi * (11 - 1 / 2)) = 1 := by
      have e : Real.pi * (11 - 1 / 2) = Real.pi / 2 + (5 : ℤ) * (2 * Real.pi) := by
        push_cast; ring
      rw [e, Real.sin_add_int_mul_two_pi, Real.sin_pi_div_two]
    have hpos : (1 : ℝ) / 10000 ≤ Real.pi * (11 - 1 / 2) := by
      have := Real.pi_gt_three
      nlinarith
    have hlen : (List.replicate 11 (0 : complex ℝ) ++ [(⟨1, 0⟩ : complex ℝ)]).length = 12 := by simp
    rw [interpolate_point_eq_sum, hlen, hr]
    simp only [List.map_cons, List.map_nil, List.sum_cons, List.sum_nil]
    have z : ∀ k : Nat, k < 11 →
        (List.replicate 11 (0 : complex ℝ) ++ [(⟨1, 0⟩ : complex ℝ)]).getD k 0 = 0 := by
      intro k hk
      rw [List.getD_append _ _ _ _ (by simpa using hk),
        List.getD_eq_getElem _ _ (by simpa using hk), List.getElem_replicate]
    have z11 : (List.replicate 11 (0 : complex ℝ) ++ [(⟨1, 0⟩ : complex ℝ)]).getD 11 0 = ⟨1, 0⟩ := by
      rw [List.getD_append_right _ _ _ _ (by simp)]
      simp
    have sz : ∀ w : ℝ, scale_real (0 : complex ℝ) w = 0 := by
      intro w
      ext <;> simp [scale_real]
    simp only [show Int.toNat 0 = 0 from rfl, show Int.toNat 1 = 1 from rfl, show Int.toNat 2 = 2 from rfl, show Int.toNat 3 = 3 from rfl, show Int.toNat 4 = 4 from rfl, show Int.toNat 5 = 5 from rfl, show Int.toNat 6 = 6 from rfl, show Int.toNat 7 = 7 from rfl, show Int.toNat 8 = 8 from rfl, show Int.toNat 9 = 9 from rfl, show Int.toNat 10 = 10 from rfl, show Int.toNat 11 = 11 from rfl]
    rw [z 0 (by decide), z 1 (by decide), z 2 (by decide), z 3 (by decide), z 4 (by decide), z 5 (by decide), z 6 (by decide), z 7 (by decide), z 8 (by decide), z 9 (by decide), z 10 (by decide), z11]
    simp only [sz, zero_add, add_zero]
    show (1 : ℝ) * sinc real_libm (Real.pi * (((11 : ℤ) : ℝ) - 1 / 2)) = _
    unfold sinc
    have e11 : (((11 : ℤ) : ℝ)) = 11 := by norm_num
    rw [e11, if_pos (Or.inr hpos)]
    show (1 : ℝ) * (Real.sin (Real.pi * (11 - 1 / 2)) / (Real.pi * (11 - 1 / 2))) = _
    rw [hsin]
    have := Real.pi_pos
    field_simp
    ring

/-! ## The pulse and the output length of `modulate` -/

theorem convolve_nodelay_length {K : Type} [LinearOrderedField K] (s h : List (complex K)) :
    (convolve_nodelay s h).length = s.length := by
  simp only [convolve_nodelay, List.length_map, List.length_range]

section ModulationPulse

variable {K : Type} [LinearOrderedField K] [FloorRing K]

theorem generate_gaussian_pulse_length (m : Libm K) (sps : K) :
    (generate_gaussian_pulse m sps).length = ⌈2 * sps + 1⌉.toNat := by
  simp only [generate_gaussian_pulse, List.length_map, List.length_range]

theorem generate_gaussian_pulse_one_length (m : Libm K) :
    (generate_gaussian_pulse m 1).length = 3 := by
  rw [generate_gaussian_pulse_length]
  have : (2 * 1 + 1 : K) = ((3 : ℤ) : K) := by norm_num
  rw [this, Int.ceil_intCast]
  rfl

/-- The call `modulate(bv, bv_len, guard_len, sps, len_o)` from a reachable state, when the
buffer of `ceil(sps * (bv_len + guard_len))` samples fits the rotator table. -/
theorem modulate_eq_sps (m : Libm K) (st : DspState K) (bv : List Nat) (guard_len : Nat)
    (sps : K) (hst : reachable m st)
    (hlen : ⌈sps * ((bv.length + guard_len : Nat) : K)⌉.toNat ≤ ROTATOR_LEN) :
    modulate m st bv guard_len sps
      = (some (convolve_nodelay
          (rotate_loop (rotator_table m) 0 ⌈sps * ((bv.length + guard_len : Nat) : K)⌉.toNat
            (polarize_loop bv ⌊sps⌋.toNat bv.length
              (List.replicate ⌈sps * ((bv.length + guard_len : Nat) : K)⌉.toNat 0)))
          (generate_gaussian_pulse m 1)),
         ⟨some (rotator_table m), some (rrotator_table m),
           some (generate_gaussian_pulse m 1)⟩) := by
  have hl : (polarize_loop bv ⌊sps⌋.toNat bv.length
      (List.replicate ⌈sps * ((bv.length + guard_len : Nat) : K)⌉.toNat
        (0 : complex K))).length
        = ⌈sps * ((bv.length + guard_len : Nat) : K)⌉.toNat := by
    rw [polarize_loop_length, List.length_replicate]
  unfold modulate
  simp only []
  rw [gmsk_rotate_eq m st _ 0 hst.1 (by rw [hl]; exact hlen), hl]
  simp only [ne_eq, not_true_eq_false, if_false]
  rcases hst.2 with h | h <;> rw [h]

theorem modulate_none_sps (m : Libm K) (st : DspState K) (bv : List Nat) (guard_len : Nat)
    (sps : K) (hlen : ROTATOR_LEN < ⌈sps * ((bv.length + guard_len : Nat) : K)⌉.toNat) :
    (modulate m st bv guard_len sps).1 = none := by
  have hl : (polarize_loop bv ⌊sps⌋.toNat bv.length
      (List.replicate ⌈sps * ((bv.length + guard_len : Nat) : K)⌉.toNat
        (0 : complex K))).length > ROTATOR_LEN := by
    rw [polarize_loop_length, List.length_replicate]
    exact hlen
  unfold modulate gmsk_rotate
  simp only []
  rw [if_pos hl]
  simp

/-- C32: what `modulate(bits, guard, sps)` does for every samples-per-symbol value sps and
every state that calls of `dsp.cc` reach.  It returns ceil(sps*(N + guard)) samples when
that count is at most 1024, and the null pointer when it is more.  The pulse generated for
sps has length ceil(2*sps + 1), but the pulse that shapes the rotated impulse train is
`generate_gaussian_pulse(1.0)`, of length 3, whatever sps is: the call passes the literal
1.0, so the output is shaped with the pulse for sps only when sps = 1. -/
theorem modulate_pulse_and_length (m : Libm K) (st : DspState K) (bv : List Nat)
    (guard_len : Nat) (sps : K) (hst : reachable m st) :
    (generate_gaussian_pulse m sps).length = ⌈2 * sps + 1⌉.toNat ∧
    (generate_gaussian_pulse m 1).length = 3 ∧
    (⌈sps * ((bv.length + guard_len : Nat) : K)⌉.toNat ≤ ROTATOR_LEN →
      modulate m st bv guard_len sps
        = (some (convolve_nodelay
            (rotate_loop (rotator_table m) 0 ⌈sps * ((bv.length + guard_len : Nat) : K)⌉.toNat
              (polarize_loop bv ⌊sps⌋.toNat bv.length
                (List.replicate ⌈sps * ((bv.length + guard_len : Nat) : K)⌉.toNat 0)))
            (generate_gaussian_pulse m 1)),
           ⟨some (rotator_table m), some (rrotator_table m),
             some (generate_gaussian_pulse m 1)⟩) ∧
      ∃ out, (modulate m st bv guard_len sps).1 = some out ∧
        out.length = ⌈sps * ((bv.length + guard_len : Nat) : K)⌉.toNat) ∧
    (ROTATOR_LEN < ⌈sps * ((bv.length + guard_len : Nat) : K)⌉.toNat →
      (modulate m st bv guard_len sps).1 = none) := by
  refine ⟨generate_gaussian_pulse_length m sps, generate_gaussian_pulse_one_length m, ?_,
    modulate_none_sps m st bv guard_len sps⟩
  intro hlen
  have h := modulate_eq_sps m st bv guard_len sps hst hlen
  refine ⟨h, _, by rw [h], ?_⟩
  rw [convolve_nodelay_length, rotate_loop_length, polarize_loop_length,
    List.length_replicate]

end ModulationPulse

theorem reachable_start_state (m : Libm ℚ) : reachable m (start_state : DspState ℚ) :=
  ⟨Or.inl ⟨rfl, rfl⟩, Or.inl rfl⟩

theorem ceil_two_mul_three : ⌈(2 : ℚ) * (([0, 1, 1] : List Nat).length + 0 : Nat)⌉.toNat = 6 := by
  have : (2 : ℚ) * (([0, 1, 1] : List Nat).length + 0 : Nat) = ((6 : ℤ) : ℚ) := by
    simp; norm_num
  rw [this, Int.ceil_intCast]
  rfl

theorem modulate_pulse_and_length_witness :
    (generate_gaussian_pulse rational_libm 2).length = ⌈(2 * 2 + 1 : ℚ)⌉.toNat ∧
    (generate_gaussian_pulse rational_libm 1).length = 3 ∧
    ∃ out, (modulate rational_libm start_state [0, 1, 1] 0 2).1 = some out ∧
      out.length = ⌈(2 : ℚ) * (([0, 1, 1] : List Nat).length + 0 : Nat)⌉.toNat :=
  ⟨(modulate_pulse_and_length rational_libm start_state [0, 1, 1] 0 2
      (reachable_start_state _)).1,
    (modulate_pulse_and_length rational_libm start_state [0, 1, 1] 0 2
      (reachable_start_state _)).2.1,
    ((modulate_pulse_and_length rational_libm start_state [0, 1, 1] 0 2
      (reachable_start_state _)).2.2.1 (by rw [ceil_two_mul_three]; decide)).2⟩

/-- C32 (failing input): at sps = 2 the pulse that shapes the output of `modulate` is not
the pulse generated for sps = 2: the call from the start state caches and uses the pulse for
sps = 1.0, of 3 samples, while the pulse for sps = 2 has 5 samples. -/
theorem modulate_pulse_ignores_sps :
    (modulate rational_libm start_state [0, 1, 1] 0 2).2.m_gaussian_pulse
      = some (generate_gaussian_pulse rational_libm 1) ∧
    (modulate rational_libm start_state [0, 1, 1] 0 2).1
      = some (convolve_nodelay
          (rotate_loop (rotator_table rational_libm) 0 6
            (polarize_loop [0, 1, 1] 2 3 (List.replicate 6 0)))
          (generate_gaussian_pulse rational_libm 1)) ∧
    (generate_gaussian_pulse rational_libm 1).length = 3 ∧
    (generate_gaussian_pulse rational_libm 2).length = 5 ∧
    generate_gaussian_pulse rational_libm 1 ≠ generate_gaussian_pulse rational_libm 2 := by
  have h := modulate_eq_sps rational_libm start_state [0, 1, 1] 0 2 (reachable_start_state _)
    (by rw [ceil_two_mul_three]; decide)
  have f2 : ⌊(2 : ℚ)⌋.toNat = 2 := by
    have : (2 : ℚ) = ((2 : ℤ) : ℚ) := by norm_num
    rw [this, Int.floor_intCast]
    rfl
  have l2 : (generate_gaussian_pulse rational_libm 2).length = 5 := by
    rw [generate_gaussian_pulse_length]
    have : (2 * 2 + 1 : ℚ) = ((5 : ℤ) : ℚ) := by norm_num
    rw [this, Int.ceil_intCast]
    rfl
  have l1 := generate_gaussian_pulse_one_length rational_libm
  rw [ceil_two_mul_three, f2] at h
  refine ⟨by rw [h], by rw [h]; rfl, l1, l2, ?_⟩
  intro he
  rw [he, l2] at l1
  exact absurd l1 (by decide)

/-! ## The index returned by `peak_detect` -/

section PeakBounds

variable {K : Type} [LinearOrderedField K]

theorem peak_power_loop_succ (s : List (complex K)) (k : Nat) :
    peak_power_loop s (k + 1)
      = if norm (s.getD k 0) > (peak_power_loop s k).1
        then (norm (s.getD k 0), (k : K), (peak_power_loop s k).2.2 + norm (s.getD k 0))
        else ((peak_power_loop s k).1, (peak_power_loop s k).2.1,
          (peak_power_loop s k).2.2 + norm (s.getD k 0)) := rfl

/-- The loop over the samples of `peak_detect` leaves in `max_i` the index of the first
sample of maximum power, and in `max` that power. -/
theorem peak_power_loop_first_max (s : List (complex K)) (k : Nat) :
    ∃ p : Nat, p < k + 1 ∧ (peak_power_loop s (k + 1)).2.1 = (p : K) ∧
      (peak_power_loop s (k + 1)).1 = norm (s.getD p 0) ∧
      (∀ j < k + 1, norm (s.getD j 0) ≤ norm (s.getD p 0)) ∧
      ∀ j < p, norm (s.getD j 0) < norm (s.getD p 0) := by
  induction k with
  | zero =>
    have h : norm (s.getD 0 0) > (peak_power_loop s 0).1 :=
      lt_of_lt_of_le (show (-1 : K) < 0 by norm_num) (norm_nonneg _)
    rw [peak_power_loop_succ, if_pos h]
    refine ⟨0, by omega, by simp, rfl, ?_, ?_⟩
    · intro j hj
      have : j = 0 := by omega
      rw [this]
    · intro j hj
      exact absurd hj (Nat.not_lt_zero _)
  | succ k ih =>
    obtain ⟨p, hp, h1, h2, h3, h4⟩ := ih
    by_cases hgt : norm (s.getD (k + 1) 0) > (peak_power_loop s (k + 1)).1
    · rw [peak_power_loop_succ, if_pos hgt]
      rw [h2] at hgt
      refine ⟨k + 1, by omega, rfl, rfl, ?_, ?_⟩
      · intro j hj
        rcases Nat.lt_succ_iff_lt_or_eq.mp hj with h | h
        · exact le_trans (h3 j h) (le_of_lt hgt)
        · rw [h]
      · intro j hj
        exact lt_of_le_of_lt (h3 j hj) hgt
    · rw [peak_power_loop_succ, if_neg hgt]
      rw [h2] at hgt
      refine ⟨p, by omega, h1, h2, ?_, h4⟩
      intro j hj
      rcases Nat.lt_succ_iff_lt_or_eq.mp hj with h | h
      · exact h3 j h
      · rw [h]; exact not_lt.mp hgt

/-- The loop of `peak_detect` that halves `incr` moves `early_i` by at most
`incr + incr / 2 + ... ` over its iterations: `2 * incr * (1 - 1 / 2 ^ fuel)` in `fuel`
iterations. -/
theorem peak_refine_loop_near [FloorRing K] (m : Libm K) (s : List (complex K)) :
    ∀ (fuel : Nat) (incr early_i late_i : K), 0 ≤ incr →
      |peak_refine_loop m s fuel incr early_i late_i - early_i|
        ≤ 2 * incr * (1 - 1 / 2 ^ fuel) := by
  intro fuel
  induction fuel with
  | zero =>
    intro incr e l _
    simp [peak_refine_loop]
  | succ fuel ih =>
    intro incr e l hi
    have hpow : (0 : K) < 2 ^ fuel := by positivity
    have hle : (1 : K) / 2 ^ fuel ≤ 1 := by
      rw [div_le_one hpow]
      exact one_le_pow₀ (by norm_num)
    have e2 : (1 : K) / 2 ^ (fuel + 1) = 1 / 2 ^ fuel / 2 := by
      rw [pow_succ]; field_simp
    have hz : (0 : K) ≤ 2 * incr * (1 - 1 / 2 ^ (fuel + 1)) := by
      rw [e2]
      apply mul_nonneg (by linarith)
      linarith
    have hstep : ∀ x l2 : K, |x - e| = incr →
        |peak_refine_loop m s fuel (incr / 2) x l2 - e|
          ≤ 2 * incr * (1 - 1 / 2 ^ (fuel + 1)) := by
      intro x l2 hx
      have h1 := ih (incr / 2) x l2 (by linarith)
      have h2 : |peak_refine_loop m s fuel (incr / 2) x l2 - e|
          ≤ |peak_refine_loop m s fuel (incr / 2) x l2 - x| + |x - e| := by
        have := abs_add (peak_refine_loop m s fuel (incr / 2) x l2 - x) (x - e)
        simpa using this
      rw [e2]
      rw [hx] at h2
      nlinarith
    simp only [peak_refine_loop]
    split_ifs
    · exact hstep _ _ (by rw [add_sub_cancel_left, abs_of_nonneg hi])
    · exact hstep _ _ (by
        rw [show e - incr - e = -incr by ring, abs_neg, abs_of_nonneg hi])
    · rw [sub_self, abs_zero]; exact hz
    · rw [sub_self, abs_zero]; exact hz

/-- When the early point is not below the late point in power on entry, the loop does not
move `early_i` up. -/
theorem peak_refine_loop_down [FloorRing K] (m : Libm K) (s : List (complex K))
    (fuel : Nat) (incr early_i late_i : K) (hi : 0 ≤ incr)
    (h : ¬ norm (interpolate_point m s early_i) < norm (interpolate_point m s late_i)) :
    peak_refine_loop m s fuel incr early_i late_i ≤ early_i := by
  cases fuel with
  | zero => simp [peak_refine_loop]
  | succ fuel =>
    have hpow : (0 : K) < 2 ^ fuel := by positivity
    have hle : (1 : K) / 2 ^ fuel ≤ 1 := by
      rw [div_le_one hpow]
      exact one_le_pow₀ (by norm_num)
    simp only [peak_refine_loop]
    split_ifs with h1 h2
    · have h3 := peak_refine_loop_near m s fuel (incr / 2) (early_i - incr)
        (early_i - incr + 2) (by linarith)
      have h4 := (abs_le.mp h3).2
      have hq : (0 : K) ≤ 1 / 2 ^ fuel := by positivity
      have h5 : 2 * (incr / 2) * (1 - 1 / 2 ^ fuel) ≤ incr := by
        nlinarith [mul_nonneg hi hq]
      linarith
    · exact le_refl _
    · exact le_refl _

theorem peak_refine_loop_nine [FloorRing K] (m : Libm K) (s : List (complex K))
    (e l : K) :
    (∀ fuel, 9 ≤ fuel →
      peak_refine_loop m s fuel (1 / 2) e l = peak_refine_loop m s 9 (1 / 2) e l) ∧
    |peak_refine_loop m s 9 (1 / 2) e l - e| ≤ 511 / 512 := by
  constructor
  · intro fuel hf
    obtain ⟨k, rfl⟩ : ∃ k, fuel = 9 + k := ⟨fuel - 9, by omega⟩
    exact peak_refine_loop_fuel m s 9 k _ _ _ (by norm_num)
  · have h := peak_refine_loop_near m s 9 (1 / 2) e l (by norm_num)
    have e2 : (2 : K) * (1 / 2) * (1 - 1 / 2 ^ 9) = 511 / 512 := by norm_num
    rw [e2] at h
    exact h

theorem clamp_near (x L p : K) (h0 : 0 ≤ p) (hp : p ≤ L) :
    0 ≤ (if (if x < 0 then 0 else x) > L then L else (if x < 0 then 0 else x)) ∧
    (if (if x < 0 then 0 else x) > L then L else (if x < 0 then 0 else x)) ≤ L ∧
    |(if (if x < 0 then 0 else x) > L then L else (if x < 0 then 0 else x)) - p|
      ≤ |x - p| := by
  have hL : 0 ≤ L := le_trans h0 hp
  have hy : 0 ≤ (if x < 0 then 0 else x) ∧ |(if x < 0 then 0 else x) - p| ≤ |x - p| := by
    by_cases h1 : x < 0
    · rw [if_pos h1]
      refine ⟨le_refl _, ?_⟩
      rw [abs_of_nonpos (by linarith), abs_of_nonpos (by linarith)]
      linarith
    · rw [if_neg h1]
      exact ⟨not_lt.mp h1, le_refl _⟩
  generalize (if x < 0 then 0 else x) = y at hy ⊢
  by_cases h2 : y > L
  · rw [if_pos h2]
    refine ⟨hL, le_refl _, le_trans ?_ hy.2⟩
    rw [abs_of_nonneg (by linarith), abs_of_nonneg (by linarith)]
    linarith
  · rw [if_neg h2]
    exact ⟨hy.1, not_lt.mp h2, hy.2⟩

end PeakBounds

/-- C39 (amended): for every non-empty signal s, with p the index of the first sample of
maximum power: the index returned by `peak_detect` lies in [0, s_len - 1]; it is at most
511/512 away from p when p >= 1 and less than 2 away from p when p = 0, where `early_i`
starts at p and not at p - 1; at p = 0 it is at most 1 away when `sinf` is 0 at the
non-zero multiples of `M_PI` (and `M_PI >= 0.0001`), so that the first comparison is
between `s[0]` and `s[1]`.  The loop that halves `incr` from 0.5 ends within 9 iterations
and moves `early_i` by at most 1/2 + 1/4 + ... + 1/512 = 511/512. -/
theorem peak_detect_near_first_maximum {K : Type} [LinearOrderedField K] [FloorRing K]
    (m : Libm K) (s : List (complex K)) (hs : s ≠ []) :
    ∃ p : Nat, p < s.length ∧
      (∀ j < s.length, norm (s.getD j 0) ≤ norm (s.getD p 0)) ∧
      (∀ j < p, norm (s.getD j 0) < norm (s.getD p 0)) ∧
      0 ≤ (peak_detect m s).1 ∧ (peak_detect m s).1 ≤ ((s.length - 1 : Nat) : K) ∧
      |(peak_detect m s).1 - (p : K)| < 2 ∧
      (1 ≤ p → |(peak_detect m s).1 - (p : K)| ≤ 511 / 512) ∧
      ((∀ k : ℤ, k ≠ 0 → m.sinf (m.M_PI * k) = 0) → 1 / 10000 ≤ m.M_PI →
        |(peak_detect m s).1 - (p : K)| ≤ 1) ∧
      (∀ (e l : K) (fuel : Nat), 9 ≤ fuel →
        peak_refine_loop m s fuel (1 / 2) e l = peak_refine_loop m s 9 (1 / 2) e l) ∧
      ∀ e l : K, |peak_refine_loop m s 9 (1 / 2) e l - e| ≤ 511 / 512 := by
  obtain ⟨k, hk⟩ : ∃ k, s.length = k + 1 := by
    cases s with
    | nil => exact absurd rfl hs
    | cons a t => exact ⟨t.length, rfl⟩
  obtain ⟨p, hp, h1, _, h3, h4⟩ := peak_power_loop_first_max s k
  rw [← hk] at hp h1 h3
  have hL : ((s.length - 1 : Nat) : K) = (k : K) := by rw [hk]; rfl
  have hp0 : (0 : K) ≤ (p : K) := Nat.cast_nonneg p
  have hpk : (p : K) ≤ (k : K) := by exact_mod_cast (by omega : p ≤ k)
  have hr : (peak_detect m s).1
      = (if (if peak_refine_loop m s 10 (1 / 2)
              (if 1 ≤ (peak_power_loop s s.length).2.1
                then (peak_power_loop s s.length).2.1 - 1 else 0)
              (if (peak_power_loop s s.length).2.1 + 1 < (s.length : K)
                then (peak_power_loop s s.length).2.1 + 1 else ((s.length - 1 : Nat) : K))
              + 1 < 0 then 0
            else peak_refine_loop m s 10 (1 / 2)
              (if 1 ≤ (peak_power_loop s s.length).2.1
                then (peak_power_loop s s.length).2.1 - 1 else 0)
              (if (peak_power_loop s s.length).2.1 + 1 < (s.length : K)
                then (peak_power_loop s s.length).2.1 + 1 else ((s.length - 1 : Nat) : K))
              + 1) > ((s.length - 1 : Nat) : K)
          then ((s.length - 1 : Nat) : K)
          else (if peak_refine_loop m s 10 (1 / 2)
              (if 1 ≤ (peak_power_loop s s.length).2.1
                then (peak_power_loop s s.length).2.1 - 1 else 0)
              (if (peak_power_loop s s.length).2.1 + 1 < (s.length : K)
                then (peak_power_loop s s.length).2.1 + 1 else ((s.length - 1 : Nat) : K))
              + 1 < 0 then 0
            else peak_refine_loop m s 10 (1 / 2)
              (if 1 ≤ (peak_power_loop s s.length).2.1
                then (peak_power_loop s s.length).2.1 - 1 else 0)
              (if (peak_power_loop s s.length).2.1 + 1 < (s.length : K)
                then (peak_power_loop s s.length).2.1 + 1 else ((s.length - 1 : Nat) : K))
              + 1)) := rfl
  rw [hr, h1, hL]
  have hnine := fun e l => peak_refine_loop_nine m s e l
  have hten : ∀ e l : K, |peak_refine_loop m s 10 (1 / 2) e l - e| ≤ 511 / 512 := by
    intro e l
    rw [(hnine e l).1 10 (by omega)]
    exact (hnine e l).2
  have hdown : (∀ k : ℤ, k ≠ 0 → m.sinf (m.M_PI * k) = 0) → 1 / 10000 ≤ m.M_PI → p = 0 →
      1 ≤ k →
      peak_refine_loop m s 10 (1 / 2) (if 1 ≤ (p : K) then (p : K) - 1 else 0)
        (if (p : K) + 1 < (s.length : K) then (p : K) + 1 else (k : K)) ≤ 0 := by
    intro hsin hpi hp0 hk1
    subst hp0
    have c1 : ¬ ((1 : K) ≤ ((0 : Nat) : K)) := by norm_num
    have c2 : ((0 : Nat) : K) + 1 < (s.length : K) := by
      rw [hk]; push_cast
      have : (1 : K) ≤ (k : K) := by exact_mod_cast hk1
      linarith
    rw [if_neg c1, if_pos c2]
    have i0 := interpolate_point_nat m hsin hpi s 0 (by omega)
    have i1 := interpolate_point_nat m hsin hpi s 1 (by omega)
    have e1 : ((0 : Nat) : K) + 1 = ((1 : Nat) : K) := by norm_num
    rw [e1]
    have e0 : (0 : K) = ((0 : Nat) : K) := by norm_num
    have := peak_refine_loop_down m s 10 (1 / 2) ((0 : Nat) : K) ((1 : Nat) : K)
      (by norm_num) (by rw [i0, i1]; exact not_lt.mpr (h3 1 (by omega)))
    rw [← e0] at this
    exact this
  generalize hR : peak_refine_loop m s 10 (1 / 2) (if 1 ≤ (p : K) then (p : K) - 1 else 0)
    (if (p : K) + 1 < (s.length : K) then (p : K) + 1 else (k : K)) = R at hdown ⊢
  have hRn := hten (if 1 ≤ (p : K) then (p : K) - 1 else 0)
    (if (p : K) + 1 < (s.length : K) then (p : K) + 1 else (k : K))
  rw [hR] at hRn
  obtain ⟨c0, cL, cn⟩ := clamp_near (R + 1) (k : K) (p : K) hp0 hpk
  have hcase : (1 ≤ p → |R + 1 - (p : K)| ≤ 511 / 512) ∧
      (p = 0 → |R + 1 - (p : K)| ≤ 1 + 511 / 512 ∧ |R| ≤ 511 / 512) := by
    constructor
    · intro h
      have c : (1 : K) ≤ (p : K) := by exact_mod_cast h
      rw [if_pos c] at hRn
      have e : R + 1 - (p : K) = R - ((p : K) - 1) := by ring
      rw [e]; exact hRn
    · intro h
      subst h
      have c : ¬ ((1 : K) ≤ ((0 : Nat) : K)) := by norm_num
      rw [if_neg c, sub_zero] at hRn
      refine ⟨?_, hRn⟩
      rw [Nat.cast_zero, sub_zero]
      have := abs_add R 1
      rw [abs_one] at this
      linarith
  refine ⟨p, hp, h3, h4, c0, cL, ?_, ?_, ?_, fun e l => (hnine e l).1, fun e l => (hnine e l).2⟩
  · rcases Nat.eq_zero_or_pos p with h | h
    · have := (hcase.2 h).1
      exact lt_of_le_of_lt (le_trans cn this) (by norm_num)
    · have := hcase.1 h
      exact lt_of_le_of_lt (le_trans cn this) (by norm_num)
  · intro h
    exact le_trans cn (hcase.1 h)
  · intro hsin hpi
    rcases Nat.eq_zero_or_pos p with h | h
    · rcases Nat.eq_zero_or_pos k with hk0 | hk1
      · subst h
        subst hk0
        simp only [Nat.cast_zero] at c0 cL ⊢
        have : (if (if R + 1 < 0 then 0 else R + 1) > (0 : K) then (0 : K)
            else if R + 1 < 0 then 0 else R + 1) = 0 := le_antisymm cL c0
        rw [this]
        simp
      · have hd := hdown hsin hpi h hk1
        have hRa := (abs_le.mp (hcase.2 h).2).1
        rw [h] at cn ⊢
        simp only [Nat.cast_zero, sub_zero] at cn ⊢
        refine le_trans cn ?_
        rw [abs_le]
        constructor <;> linarith
    · exact le_trans (le_trans cn (hcase.1 h)) (by norm_num)

theorem peak_detect_near_first_maximum_witness :
    ∃ p : Nat, p < (impulse_burst : List (complex ℝ)).length ∧
      (∀ j < (impulse_burst : List (complex ℝ)).length,
        norm ((impulse_burst : List (complex ℝ)).getD j 0)
          ≤ norm ((impulse_burst : List (complex ℝ)).getD p 0)) ∧
      (∀ j < p, norm ((impulse_burst : List (complex ℝ)).getD j 0)
          < norm ((impulse_burst : List (complex ℝ)).getD p 0)) ∧
      0 ≤ (peak_detect real_libm impulse_burst).1 ∧
      (peak_detect real_libm impulse_burst).1
        ≤ (((impulse_burst : List (complex ℝ)).length - 1 : Nat) : ℝ) ∧
      |(peak_detect real_libm impulse_burst).1 - (p : ℝ)| ≤ 1 := by
  obtain ⟨p, h1, h2, h3, h4, h5, _, _, h8, _⟩ :=
    peak_detect_near_first_maximum real_libm (impulse_burst : List (complex ℝ))
      (by simp [impulse_burst])
  exact ⟨p, h1, h2, h3, h4, h5, h8 (fun k _ => real_libm_sin k) real_libm_pi⟩

/-! ## The index returned by `peak_detect` when `M_PI` is not exact -/

/-- When the first sample has the maximum power and the point interpolated at index 0 has
less power than the point interpolated at index 1, the first comparison of `peak_detect`
moves `early_i` up to 0.5, and the index returned is more than 1. -/
theorem peak_detect_moves_up {K : Type} [LinearOrderedField K] [FloorRing K] (m : Libm K)
    (s : List (complex K)) (hlen : 3 ≤ s.length)
    (hp : (peak_power_loop s s.length).2.1 = 0)
    (hlt : norm (interpolate_point m s 0) < norm (interpolate_point m s 1)) :
    1 < (peak_detect m s).1 ∧ (peak_detect m s).1 < 2 := by
  have hL : (2 : K) ≤ ((s.length - 1 : Nat) : K) := by
    exact_mod_cast (by omega : 2 ≤ s.length - 1)
  have hl3 : (0 : K) + 1 < (s.length : K) := by
    have : (3 : K) ≤ (s.length : K) := by exact_mod_cast hlen
    linarith
  have hr : (peak_detect m s).1
      = (if (if peak_refine_loop m s 10 (1 / 2)
              (if 1 ≤ (peak_power_loop s s.length).2.1
                then (peak_power_loop s s.length).2.1 - 1 else 0)
              (if (peak_power_loop s s.length).2.1 + 1 < (s.length : K)
                then (peak_power_loop s s.length).2.1 + 1 else ((s.length - 1 : Nat) : K))
              + 1 < 0 then 0
            else peak_refine_loop m s 10 (1 / 2)
              (if 1 ≤ (peak_power_loop s s.length).2.1
                then (peak_power_loop s s.length).2.1 - 1 else 0)
              (if (peak_power_loop s s.length).2.1 + 1 < (s.length : K)
                then (peak_power_loop s s.length).2.1 + 1 else ((s.length - 1 : Nat) : K))
              + 1) > ((s.length - 1 : Nat) : K)
          then ((s.length - 1 : Nat) : K)
          else (if peak_refine_loop m s 10 (1 / 2)
              (if 1 ≤ (peak_power_loop s s.length).2.1
                then (peak_power_loop s s.length).2.1 - 1 else 0)
              (if (peak_power_loop s s.length).2.1 + 1 < (s.length : K)
                then (peak_power_loop s s.length).2.1 + 1 else ((s.length - 1 : Nat) : K))
              + 1 < 0 then 0
            else peak_refine_loop m s 10 (1 / 2)
              (if 1 ≤ (peak_power_loop s s.length).2.1
                then (peak_power_loop s s.length).2.1 - 1 else 0)
              (if (peak_power_loop s s.length).2.1 + 1 < (s.length : K)
                then (peak_power_loop s s.length).2.1 + 1 else ((s.length - 1 : Nat) : K))
              + 1)) := rfl
  have e0 : (if (1 : K) ≤ 0 then (0 : K) - 1 else 0) = 0 := if_neg (by norm_num)
  have e1 : (if (0 : K) + 1 < (s.length : K) then (0 : K) + 1
      else ((s.length - 1 : Nat) : K)) = 1 := by
    rw [if_pos hl3, zero_add]
  rw [hr, hp, e0, e1]
  clear hr
  have hstep : peak_refine_loop m s 10 (1 / 2) 0 1
      = peak_refine_loop m s 9 (1 / 2 / 2) (0 + 1 / 2) (0 + 1 / 2 + 2) := by
    rw [peak_refine_loop, if_pos (by norm_num)]
    simp only [if_pos hlt]
  rw [hstep]
  have hnear := peak_refine_loop_near m s 9 (1 / 2 / 2) (0 + 1 / 2) (0 + 1 / 2 + 2)
    (by norm_num)
  generalize peak_refine_loop m s 9 (1 / 2 / 2) (0 + 1 / 2) (0 + 1 / 2 + 2) = R at hnear ⊢
  have hb : (2 : K) * (1 / 2 / 2) * (1 - 1 / 2 ^ 9) < 1 / 2 := by norm_num
  obtain ⟨h1, h2⟩ := abs_le.mp hnear
  have hR0 : 0 < R := by linarith
  have hR1 : R < 1 := by linarith
  have c1 : ¬ (R + 1 < 0) := by linarith
  have c2 : ¬ (R + 1 > ((s.length - 1 : Nat) : K)) := by linarith
  rw [if_neg c1, if_neg c2]
  constructor <;> linarith

theorem double_pi_bounds :
    (3 : ℝ) < double_pi_libm.M_PI ∧ double_pi_libm.M_PI < Real.pi ∧ Real.pi < 3.15 := by
  refine ⟨?_, ?_, Real.pi_lt_d2⟩
  · show (3 : ℝ) < 884279719003555 / 281474976710656
    norm_num
  · have h := Real.pi_gt_d20
    have e : (884279719003555 / 281474976710656 : ℝ) < 3.14159265358979323846 := by norm_num
    exact lt_trans e h

theorem sinc_double_pi (x : ℝ) (hx : x ≤ -(1 / 10000) ∨ 1 / 10000 ≤ x) :
    sinc double_pi_libm x = Real.sin x / x := by
  unfold sinc
  rw [if_pos hx]
  rfl

theorem tie_burst_reads :
    interpolate_point_reads 12 (0 : ℝ) = [0, 1, 2, 3, 4, 5, 6, 7, 8, 9, 10, 11] ∧
    interpolate_point_reads 12 (1 : ℝ) = [0, 1, 2, 3, 4, 5, 6, 7, 8, 9, 10, 11] := by
  constructor
  · unfold interpolate_point_reads
    simp only [Int.floor_zero, COMMON_FILTER_LEN]
    rfl
  · unfold interpolate_point_reads
    simp only [Int.floor_one, COMMON_FILTER_LEN]
    rfl

/-- The points that `peak_detect` compares first on `tie_burst`: the taps at distance 1, 10
and 11 have the weights sin(M_PI * k) / (M_PI * k), which are not 0. -/
theorem tie_burst_points :
    interpolate_point double_pi_libm tie_burst 0
      = ⟨1 + Real.sin double_pi_libm.M_PI / double_pi_libm.M_PI
          - Real.sin (double_pi_libm.M_PI * 11) / (double_pi_libm.M_PI * 11), 0⟩ ∧
    interpolate_point double_pi_libm tie_burst 1
      = ⟨Real.sin double_pi_libm.M_PI / double_pi_libm.M_PI + 1
          - Real.sin (double_pi_libm.M_PI * 10) / (double_pi_libm.M_PI * 10), 0⟩ := by
  obtain ⟨hM, _, _⟩ := double_pi_bounds
  have hlen : (tie_burst : List (complex ℝ)).length = 12 := rfl
  have sz : ∀ w : ℝ, scale_real (⟨0, 0⟩ : complex ℝ) w = 0 := by
    intro w
    ext <;> simp [scale_real]
  have s1 : sinc double_pi_libm double_pi_libm.M_PI
      = Real.sin double_pi_libm.M_PI / double_pi_libm.M_PI :=
    sinc_double_pi _ (Or.inr (by linarith))
  have s10 : sinc double_pi_libm (double_pi_libm.M_PI * 10)
      = Real.sin (double_pi_libm.M_PI * 10) / (double_pi_libm.M_PI * 10) :=
    sinc_double_pi _ (Or.inr (by linarith))
  have s11 : sinc double_pi_libm (double_pi_libm.M_PI * 11)
      = Real.sin (double_pi_libm.M_PI * 11) / (double_pi_libm.M_PI * 11) :=
    sinc_double_pi _ (Or.inr (by linarith))
  have sm1 : sinc double_pi_libm (-double_pi_libm.M_PI)
      = Real.sin double_pi_libm.M_PI / double_pi_libm.M_PI := by
    rw [sinc_double_pi _ (Or.inl (by linarith)), Real.sin_neg, neg_div_neg_eq]
  constructor
  · rw [interpolate_point_eq_sum, hlen, tie_burst_reads.1]
    simp only [List.map_cons, List.map_nil, List.sum_cons, List.sum_nil, show Int.toNat 0 = 0 from rfl, show Int.toNat 1 = 1 from rfl, show Int.toNat 2 = 2 from rfl, show Int.toNat 3 = 3 from rfl, show Int.toNat 4 = 4 from rfl, show Int.toNat 5 = 5 from rfl, show Int.toNat 6 = 6 from rfl, show Int.toNat 7 = 7 from rfl, show Int.toNat 8 = 8 from rfl, show Int.toNat 9 = 9 from rfl, show Int.toNat 10 = 10 from rfl, show Int.toNat 11 = 11 from rfl,
      tie_burst, List.getD_cons_zero, List.getD_cons_succ, sz, zero_add, add_zero]
    norm_num
    rw [sinc_zero, s1, s11]
    apply complex.ext
    · simp only [complex_add_re, scale_real]
      ring
    · simp only [complex_add_im, scale_real]
      ring
  · rw [interpolate_point_eq_sum, hlen, tie_burst_reads.2]
    simp only [List.map_cons, List.map_nil, List.sum_cons, List.sum_nil, show Int.toNat 0 = 0 from rfl, show Int.toNat 1 = 1 from rfl, show Int.toNat 2 = 2 from rfl, show Int.toNat 3 = 3 from rfl, show Int.toNat 4 = 4 from rfl, show Int.toNat 5 = 5 from rfl, show Int.toNat 6 = 6 from rfl, show Int.toNat 7 = 7 from rfl, show Int.toNat 8 = 8 from rfl, show Int.toNat 9 = 9 from rfl, show Int.toNat 10 = 10 from rfl, show Int.toNat 11 = 11 from rfl,
      tie_burst, List.getD_cons_zero, List.getD_cons_succ, sz, zero_add, add_zero]
    norm_num
    rw [sinc_zero, sm1, s10]
    apply complex.ext
    · simp only [complex_add_re, scale_real]
      ring
    · simp only [complex_add_im, scale_real]
      ring

theorem double_pi_signs :
    0 < Real.sin double_pi_libm.M_PI ∧
    Real.sin (double_pi_libm.M_PI * 10) < 0 ∧
    0 < Real.sin (double_pi_libm.M_PI * 11) := by
  obtain ⟨h3, hlt, h315⟩ := double_pi_bounds
  refine ⟨Real.sin_pos_of_pos_of_lt_pi (by linarith) hlt, ?_, ?_⟩
  · have e : double_pi_libm.M_PI * 10
        = (double_pi_libm.M_PI * 10 - 10 * Real.pi) + (5 : ℤ) * (2 * Real.pi) := by
      push_cast; ring
    rw [e, Real.sin_add_int_mul_two_pi]
    exact Real.sin_neg_of_neg_of_neg_pi_lt (by linarith) (by norm_num at h315; linarith)
  · have e : double_pi_libm.M_PI * 11
        = (double_pi_libm.M_PI * 11 - 10 * Real.pi) + (5 : ℤ) * (2 * Real.pi) := by
      push_cast; ring
    rw [e, Real.sin_add_int_mul_two_pi]
    exact Real.sin_pos_of_pos_of_lt_pi (by norm_num at h315; linarith) (by linarith)

/-- C39 (counterexample): on a signal of 12 samples whose first sample has the maximum power
(index 0 is the first index of maximum power), with `M_PI` the `double` constant of C and
the exact sine, the point interpolated at index 0 has less power than the point
interpolated at index 1, because sin(M_PI * k) is not 0; the first comparison moves
`early_i` up, and the index returned lies between 1 and 2: more than 1 away from index
0. -/
theorem peak_detect_exceeds_one :
    (∀ j < 12, norm ((tie_burst : List (complex ℝ)).getD j 0)
      ≤ norm ((tie_burst : List (complex ℝ)).getD 0 0)) ∧
    (peak_power_loop (tie_burst : List (complex ℝ)) 12).2.1 = 0 ∧
    norm (interpolate_point double_pi_libm tie_burst 0)
      < norm (interpolate_point double_pi_libm tie_burst 1) ∧
    1 < (peak_detect double_pi_libm tie_burst).1 ∧
    (peak_detect double_pi_libm tie_burst).1 < 2 := by
  have hp : (peak_power_loop (tie_burst : List (complex ℝ)) 12).2.1 = 0 := by
    simp only [tie_burst, peak_power_loop, List.getD_cons_zero, List.getD_cons_succ, norm]
    norm_num
  have hlt : norm (interpolate_point double_pi_libm tie_burst 0)
      < norm (interpolate_point double_pi_libm tie_burst 1) := by
    obtain ⟨h3, _, _⟩ := double_pi_bounds
    obtain ⟨g1, g10, g11⟩ := double_pi_signs
    rw [tie_burst_points.1, tie_burst_points.2]
    have e1 : 0 < Real.sin double_pi_libm.M_PI / double_pi_libm.M_PI :=
      div_pos g1 (by linarith)
    have e10 : Real.sin (double_pi_libm.M_PI * 10) / (double_pi_libm.M_PI * 10) < 0 :=
      div_neg_of_neg_of_pos g10 (by linarith)
    have e11 : 0 < Real.sin (double_pi_libm.M_PI * 11) / (double_pi_libm.M_PI * 11) :=
      div_pos g11 (by linarith)
    have e11b : Real.sin (double_pi_libm.M_PI * 11) / (double_pi_libm.M_PI * 11) < 1 := by
      rw [div_lt_one (by linarith)]
      have := Real.sin_le_one (double_pi_libm.M_PI * 11)
      linarith
    simp only [norm]
    nlinarith
  refine ⟨?_, hp, hlt, peak_detect_moves_up double_pi_libm tie_burst (by decide) hp hlt⟩
  intro j hj
  interval_cases j <;> simp [tie_burst, norm]

/-! ## The rotator tables in `equalize` -/

section EqualizeReads

variable {K : Type} [LinearOrderedField K]

theorem equalize_loop_fst_length (st : DspState K) (feedback : List (complex K)) :
    ∀ (k : Nat) (a : List (complex K) × List (complex K)),
      (equalize_loop st feedback k a).1.length = a.1.length := by
  intro k
  induction k with
  | zero => intro a; rfl
  | succ k ih =>
    intro a
    simp only [equalize_loop, List.length_set]
    exact ih a

/-- Iteration `k` of the loop of `equalize` leaves in `DFE_output[k]` the fed-back sample
times `m_gmsk_rrotator[k]`, and later iterations do not change it. -/
theorem equalize_loop_output (st : DspState K) (feedback : List (complex K))
    (a : List (complex K) × List (complex K)) :
    ∀ n k, k < n → k < a.2.length →
      (equalize_loop st feedback n a).2.getD k 0
        = feedback_loop feedback (equalize_loop st feedback k a).1 k (min feedback.length k)
            * (st.m_gmsk_rrotator.getD []).getD k 0 := by
  intro n
  induction n with
  | zero => intro k hk; exact absurd hk (Nat.not_lt_zero _)
  | succ n ih =>
    intro k hk hka
    simp only [equalize_loop]
    rw [list_getD_set, equalize_loop_length]
    by_cases h : k = n
    · subst h
      rw [if_pos ⟨rfl, hka⟩]
    · rw [if_neg (fun hc => h hc.1)]
      exact ih k (by omega) hka

theorem long_impulse_length (n : Nat) : (long_impulse n : List (complex K)).length = n + 4 := by
  simp [long_impulse]

theorem long_impulse_getD (n j : Nat) :
    (long_impulse n : List (complex K)).getD j 0 = if j = 3 then ⟨10, 0⟩ else 0 := by
  unfold long_impulse
  match j with
  | 0 => rfl
  | 1 => rfl
  | 2 => rfl
  | 3 => rfl
  | j + 4 =>
    rw [if_neg (by omega)]
    simp only [List.cons_append, List.nil_append, List.getD_cons_succ]
    by_cases hj : j < n
    · rw [List.getD_eq_getElem _ _ (by simpa using hj), List.getElem_replicate]
      rfl
    · rw [List.getD_eq_default _ _ (by simpa using hj)]

theorem norm_ten : norm (⟨10, 0⟩ : complex K) = 100 := by
  simp only [norm]; norm_num

theorem norm_zero_sample : norm (0 : complex K) = 0 := by
  show (0 : K) * 0 + 0 * 0 = 0
  norm_num

theorem peak_detect_long_impulse [FloorRing K] (m : Libm K)
    (hsin : ∀ k : ℤ, k ≠ 0 → m.sinf (m.M_PI * k) = 0) (hpi : 1 / 10000 ≤ m.M_PI) (n : Nat)
    (hn : 1 ≤ n) :
    (peak_detect m (long_impulse n : List (complex K))).1 = 3 ∧
    (peak_detect m (long_impulse n : List (complex K))).2.1 = ⟨10, 0⟩ := by
  have hlen := long_impulse_length (K := K) n
  have i2 := interpolate_point_nat m hsin hpi (long_impulse n : List (complex K)) 2
    (by rw [hlen]; omega)
  have i3 := interpolate_point_nat m hsin hpi (long_impulse n : List (complex K)) 3
    (by rw [hlen]; omega)
  have i4 := interpolate_point_nat m hsin hpi (long_impulse n : List (complex K)) 4
    (by rw [hlen]; omega)
  rw [long_impulse_getD] at i2 i3 i4
  simp only [Nat.cast_ofNat, if_pos, if_neg, show (2 : Nat) ≠ 3 by decide,
    show (4 : Nat) ≠ 3 by decide, if_false, if_true] at i2 i3 i4
  obtain ⟨p, hp, h1, h2, h3, _⟩ := peak_power_loop_first_max (long_impulse n : List (complex K))
    (n + 3)
  have hp3 : p = 3 := by
    by_contra hne
    have := h3 3 (by omega)
    rw [long_impulse_getD, long_impulse_getD, if_pos rfl, if_neg hne, norm_ten,
      norm_zero_sample] at this
    exact absurd this (by norm_num)
  subst hp3
  have hpl : peak_power_loop (long_impulse n : List (complex K))
      (long_impulse n : List (complex K)).length
      = ((peak_power_loop (long_impulse n : List (complex K)) (n + 3 + 1)).1, 3,
          (peak_power_loop (long_impulse n : List (complex K)) (n + 3 + 1)).2.2) := by
    rw [hlen]
    apply Prod.ext
    · rfl
    · apply Prod.ext
      · rw [h1]; norm_num
      · rfl
  have hr : peak_refine_loop m (long_impulse n : List (complex K)) 10 (1 / 2) 2 4 = 2 := by
    rw [peak_refine_loop, if_pos (by norm_num)]
    simp only [i2, i4, lt_irrefl, gt_iff_lt, if_false]
  have hL : (((long_impulse n : List (complex K)).length - 1 : Nat) : K) = (n : K) + 3 := by
    rw [hlen]
    have : n + 4 - 1 = n + 3 := by omega
    rw [this]; push_cast; ring
  have hn1 : (1 : K) ≤ (n : K) := by exact_mod_cast hn
  rw [peak_detect_eq m _ _ 3 _ hpl 2 4 2 3 (by norm_num)
    (by rw [hlen]; push_cast; rw [if_pos (by linarith)]; norm_num) hr
    (by rw [hL]; norm_num)]
  exact ⟨rfl, i3⟩

theorem peak2mean_long_impulse (m : Libm K) (h0 : m.sqrtf 0 = 0) (h100 : m.sqrtf 100 = 10)
    (n : Nat) (hn : 5 ≤ n) :
    peak2mean m (long_impulse n : List (complex K)) ⟨10, 0⟩ 3 4 = some 1000000 := by
  have hl : peak2mean_loop (long_impulse n : List (complex K)) 3 4 = (0, 6) := by
    simp only [peak2mean_loop, long_impulse_getD, long_impulse_length, norm_zero_sample]
    have c5 : 5 < n + 4 := by omega
    have c6 : 6 < n + 4 := by omega
    have c7 : 7 < n + 4 := by omega
    have c8 : 8 < n + 4 := by omega
    norm_num [c5, c6, c7, c8, norm_zero_sample]
  unfold peak2mean
  simp only [hl]
  rw [if_neg (by decide)]
  rw [norm_ten, h100, zero_div, h0]
  norm_num

end EqualizeReads

section EqualizeTables

variable {K : Type} [LinearOrderedField K]

theorem rotator_table_length (m : Libm K) :
    (rotator_table m).length = 1024 ∧ (rrotator_table m).length = 1024 := by
  unfold rotator_table rrotator_table
  simp only [List.length_map, List.length_range, ROTATOR_LEN, and_self]

theorem equalize_eq (st : DspState K) (v ff fb : List (complex K)) :
    equalize st v ff fb
      = slice_soft (equalize_loop st fb v.length
          (equalize_post_forward v ff, List.replicate v.length 0)).2 := rfl

theorem equalize_post_forward_length (v ff : List (complex K)) :
    (equalize_post_forward v ff).length = v.length := by
  simp only [equalize_post_forward, List.length_map, List.length_range]

/-- The soft bit `k` that `equalize` returns: the fed-back sample times entry `k` of the
reverse rotator table, soft-sliced. -/
theorem equalize_getD (st : DspState K) (v ff fb : List (complex K)) (k : Nat)
    (hk : k < v.length) :
    (equalize st v ff fb).getD k 0
      = soft_value (equalize_fed_back st v ff fb k
          * (st.m_gmsk_rrotator.getD []).getD k 0) := by
  rw [equalize_eq, slice_soft_getD _ _ (by rw [equalize_loop_length]; simpa using hk),
    equalize_loop_output st fb _ v.length k hk (by simpa using hk)]
  rfl

/-- Iteration `k` of the loop of `equalize` leaves in `post_forward[k]` the hard decision
times entry `k` of the rotator table. -/
theorem equalize_loop_decision (st : DspState K) (v ff fb : List (complex K)) (k : Nat)
    (hk : k < v.length) :
    (equalize_loop st fb (k + 1)
        (equalize_post_forward v ff, List.replicate v.length 0)).1.getD k 0
      = (if (equalize_fed_back st v ff fb k * (st.m_gmsk_rrotator.getD []).getD k 0).re > 0
          then of_real 1 else of_real (-1))
        * (st.m_gmsk_rotator.getD []).getD k 0 := by
  simp only [equalize_loop]
  rw [list_getD_set, equalize_loop_fst_length, if_pos ⟨rfl, by
    rw [equalize_post_forward_length]; exact hk⟩]
  rfl

/-- The loop of `equalize` reads the tables only at the indices below the number of its
iterations. -/
theorem equalize_loop_congr (st st2 : DspState K) (fb : List (complex K))
    (a : List (complex K) × List (complex K)) :
    ∀ n, (∀ k < n,
        (st2.m_gmsk_rotator.getD []).getD k 0 = (st.m_gmsk_rotator.getD []).getD k 0 ∧
        (st2.m_gmsk_rrotator.getD []).getD k 0 = (st.m_gmsk_rrotator.getD []).getD k 0) →
      equalize_loop st2 fb n a = equalize_loop st fb n a := by
  intro n
  induction n with
  | zero => intro _; rfl
  | succ n ih =>
    intro h
    simp only [equalize_loop]
    rw [ih (fun k hk => h k (by omega)), (h n (by omega)).1, (h n (by omega)).2]

theorem soft_value_zero : soft_value (0 : complex K) = 1 / 2 := by
  unfold soft_value
  simp only [complex_zero_re, sub_zero]
  rw [if_neg (by norm_num), if_neg (by norm_num)]

end EqualizeTables

/-- C40: `equalize`, with the tables built, reads entry i of both 1024-entry rotator tables
for every i < v_len and no other entry, and it has no length check of its own: it returns
v_len soft bits whatever v_len is; soft bit i is the fed-back sample times
`m_gmsk_rrotator[i]`, soft-sliced, and `post_forward[i]` becomes the hard decision times
`m_gmsk_rotator[i]`; tables that agree below v_len give the same result.  So all its
accesses are in range if and only if v_len <= 1024, and for v_len > 1024 the entries
1024 .. v_len - 1 are read past the tables (in the model such a read gives 0, so these
soft bits are 1/2).  When the checks of `demod_burst` pass, it calls `equalize` on
v_len = ceil(DATA_LEN*sps + adjusted_toa + 2) samples; none of the checks bounds v_len by
1024. -/
theorem equalize_rotator_entries {K : Type} [LinearOrderedField K] [FloorRing K]
    (m : Libm K) (st : DspState K) (v ff fb : List (complex K)) (sps : K)
    (s : List (complex K)) (t : mtsc_s K) (dfe : dfe_filter_s K) (cr_len dfe_len : Nat)
    (SNR : K)
    (hrot : st.m_gmsk_rotator = some (rotator_table m))
    (hrrot : st.m_gmsk_rrotator = some (rrotator_table m))
    (h1 : ¬ ((s.length : K) < sps * (DATA_LEN : K)))
    (hSNR : peak2mean m (correlate_nodelay s t.tsc)
        (peak_detect m (correlate_nodelay s t.tsc)).2.1
        (nearbyintf (peak_detect m (correlate_nodelay s t.tsc)).1).toNat 4 = some SNR)
    (h2 : ¬ (SNR < 3))
    (h3 : ¬ ((peak_detect m (correlate_nodelay s t.tsc)).1 - t.toa < -2))
    (h4 : ¬ ((s.length : K) < (DATA_LEN : K) * sps
          + ((peak_detect m (correlate_nodelay s t.tsc)).1 - t.toa) + 2)) :
    ((rotator_table m).length = 1024 ∧ (rrotator_table m).length = 1024) ∧
    (equalize st v ff fb).length = v.length ∧
    (∀ k < v.length,
      (equalize st v ff fb).getD k 0
        = soft_value (equalize_fed_back st v ff fb k * (rrotator_table m).getD k 0)) ∧
    (∀ k < v.length,
      (equalize_loop st fb (k + 1)
          (equalize_post_forward v ff, List.replicate v.length 0)).1.getD k 0
        = (if (equalize_fed_back st v ff fb k * (rrotator_table m).getD k 0).re > 0
            then of_real 1 else of_real (-1))
          * (rotator_table m).getD k 0) ∧
    (∀ st2 : DspState K,
      (∀ k < v.length,
        (st2.m_gmsk_rotator.getD []).getD k 0 = (rotator_table m).getD k 0 ∧
        (st2.m_gmsk_rrotator.getD []).getD k 0 = (rrotator_table m).getD k 0) →
      equalize st2 v ff fb = equalize st v ff fb) ∧
    ((∀ k < v.length, k < (rotator_table m).length ∧ k < (rrotator_table m).length)
      ↔ v.length ≤ 1024) ∧
    (∀ k, 1024 ≤ k → k < v.length → (equalize st v ff fb).getD k 0 = 1 / 2) ∧
    ∃ v2, (demod_burst m st sps s (some t) (some (some dfe)) cr_len dfe_len).1
        = some (equalize st v2 dfe.ff dfe.fb) ∧
      v2.length = ⌈(DATA_LEN : K) * sps
          + ((peak_detect m (correlate_nodelay s t.tsc)).1 - t.toa) + 2⌉.toNat := by
  have hr1 : st.m_gmsk_rotator.getD [] = rotator_table m := by rw [hrot]; rfl
  have hr2 : st.m_gmsk_rrotator.getD [] = rrotator_table m := by rw [hrrot]; rfl
  obtain ⟨l1, l2⟩ := rotator_table_length m
  have hget : ∀ k < v.length, (equalize st v ff fb).getD k 0
      = soft_value (equalize_fed_back st v ff fb k * (rrotator_table m).getD k 0) := by
    intro k hk
    rw [equalize_getD st v ff fb k hk, hr2]
  refine ⟨⟨l1, l2⟩, equalize_length st v ff fb, hget, ?_, ?_, ?_, ?_,
    _, demod_burst_of_checks m st sps s t dfe cr_len dfe_len SNR h1 hSNR h2 h3 h4, ?_⟩
  · intro k hk
    rw [equalize_loop_decision st v ff fb k hk, hr1, hr2]
  · intro st2 h
    rw [equalize_eq, equalize_eq,
      equalize_loop_congr st st2 fb _ v.length (fun k hk => by rw [hr1, hr2]; exact h k hk)]
  · rw [l1, l2]
    constructor
    · intro h
      by_contra hn
      have := (h 1024 (by omega)).1
      omega
    · intro h k hk
      omega
  · intro k hk1 hk2
    rw [hget k hk2, List.getD_eq_default _ _ (by rw [l2]; exact hk1), mul_zero,
      soft_value_zero]
  · have hc1 : ⌈(DATA_LEN : K) * sps
        + ((peak_detect m (correlate_nodelay s t.tsc)).1 - t.toa) + 2⌉ ≤ (s.length : ℤ) := by
      rw [Int.ceil_le]
      exact_mod_cast not_lt.mp h4
    rw [delay_length, List.length_take]
    omega

theorem equalize_rotator_entries_witness :
    ∃ v2 : List (complex ℝ),
      (demod_burst real_libm
          ⟨some (rotator_table real_libm), some (rrotator_table real_libm), none⟩ 8
          (long_impulse 1196) (some ⟨[⟨1, 0⟩], 3, ⟨1, 0⟩⟩) (some (some ⟨[⟨1, 0⟩], []⟩)) 6 5).1
        = some (equalize
            ⟨some (rotator_table real_libm), some (rrotator_table real_libm), none⟩ v2
            [⟨1, 0⟩] []) ∧
      v2.length = 1186 ∧
      (equalize ⟨some (rotator_table real_libm), some (rrotator_table real_libm), none⟩ v2
        [⟨1, 0⟩] []).getD 1024 0 = 1 / 2 := by
  have hpk := peak_detect_long_impulse real_libm (fun k _ => real_libm_sin k) real_libm_pi
    1196 (by decide)
  have hc := correlate_nodelay_unit (long_impulse 1196 : List (complex ℝ))
  have hp2 := peak2mean_long_impulse real_libm Real.sqrt_zero real_libm_sqrtf_100 1196
    (by decide)
  have hlen : (long_impulse 1196 : List (complex ℝ)).length = 1200 :=
    long_impulse_length 1196
  have hthm := fun v : List (complex ℝ) => equalize_rotator_entries real_libm
    ⟨some (rotator_table real_libm), some (rrotator_table real_libm), none⟩ v [⟨1, 0⟩] [] 8
    (long_impulse 1196) ⟨[⟨1, 0⟩], 3, ⟨1, 0⟩⟩ ⟨[⟨1, 0⟩], []⟩ 6 5 1000000 rfl rfl
    (by rw [hlen]; simp only [DATA_LEN]; norm_num)
    (by simp only [hc, hpk.1, hpk.2, nearbyintf_three]; exact hp2)
    (by norm_num)
    (by simp only [hc, hpk.1]; norm_num)
    (by rw [hlen]; simp only [hc, hpk.1, DATA_LEN]; norm_num)
  obtain ⟨_, _, _, _, _, _, _, v2, hv, hl⟩ := hthm []
  simp only [hc, hpk.1, DATA_LEN] at hl
  have e : ((148 : Nat) : ℝ) * 8 + (3 - 3) + 2 = ((1186 : ℤ) : ℝ) := by norm_num
  rw [e, Int.ceil_intCast] at hl
  have hl2 : v2.length = 1186 := hl
  exact ⟨v2, hv, hl2, (hthm v2).2.2.2.2.2.2.1 1024 (le_refl _) (by rw [hl2]; decide)⟩

/-! ## The divisors of `design_DFE` -/

section DfeInvariant

variable {K : Type} [LinearOrderedField K]

theorem scale_length (v : List (complex K)) (s : complex K) :
    (scale v s).length = v.length := by
  simp only [scale, List.length_map]

theorem add_length (x y : List (complex K)) : (add x y).length = x.length := by
  simp only [add, List.length_map, List.length_range]

theorem dfe_shift_loop_length (k : Nat) (v : List (complex K)) :
    (dfe_shift_loop k v).length = v.length := by
  induction k with
  | zero => rfl
  | succ k ih => simp only [dfe_shift_loop, List.length_set, ih]

theorem scale_head (v : List (complex K)) (s : complex K) (hv : 0 < v.length) :
    (scale v s).getD 0 0 = s * v.getD 0 0 := by
  cases v with
  | nil => exact absurd hv (Nat.lt_irrefl 0)
  | cons a t => rfl

theorem add_head (x y : List (complex K)) (hx : 0 < x.length) (hy : 0 < y.length) :
    (add x y).getD 0 0 = x.getD 0 0 + y.getD 0 0 := by
  unfold add
  rw [map_range_getD _ _ 0 hx, if_pos hy]

/-- The arrays `Gl` and `Gr` keep their length `nu + 1`. -/
theorem dfe_step_lengths (m : Libm K) (Nf nu i : Nat) (st : DfeState K)
    (hl : st.Gl.length = nu + 1) (hr : st.Gr.length = nu + 1) :
    (dfe_step m Nf nu i st).Gl.length = nu + 1 ∧ (dfe_step m Nf nu i st).Gr.length = nu + 1 := by
  unfold dfe_step
  by_cases hi : i ≠ Nf - 1
  · simp only [if_pos hi, scale_length, add_length, List.length_set, dfe_shift_loop_length,
      hl, hr, and_self]
  · simp only [if_neg hi, hl, hr, and_self]

theorem dfe_main_loop_lengths (m : Libm K) (h : List (complex K)) (SNR : K) (Nf nu : Nat) :
    ∀ c, (dfe_main_loop m h SNR Nf nu c).Gl.length = nu + 1 ∧
      (dfe_main_loop m h SNR Nf nu c).Gr.length = nu + 1 := by
  intro c
  induction c with
  | zero => simp [dfe_main_loop]
  | succ c ih => exact dfe_step_lengths m Nf nu c _ ih.1 ih.2

theorem dfe_step_d (m : Libm K) (Nf nu i : Nat) (st : DfeState K) :
    (dfe_step m Nf nu i st).d = norm (st.Gl.getD 0 0) + norm (st.Gr.getD 0 0) := by
  unfold dfe_step
  by_cases hi : i ≠ Nf - 1
  · simp only [if_pos hi]
  · simp only [if_neg hi]

theorem dfe_step_L (m : Libm K) (Nf nu i : Nat) (st : DfeState K) :
    (dfe_step m Nf nu i st).L
      = dfe_row_loop st.Gl st.Gr (norm (st.Gl.getD 0 0) + norm (st.Gr.getD 0 0)) i (nu + 1)
          st.L := by
  unfold dfe_step
  by_cases hi : i ≠ Nf - 1
  · simp only [if_pos hi]
  · simp only [if_neg hi]

/-- The loop over `j` writes `L[i][i + j]` for `j < k` and nothing else. -/
theorem dfe_row_loop_apply (Gl Gr : List (complex K)) (d : K) (i : Nat)
    (L : Nat → Nat → complex K) : ∀ k a b,
    dfe_row_loop Gl Gr d i k L a b
      = if a = i ∧ i ≤ b ∧ b < i + k
        then div_real (Gl.getD (b - i) 0 * conj (Gl.getD 0 0)
          + Gr.getD (b - i) 0 * conj (Gr.getD 0 0)) d
        else L a b := by
  intro k
  induction k with
  | zero =>
    intro a b
    rw [if_neg (by omega)]
    rfl
  | succ k ih =>
    intro a b
    simp only [dfe_row_loop]
    by_cases ha : a = i
    · subst ha
      rw [Function.update_same]
      by_cases hb : b = a + k
      · subst hb
        rw [Function.update_same, if_pos (by omega)]
        have : a + k - a = k := by omega
        rw [this]
      · rw [Function.update_noteq hb, ih]
        by_cases hc : a = a ∧ a ≤ b ∧ b < a + k
        · rw [if_pos hc, if_pos (by omega)]
        · rw [if_neg hc, if_neg (by omega)]
    · rw [Function.update_noteq ha, ih, if_neg (fun hc => ha hc.1), if_neg (fun hc => ha hc.1)]

/-- The diagonal entry that iteration `i` writes is 1 when `d` is not 0. -/
theorem dfe_step_diag (m : Libm K) (Nf nu i : Nat) (st : DfeState K)
    (hd : norm (st.Gl.getD 0 0) + norm (st.Gr.getD 0 0) ≠ 0) :
    (dfe_step m Nf nu i st).L i i = 1 ∧
    ∀ a b, a ≠ i → (dfe_step m Nf nu i st).L a b = st.L a b := by
  rw [dfe_step_L]
  constructor
  · rw [dfe_row_loop_apply, if_pos (by omega), Nat.sub_self, mul_conj_self, mul_conj_self]
    apply complex.ext
    · show (norm (st.Gl.getD 0 0) + norm (st.Gr.getD 0 0))
          / (norm (st.Gl.getD 0 0) + norm (st.Gr.getD 0 0)) = 1
      exact div_self hd
    · show (0 + 0 : K) / _ = 0
      rw [add_zero, zero_div]
  · intro a b ha
    rw [dfe_row_loop_apply, if_neg (fun hc => ha hc.1)]

/-- The first entry of `Gl` after an iteration that is not the last. -/
theorem dfe_step_head (m : Libm K) (Nf nu i : Nat) (st : DfeState K)
    (hl : st.Gl.length = nu + 1) (hr : st.Gr.length = nu + 1) (hi : i ≠ Nf - 1) :
    (dfe_step m Nf nu i st).Gl.getD 0 0
      = of_real (1 / m.sqrtf (1 + norm (cdiv (st.Gr.getD 0 0) (st.Gl.getD 0 0))))
        * (conj (cdiv (st.Gr.getD 0 0) (st.Gl.getD 0 0)) * st.Gr.getD 0 0
            + st.Gl.getD 0 0) := by
  unfold dfe_step
  simp only [if_pos hi]
  rw [scale_head _ _ (by rw [add_length, scale_length, hr]; omega),
    add_head _ _ (by rw [scale_length, hr]; omega) (by rw [hl]; omega),
    scale_head _ _ (by rw [hr]; omega)]

theorem dfe_step_last (m : Libm K) (Nf nu i : Nat) (st : DfeState K) (hi : i = Nf - 1) :
    (dfe_step m Nf nu i st).Gl = st.Gl ∧ (dfe_step m Nf nu i st).Gr = st.Gr := by
  unfold dfe_step
  have : ¬ (i ≠ Nf - 1) := fun h => h hi
  simp only [if_neg this, and_self]

/-- The algebra of one update of `Gl[0]`: from a positive real `Gl[0] = g` and any
`Gr[0] = r`, with a positive factor `c`, the new `Gl[0]` is the positive real
`c * (g + |r|^2 / g)`, and `|k|^2 = |r|^2 / g^2`. -/
theorem dfe_update_algebra (g c : K) (r : complex K) (hg : 0 < g) (hc : 0 < c) :
    (of_real c * (conj (cdiv r ⟨g, 0⟩) * r + ⟨g, 0⟩)).im = 0 ∧
    (of_real c * (conj (cdiv r ⟨g, 0⟩) * r + ⟨g, 0⟩)).re = c * (g + norm r / g) ∧
    0 < (of_real c * (conj (cdiv r ⟨g, 0⟩) * r + ⟨g, 0⟩)).re ∧
    norm (cdiv r ⟨g, 0⟩) = norm r / (g * g) := by
  have hg0 : g ≠ 0 := ne_of_gt hg
  have him : (of_real c * (conj (cdiv r ⟨g, 0⟩) * r + ⟨g, 0⟩)).im = 0 := by
    simp only [of_real, cdiv, div_real, conj, norm, complex_mul_re, complex_mul_im,
      complex_add_re, complex_add_im]
    field_simp
    ring
  have hre : (of_real c * (conj (cdiv r ⟨g, 0⟩) * r + ⟨g, 0⟩)).re = c * (g + norm r / g) := by
    simp only [of_real, cdiv, div_real, conj, norm, complex_mul_re, complex_mul_im,
      complex_add_re, complex_add_im]
    field_simp
    ring
  refine ⟨him, hre, ?_, ?_⟩
  · rw [hre]
    apply mul_pos hc
    have : 0 ≤ norm r / g := div_nonneg (norm_nonneg r) (le_of_lt hg)
    linarith
  · simp only [cdiv, div_real, conj, norm, complex_mul_re, complex_mul_im]
    field_simp
    ring

/-- At the start of every iteration of the main loop `Gl[0]` is a positive real. -/
theorem dfe_main_loop_positive (m : Libm K) (h : List (complex K)) (SNR : K) (Nf nu : Nat)
    (hSNR : 0 < SNR) (hsqrt : ∀ x, 0 < x → 0 < m.sqrtf x) :
    ∀ c, ((dfe_main_loop m h SNR Nf nu c).Gl.getD 0 0).im = 0 ∧
      0 < ((dfe_main_loop m h SNR Nf nu c).Gl.getD 0 0).re := by
  intro c
  induction c with
  | zero =>
    simp only [dfe_main_loop]
    rw [list_getD_set, if_pos ⟨rfl, by simp⟩]
    exact ⟨rfl, one_div_pos.mpr (hsqrt SNR hSNR)⟩
  | succ c ih =>
    obtain ⟨hl, hr⟩ := dfe_main_loop_lengths m h SNR Nf nu c
    show ((dfe_step m Nf nu c (dfe_main_loop m h SNR Nf nu c)).Gl.getD 0 0).im = 0 ∧
      0 < ((dfe_step m Nf nu c (dfe_main_loop m h SNR Nf nu c)).Gl.getD 0 0).re
    by_cases hc : c = Nf - 1
    · rw [(dfe_step_last m Nf nu c _ hc).1]
      exact ih
    · rw [dfe_step_head m Nf nu c _ hl hr hc]
      have hg : (dfe_main_loop m h SNR Nf nu c).Gl.getD 0 0
          = ⟨((dfe_main_loop m h SNR Nf nu c).Gl.getD 0 0).re, 0⟩ :=
        complex.ext rfl ih.1
      rw [hg]
      have hpos : 0 < 1 / m.sqrtf (1 + norm (cdiv ((dfe_main_loop m h SNR Nf nu c).Gr.getD 0 0)
          ⟨((dfe_main_loop m h SNR Nf nu c).Gl.getD 0 0).re, 0⟩)) :=
        one_div_pos.mpr (hsqrt _ (by have := norm_nonneg (cdiv
          ((dfe_main_loop m h SNR Nf nu c).Gr.getD 0 0)
          ⟨((dfe_main_loop m h SNR Nf nu c).Gl.getD 0 0).re, 0⟩); linarith))
      obtain ⟨a1, _, a3, _⟩ := dfe_update_algebra
        ((dfe_main_loop m h SNR Nf nu c).Gl.getD 0 0).re _
        ((dfe_main_loop m h SNR Nf nu c).Gr.getD 0 0) ih.2 hpos
      exact ⟨a1, a3⟩

/-- With an exact square root, after an update `Gl[0]^2` is the value of `d` of that
iteration. -/
theorem dfe_main_loop_square (m : Libm K) (h : List (complex K)) (SNR : K) (Nf nu : Nat)
    (hSNR : 0 < SNR) (hsqrt : ∀ x, 0 < x → 0 < m.sqrtf x)
    (hexact : ∀ x, 0 < x → m.sqrtf x * m.sqrtf x = x) (c : Nat) (hc : c ≠ Nf - 1) :
    ((dfe_main_loop m h SNR Nf nu (c + 1)).Gl.getD 0 0).re
        * ((dfe_main_loop m h SNR Nf nu (c + 1)).Gl.getD 0 0).re
      = (dfe_main_loop m h SNR Nf nu (c + 1)).d := by
  obtain ⟨hl, hr⟩ := dfe_main_loop_lengths m h SNR Nf nu c
  obtain ⟨h1, h2⟩ := dfe_main_loop_positive m h SNR Nf nu hSNR hsqrt c
  show ((dfe_step m Nf nu c (dfe_main_loop m h SNR Nf nu c)).Gl.getD 0 0).re
      * ((dfe_step m Nf nu c (dfe_main_loop m h SNR Nf nu c)).Gl.getD 0 0).re
    = (dfe_step m Nf nu c (dfe_main_loop m h SNR Nf nu c)).d
  rw [dfe_step_d, dfe_step_head m Nf nu c _ hl hr hc]
  have hg : (dfe_main_loop m h SNR Nf nu c).Gl.getD 0 0
      = ⟨((dfe_main_loop m h SNR Nf nu c).Gl.getD 0 0).re, 0⟩ :=
    complex.ext rfl h1
  rw [hg]
  generalize ((dfe_main_loop m h SNR Nf nu c).Gl.getD 0 0).re = g at h2 ⊢
  generalize (dfe_main_loop m h SNR Nf nu c).Gr.getD 0 0 = r
  have hn := norm_nonneg r
  have hk : norm (cdiv r ⟨g, 0⟩) = norm r / (g * g) :=
    (dfe_update_algebra g 1 r h2 one_pos).2.2.2
  have hq : 0 < 1 + norm r / (g * g) := by
    have : 0 ≤ norm r / (g * g) := div_nonneg hn (le_of_lt (mul_pos h2 h2))
    linarith
  have hs := hsqrt _ hq
  have he := hexact _ hq
  rw [hk]
  rw [(dfe_update_algebra g (1 / m.sqrtf (1 + norm r / (g * g))) r h2
    (one_div_pos.mpr hs)).2.1]
  have hng : norm (⟨g, 0⟩ : complex K) = g * g := by simp [norm]
  rw [hng]
  generalize norm r = n at *
  generalize m.sqrtf (1 + n / (g * g)) = q at *
  have hg0 : g ≠ 0 := ne_of_gt h2
  have hq0 : q ≠ 0 := ne_of_gt hs
  have e1 : 1 / q * (g + n / g) * (1 / q * (g + n / g))
      = (g + n / g) * (g + n / g) / (q * q) := by
    field_simp
    ring
  rw [e1, he]
  field_simp

theorem dfe_main_loop_diag (m : Libm K) (h : List (complex K)) (SNR : K) (Nf nu : Nat)
    (hSNR : 0 < SNR) (hsqrt : ∀ x, 0 < x → 0 < m.sqrtf x) :
    ∀ c, ∀ i < c, (dfe_main_loop m h SNR Nf nu c).L i i = 1 := by
  intro c
  induction c with
  | zero => intro i hi; exact absurd hi (Nat.not_lt_zero _)
  | succ c ih =>
    intro i hi
    obtain ⟨_, h2⟩ := dfe_main_loop_positive m h SNR Nf nu hSNR hsqrt c
    have hd : norm ((dfe_main_loop m h SNR Nf nu c).Gl.getD 0 0)
        + norm ((dfe_main_loop m h SNR Nf nu c).Gr.getD 0 0) ≠ 0 := by
      have := norm_nonneg ((dfe_main_loop m h SNR Nf nu c).Gr.getD 0 0)
      have : 0 < norm ((dfe_main_loop m h SNR Nf nu c).Gl.getD 0 0) := by
        simp only [norm]
        nlinarith [mul_pos h2 h2,
          mul_self_nonneg ((dfe_main_loop m h SNR Nf nu c).Gl.getD 0 0).im]
      linarith
    obtain ⟨d1, d2⟩ := dfe_step_diag m Nf nu c (dfe_main_loop m h SNR Nf nu c) hd
    show (dfe_step m Nf nu c (dfe_main_loop m h SNR Nf nu c)).L i i = 1
    by_cases hic : i = c
    · rw [hic]; exact d1
    · rw [d2 i i hic]
      exact ih i (by omega)

end DfeInvariant

/-- C38: `design_DFE` never divides by zero.  For every channel h with h_len >= 1, every
SNR > 0 and every Nf >= 2, when `sqrtf` is positive on positive arguments: `sqrtf(SNR)` is
positive; at the start of every iteration i < Nf of the main loop `Gl[0]` is a positive
real, hence `Gl[0]` is not 0, d = |Gl[0]|^2 + |Gr[0]|^2 > 0 and sqrtf(1 + |k|^2) > 0; with
an exact square root `Gl[0]^2` after an update equals the d of that iteration; L[i][i] = 1
for every i < Nf; the final d, by which the feedforward taps are divided, is positive; and
`design_DFE` returns Nf feedforward taps and h_len - 1 feedback taps. -/
theorem design_DFE_divisors_nonzero {K : Type} [LinearOrderedField K] (m : Libm K)
    (h : List (complex K)) (SNR : K) (Nf : Nat) (hh : 1 ≤ h.length) (hSNR : 0 < SNR)
    (hNf : 2 ≤ Nf) (hsqrt : ∀ x, 0 < x → 0 < m.sqrtf x) :
    0 < m.sqrtf SNR ∧
    (∀ i < Nf,
      ((dfe_main_loop m h SNR Nf (h.length - 1) i).Gl.getD 0 0).im = 0 ∧
      0 < ((dfe_main_loop m h SNR Nf (h.length - 1) i).Gl.getD 0 0).re ∧
      0 < norm ((dfe_main_loop m h SNR Nf (h.length - 1) i).Gl.getD 0 0) ∧
      (dfe_main_loop m h SNR Nf (h.length - 1) (i + 1)).d
        = norm ((dfe_main_loop m h SNR Nf (h.length - 1) i).Gl.getD 0 0)
          + norm ((dfe_main_loop m h SNR Nf (h.length - 1) i).Gr.getD 0 0) ∧
      0 < (dfe_main_loop m h SNR Nf (h.length - 1) (i + 1)).d ∧
      0 < m.sqrtf (1 + norm (cdiv ((dfe_main_loop m h SNR Nf (h.length - 1) i).Gr.getD 0 0)
        ((dfe_main_loop m h SNR Nf (h.length - 1) i).Gl.getD 0 0))) ∧
      ((∀ x, 0 < x → m.sqrtf x * m.sqrtf x = x) → i + 1 < Nf →
        ((dfe_main_loop m h SNR Nf (h.length - 1) (i + 1)).Gl.getD 0 0).re
            * ((dfe_main_loop m h SNR Nf (h.length - 1) (i + 1)).Gl.getD 0 0).re
          = (dfe_main_loop m h SNR Nf (h.length - 1) (i + 1)).d)) ∧
    (∀ i < Nf, (dfe_main_loop m h SNR Nf (h.length - 1) Nf).L i i = 1) ∧
    0 < (dfe_main_loop m h SNR Nf (h.length - 1) Nf).d ∧
    ∃ ff fb, design_DFE m h SNR Nf = some (ff, fb) ∧ ff.length = Nf ∧
      fb.length + 1 = h.length := by
  have hpos := dfe_main_loop_positive m h SNR Nf (h.length - 1) hSNR hsqrt
  have hnorm : ∀ c, 0 < norm ((dfe_main_loop m h SNR Nf (h.length - 1) c).Gl.getD 0 0) := by
    intro c
    obtain ⟨_, h2⟩ := hpos c
    simp only [norm]
    nlinarith [mul_pos h2 h2,
      mul_self_nonneg ((dfe_main_loop m h SNR Nf (h.length - 1) c).Gl.getD 0 0).im]
  have hd : ∀ c, (dfe_main_loop m h SNR Nf (h.length - 1) (c + 1)).d
      = norm ((dfe_main_loop m h SNR Nf (h.length - 1) c).Gl.getD 0 0)
        + norm ((dfe_main_loop m h SNR Nf (h.length - 1) c).Gr.getD 0 0) :=
    fun c => dfe_step_d m Nf (h.length - 1) c _
  have hdpos : ∀ c, 0 < (dfe_main_loop m h SNR Nf (h.length - 1) (c + 1)).d := by
    intro c
    rw [hd c]
    have := norm_nonneg ((dfe_main_loop m h SNR Nf (h.length - 1) c).Gr.getD 0 0)
    have := hnorm c
    linarith
  refine ⟨hsqrt SNR hSNR, ?_, ?_, ?_, ?_⟩
  · intro i _
    refine ⟨(hpos i).1, (hpos i).2, hnorm i, hd i, hdpos i, ?_, ?_⟩
    · apply hsqrt
      have := norm_nonneg (cdiv ((dfe_main_loop m h SNR Nf (h.length - 1) i).Gr.getD 0 0)
        ((dfe_main_loop m h SNR Nf (h.length - 1) i).Gl.getD 0 0))
      linarith
    · intro hexact hi
      exact dfe_main_loop_square m h SNR Nf (h.length - 1) hSNR hsqrt hexact i (by omega)
  · exact dfe_main_loop_diag m h SNR Nf (h.length - 1) hSNR hsqrt Nf
  · have hlast := hdpos (Nf - 1)
    have e : Nf - 1 + 1 = Nf := by omega
    rw [e] at hlast
    exact hlast
  · unfold design_DFE
    rw [if_neg (by omega)]
    refine ⟨_, _, rfl, ?_, ?_⟩
    · simp only [List.length_map, List.length_range]
    · simp only [conjugate_vector, scale, List.length_map, List.length_range]
      omega

theorem design_DFE_divisors_nonzero_witness :
    0 < real_libm.sqrtf 4 ∧
    (∀ i < 3, (dfe_main_loop real_libm [⟨1, 0⟩, ⟨1 / 2, 0⟩] 4 3
      (([⟨1, 0⟩, ⟨1 / 2, 0⟩] : List (complex ℝ)).length - 1) 3).L i i = 1) ∧
    0 < (dfe_main_loop real_libm [⟨1, 0⟩, ⟨1 / 2, 0⟩] 4 3
      (([⟨1, 0⟩, ⟨1 / 2, 0⟩] : List (complex ℝ)).length - 1) 3).d :=
  ⟨(design_DFE_divisors_nonzero real_libm [⟨1, 0⟩, ⟨1 / 2, 0⟩] 4 3 (by decide) (by norm_num)
      (by decide) (fun x hx => Real.sqrt_pos.mpr hx)).1,
    (design_DFE_divisors_nonzero real_libm [⟨1, 0⟩, ⟨1 / 2, 0⟩] 4 3 (by decide) (by norm_num)
      (by decide) (fun x hx => Real.sqrt_pos.mpr hx)).2.2.1,
    (design_DFE_divisors_nonzero real_libm [⟨1, 0⟩, ⟨1 / 2, 0⟩] 4 3 (by decide) (by norm_num)
      (by decide) (fun x hx => Real.sqrt_pos.mpr hx)).2.2.2.1⟩

/-! ## The equalizer of a flat channel -/

section FlatChannel

variable {K : Type} [LinearOrderedField K]

/-- For a one-tap channel `Gr` is `[0]` after the first iteration. -/
theorem dfe_one_tap_gr (m : Libm K) (h0 : complex K) (SNR : K) (Nf : Nat) (hNf : 2 ≤ Nf) :
    ∀ c, (dfe_main_loop m [h0] SNR Nf 0 (c + 1)).Gr = [0] := by
  intro c
  induction c with
  | zero =>
    obtain ⟨⟨g, r, hg, hr⟩, _⟩ := dfe_one_tap_shape m h0 SNR Nf 0
    have h := (dfe_succ_one_tap m h0 SNR Nf 0 g r hg hr).2.2
    rw [if_pos (by omega)] at h
    exact h
  | succ c ih =>
    obtain ⟨⟨g, r, hg, hr⟩, _⟩ := dfe_one_tap_shape m h0 SNR Nf (c + 1)
    have h := (dfe_succ_one_tap m h0 SNR Nf (c + 1) g r hg hr).2.2
    rw [h]
    by_cases hc : c + 1 ≠ Nf - 1
    · rw [if_pos hc]
    · rw [if_neg hc, ← hr, ih]

/-- For a one-tap channel and an exact square root, `d` is `|h0|^2 + 1/SNR` in every
iteration. -/
theorem dfe_one_tap_d (m : Libm K) (h0 : complex K) (SNR : K) (Nf : Nat) (hSNR : 0 < SNR)
    (hNf : 2 ≤ Nf) (hsqrt : ∀ x, 0 < x → 0 < m.sqrtf x)
    (hexact : ∀ x, 0 < x → m.sqrtf x * m.sqrtf x = x) :
    ∀ c, c < Nf → (dfe_main_loop m [h0] SNR Nf 0 (c + 1)).d = norm h0 + 1 / SNR := by
  intro c
  induction c with
  | zero =>
    intro _
    show (dfe_step m Nf 0 0 (dfe_main_loop m [h0] SNR Nf 0 0)).d = _
    rw [dfe_step_d]
    have hq := hsqrt SNR hSNR
    have he := hexact SNR hSNR
    simp only [dfe_main_loop, Nat.zero_add, range_one, List.map_cons, List.map_nil,
      List.getD_cons_zero, List.replicate, List.set_cons_zero, norm, of_real, conj]
    have hq0 : m.sqrtf SNR ≠ 0 := ne_of_gt hq
    have e : 1 / m.sqrtf SNR * (1 / m.sqrtf SNR) = 1 / SNR := by
      rw [div_mul_div_comm, one_mul, he]
    rw [e]
    ring
  | succ c ih =>
    intro hc
    show (dfe_step m Nf 0 (c + 1) (dfe_main_loop m [h0] SNR Nf 0 (c + 1))).d = _
    rw [dfe_step_d, dfe_one_tap_gr m h0 SNR Nf hNf c]
    obtain ⟨h1, _⟩ := dfe_main_loop_positive m [h0] SNR Nf 0 hSNR hsqrt (c + 1)
    have hsq := dfe_main_loop_square m [h0] SNR Nf 0 hSNR hsqrt hexact c (by omega)
    rw [ih (by omega)] at hsq
    simp only [norm, h1, List.getD_cons_zero, complex_zero_re, complex_zero_im, mul_zero,
      add_zero]
    exact hsq

/-- The flat-channel filter: for a one-tap channel, a positive SNR, Nf >= 2 and an exact
square root, `design_DFE` returns an empty feedback filter and Nf feedforward taps, all 0
but the last, which is `conj(h0) / (|h0|^2 + 1/SNR)`. -/
theorem design_DFE_one_tap (m : Libm K) (h0 : complex K) (SNR : K) (Nf : Nat)
    (hSNR : 0 < SNR) (hNf : 2 ≤ Nf) (hsqrt : ∀ x, 0 < x → 0 < m.sqrtf x)
    (hexact : ∀ x, 0 < x → m.sqrtf x * m.sqrtf x = x) :
    design_DFE m [h0] SNR Nf
      = some ((List.range Nf).map (fun i : Nat =>
          if i = Nf - 1 then div_real (conj h0) (norm h0 + 1 / SNR) else 0), []) := by
  have hd := dfe_one_tap_d m h0 SNR Nf hSNR hNf hsqrt hexact (Nf - 1) (by omega)
  have e : Nf - 1 + 1 = Nf := by omega
  rw [e] at hd
  have hL := (dfe_one_tap_shape m h0 SNR Nf Nf).2
  have hv := dfe_back_loop_unit (dfe_main_loop m [h0] SNR Nf 0 Nf).L Nf hNf hL (Nf - 1)
  unfold design_DFE
  rw [if_neg (by omega)]
  simp only [List.length_singleton, Nat.sub_self, List.range_zero, List.map_nil, scale,
    conjugate_vector, hd, Nat.zero_min, Nat.zero_add, dfe_wi_loop, List.getD_cons_zero, hv]
  congr 2
  apply List.map_congr_left
  intro i _
  by_cases hi : i = Nf - 1
  · rw [if_pos hi, if_pos hi, zero_add, one_mul]
  · rw [if_neg hi, if_neg hi, zero_add, zero_mul]
    apply complex.ext <;> simp [div_real]

end FlatChannel

/-- C37: for every one-tap channel h = [h0] (in particular with h0 not 0), every SNR > 0
and every Nf >= 2, with an exact and positive `sqrtf`, `design_DFE` returns an empty
feedback filter and a feedforward filter of length Nf whose taps are all 0 except the
last, which equals conj(h0) / (|h0|^2 + 1/SNR). -/
theorem design_DFE_flat_channel {K : Type} [LinearOrderedField K] (m : Libm K)
    (h0 : complex K) (SNR : K) (Nf : Nat) (hSNR : 0 < SNR) (hNf : 2 ≤ Nf)
    (hsqrt : ∀ x, 0 < x → 0 < m.sqrtf x)
    (hexact : ∀ x, 0 < x → m.sqrtf x * m.sqrtf x = x) :
    ∃ ff, design_DFE m [h0] SNR Nf = some (ff, []) ∧ ff.length = Nf ∧
      (∀ i < Nf - 1, ff.getD i 0 = 0) ∧
      ff.getD (Nf - 1) 0 = div_real (conj h0) (norm h0 + 1 / SNR) := by
  refine ⟨_, design_DFE_one_tap m h0 SNR Nf hSNR hNf hsqrt hexact, ?_, ?_, ?_⟩
  · simp only [List.length_map, List.length_range]
  · intro i hi
    rw [map_range_getD _ _ i (by omega), if_neg (by omega)]
  · rw [map_range_getD _ _ (Nf - 1) (by omega), if_pos rfl]

theorem design_DFE_flat_channel_witness :
    ∃ ff, design_DFE real_libm [⟨3, 4⟩] 4 5 = some (ff, []) ∧ ff.length = 5 ∧
      (∀ i < 5 - 1, ff.getD i 0 = 0) ∧
      ff.getD (5 - 1) 0 = div_real (conj ⟨3, 4⟩) (norm (⟨3, 4⟩ : complex ℝ) + 1 / 4) :=
  design_DFE_flat_channel real_libm ⟨3, 4⟩ 4 5 (by norm_num) (by decide)
    (fun x hx => Real.sqrt_pos.mpr hx) (fun x hx => Real.mul_self_sqrt (le_of_lt hx))

end Sch
